import Mathlib

/-!
# The `$compile` service of angular.js: a shallow embedding

Sources: `src/src/service/compiler.js`, and for the last sections
`src/src/service/cacheFactory.js` (namespace `CacheFactory`) and `src/src/ng/route.js`
(namespace `Route`).

The compiler walks a DOM tree, collects for every node the directives that match it, applies
them by priority, and closes the resulting link callbacks into one linking function that is
later replayed over a live tree.

Conventions of the embedding

* JavaScript closures (`linkFn`, the list-linking function returned by `compileNodes`) are
  data: what a closure captured is a record, what it does when called is a function over
  that record.
* Effects on collaborators (the error sink `$exceptionHandler`, the scope, the DOM, the
  user-supplied callbacks) are appended, in execution order, to `World.trace`.
* The error sink always returns (it records the error); a JavaScript exception that leaves a
  function is the `error` field of its result.
* Priorities are integers. `-Number.MAX_VALUE`, the initial `terminalPriority`, is the least
  finite number: it is `none`, below every priority.
-/

namespace NgCompile

/-! ## Data model -/

/-- A link callback `(scope, element, attrs) -> void`. A user callback is known by its label and
by what it throws, if anything; the two other forms are the closures built by
`textInterpolateDirective` and `attrInterpolateDirective`. -/
inductive Callback where
  | user (label : String) (throws : Option String)
  | textBinding (interpolateFn : String)
  | attrBinding (interpolateFn : String) (name : String)
deriving DecidableEq, Repr

/-- What a compile step hands back: nothing (`undefined`), one post-link function, or an object
with optional `pre` and `post` members. -/
inductive LinkSpec where
  | undefined
  | fn (post : Callback)
  | obj (pre : Option Callback) (post : Option Callback)
deriving DecidableEq, Repr

/-- Values held in an attrs object or passed to `$set`. -/
inductive AttrVal where
  | undefined
  | null
  | bool (b : Bool)
  | str (s : String)
deriving DecidableEq, Repr

/-- The compile step of a directive (`directive.templateFn`): a user function, known by its
outcome, or the function built by `attrInterpolateDirective`. -/
inductive TemplateFn where
  | returns (l : LinkSpec)
  | throws (e : String)
  | attrInterpolate (interpolateFn : Option String) (name : String) (value : AttrVal)
deriving DecidableEq, Repr

/-- A directive descriptor, as the compiler reads it: `name`, `priority`, `terminal`, `scope`
and `templateFn`. Synthesized interpolation directives carry no name. -/
structure Directive where
  name : Option String
  priority : Int
  terminal : Bool
  scope : Bool
  templateFn : Option TemplateFn
deriving DecidableEq, Repr

/-- The attrs object of a node: `$attr` (normalized name to declared name), the own value keys,
and `$element`. `objId` stands for the identity of the JavaScript object. -/
structure Attrs where
  objId : Nat
  attrMap : List (String × String)
  vals : List (String × AttrVal)
  element : Option Nat
deriving DecidableEq, Repr

/-- The two link phases. -/
inductive Phase where
  | pre
  | post
deriving DecidableEq, Repr

/-- One observable effect. -/
inductive Event where
  /-- The call `$exceptionHandler(e)`. -/
  | report (e : String)
  /-- The call `$injector.invoke(null, factory)` for the factory registered under `name`. -/
  | invoke (name : String)
  /-- The call `directive.templateFn(element, templateAttrs)` on the node `node`. -/
  | templateFn (d : Directive) (node : Nat)
  /-- A link callback called with `(scope, element, attrs)`. -/
  | link (phase : Phase) (f : Callback) (scope : Nat) (element : Nat) (attrs : Attrs)
  /-- The call `scope.$new()`. -/
  | scopeNew (parent : Nat) (child : Nat)
  /-- The call `jqLite(node).data('$scope', scope)`. -/
  | dataScope (node : Nat) (scope : Nat)
  /-- The call `scope.$watch(interpolateFn, listener)` made by a binding callback on `element`;
  the listener writes the text of the node, or the attribute `attr` through `$set`. -/
  | watch (scope : Nat) (interpolateFn : String) (element : Nat) (attr : Option String)
  /-- The parent of a text node is marked with `$ngBinding` and the class `ng-binding`. -/
  | ngBinding (textNode : Nat) (interpolateFn : String)
  /-- The call `element.prop(key, value)`. -/
  | prop (element : Option Nat) (key : String) (value : Bool)
  /-- The call `element.attr(key, value)`. -/
  | attr (element : Option Nat) (key : String) (value : AttrVal)
  /-- The call `element.removeAttr(key)`. -/
  | removeAttr (element : Option Nat) (key : String)
  /-- The call `cloneConnectFn(clone, scope)`. -/
  | cloneConnect (label : String) (clone : List Nat) (scope : Nat)
deriving DecidableEq, Repr

/-- A DOM node: identity, `nodeType`, `nodeName`, declared attributes `(name, value)` in
declaration order, `className`, `nodeValue` and `childNodes`. -/
inductive Node where
  | mk (id : Nat) (nodeType : Nat) (nodeName : String) (attributes : List (String × String))
      (className : String) (nodeValue : String) (childNodes : List Node)
deriving Repr

namespace Node

/-- Identity of the node. -/
def id : Node → Nat
  | mk i _ _ _ _ _ _ => i

/-- The DOM `nodeType`: 1 element, 3 text, 8 comment. -/
def nodeType : Node → Nat
  | mk _ t _ _ _ _ _ => t

/-- The DOM `nodeName`. -/
def nodeName : Node → String
  | mk _ _ n _ _ _ _ => n

/-- The declared attributes. -/
def attributes : Node → List (String × String)
  | mk _ _ _ a _ _ _ => a

/-- The DOM `className`. -/
def className : Node → String
  | mk _ _ _ _ c _ _ => c

/-- The DOM `nodeValue`. -/
def nodeValue : Node → String
  | mk _ _ _ _ _ v _ => v

/-- The DOM `childNodes`. -/
def childNodes : Node → List Node
  | mk _ _ _ _ _ _ c => c

end Node

/-- What `$injector.invoke(null, factory)` yields for a registered factory: it throws, it
returns a bare link function, or it returns a descriptor object. -/
inductive Factory where
  | throws (e : String)
  | fn (post : Callback)
  | obj (priority : Option Int) (terminal : Bool) (scope : Bool) (templateFn : Option TemplateFn)
deriving DecidableEq, Repr

/-- The helpers of angular.js that `compiler.js` calls and that live in other files. -/
structure Env where
  camelCase : String → String
  lowercase : String → String
  trim : String → String
  interpolate : String → Option String
  BOOLEAN_ATTR : String → Option String
  toBoolean : AttrVal → Bool
  elementOnlyHTML : Node → String

/-- The mutable state the compiler works on: `directiveCache` (the names resolved so far), the
trace of effects, and the supply of fresh identities (scopes, objects, cloned nodes). -/
structure World where
  directiveCache : List (String × Directive)
  trace : List Event
  nextId : Nat
deriving DecidableEq, Repr

namespace World

/-- Append one effect to the trace. -/
def emit (w : World) (e : Event) : World :=
  { w with trace := w.trace ++ [e] }

/-- The world before anything happened. -/
def init : World :=
  { directiveCache := [], trace := [], nextId := 0 }

end World

/-- Write `obj[key] = value` on an own-key table: an existing key keeps its place. -/
def setKey {β : Type} (key : String) (value : β) : List (String × β) → List (String × β)
  | [] => [(key, value)]
  | (k, v) :: rest => if k = key then (k, value) :: rest else (k, v) :: setKey key value rest

/-- Read `obj[key]` on an own-key table. -/
def getKey {β : Type} (key : String) : List (String × β) → Option β
  | [] => none
  | (k, v) :: rest => if k = key then some v else getKey key rest

/-! ## Plain objects used as tables

An object literal `{}` inherits the members of `Object.prototype`: reading `obj[key]` or testing
`key in obj` finds them when the object has no own property `key`. The members are those of an
`Object.prototype` that the program has not written to. Writing `obj[key] = value` makes or
changes an own property; that holds for every key but `__proto__`, whose assignment changes the
prototype of the object instead, and the tables of this development are not followed through
such an assignment. -/

/-- The members that every plain object inherits from `Object.prototype`: the seven functions
of ECMAScript 5, the four functions `__defineGetter__`, `__defineSetter__`, `__lookupGetter__`
and `__lookupSetter__`, and `__proto__`, which reads as the object `Object.prototype` itself.
All of them are truthy and none is a string. -/
def objectPrototype : List String :=
  ["constructor", "toString", "toLocaleString", "valueOf", "hasOwnProperty", "isPrototypeOf",
   "propertyIsEnumerable", "__defineGetter__", "__defineSetter__", "__lookupGetter__",
   "__lookupSetter__", "__proto__"]

/-- Read `obj[key]` on a plain object whose own properties are `obj`: the own value, else the
inherited member `inherit key` when `key` names one, else `undefined`. -/
def lookup {β : Type} (inherit : String → β) (obj : List (String × β)) (key : String) :
    Option β :=
  match getKey key obj with
  | some v => some v
  | none => if objectPrototype.contains key then some (inherit key) else none

/-- The test `key in obj` on a plain object whose own properties are `obj`. -/
def hasProperty {β : Type} (obj : List (String × β)) (key : String) : Bool :=
  (getKey key obj).isSome || objectPrototype.contains key

/-- The statement `delete obj[key]`: only an own property can be deleted. -/
def deleteKey {β : Type} (key : String) (obj : List (String × β)) : List (String × β) :=
  obj.filter (fun p => p.1 ≠ key)

/-! ## `attrSetter` (the `$set` of an attrs object) -/

/-- The function `attrSetter(key, value)` with `this = self`. -/
def attrSetter (env : Env) (self : Attrs) (key : String) (value : AttrVal) (w : World) :
    Attrs × World :=
  match env.BOOLEAN_ATTR (env.lowercase key) with
  | some booleanKey =>
    let b := env.toBoolean value
    let w1 := w.emit (.prop self.element key b)
    let self1 := { self with vals := setKey key (.bool b) self.vals }
    if b then (self1, w1.emit (.attr self.element booleanKey (.str booleanKey)))
    else (self1, w1.emit (.removeAttr self.element booleanKey))
  | none =>
    let self1 := { self with vals := setKey key value self.vals }
    if value = .undefined then (self1, w.emit (.removeAttr self.element key))
    else (self1, w.emit (.attr self.element key value))

/-! ## `byPriority` and the sort -/

/-- The comparator `byPriority(a, b) = b.priority - a.priority`. -/
def byPriority (a b : Directive) : Int :=
  b.priority - a.priority

/-- The order `directives.sort(byPriority)` establishes: `a` may stand before `b` when
`byPriority(a, b) <= 0`. -/
def priorityOrder (a b : Directive) : Prop :=
  byPriority a b ≤ 0

instance : DecidableRel priorityOrder :=
  fun a b => inferInstanceAs (Decidable (byPriority a b ≤ 0))

/-- The call `directives.sort(byPriority)`. `Array.prototype.sort` is a stable sort (required
since ECMAScript 2019); it is rendered by insertion sort. -/
def sortByPriority (directives : List Directive) : List Directive :=
  List.insertionSort priorityOrder directives

/-! ## `applyDirectivesPerElement` -/

/-- The closure `linkFn` returned by `applyDirectivesPerElement`: the captured `linkingFns`,
`templateNode` and `templateAttrs`, and the properties `terminal` and `scope` set on it. -/
structure NodeLinkFn where
  linkingFns : List LinkSpec
  templateNode : Nat
  templateAttrs : Attrs
  terminal : Bool
  scope : Bool
deriving DecidableEq, Repr

/-- The loop variables of `applyDirectivesPerElement`, with the attrs object and the world. -/
structure ApplyState where
  linkingFns : List LinkSpec
  newScopeDirective : Option Directive
  terminalPriority : Option Int
  terminal : Bool
  attrs : Attrs
  world : World
deriving DecidableEq, Repr

/-- Rendering of `directive.name` inside a message. -/
def nameText : Option String → String
  | none => "undefined"
  | some s => s

/-- The message of the error thrown when a second directive asks for a new scope. -/
def multipleScopeError (env : Env) (first second : Directive) (node : Node) : String :=
  "Multiple directives [" ++ nameText first.name ++ ", " ++ nameText second.name ++
    "] asking for new scope on: " ++ env.elementOnlyHTML node

/-- The test `terminalPriority > directive.priority`. -/
def belowTerminal (terminalPriority : Option Int) (priority : Int) : Bool :=
  match terminalPriority with
  | none => false
  | some t => decide (priority < t)

/-- The value `Math.max(terminalPriority, directive.priority)`. -/
def raiseTerminal (terminalPriority : Option Int) (priority : Int) : Option Int :=
  match terminalPriority with
  | none => some priority
  | some t => some (max t priority)

/-- The statement after the `try`: `if (directive.terminal) { linkFn.terminal = true;
terminalPriority = Math.max(terminalPriority, directive.priority) }`. -/
def markTerminal (d : Directive) (st : ApplyState) : ApplyState :=
  if d.terminal then
    { st with terminal := true, terminalPriority := raiseTerminal st.terminalPriority d.priority }
  else st

/-- Call `directive.templateFn(element, templateAttrs)`: the value returned or the exception
thrown, the attrs object afterwards, and the world. -/
def callTemplateFn (env : Env) (d : Directive) (f : TemplateFn) (node : Nat) (attrs : Attrs)
    (w : World) : Except String LinkSpec × Attrs × World :=
  let w0 := w.emit (.templateFn d node)
  match f with
  | .returns l => (.ok l, attrs, w0)
  | .throws e => (.error e, attrs, w0)
  | .attrInterpolate (some interpolateFn) name _ =>
    (.ok (.fn (.attrBinding interpolateFn name)), attrs, w0)
  | .attrInterpolate none name value =>
    let r := attrSetter env attrs name value w0
    (.ok .undefined, r.1, r.2)

/-- The test `directive.scope && newScopeDirective`: the directive that asked first, when the
current one asks too. -/
def scopeConflict (d : Directive) (st : ApplyState) : Option Directive :=
  if d.scope then st.newScopeDirective else none

/-- The assignment `newScopeDirective = directive`, made when the directive asks for a scope. -/
def claimScope (d : Directive) (st : ApplyState) : ApplyState :=
  if d.scope then { st with newScopeDirective := some d } else st

/-- The statement `directive.templateFn && linkingFns.push(directive.templateFn(element,
templateAttrs))` inside the `try`, with its `catch`: the value returned is pushed, an exception
goes to `$exceptionHandler`. -/
def compileStep (env : Env) (node : Node) (d : Directive) (st : ApplyState) : ApplyState :=
  match d.templateFn with
  | none => st
  | some f =>
    match callTemplateFn env d f node.id st.attrs st.world with
    | (.ok l, a, w1) => { st with linkingFns := st.linkingFns ++ [l], attrs := a, world := w1 }
    | (.error e, a, w1) => { st with attrs := a, world := w1.emit (.report e) }

/-- The `for` loop of `applyDirectivesPerElement` over the sorted directives from index `i` on.
The body runs inside `try`: the error thrown for a second scope request goes to
`$exceptionHandler` and the loop goes on with the statement after the `try`; `break` leaves the
loop. -/
def applyLoop (env : Env) (node : Node) : List Directive → ApplyState → ApplyState
  | [], st => st
  | d :: rest, st =>
    match scopeConflict d st with
    | some first =>
      applyLoop env node rest
        (markTerminal d
          { st with world := st.world.emit (.report (multipleScopeError env first d node)) })
    | none =>
      if belowTerminal (claimScope d st).terminalPriority d.priority then claimScope d st
      else applyLoop env node rest (markTerminal d (compileStep env node d (claimScope d st)))

/-- The loop variables at loop entry. -/
def applyInit (templateNode : Node) (templateAttrs : Attrs) (w : World) : ApplyState :=
  { linkingFns := [], newScopeDirective := none, terminalPriority := none, terminal := false,
    attrs := { templateAttrs with element := some templateNode.id }, world := w }

/-- The function `applyDirectivesPerElement(linkFns, directives, templateNode, templateAttrs)`:
sort, run the loop, return `linkFn`. -/
def applyDirectivesPerElement (env : Env) (directives : List Directive) (templateNode : Node)
    (templateAttrs : Attrs) (w : World) : NodeLinkFn × World :=
  let st := applyLoop env templateNode (sortByPriority directives)
    (applyInit templateNode templateAttrs w)
  ({ linkingFns := st.linkingFns, templateNode := templateNode.id, templateAttrs := st.attrs,
     terminal := st.terminal, scope := st.newScopeDirective.isSome }, st.world)

/-! ## The directive registry -/

/-- The provider's `directiveFactories`: for each registered name, what invoking its factory
yields. -/
abbrev Registry := List (String × Factory)

/-- The call `registerDirective(name, directive)` with a string name: the cache entry becomes
`false` and the factory is stored. -/
def registerDirective (name : String) (factory : Factory) (reg : Registry) (w : World) :
    Registry × World :=
  (setKey name factory reg,
    { w with directiveCache := w.directiveCache.filter (fun p => p.1 ≠ name) })

/-- The function stored in `directiveFactories[name]`: invoke the factory, wrap a bare function
as `{templateFn: valueFn(directive)}`, default the priority, stamp the name, store the result in
`directiveCache`. -/
def callFactory (name : String) (factory : Factory) (w : World) : Except String Directive × World :=
  let w0 := w.emit (.invoke name)
  match factory with
  | .throws e => (.error e, w0)
  | .fn f =>
    let d : Directive :=
      { name := some name, priority := 0, terminal := false, scope := false,
        templateFn := some (.returns (.fn f)) }
    (.ok d, { w0 with directiveCache := setKey name d w0.directiveCache })
  | .obj p t s tf =>
    let d : Directive :=
      { name := some name, priority := p.getD 0, terminal := t, scope := s, templateFn := tf }
    (.ok d, { w0 with directiveCache := setKey name d w0.directiveCache })

/-- The function `getDirective(name)`. -/
def getDirective (reg : Registry) (name : String) (w : World) : Option Directive × World :=
  match getKey name reg with
  | none => (none, w)
  | some factory =>
    match getKey name w.directiveCache with
    | some d => (some d, w)
    | none =>
      match callFactory name factory w with
      | (.ok d, w1) => (some d, { w1 with directiveCache := setKey name d w1.directiveCache })
      | (.error e, w1) => (none, w1.emit (.report e))

/-! ## Synthesized directives -/

/-- The function `textInterpolateDirective(interpolateFn)`. -/
def textInterpolateDirective (interpolateFn : String) : Directive :=
  { name := none, priority := 0, terminal := false, scope := false,
    templateFn := some (.returns (.fn (.textBinding interpolateFn))) }

/-- The names listed when `SIDE_EFFECT_ATTRS` is filled. -/
def sideEffectNames : List String :=
  ["src", "href", "multiple", "selected", "checked", "disabled", "readonly", "required"]

/-- The table `SIDE_EFFECT_ATTRS`, read at `key`: every listed `name` is stored under `name` and
under `camelCase('ng-' + name)`, a later store replacing an earlier one. -/
def SIDE_EFFECT_ATTRS (env : Env) (key : String) : Option String :=
  sideEffectNames.foldl
    (fun acc name => if key = name ∨ key = env.camelCase ("ng-" ++ name) then some name else acc)
    none

/-- The error of the call `key.toLowerCase()` in `attrSetter` when `key` is an inherited member
(a function, or `Object.prototype` itself). -/
def notAString : String := "TypeError: key.toLowerCase is not a function"

/-- How the inherited member `Object.prototype[member]` is written where the model holds an
attribute name. -/
def inheritedKey (member : String) : String :=
  "Object.prototype." ++ member

/-- The function `attrInterpolateDirective(value, name)`. The table `SIDE_EFFECT_ATTRS` is a
plain object read without a test for own properties: for a `name` that names a member of
`Object.prototype` the test `SIDE_EFFECT_ATTRS[name]` finds the inherited member, which is
truthy, and `name` becomes that member. With it as key, `attr.$set(name, value)` throws at
`key.toLowerCase()`: at once in the compile step when there is nothing to interpolate,
otherwise later, in the listener of the watch. -/
def attrInterpolateDirective (env : Env) (value : String) (name : String) : Option Directive :=
  let interpolateFn := env.interpolate value
  match SIDE_EFFECT_ATTRS env name with
  | some name1 =>
    let value1 := if (env.BOOLEAN_ATTR name1).isSome then AttrVal.bool true else AttrVal.str value
    some { name := none, priority := 100, terminal := false, scope := false,
           templateFn := some (.attrInterpolate interpolateFn name1 value1) }
  | none =>
    if objectPrototype.contains name then
      some { name := none, priority := 100, terminal := false, scope := false,
             templateFn := some (match interpolateFn with
               | some i => .attrInterpolate (some i) (inheritedKey name) (.str value)
               | none => .throws notAString) }
    else
      match interpolateFn with
      | none => none
      | some _ =>
        some { name := none, priority := 100, terminal := false, scope := false,
               templateFn := some (.attrInterpolate interpolateFn name (.str value)) }

/-! ## The two regular expressions -/

/-- The class `[\d\w\-_]`. -/
def isNameChar (c : Char) : Bool :=
  c.isDigit || c.isAlpha || c == '_' || c == '-'

/-- The class `\s` of JavaScript, by code point: tab to carriage return, space, no-break space,
and the Unicode space separators and line separators. -/
def isSpaceChar (c : Char) : Bool :=
  let n := c.toNat
  n == 32 || (decide (9 ≤ n) && decide (n ≤ 13)) || n == 0xA0 || n == 0x1680 ||
  (decide (0x2000 ≤ n) && decide (n ≤ 0x200A)) || n == 0x2028 || n == 0x2029 || n == 0x202F ||
  n == 0x205F || n == 0x3000 || n == 0xFEFF

/-- The line terminators (line feed, carriage return, U+2028, U+2029): what `.` does not
match. -/
def isLineTerminator (c : Char) : Bool :=
  let n := c.toNat
  n == 10 || n == 13 || n == 0x2028 || n == 0x2029

/-- A successful `CLASS_DIRECTIVE_REGEXP.exec(text)`: `match.index`, `match[0]`, `match[2]` and
`match[3]`. -/
structure ClassMatch where
  index : Nat
  whole : List Char
  name : List Char
  value : Option (List Char)
deriving DecidableEq, Repr

/-- Match `(([\d\w\-_]+)(?:\:([^;]+))?;?)` at the start of `s`, where `s` starts with a name
character: each part is greedy and nothing after it can fail. -/
def matchClassHere (index : Nat) (s : List Char) : ClassMatch :=
  let name := s.takeWhile isNameChar
  let r1 := s.drop name.length
  let value : Option (List Char) :=
    match r1 with
    | ':' :: r => if r.takeWhile (fun c => c != ';') = [] then none
                  else some (r.takeWhile (fun c => c != ';'))
    | _ => none
  let valuePart : List Char :=
    match value with
    | some v => ':' :: v
    | none => []
  let r2 := r1.drop valuePart.length
  let semi : List Char :=
    match r2 with
    | ';' :: _ => [';']
    | _ => []
  { index := index, whole := name ++ valuePart ++ semi, name := name, value := value }

/-- The call `CLASS_DIRECTIVE_REGEXP.exec(text)` on the text from position `index` on: the
leftmost match starts at the first name character. -/
def execClassFrom : Nat → List Char → Option ClassMatch
  | _, [] => none
  | index, c :: cs =>
    if isNameChar c then some (matchClassHere index (c :: cs))
    else execClassFrom (index + 1) cs

/-- The call `CLASS_DIRECTIVE_REGEXP.exec(text)`. -/
def execClass (text : List Char) : Option ClassMatch :=
  execClassFrom 0 text

/-- Drop the literal `lit` from the start of `s`, if `s` starts with it. -/
def dropLiteral : List Char → List Char → Option (List Char)
  | [], s => some s
  | _ :: _, [] => none
  | l :: ls, c :: cs => if l = c then dropLiteral ls cs else none

/-- The call `COMMENT_DIRECTIVE_REGEXP.exec(text)` for `/^\s*directive\:\s*([\d\w\-_]+)\s+(.*)$/`:
`match[1]` and `match[2]`. The run `\s+` gives back characters until the rest of the text holds
no line terminator. -/
def execComment (text : List Char) : Option (List Char × List Char) :=
  match dropLiteral "directive:".data (text.dropWhile isSpaceChar) with
  | none => none
  | some s2 =>
    let s3 := s2.dropWhile isSpaceChar
    let name := s3.takeWhile isNameChar
    if name = [] then none
    else
      let s4 := s3.drop name.length
      let ws := s4.takeWhile isSpaceChar
      match ((List.range ws.length).reverse.map (fun k => s4.drop (k + 1))).find?
          (fun rest => rest.all (fun c => !isLineTerminator c)) with
      | none => none
      | some rest => some (name, rest)

/-! ## Collecting the directives of one node -/

/-- The variables `directives` and `attrs` of one iteration of `compileNodes`, and the world. -/
structure ScanState where
  directives : List Directive
  attrs : Attrs
  world : World
deriving DecidableEq, Repr

/-- Push the directive, if there is one. -/
def pushDirective (directives : List Directive) : Option Directive → List Directive
  | none => directives
  | some d => directives ++ [d]

/-- The loop over `node.attributes`. -/
def scanAttributes (env : Env) (reg : Registry) : List (String × String) → ScanState → ScanState
  | [], st => st
  | (name, attrValue) :: rest, st =>
    let nName := env.camelCase (env.lowercase name)
    let value := env.trim attrValue
    let vals1 := setKey nName (AttrVal.str value) st.attrs.vals
    let vals2 := if (env.BOOLEAN_ATTR nName).isSome then setKey nName (AttrVal.bool true) vals1
                 else vals1
    let attrs1 := { st.attrs with attrMap := setKey nName name st.attrs.attrMap, vals := vals2 }
    let directives1 := pushDirective st.directives (attrInterpolateDirective env value nName)
    let r := getDirective reg nName st.world
    scanAttributes env reg rest
      { directives := pushDirective directives1 r.1, attrs := attrs1, world := r.2 }

/-- The value `trim(match[3])`: `trim` leaves `undefined` alone. -/
def trimMatch (env : Env) : Option (List Char) → AttrVal
  | none => .undefined
  | some v => .str (env.trim (String.mk v))

/-- The `while (match = CLASS_DIRECTIVE_REGEXP.exec(text))` loop, run for at most `fuel` matches. -/
def scanClass (env : Env) (reg : Registry) : Nat → List Char → ScanState → ScanState
  | 0, _, st => st
  | fuel + 1, text, st =>
    match execClass text with
    | none => st
    | some m =>
      let nName := env.camelCase (String.mk m.name)
      let r := getDirective reg nName st.world
      let st1 : ScanState :=
        match r.1 with
        | some d =>
          { directives := st.directives ++ [d],
            attrs := { st.attrs with vals := setKey nName (trimMatch env m.value) st.attrs.vals },
            world := r.2 }
        | none => { st with world := r.2 }
      scanClass env reg fuel (text.drop (m.index + m.whole.length)) st1

/-- The `switch (nodeType)` of `compileNodes`, with the fresh `directives` and `attrs` of the
iteration: the match list of the node in discovery order, its attrs, and the world. Every match
of the class loop removes a character, so the length of `className` bounds the matches. -/
def collectDirectives (env : Env) (reg : Registry) (node : Node) (w : World) : ScanState :=
  let attrs : Attrs := { objId := w.nextId, attrMap := [], vals := [], element := none }
  let w0 : World := { w with nextId := w.nextId + 1 }
  match node.nodeType with
  | 1 =>
    let r := getDirective reg (env.camelCase (env.lowercase node.nodeName)) w0
    let st1 := scanAttributes env reg node.attributes
      { directives := pushDirective [] r.1, attrs := attrs, world := r.2 }
    scanClass env reg node.className.data.length node.className.data st1
  | 3 =>
    match env.interpolate node.nodeValue with
    | some interpolateFn =>
      { directives := [textInterpolateDirective interpolateFn], attrs := attrs, world := w0 }
    | none => { directives := [], attrs := attrs, world := w0 }
  | 8 =>
    match execComment node.nodeValue.data with
    | none => { directives := [], attrs := attrs, world := w0 }
    | some (name, args) =>
      let nName := env.camelCase (String.mk name)
      let r := getDirective reg nName w0
      match r.1 with
      | some d =>
        { directives := [d],
          attrs := { attrs with vals := setKey nName (AttrVal.str (env.trim (String.mk args))) attrs.vals },
          world := r.2 }
      | none => { directives := [], attrs := attrs, world := r.2 }
  | _ => { directives := [], attrs := attrs, world := w0 }

/-! ## `compileNodes` -/

/-- One entry of the array `linkingFns` of `compileNodes`: a falsy value (`0`, `false`, `null`),
a per-node `linkFn` (pushed at even positions), or a list-linking function, known by the array
it closes over (pushed at odd positions). -/
inductive LinkEntry where
  | falsy
  | directive (f : NodeLinkFn)
  | list (linkingFns : List LinkEntry)
deriving Repr

namespace LinkEntry

/-- Truthiness of an entry. -/
def truthy : LinkEntry → Bool
  | falsy => false
  | _ => true

/-- The property `terminal` read on an entry (`undefined` on a falsy one). -/
def terminal : LinkEntry → Bool
  | directive f => f.terminal
  | _ => false

end LinkEntry

/-- The final `haveLinkingFn`: some pushed entry is truthy. -/
def haveLinkingFn (linkingFns : List LinkEntry) : Bool :=
  linkingFns.any LinkEntry.truthy

/-- The value `directives.length && applyDirectivesPerElement(...)`. -/
def applyIfAny (env : Env) (st : ScanState) (node : Node) : LinkEntry × World :=
  if st.directives.length = 0 then (.falsy, st.world)
  else
    let r := applyDirectivesPerElement env st.directives node st.attrs st.world
    (.directive r.1, r.2)

/-- The value `haveLinkingFn && function(scope, nodeList, rootElement) {...}` as an entry. -/
def closeList (linkingFns : List LinkEntry) : LinkEntry :=
  if haveLinkingFn linkingFns then .list linkingFns else .falsy

mutual
/-- One iteration of the `for` loop of `compileNodes`: the two entries pushed for the node. -/
def compileNode (env : Env) (reg : Registry) : Node → World → (LinkEntry × LinkEntry) × World
  | .mk id nodeType nodeName attributes className nodeValue childNodes, w =>
    let node := Node.mk id nodeType nodeName attributes className nodeValue childNodes
    let r := applyIfAny env (collectDirectives env reg node w) node
    if r.1.terminal then ((r.1, .falsy), r.2)
    else
      let c := compileLoop env reg childNodes r.2
      ((r.1, closeList c.1), c.2)
termination_by structural n => n
/-- The `for` loop of `compileNodes`: the array `linkingFns` it fills. -/
def compileLoop (env : Env) (reg : Registry) : List Node → World → List LinkEntry × World
  | [], w => ([], w)
  | node :: rest, w =>
    let r := compileNode env reg node w
    let t := compileLoop env reg rest r.2
    (r.1.1 :: r.1.2 :: t.1, t.2)
termination_by structural l => l
end

/-- The function `compileNodes(nodeList)`: the list-linking function, if anything was found. -/
def compileNodes (env : Env) (reg : Registry) (nodeList : List Node) (w : World) :
    Option (List LinkEntry) × World :=
  let r := compileLoop env reg nodeList w
  (if haveLinkingFn r.1 then some r.1 else none, r.2)

/-! ## Linking -/

/-- What a call leaves behind: the world, and the exception that left the call, if any. -/
structure LinkResult where
  world : World
  error : Option String
deriving DecidableEq, Repr

/-- The member `pre` of a link spec. -/
def LinkSpec.preFn : LinkSpec → Option Callback
  | .obj pre _ => pre
  | _ => none

/-- The post-link function of a link spec: the spec itself when it is a function, its member
`post` when it is an object. -/
def LinkSpec.postFn : LinkSpec → Option Callback
  | .undefined => none
  | .fn f => some f
  | .obj _ post => post

/-- Call one link callback inside `try`, the `catch` handing the exception to
`$exceptionHandler`. -/
def callLink (phase : Phase) (f : Callback) (scope : Nat) (element : Nat) (attrs : Attrs)
    (w : World) : World :=
  let w0 := w.emit (.link phase f scope element attrs)
  match f with
  | .user _ (some e) => w0.emit (.report e)
  | .user _ none => w0
  | .textBinding interpolateFn =>
    (w0.emit (.ngBinding element interpolateFn)).emit (.watch scope interpolateFn element none)
  | .attrBinding interpolateFn name => w0.emit (.watch scope interpolateFn element (some name))

/-- The PRELINKING loop of `linkFn`. -/
def preLink (linkingFns : List LinkSpec) (scope : Nat) (element : Nat) (attrs : Attrs)
    (w : World) : World :=
  linkingFns.foldl
    (fun w l => match l.preFn with
      | some f => callLink .pre f scope element attrs w
      | none => w) w

/-- The POSTLINKING loop of `linkFn`. -/
def postLink (linkingFns : List LinkSpec) (scope : Nat) (element : Nat) (attrs : Attrs)
    (w : World) : World :=
  linkingFns.foldl
    (fun w l => match l.postFn with
      | some f => callLink .post f scope element attrs w
      | none => w) w

/-- The attrs handed to the callbacks by `linkFn`: the template attrs when the link node is the
template node, else a shallow copy with `$element` rebound. -/
def linkAttrs (f : NodeLinkFn) (linkNode : Node) (w : World) : Attrs × World :=
  if f.templateNode = linkNode.id then (f.templateAttrs, w)
  else
    ({ objId := w.nextId, attrMap := f.templateAttrs.attrMap, vals := f.templateAttrs.vals,
       element := some linkNode.id },
     { w with nextId := w.nextId + 1 })

/-- The statement `jqLite(node).data('$scope', scope = scope.$new())`. -/
def forkScope (scope : Nat) (node : Node) (w : World) : Nat × World :=
  let child := w.nextId
  (child, (({ w with nextId := w.nextId + 1 } : World).emit (.scopeNew scope child)).emit
    (.dataScope node.id child))

/-- The message of the structural check. -/
def structureError : String := "Template changed structure!"

mutual
/-- The call `childLinkingFn && childLinkingFn(scope, nodeList)` for an entry. -/
def linkEntry : LinkEntry → Nat → List Node → World → LinkResult
  | .list linkingFns, scope, nodeList, w =>
    if linkingFns.length ≠ nodeList.length * 2 then { world := w, error := some structureError }
    else linkLoop linkingFns scope nodeList false w
  | _, _, _, w => { world := w, error := none }
termination_by structural e => e
/-- The `for` loop of a list-linking function over the entries from index `i` on and the nodes
from index `n` on. With a directive entry it calls `linkFn(childLinkingFn, scope, node)`: attrs,
pre-link callbacks, children, post-link callbacks. The loop runs behind the structural check,
which gives every pair of entries its node; were the nodes to run out first, `node` would be
`undefined`, and the loop stops with a type error. -/
def linkLoop : List LinkEntry → Nat → List Node → Bool → World → LinkResult
  | [], _, _, _, w => { world := w, error := none }
  | d :: tail, scope, nodeList, rootElement, w =>
    match nodeList with
    | [] => { world := w, error := some "TypeError: node is undefined" }
    | node :: nodes =>
      match tail with
      | [] =>
        match d with
        | .directive f =>
          let s := if f.scope && !rootElement then forkScope scope node w else (scope, w)
          let a := linkAttrs f node s.2
          { world := postLink f.linkingFns s.1 node.id a.1 (preLink f.linkingFns s.1 node.id a.1 a.2),
            error := none }
        | _ => { world := w, error := none }
      | c :: rest =>
        match d with
        | .directive f =>
          let s := if f.scope && !rootElement then forkScope scope node w else (scope, w)
          let a := linkAttrs f node s.2
          let r := linkEntry c s.1 node.childNodes (preLink f.linkingFns s.1 node.id a.1 a.2)
          match r.error with
          | some e => { world := r.world, error := some e }
          | none =>
            linkLoop rest s.1 nodes rootElement (postLink f.linkingFns s.1 node.id a.1 r.world)
        | _ =>
          let r := linkEntry c scope node.childNodes w
          match r.error with
          | some e => { world := r.world, error := some e }
          | none => linkLoop rest scope nodes rootElement r.world
termination_by structural l => l
end

/-- The list-linking function returned by `compileNodes`, closed over `linkingFns`: the
structural check, then the loop. -/
def listLinkingFn (linkingFns : List LinkEntry) (scope : Nat) (nodeList : List Node)
    (rootElement : Bool) (w : World) : LinkResult :=
  if linkingFns.length ≠ nodeList.length * 2 then { world := w, error := some structureError }
  else linkLoop linkingFns scope nodeList rootElement w

/-! ## The template function -/

mutual
/-- Deep copy of a node with fresh identities, taken from `next` on. -/
def cloneNode : Node → Nat → Node × Nat
  | .mk _ nodeType nodeName attributes className nodeValue childNodes, next =>
    let c := cloneList childNodes (next + 1)
    (.mk next nodeType nodeName attributes className nodeValue c.1, c.2)
termination_by structural n => n
/-- Deep copy of a node list. -/
def cloneList : List Node → Nat → List Node × Nat
  | [], next => ([], next)
  | node :: rest, next =>
    let r := cloneNode node next
    let t := cloneList rest r.2
    (r.1 :: t.1, t.2)
termination_by structural l => l
end

/-- The optional second argument of the template function: a user function, known by its
label and by what it throws, if anything. -/
structure CloneConnectFn where
  label : String
  throws : Option String
deriving DecidableEq, Repr

/-- The result of `$compile(templateElement)`: the captured `linkingFn`. -/
def compile (env : Env) (reg : Registry) (templateElement : List Node) (w : World) :
    Option (List LinkEntry) × World :=
  compileNodes env reg templateElement w

/-- The template function `function(scope, cloneConnectFn)` returned by `$compile`, called when
the template element has become `templateElement`: the element returned and the result. -/
def templateFunction (linkingFn : Option (List LinkEntry)) (templateElement : List Node)
    (scope : Nat) (cloneConnectFn : Option CloneConnectFn) (w : World) : List Node × LinkResult :=
  let c : List Node × World :=
    match cloneConnectFn with
    | some _ =>
      let r := cloneList templateElement w.nextId
      (r.1, { w with nextId := r.2 })
    | none => (templateElement, w)
  let element := c.1
  let w1 := element.foldl (fun w n => w.emit (.dataScope n.id scope)) c.2
  let r : LinkResult :=
    match cloneConnectFn with
    | some f =>
      { world := w1.emit (.cloneConnect f.label (element.map Node.id) scope), error := f.throws }
    | none => { world := w1, error := none }
  match r.error with
  | some e => (element, { world := r.world, error := some e })
  | none =>
    match linkingFn with
    | some linkingFns => (element, listLinkingFn linkingFns scope element true r.world)
    | none => (element, r)

/-! ## A concrete environment

The helpers below stand in for the functions of `Angular.js` and `jqLite.js`; the theorems hold
for every environment, the worked examples use this one. -/

/-- The separators `:`, `-` and `_` of attribute names. -/
def isSeparator (c : Char) : Bool :=
  c == ':' || c == '-' || c == '_'

/-- Remove each separator and put the character after it in upper case. -/
def camelChars : List Char → List Char
  | [] => []
  | c :: rest =>
    if isSeparator c then
      match rest with
      | [] => []
      | l :: rest2 => l.toUpper :: camelChars rest2
    else c :: camelChars rest

/-- Remove a leading `x-` or `data-` marker. -/
def dropMarker : List Char → List Char
  | 'x' :: s :: rest => if isSeparator s then rest else 'x' :: s :: rest
  | 'd' :: 'a' :: 't' :: 'a' :: s :: rest =>
    if isSeparator s then rest else 'd' :: 'a' :: 't' :: 'a' :: s :: rest
  | cs => cs

/-- Modelled from the spec: `normalize(name)` canonicalizes dashed and prefixed names to one
casing convention; the function `camelCase` itself is not among the sources. -/
def stdCamelCase (name : String) : String :=
  String.mk (camelChars (dropMarker name.data))

/-- ASCII rendering of `toLowerCase`. -/
def stdLowercase (s : String) : String :=
  String.mk (s.data.map Char.toLower)

/-- Rendering of `trim`: white space removed at both ends. -/
def stdTrim (s : String) : String :=
  String.mk ((s.data.dropWhile isSpaceChar).reverse.dropWhile isSpaceChar).reverse

/-- Whether the text holds a closing `}}`. -/
def hasClose : List Char → Bool
  | '\x7d' :: '\x7d' :: _ => true
  | _ :: rest => hasClose rest
  | [] => false

/-- Whether the text holds `{{` followed by `}}`. -/
def hasInterpolation : List Char → Bool
  | '\x7b' :: '\x7b' :: rest => hasClose rest
  | _ :: rest => hasInterpolation rest
  | [] => false

/-- Modelled from the spec: `parse(text) -> evaluator | null`, null meaning that no
interpolation markers are present; the evaluator is known by the text it was built from. -/
def stdInterpolate (text : String) : Option String :=
  if hasInterpolation text.data then some text else none

/-- Rendering of the table `BOOLEAN_ATTR`. -/
def stdBooleanAttr (key : String) : Option String :=
  getKey key
    [("multiple", "multiple"), ("selected", "selected"), ("checked", "checked"),
     ("disabled", "disabled"), ("readonly", "readOnly"), ("required", "required")]

/-- Rendering of `toBoolean`: falsy values and the texts `f`, `0`, `false`, `no`, `n`, `[]`
are false. -/
def stdToBoolean : AttrVal → Bool
  | .undefined => false
  | .null => false
  | .bool b => b
  | .str s =>
    if s = "" then false
    else
      let v := stdLowercase s
      !(v = "f" || v = "0" || v = "false" || v = "no" || v = "n" || v = "[]")

/-- Rendering of `elementOnlyHTML`: the start tag of the node. -/
def stdElementOnlyHTML (node : Node) : String :=
  "<" ++ stdLowercase node.nodeName ++
    String.join (node.attributes.map (fun a => " " ++ a.1 ++ "=\"" ++ a.2 ++ "\"")) ++ ">"

/-- The concrete environment. -/
def stdEnv : Env :=
  { camelCase := stdCamelCase, lowercase := stdLowercase, trim := stdTrim,
    interpolate := stdInterpolate, BOOLEAN_ATTR := stdBooleanAttr, toBoolean := stdToBoolean,
    elementOnlyHTML := stdElementOnlyHTML }

/-- An element node. -/
def element (id : Nat) (nodeName : String) (attributes : List (String × String))
    (childNodes : List Node) : Node :=
  .mk id 1 nodeName attributes ((getKey "class" attributes).getD "") "" childNodes

/-- A text node. -/
def textNode (id : Nat) (nodeValue : String) : Node :=
  .mk id 3 "#text" [] "" nodeValue []

/-- A comment node. -/
def commentNode (id : Nat) (nodeValue : String) : Node :=
  .mk id 8 "#comment" [] "" nodeValue []

/-- A descriptor factory whose compile step logs `t<label>` and returns the link spec
`{pre: pre<label>, post: post<label>}`. -/
def prePostFactory (label : String) (priority : Option Int) : Factory :=
  .obj priority false false
    (some (.returns (.obj (some (.user ("pre" ++ label) none)) (some (.user ("post" ++ label) none)))))

/-- The labels of the user link callbacks called, in order. -/
def linkLabels : List Event → List String
  | [] => []
  | .link _ (.user label _) _ _ _ :: rest => label :: linkLabels rest
  | _ :: rest => linkLabels rest

/-- The directives whose compile step was called, with the node, in order. -/
def compileCalls : List Event → List (Directive × Nat)
  | [] => []
  | .templateFn d node :: rest => (d, node) :: compileCalls rest
  | _ :: rest => compileCalls rest

/-- The errors handed to the error sink, in order. -/
def reports : List Event → List String
  | [] => []
  | .report e :: rest => e :: reports rest
  | _ :: rest => reports rest

/-! ## The order of the sort -/

instance : IsTotal Directive priorityOrder :=
  ⟨fun a b => by
    unfold priorityOrder byPriority
    omega⟩

instance : IsTrans Directive priorityOrder :=
  ⟨fun a b c hab hbc => by
    unfold priorityOrder byPriority at *
    omega⟩

/-! ## The control skeleton of the loop

Which iterations the loop of `applyDirectivesPerElement` performs depends only on whether a
directive already asked for a new scope and on `terminalPriority`. The functions of this section
are used to describe the loop; the loop itself is `applyLoop`. -/

/-- The link spec a compile step returns, if it returns. -/
def TemplateFn.returned : TemplateFn → Option LinkSpec
  | .returns l => some l
  | .throws _ => none
  | .attrInterpolate (some interpolateFn) name _ => some (.fn (.attrBinding interpolateFn name))
  | .attrInterpolate none _ _ => some .undefined

/-- The link spec the compile step of a directive returns, if it has one and it returns. -/
def Directive.returned (d : Directive) : Option LinkSpec :=
  d.templateFn.bind TemplateFn.returned

/-- The new `terminalPriority` after an iteration that was not left by `break`. -/
def nextTerminal (d : Directive) (terminalPriority : Option Int) : Option Int :=
  if d.terminal then raiseTerminal terminalPriority d.priority else terminalPriority

/-- The iterations performed on the directives `ds`, in order: every directive the loop reaches
before it breaks, with whether its compile step is called. -/
def iterations : List Directive → Bool → Option Int → List (Directive × Bool)
  | [], _, _ => []
  | d :: rest, hasScope, tp =>
    if d.scope && hasScope then (d, false) :: iterations rest hasScope (nextTerminal d tp)
    else if belowTerminal tp d.priority then []
    else (d, d.templateFn.isSome) :: iterations rest (hasScope || d.scope) (nextTerminal d tp)

/-- The directives whose compile step is called, in order. -/
def compiled (its : List (Directive × Bool)) : List Directive :=
  (its.filter (fun p => p.2)).map (fun p => p.1)

/-- No directive of `ds` meets a scope request made before it: when a scope was already asked
for, none asks; otherwise at most one does. -/
def NoConflict (ds : List Directive) (hasScope : Bool) : Prop :=
  if hasScope then ∀ d ∈ ds, d.scope = false
  else (ds.filter (fun d => d.scope)).length ≤ 1

/-! ## `linkFn` and one position of the list loop, on their own -/

/-- The closure `linkFn(childLinkingFn, scope, linkNode)` of `applyDirectivesPerElement`: attrs,
pre-link callbacks, children, post-link callbacks. An exception of the child linking leaves the
function before the post-link loop. -/
def linkFn (f : NodeLinkFn) (childLinkingFn : LinkEntry) (scope : Nat) (linkNode : Node)
    (w : World) : LinkResult :=
  let a := linkAttrs f linkNode w
  let r := linkEntry childLinkingFn scope linkNode.childNodes
    (preLink f.linkingFns scope linkNode.id a.1 a.2)
  match r.error with
  | some e => { world := r.world, error := some e }
  | none => { world := postLink f.linkingFns scope linkNode.id a.1 r.world, error := none }

/-- The value of the loop variable `scope` after the statement `if (directiveLinkingFn.scope &&
!rootElement) jqLite(node).data('$scope', scope = scope.$new())`, and the world. -/
def enterScope (d : LinkEntry) (scope : Nat) (node : Node) (rootElement : Bool) (w : World) :
    Nat × World :=
  match d with
  | .directive f => if f.scope && !rootElement then forkScope scope node w else (scope, w)
  | _ => (scope, w)

/-- The body of the list loop for one position: the entries `directiveLinkingFn` and
`childLinkingFn` of that position and its node. -/
def linkPosition (d c : LinkEntry) (scope : Nat) (node : Node) (rootElement : Bool) (w : World) :
    LinkResult :=
  match d with
  | .directive f =>
    linkFn f c (enterScope d scope node rootElement w).1 node
      (enterScope d scope node rootElement w).2
  | _ => linkEntry c scope node.childNodes w

/-- The positions of a list-linking function over a live node list: the pairs of entries with
their nodes. -/
def positions : List LinkEntry → List Node → List (LinkEntry × LinkEntry × Node)
  | d :: c :: rest, node :: nodes => (d, c, node) :: positions rest nodes
  | _, _ => []

/-- Visit the positions in order, each one linked completely before the next; an exception
stops the walk. -/
def linkPositions : List (LinkEntry × LinkEntry × Node) → Nat → Bool → World → LinkResult
  | [], _, _, w => { world := w, error := none }
  | (d, c, node) :: rest, scope, rootElement, w =>
    match (linkPosition d c scope node rootElement w).error with
    | some e => { world := (linkPosition d c scope node rootElement w).world, error := some e }
    | none =>
      linkPositions rest (enterScope d scope node rootElement w).1 rootElement
        (linkPosition d c scope node rootElement w).world

/-- The events of one link callback call. -/
def callEvents (phase : Phase) (f : Callback) (scope : Nat) (element : Nat) (attrs : Attrs) :
    List Event :=
  (callLink phase f scope element attrs World.init).trace

/-- The callbacks a link phase calls, in order. -/
def phaseFns : Phase → List LinkSpec → List Callback
  | .pre, linkingFns => linkingFns.filterMap LinkSpec.preFn
  | .post, linkingFns => linkingFns.filterMap LinkSpec.postFn

/-- The events of a link phase: the events of its callbacks, in the order of `linkingFns`. -/
def phaseEvents (phase : Phase) (linkingFns : List LinkSpec) (scope : Nat) (element : Nat)
    (attrs : Attrs) : List Event :=
  ((phaseFns phase linkingFns).map (fun f => callEvents phase f scope element attrs)).flatten

/-! ## The shape a stored linking function expects -/

mutual
/-- Whether the live node list has the shape the entry was compiled for: a list-linking
function wants as many nodes as it stored pairs, and so on below every position that stored a
child-linking function; a falsy entry wants nothing. -/
def entryMatches : LinkEntry → List Node → Bool
  | .list linkingFns, nodeList =>
    decide (linkingFns.length = nodeList.length * 2) && pairsMatch linkingFns nodeList
  | _, _ => true
termination_by structural e => e
/-- The positions of the entries against the nodes, one by one. -/
def pairsMatch : List LinkEntry → List Node → Bool
  | [], _ => true
  | _ :: tail, nodeList =>
    match nodeList with
    | [] => false
    | node :: nodes =>
      match tail with
      | [] => true
      | c :: rest => entryMatches c node.childNodes && pairsMatch rest nodes
termination_by structural l => l
end

/-! ## The match list of a node, read off the registry -/

/-- The descriptor a factory resolves to, if it does not throw. -/
def factoryDirective (name : String) : Factory → Option Directive
  | .throws _ => none
  | .fn f =>
    some { name := some name, priority := 0, terminal := false, scope := false,
           templateFn := some (.returns (.fn f)) }
  | .obj p t s tf =>
    some { name := some name, priority := p.getD 0, terminal := t, scope := s, templateFn := tf }

/-- The descriptor registered under a name, if there is one and its factory does not throw. -/
def resolve (reg : Registry) (name : String) : Option Directive :=
  (getKey name reg).bind (factoryDirective name)

/-- The cache holds nothing but resolved descriptors of the registry. -/
def Consistent (reg : Registry) (w : World) : Prop :=
  ∀ name d, getKey name w.directiveCache = some d → resolve reg name = some d

/-- The matches contributed by the declared attributes, in declaration order: for each
attribute the synthesized interpolation directive, then the directive named by it. -/
def attrMatches (env : Env) (reg : Registry) : List (String × String) → List Directive
  | [] => []
  | (name, attrValue) :: rest =>
    (attrInterpolateDirective env (env.trim attrValue) (env.camelCase (env.lowercase name))).toList ++
      (resolve reg (env.camelCase (env.lowercase name))).toList ++ attrMatches env reg rest

/-- The matches contributed by the class tokens, left to right. -/
def classMatches (env : Env) (reg : Registry) : Nat → List Char → List Directive
  | 0, _ => []
  | fuel + 1, text =>
    match execClass text with
    | none => []
    | some m =>
      (resolve reg (env.camelCase (String.mk m.name))).toList ++
        classMatches env reg fuel (text.drop (m.index + m.whole.length))

/-- The match list of a node in discovery order. -/
def matchList (env : Env) (reg : Registry) (node : Node) : List Directive :=
  match node.nodeType with
  | 1 =>
    (resolve reg (env.camelCase (env.lowercase node.nodeName))).toList ++
      attrMatches env reg node.attributes ++
      classMatches env reg node.className.data.length node.className.data
  | 3 => ((env.interpolate node.nodeValue).map textInterpolateDirective).toList
  | 8 =>
    match execComment node.nodeValue.data with
    | none => []
    | some (name, _) => (resolve reg (env.camelCase (String.mk name))).toList
  | _ => []

mutual
/-- A node and all its descendants, in document order. -/
def subtree : Node → List Node
  | .mk id nodeType nodeName attributes className nodeValue childNodes =>
    Node.mk id nodeType nodeName attributes className nodeValue childNodes :: subtrees childNodes
termination_by structural n => n
/-- The nodes of a list and all their descendants, in document order. -/
def subtrees : List Node → List Node
  | [] => []
  | node :: rest => subtree node ++ subtrees rest
termination_by structural l => l
end

/-- No node of the list, and no descendant, matches a directive. -/
def directiveFree (env : Env) (reg : Registry) (nodeList : List Node) : Bool :=
  (subtrees nodeList).all (fun n => (matchList env reg n).isEmpty)

mutual
/-- Change a tree where no linking function is stored: the children of every node whose
children, with all their descendants, match no directive are replaced by `sub children` (pruned
when `sub` returns the empty list); everything else is kept. -/
def reviseNode (env : Env) (reg : Registry) (sub : List Node → List Node) : Node → Node
  | .mk id nodeType nodeName attributes className nodeValue childNodes =>
    .mk id nodeType nodeName attributes className nodeValue
      (if directiveFree env reg childNodes then sub childNodes
       else reviseList env reg sub childNodes)
termination_by structural n => n
/-- Change every node of a list in that way. -/
def reviseList (env : Env) (reg : Registry) (sub : List Node → List Node) : List Node → List Node
  | [] => []
  | node :: rest => reviseNode env reg sub node :: reviseList env reg sub rest
termination_by structural l => l
end

/-- Prune every directive-free child list. -/
def pruneList (env : Env) (reg : Registry) (nodeList : List Node) : List Node :=
  reviseList env reg (fun _ => []) nodeList

/-! ## Worked examples -/

/-- A fresh attrs object, as `compileNodes` creates it. -/
def emptyAttrs : Attrs :=
  { objId := 0, attrMap := [], vals := [], element := none }

/-- A plain `div` element with identity 1. -/
def divNode : Node :=
  element 1 "DIV" [] []

/-- A directive with a compile step that returns the post-link function `label`. -/
def plainDirective (label : String) (priority : Int) : Directive :=
  { name := some label, priority := priority, terminal := false, scope := false,
    templateFn := some (.returns (.fn (.user label none))) }

/-- A terminal directive with a compile step. -/
def stopDirective (label : String) (priority : Int) : Directive :=
  { name := some label, priority := priority, terminal := true, scope := false,
    templateFn := some (.returns (.fn (.user label none))) }

/-- A directive that asks for a new scope. -/
def scopeDirective (label : String) (priority : Int) : Directive :=
  { name := some label, priority := priority, terminal := false, scope := true,
    templateFn := some (.returns (.fn (.user label none))) }

/-- The registry of the test `should prevent further directives from running`: `stop` is
terminal, has priority -100 and no compile step. -/
def stopRegistry : Registry :=
  [("stop", .obj (some (-100)) true false none)]

/-- The template `<div stop><a>OK</a></div>`. -/
def stopTemplate : Node :=
  element 1 "DIV" [("stop", "")] [element 2 "A" [] [textNode 3 "OK"]]

/-- The registry of the linking tests: `a`, `b` and `c`, each with a compile step returning
`{pre, post}`. -/
def abcRegistry : Registry :=
  [("a", prePostFactory "A" none), ("b", prePostFactory "B" none), ("c", prePostFactory "C" none)]

/-- The template `<a><b></b></a>`: a parent `A` with a child `B`. -/
def abTemplate : List Node :=
  [element 1 "A" [] [element 2 "B" [] []]]

/-- The registry of the scope tests: `scopeA` and `scopeB` both ask for a new scope. -/
def scopeRegistry : Registry :=
  [("scopeA", .obj none false true (some (.returns (.fn (.user "scopeA" none))))),
   ("scopeB", .obj none false true (some (.returns (.fn (.user "scopeB" none)))))]

/-- The template `<div class="scope-a; scope-b"></div>`. -/
def scopeTemplate : List Node :=
  [element 1 "DIV" [("class", "scope-a; scope-b")] []]

/-- The template of the test `should not store linkingFns for noop branches`:
`<div name="{{a}}"><span>ignore</span></div>`. -/
def noopTemplate : List Node :=
  [element 1 "DIV" [("name", "\x7b\x7ba\x7d\x7d")] [element 2 "SPAN" [] [textNode 3 "ignore"]]]

/-- The same template after `element.find('span').remove()`. -/
def noopPruned : List Node :=
  [element 1 "DIV" [("name", "\x7b\x7ba\x7d\x7d")] []]

/-- The template `<a><b></b></a><c></c>`: two root nodes, the first with a child. -/
def abcTemplate : List Node :=
  [element 1 "A" [] [element 2 "B" [] []], element 3 "C" [] []]

/-- The same two root nodes after the child `<b>` was removed. -/
def abcLive : List Node :=
  [element 1 "A" [] [], element 3 "C" [] []]

/-- Two states of the loop agree on everything but what was pushed and traced so far, the
directive that asked for a scope being compared by name. -/
def SameControl (a b : ApplyState) : Prop :=
  a.newScopeDirective.map (fun d => d.name) = b.newScopeDirective.map (fun d => d.name) ∧
  a.terminalPriority = b.terminalPriority ∧ a.terminal = b.terminal ∧ a.attrs = b.attrs ∧
  a.world.directiveCache = b.world.directiveCache ∧ a.world.nextId = b.world.nextId

/-- The directive `d` with a compile step that returns nothing. -/
def returningNothing (d : Directive) : Directive :=
  { d with templateFn := some (.returns .undefined) }

/-- The directive `templateError` of the test `should handle exceptions`: its compile step
throws. -/
def throwingDirective : Directive :=
  { name := some "templateError", priority := 0, terminal := false, scope := false,
    templateFn := some (.throws "TemplateError") }

/-- The run of `applyDirectivesPerElement` on `templateError` and `linkingError`. -/
def throwingRun : NodeLinkFn × World :=
  applyDirectivesPerElement stdEnv ([] ++ throwingDirective :: [plainDirective "linkingError" 0])
    divNode emptyAttrs World.init

/-- The same run with a compile step that returns nothing in place of the throwing one. -/
def quietRun : NodeLinkFn × World :=
  applyDirectivesPerElement stdEnv
    ([] ++ returningNothing throwingDirective :: [plainDirective "linkingError" 0])
    divNode emptyAttrs World.init

/-- The registry of the test `should prevent changing of structure`: `log` has priority 10. -/
def logRegistry : Registry :=
  [("log", .obj (some 10) false false (some (.returns (.fn (.user "log" none)))))]

/-- The directive-free node `<p>plain</p>`. -/
def plainNode : Node :=
  element 1 "P" [] [textNode 2 "plain"]

/-- The template `<p>plain</p><div log></div>`: a directive-free node beside a node with a
directive. -/
def mixedTemplate : List Node :=
  [plainNode, element 3 "DIV" [("log", "")] []]

/-- The same template after the directive-free node `<p>plain</p>` was removed. -/
def mixedPruned : List Node :=
  [element 3 "DIV" [("log", "")] []]

/-! ## Link callbacks that throw -/

/-- The same callback with a body that returns normally. -/
def Callback.quiet : Callback → Callback
  | .user label _ => .user label none
  | f => f

/-- What a callback throws, if anything. -/
def Callback.thrown : Callback → Option String
  | .user _ throws => throws
  | _ => none

/-- The same link spec with callbacks that return normally. -/
def LinkSpec.quiet : LinkSpec → LinkSpec
  | .undefined => .undefined
  | .fn f => .fn f.quiet
  | .obj pre post => .obj (pre.map Callback.quiet) (post.map Callback.quiet)

/-- The same `linkFn` with callbacks that return normally. -/
def NodeLinkFn.quiet (f : NodeLinkFn) : NodeLinkFn :=
  { f with linkingFns := f.linkingFns.map LinkSpec.quiet }

/-- The link callbacks called, in order, each with its phase and its arguments; what the
callback throws is left aside. -/
def linkCalls : List Event → List (Phase × Callback × Nat × Nat × Attrs)
  | [] => []
  | .link phase f scope element attrs :: rest =>
    (phase, f.quiet, scope, element, attrs) :: linkCalls rest
  | _ :: rest => linkCalls rest

/-- The exceptions thrown by the callbacks of a link phase, in the order of the calls. -/
def thrownBy (phase : Phase) (linkingFns : List LinkSpec) : List String :=
  (phaseFns phase linkingFns).filterMap Callback.thrown

/-- The `linkFn` of the test `should handle exceptions` with one more directive beside it: the
post-link function `linkingError` throws, the link spec of `other` has a `pre` that throws and a
`post` that returns. -/
def linkingErrorFn : NodeLinkFn :=
  { linkingFns :=
      [.fn (.user "linkingError" (some "LinkingError")),
       .obj (some (.user "preOther" (some "PreError"))) (some (.user "postOther" none))],
    templateNode := 1, templateAttrs := { emptyAttrs with element := some 1 },
    terminal := false, scope := false }

/-- Two runs from worlds with the same supply of identities add the same events and end with
the same supply and the same outcome. -/
def SameRun (ra rb : LinkResult) (a b : World) : Prop :=
  ra.error = rb.error ∧ ra.world.nextId = rb.world.nextId ∧
  ∃ evs, ra.world.trace = a.trace ++ evs ∧ rb.world.trace = b.trace ++ evs

/-! ## A factory that throws -/

/-- The registry without the name: `directiveFactories` as if `name` had never been
registered. -/
def unregister (name : String) (reg : Registry) : Registry :=
  reg.filter (fun p => p.1 ≠ name)

/-- The list `a` is the list `b` with copies of the block `blk` put in at some places;
everything else is the same, in the same order. -/
inductive Inserted (blk : List Event) : List Event → List Event → Prop
  | nil : Inserted blk [] []
  | same (ev : Event) {a b : List Event} : Inserted blk a b → Inserted blk (ev :: a) (ev :: b)
  | block {a b : List Event} : Inserted blk a b → Inserted blk (blk ++ a) b

/-- Two worlds hold the same cache and the same supply of identities, and the cache holds
nothing under `name`. -/
def Agree (name : String) (a b : World) : Prop :=
  a.directiveCache = b.directiveCache ∧ a.nextId = b.nextId ∧
  getKey name a.directiveCache = none

/-- Of two runs, started from `a` and from `b`, the first adds to the trace what the second
adds, with copies of the block `blk` put in. -/
def Skips (blk : List Event) (ra rb a b : World) : Prop :=
  ∃ ea eb, ra.trace = a.trace ++ ea ∧ rb.trace = b.trace ++ eb ∧ Inserted blk ea eb

/-- The registry of the test `should handle exceptions`: the factory of `factoryError` throws,
the compile step of `templateError` throws, the link function of `linkingError` throws. -/
def errorRegistry : Registry :=
  [("factoryError", .throws "FactoryError"),
   ("templateError", .obj none false false (some (.throws "TemplateError"))),
   ("linkingError", .fn (.user "linkingError" (some "LinkingError")))]

/-- The template `<div factory-error template-error linking-error></div>` of that test. -/
def errorTemplate : List Node :=
  [element 1 "DIV" [("factory-error", ""), ("template-error", ""), ("linking-error", "")] []]

/-- Two scans hold the same directives and attrs, in worlds that agree. -/
def SameScan (name : String) (a b : ScanState) : Prop :=
  a.directives = b.directives ∧ a.attrs = b.attrs ∧ Agree name a.world b.world

/-! ## Lookups in a row -/

/-- The world after `k` calls `getDirective(name)` in a row. -/
def lookups (reg : Registry) (name : String) : Nat → World → World
  | 0, w => w
  | k + 1, w => lookups reg name k (getDirective reg name w).2

/-- What `k` lookups of a name add to the trace: a factory that throws is invoked and reported
at every lookup, any other factory is invoked at the first lookup only. -/
def lookupEvents (name : String) (factory : Factory) (k : Nat) : List Event :=
  match factory with
  | .throws e => (List.replicate k [Event.invoke name, Event.report e]).flatten
  | _ => if k = 0 then [] else [Event.invoke name]

/-! ## Registering a name twice -/

/-- The registry and world after `directive('a', first)`, a lookup of `a`, and
`directive('a', second)`. -/
def registeredTwice : Registry × World :=
  let r1 := registerDirective "a" (.fn (.user "first" none)) [] World.init
  let w1 := (getDirective r1.1 "a" r1.2).2
  registerDirective "a" (.fn (.user "second" none)) r1.1 w1

/-! ## Descriptors of the tests, the compile step stored under `templateFn` -/

/-- What invoking a factory yields when it returns `{priority: priority, templateFn:
templateFn}`, the member `applyDirectivesPerElement` reads. -/
def templateFnDescriptor (priority : Option Int) (templateFn : TemplateFn) : Factory :=
  .obj priority false false (some templateFn)

/-- Compile a template in a fresh world and link it on itself with scope 1: the labels of the
link callbacks called, in order. -/
def compileAndLink (env : Env) (reg : Registry) (template : List Node) : List String :=
  linkLabels (templateFunction (compile env reg template World.init).1 template 1 none
    (compile env reg template World.init).2).2.world.trace

/-- What invoking a factory yields when it returns `{restrict: restrict, templateFn:
templateFn}`: no line of `compiler.js` reads a member `restrict`, so what the compiler sees of
the object does not depend on it. -/
def restrictDescriptor (restrict : String) (templateFn : TemplateFn) : Factory :=
  (fun _ => .obj none false false (some templateFn)) restrict

/-- The registry of the test `should allow restriction of attributes`: `div` restricted to
elements, `attr` to attributes, `clazz` to classes, `all` to the three; each logs its name at
link time. -/
def restrictRegistry : Registry :=
  [("div", restrictDescriptor "E" (.returns (.fn (.user "div" none)))),
   ("attr", restrictDescriptor "A" (.returns (.fn (.user "attr" none)))),
   ("clazz", restrictDescriptor "C" (.returns (.fn (.user "clazz" none)))),
   ("all", restrictDescriptor "EAC" (.returns (.fn (.user "all" none))))]

/-! ## The attrs handed to the link callbacks -/

/-- The registry of the test `should create new instance of attr for each template stamping`:
`first` with priority 1 and `second` with priority 2. -/
def stampRegistry : Registry :=
  [("first", templateFnDescriptor (some 1) (.returns (.fn (.user "first" none)))),
   ("second", templateFnDescriptor (some 2) (.returns (.fn (.user "second" none))))]

/-- The template `<div first second>` of that test. -/
def stampTemplate : List Node :=
  [element 1 "DIV" [("first", ""), ("second", "")] []]

/-- The world after compiling the template and stamping it twice, each time with a clone
callback and a scope of its own (scopes 100 and 101; the clones take their identities from
1000 on). -/
def stampRun : World :=
  let c := compile stdEnv stampRegistry stampTemplate { World.init with nextId := 1000 }
  let r1 := templateFunction c.1 stampTemplate 100 (some { label := "noop", throws := none }) c.2
  (templateFunction c.1 stampTemplate 101 (some { label := "noop", throws := none })
    r1.2.world).2.world

/-- The user link callbacks called, in order, each with its label, the element it received, and
the identity and `$element` of the attrs object it received. -/
def attrsSeen : List Event → List (String × Nat × Nat × Option Nat)
  | [] => []
  | .link _ (.user label _) _ el attrs :: rest =>
    (label, el, attrs.objId, attrs.element) :: attrsSeen rest
  | _ :: rest => attrsSeen rest

/-! ## New scopes at link time -/

/-- The registry of the scope tests with the directive `log` beside `scopeA` and `scopeB`. -/
def scopeLogRegistry : Registry :=
  scopeRegistry ++ [("log", .fn (.user "log" none))]

/-- The user link callbacks called, in order, each with its label and the scope it received. -/
def scopesSeen : List Event → List (String × Nat)
  | [] => []
  | .link _ (.user label _) scope _ _ :: rest => (label, scope) :: scopesSeen rest
  | _ :: rest => scopesSeen rest

/-- The calls `scope.$new()` made, in order: parent and child. -/
def scopesForked : List Event → List (Nat × Nat)
  | [] => []
  | .scopeNew parent child :: rest => (parent, child) :: scopesForked rest
  | _ :: rest => scopesForked rest

/-- Compile a template with the scope registry in a fresh world and link it on itself with the
root scope 100: the world afterwards. -/
def scopeRun (template : List Node) : World :=
  (templateFunction (compile stdEnv scopeLogRegistry template World.init).1 template 100 none
    (compile stdEnv scopeLogRegistry template World.init).2).2.world

/-- The template `<div><span scope-a><a log></a></span></div>` of the test `should allow
creation of new scopes`. -/
def nestedScopeTemplate : List Node :=
  [element 1 "DIV" [] [element 2 "SPAN" [("scope-a", "")] [element 3 "A" [("log", "")] []]]]

/-- The template `<div scope-a></div>` of the test `should treat new scope on new template as
noop`. -/
def rootScopeTemplate : List Node :=
  [element 1 "DIV" [("scope-a", "")] []]

/-- The template `<div><span scope-a></span><a log></a></div>`: a node that asks for a new
scope, followed by a sibling that does not. -/
def siblingTemplate : List Node :=
  [element 1 "DIV" [] [element 2 "SPAN" [("scope-a", "")] [], element 3 "A" [("log", "")] []]]

/-- The template `<div><span scope-a></span><span scope-b></span></div>`: two siblings that
each ask for a new scope. -/
def twoScopesTemplate : List Node :=
  [element 1 "DIV" []
    [element 2 "SPAN" [("scope-a", "")] [], element 3 "SPAN" [("scope-b", "")] []]]

/-- The `linkFn` of a node whose only directive, `scopeA`, asks for a new scope. -/
def scopeFn : NodeLinkFn :=
  { linkingFns := [.fn (.user "scopeA" none)], templateNode := 2,
    templateAttrs := { emptyAttrs with element := some 2 }, terminal := false, scope := true }

/-! ## `cacheFactory.js` -/

namespace CacheFactory

/-- The identity of an object used as an entry of the LRU list: an object `{key: key}` created
by `put`, or the inherited member `Object.prototype[member]`, which `lruHash[key]` yields for a
key that names one. -/
inductive Ref where
  | entry (id : Nat)
  | inherited (member : String)
deriving DecidableEq, Repr

/-- A value held by `data[key]`: a value given to `put`, or the inherited member
`Object.prototype[member]` that `data[key]` yields for a key that names one. -/
inductive Value where
  | user (v : Nat)
  | inherited (member : String)
deriving DecidableEq, Repr

/-- The properties `key`, `next` and `prev` of an entry object; `none` stands for `undefined`
and for `null`, which the code does not tell apart (it compares with `==` and `!=`). -/
structure Entry where
  key : Option String
  next : Option Ref
  prev : Option Ref
deriving DecidableEq, Repr

/-- The variables of one cache: `stats.size`, `data`, `capacity` (`none` for
`Number.MAX_VALUE`), `lruHash`, `freshEnd`, `staleEnd`, the properties of the entry objects, and
the supply of identities for new entries. -/
structure Cache where
  size : Int
  data : List (String × Value)
  capacity : Option Nat
  lruHash : List (String × Ref)
  freshEnd : Option Ref
  staleEnd : Option Ref
  heap : List (Ref × Entry)
  nextRef : Nat
deriving DecidableEq, Repr

/-- What a call leaves behind: the cache, and the exception that left the call, if any. -/
structure Outcome where
  cache : Cache
  error : Option String
deriving DecidableEq, Repr

/-- The error of reading a property of `undefined` or `null`. -/
def typeError : String := "TypeError"

/-- The call `cacheFactory(cacheId, options)` for an unused `cacheId`: `capacity` is
`(options && options.capacity) || Number.MAX_VALUE`, so a capacity of 0 counts as none. -/
def cacheFactory (capacity : Option Nat) : Cache :=
  { size := 0, data := [],
    capacity := match capacity with
      | some 0 => none
      | c => c,
    lruHash := [], freshEnd := none, staleEnd := none, heap := [], nextRef := 0 }

/-- The properties of the object `r`; an object never written to has none of them. -/
def readEntry (heap : List (Ref × Entry)) (r : Ref) : Entry :=
  match heap.find? (fun p => decide (p.1 = r)) with
  | some p => p.2
  | none => { key := none, next := none, prev := none }

/-- Write the properties of the object `r`. -/
def writeEntry (r : Ref) (e : Entry) : List (Ref × Entry) → List (Ref × Entry)
  | [] => [(r, e)]
  | (k, v) :: rest => if k = r then (k, e) :: rest else (k, v) :: writeEntry r e rest

/-- The function `link(nextEntry, prevEntry)`. -/
def link (nextEntry prevEntry : Option Ref) (c : Cache) : Cache :=
  if nextEntry = prevEntry then c
  else
    let h1 := match nextEntry with
      | some n => writeEntry n { readEntry c.heap n with prev := prevEntry } c.heap
      | none => c.heap
    let h2 := match prevEntry with
      | some p => writeEntry p { readEntry h1 p with next := nextEntry } h1
      | none => h1
    { c with heap := h2 }

/-- The function `refresh(entry)`. -/
def refresh (entry : Ref) (c : Cache) : Cache :=
  if some entry = c.freshEnd then c
  else
    let c1 : Cache :=
      match c.staleEnd with
      | none => { c with staleEnd := some entry }
      | some s => if s = entry then { c with staleEnd := (readEntry c.heap entry).next } else c
    let c2 := link (readEntry c1.heap entry).next (readEntry c1.heap entry).prev c1
    let c3 := link (some entry) c2.freshEnd c2
    { c3 with freshEnd := some entry,
              heap := writeEntry entry { readEntry c3.heap entry with next := none } c3.heap }

/-- The method `size()`. -/
def size (c : Cache) : Int :=
  c.size

/-- The method `remove(key)`. When `lruHash[key]` is `undefined`, reading `lruEntry.prev` or
`lruEntry.next` throws before anything is changed. -/
def remove (key : String) (c : Cache) : Outcome :=
  match lookup Ref.inherited c.lruHash key with
  | none => { cache := c, error := some typeError }
  | some lruEntry =>
    let e := readEntry c.heap lruEntry
    let c1 : Cache := if some lruEntry = c.freshEnd then { c with freshEnd := e.prev } else c
    let c2 : Cache := if some lruEntry = c1.staleEnd then { c1 with staleEnd := e.next } else c1
    let c3 := link e.next e.prev c2
    { cache := { c3 with lruHash := deleteKey key c3.lruHash, data := deleteKey key c3.data,
                         size := c3.size - 1 },
      error := none }

/-- The property name an entry key is used as: `undefined` reads `"undefined"`. -/
def keyName : Option String → String
  | none => "undefined"
  | some k => k

/-- The test `stats.size > capacity`. -/
def exceeds (size : Int) (capacity : Option Nat) : Bool :=
  match capacity with
  | none => false
  | some cap => decide ((cap : Int) < size)

/-- The method `put(key, value)`; `value = none` is `undefined`. -/
def put (key : String) (value : Option Value) (c : Cache) : Outcome :=
  let r : Ref × Cache :=
    match lookup Ref.inherited c.lruHash key with
    | some lruEntry => (lruEntry, c)
    | none =>
      (.entry c.nextRef,
        { c with lruHash := setKey key (.entry c.nextRef) c.lruHash,
                 heap := writeEntry (.entry c.nextRef)
                   { key := some key, next := none, prev := none } c.heap,
                 nextRef := c.nextRef + 1 })
  let c1 := refresh r.1 r.2
  match value with
  | none => { cache := c1, error := none }
  | some v =>
    let c2 : Cache :=
      { c1 with size := if hasProperty c1.data key then c1.size else c1.size + 1,
                data := setKey key v c1.data }
    if exceeds c2.size c2.capacity then
      match c2.staleEnd with
      | none => { cache := c2, error := some typeError }
      | some s => remove (keyName (readEntry c2.heap s).key) c2
    else { cache := c2, error := none }

/-- The method `get(key)`: the value returned and the cache. -/
def get (key : String) (c : Cache) : Option Value × Cache :=
  match lookup Ref.inherited c.lruHash key with
  | none => (none, c)
  | some lruEntry =>
    (lookup Value.inherited (refresh lruEntry c).data key, refresh lruEntry c)

/-- The method `removeAll()`. -/
def removeAll (c : Cache) : Cache :=
  { c with data := [], size := 0, lruHash := [], freshEnd := none, staleEnd := none }

/-- A call of one of the methods `put`, `get`, `remove` and `removeAll`. -/
inductive Call where
  | put (key : String) (value : Option Value)
  | get (key : String)
  | remove (key : String)
  | removeAll
deriving DecidableEq, Repr

/-- The cache after one call; an exception leaves the call and the cache as it is then. -/
def step (c : Cache) : Call → Cache
  | .put key value => (put key value c).cache
  | .get key => (get key c).2
  | .remove key => (remove key c).cache
  | .removeAll => removeAll c

/-- The cache after a sequence of calls. -/
def run (calls : List Call) (c : Cache) : Cache :=
  calls.foldl step c

/-- The number of key-value pairs stored: the own properties of `data`. -/
def stored (c : Cache) : Nat :=
  c.data.length

end CacheFactory

/-- The calls `put('a', undefined)`, `put('b', 1)`, `put('c', 2)`. -/
def CacheFactory.undefinedThenTwo : List CacheFactory.Call :=
  [.put "a" none, .put "b" (some (.user 1)), .put "c" (some (.user 2))]

/-! ## Calls of `$set` -/

/-- The attrs object of the `$set` tests: the attrs of `<div></div>`, with `$element` the node
1. -/
def divAttrs : Attrs :=
  { emptyAttrs with element := some 1 }

/-- A call `attr.$set(key, value, attrName)` with three arguments: `attrSetter` declares the
parameters `key` and `value` only, so the third argument is not read. -/
def attrSetterNamed (env : Env) (self : Attrs) (key : String) (value : AttrVal)
    (attrName : String) (w : World) : Attrs × World :=
  (fun _ => attrSetter env self key value w) attrName

/-! ## Reading attribute effects off a trace -/

/-- The writes to nodes: the calls of `prop`, `attr` and `removeAttr`, in order. -/
def writes : List Event → List Event
  | [] => []
  | .prop el key value :: rest => .prop el key value :: writes rest
  | .attr el key value :: rest => .attr el key value :: writes rest
  | .removeAttr el key :: rest => .removeAttr el key :: writes rest
  | _ :: rest => writes rest

/-- The watches registered, in order: scope, interpolation function, element and the attribute
the listener writes. -/
def watches : List Event → List (Nat × String × Nat × Option String)
  | [] => []
  | .watch scope interpolateFn el attr :: rest => (scope, interpolateFn, el, attr) :: watches rest
  | _ :: rest => watches rest

/-- The template `<img ng-src="a.png">`: a side-effect attribute without interpolation. -/
def literalSrcTemplate : List Node :=
  [element 1 "IMG" [("ng-src", "a.png")] []]

/-- The template `<img ng-src="{{url}}">`: a side-effect attribute with interpolation. -/
def boundSrcTemplate : List Node :=
  [element 1 "IMG" [("ng-src", "\x7b\x7burl\x7d\x7d")] []]

/-- The template `<div constructor="x"></div>`: an attribute named like a member of
`Object.prototype`. -/
def constructorTemplate : List Node :=
  [element 1 "DIV" [("constructor", "x")] []]

/-- The events that linking a compiled template on itself with scope 100 adds to the trace
left by the compilation. -/
def linkEvents (env : Env) (reg : Registry) (template : List Node) : List Event :=
  (templateFunction (compile env reg template World.init).1 template 100 none
    (compile env reg template World.init).2).2.world.trace.drop
    (compile env reg template World.init).2.trace.length

/-! ## The template function: clones -/

mutual
/-- A node without its identity and the identities of its descendants: its tree shape with
everything the nodes carry. -/
def eraseId : Node → Node
  | .mk _ nodeType nodeName attributes className nodeValue childNodes =>
    .mk 0 nodeType nodeName attributes className nodeValue (eraseIds childNodes)
termination_by structural n => n
/-- A node list without identities. -/
def eraseIds : List Node → List Node
  | [] => []
  | node :: rest => eraseId node :: eraseIds rest
termination_by structural l => l
end

/-- The calls of a clone callback, in order: label, the nodes of the clone, the scope. -/
def cloneCalls : List Event → List (String × List Nat × Nat)
  | [] => []
  | .cloneConnect label clone scope :: rest => (label, clone, scope) :: cloneCalls rest
  | _ :: rest => cloneCalls rest

/-- The events of `element.data('$scope', scope)` on a list of root nodes. -/
def dataScopeEvents (element : List Node) (scope : Nat) : List Event :=
  element.map (fun n => Event.dataScope n.id scope)

/-- The clone callback `noop` of the tests. -/
def noopClone : CloneConnectFn :=
  { label := "noop", throws := none }

/-- The clone the template function makes of the template element in the world `w`. -/
def cloneOf (templateElement : List Node) (w : World) : List Node :=
  (cloneList templateElement w.nextId).1

/-- The world after `element.data('$scope', scope)`. -/
def scopeTied (element : List Node) (scope : Nat) (w : World) : World :=
  { w with trace := w.trace ++ dataScopeEvents element scope }

/-- The world after the template element was cloned, the scope tied to the clone, and the
clone callback called with the clone and the scope. -/
def cloneAttached (f : CloneConnectFn) (templateElement : List Node) (scope : Nat) (w : World) :
    World :=
  { w with nextId := (cloneList templateElement w.nextId).2,
           trace := w.trace ++ dataScopeEvents (cloneOf templateElement w) scope ++
             [.cloneConnect f.label ((cloneOf templateElement w).map Node.id) scope] }

/-- The statement `linkingFn && linkingFn(scope, element, true)`. -/
def linkOn (linkingFn : Option (List LinkEntry)) (scope : Nat) (element : List Node)
    (w : World) : LinkResult :=
  match linkingFn with
  | some linkingFns => listLinkingFn linkingFns scope element true w
  | none => { world := w, error := none }

/-! ## The tokens of a class string -/

/-- The successive matches of `CLASS_DIRECTIVE_REGEXP` on a class string, as the `while` loop
of `compileNodes` finds them: each match is searched in the text left by the one before. -/
def classTokens : Nat → List Char → List ClassMatch
  | 0, _ => []
  | fuel + 1, text =>
    match execClass text with
    | none => []
    | some m => m :: classTokens fuel (text.drop (m.index + m.whole.length))

/-- The directive a match of the class loop names, if its canonical name is registered. -/
def tokenDirective (env : Env) (reg : Registry) (m : ClassMatch) : Option Directive :=
  resolve reg (env.camelCase (String.mk m.name))

/-- The values of the attrs after a match of the class loop: a match that names a directive
stores its trimmed value under the canonical name. -/
def storeToken (env : Env) (reg : Registry) (vals : List (String × AttrVal)) (m : ClassMatch) :
    List (String × AttrVal) :=
  if (tokenDirective env reg m).isSome then
    setKey (env.camelCase (String.mk m.name)) (trimMatch env m.value) vals
  else vals

/-- The registry of the test `should allow directives in classes`: `greet`, `b` and `c`. -/
def classRegistry : Registry :=
  [("greet", templateFnDescriptor (some 10) (.returns (.fn (.user "greet" none)))),
   ("b", templateFnDescriptor (some 2) (.returns (.fn (.user "b" none)))),
   ("c", templateFnDescriptor (some 1) (.returns (.fn (.user "c" none))))]

/-- The names and values of the matches of the class loop on a class string. -/
def tokenTexts (className : String) : List (String × Option String) :=
  (classTokens className.data.length className.data).map
    (fun m => (String.mk m.name, m.value.map String.mk))

/-- A token as it is written in a class string: its name, its value (the text after `:`), if
it has one, and the separator text that follows it. -/
structure ClassToken where
  name : List Char
  value : Option (List Char)
  sep : List Char
deriving DecidableEq, Repr

/-- The text `:value` of a token, empty when it has no value. -/
def valueText : Option (List Char) → List Char
  | none => []
  | some v => ':' :: v

/-- The class string made of the tokens, each followed by its separator. -/
def renderTokens : List ClassToken → List Char
  | [] => []
  | t :: rest => t.name ++ valueText t.value ++ t.sep ++ renderTokens rest

/-- A token is well delimited before the text `rest`: the name is a non-empty run of name
characters; a value is non-empty and holds no `;`; the separator holds no name character and
is empty only at the end of the string; a token with a value is ended by `;` (or by the end of
the string); the separator of a token without value does not start with `:`. -/
def Delimited (t : ClassToken) (rest : List Char) : Prop :=
  t.name ≠ [] ∧ t.name.all isNameChar = true ∧
  (∀ v ∈ t.value, v ≠ [] ∧ v.all (fun c => c != ';') = true) ∧
  t.sep.all (fun c => !isNameChar c) = true ∧
  (t.sep = [] → rest = []) ∧
  (t.value = none → t.sep.head? ≠ some ':') ∧
  (t.value.isSome = true → t.sep.head? = some ';' ∨ t.sep = [])

instance Delimited.decidable (t : ClassToken) (rest : List Char) : Decidable (Delimited t rest) := by
  unfold Delimited
  infer_instance

/-- Every token of the list is well delimited before the tokens that follow it. -/
def AllDelimited : List ClassToken → Prop
  | [] => True
  | t :: rest => Delimited t (renderTokens rest) ∧ AllDelimited rest

instance AllDelimited.decidable : (ts : List ClassToken) → Decidable (AllDelimited ts)
  | [] => isTrue trivial
  | t :: rest =>
    match Delimited.decidable t (renderTokens rest), AllDelimited.decidable rest with
    | isTrue h1, isTrue h2 => isTrue ⟨h1, h2⟩
    | isFalse h1, _ => isFalse (fun h => h1 h.1)
    | _, isFalse h2 => isFalse (fun h => h2 h.2)

/-- The tokens of the class `greet: angular; b:123; c` of the test `should allow directives in
classes`. -/
def greetTokens : List ClassToken :=
  [{ name := "greet".data, value := some " angular".data, sep := "; ".data },
   { name := "b".data, value := some "123".data, sep := "; ".data },
   { name := "c".data, value := none, sep := [] }]

/-- The directive a written token names, if its canonical name is registered. -/
def writtenDirective (env : Env) (reg : Registry) (t : ClassToken) : Option Directive :=
  resolve reg (env.camelCase (String.mk t.name))

/-- The values of the attrs after a written token: a token that names a directive stores its
trimmed value under the canonical name. -/
def storeWritten (env : Env) (reg : Registry) (vals : List (String × AttrVal)) (t : ClassToken) :
    List (String × AttrVal) :=
  if (writtenDirective env reg t).isSome then
    setKey (env.camelCase (String.mk t.name)) (trimMatch env t.value) vals
  else vals

/-- The scan state at the start of the class loop of an element without attributes whose node
name is no directive. -/
def freshScan : ScanState :=
  { directives := [], attrs := emptyAttrs, world := World.init }

/-! ## The directives the loop examines -/

/-- The directives examined by the loop, told without the loop: those of the sorted list up to
and including the first one whose priority is below the running terminal priority (all of them
when there is none). -/
def examined : List Directive → Option Int → List Directive
  | [], _ => []
  | d :: rest, tp =>
    if belowTerminal tp d.priority then [d] else d :: examined rest (nextTerminal d tp)

/-- A registry with `stop` (terminal, priority 10) and `fork` (asks for a new scope, priority
5), each with a compile step. -/
def cutScopeRegistry : Registry :=
  [("stop", .obj (some 10) true false (some (.returns (.fn (.user "stop" none))))),
   ("fork", .obj (some 5) false true (some (.returns (.fn (.user "fork" none)))))]

/-- The template `<div><span fork stop></span></div>`. -/
def cutScopeTemplate : List Node :=
  [element 1 "DIV" [] [element 2 "SPAN" [("fork", ""), ("stop", "")] []]]

/-- Compile the template with `stop` and `fork` in a fresh world and link it on itself with the
root scope 100: the world afterwards. -/
def cutScopeRun : World :=
  (templateFunction (compile stdEnv cutScopeRegistry cutScopeTemplate World.init).1
    cutScopeTemplate 100 none
    (compile stdEnv cutScopeRegistry cutScopeTemplate World.init).2).2.world

/-! ## The rounds of the class loop -/

/-- The number of times the `while` loop over the class string evaluates its condition
`CLASS_DIRECTIVE_REGEXP.exec(text)`, the last, failing time included; `none` when more than
`fuel` evaluations would be needed. -/
def classRounds : Nat → List Char → Option Nat
  | 0, _ => none
  | fuel + 1, text =>
    match execClass text with
    | none => some 1
    | some m => (classRounds fuel (text.drop (m.index + m.whole.length))).map (fun k => k + 1)

/-- The calls `put('a', 1)`, `put('b', 2)`, `get('a')`: afterwards `b` is the least recently
used key. -/
def CacheFactory.twoThenGet : List CacheFactory.Call :=
  [.put "a" (some (.user 1)), .put "b" (some (.user 2)), .get "a"]

/-- The calls `put('a', undefined)`, `put('b', 1)`: afterwards the cache holds the key `b`
only. -/
def CacheFactory.undefinedThenOne : List CacheFactory.Call :=
  [.put "a" none, .put "b" (some (.user 1))]

/-- The calls `put('toString', 1)`, `put('a', 2)`. -/
def CacheFactory.memberThenOne : List CacheFactory.Call :=
  [.put "toString" (some (.user 1)), .put "a" (some (.user 2))]

/-! ## `route.js` -/

namespace Route

/-- A value held by a property of a route object or of a parameter map, or read through one:
`undefined`, a string, a boolean, a function known by a label, or the inherited member
`Object.prototype[member]`. -/
inductive Val where
  | undefined
  | str (s : String)
  | bool (b : Bool)
  | fn (label : String)
  | inherited (member : String)
deriving DecidableEq, Repr

/-- A plain object with flat values: its own properties in the order they were created. -/
abbrev Obj := List (String × Val)

/-- The variable `routes` of the provider: a plain object from property name to route object,
its own properties in the order they were created. -/
abbrev Routes := List (String × Obj)

/-- The helpers of angular.js that `route.js` calls and that live in other files: the variadic
`extend(dst, src1, src2, ...)`, and the texts `Array.prototype.join` gives for a function and
for an inherited member of `Object.prototype`. -/
structure Helpers where
  extend : Obj → List Obj → Obj
  functionText : String → String
  memberText : String → String

/-- The property name a path is used as: `routes[null]` is `routes['null']`. -/
def keyOf : Option String → String
  | none => "null"
  | some p => p

/-- The expression `(path[path.length-1] == '/') ? path.substr(0, path.length-1) : path + '/'`. -/
def redirectPath (path : String) : String :=
  if path.data.getLast? = some '/' then String.mk path.data.dropLast else path ++ "/"

/-- The method `when(path, route)` of the provider, on its variable `routes`; `path = none` is
`null`. The method returns `this`, the provider whose table was written. -/
def when (h : Helpers) (path : Option String) (route : Obj) (routes : Routes) : Routes :=
  let routes1 := setKey (keyOf path) (h.extend [("reloadOnSearch", .bool true)] [route]) routes
  match path with
  | none => routes1
  | some p =>
    if p = "" then routes1
    else setKey (redirectPath p) [("redirectTo", .str p)] routes1

/-- The method `otherwise(params)`: `this.when(null, params)`. -/
def otherwise (h : Helpers) (params : Obj) (routes : Routes) : Routes :=
  when h none params routes

/-- What `$location.path()` and `$location.search()` return. -/
structure Location where
  path : String
  search : Obj
deriving DecidableEq, Repr

/-- The object `parseRoute` returns: it inherits from the route `proto` (`inherit(route, ...)`)
and has the own properties `params` and `pathParams`, and `$route` when it was made for a
matched route. -/
structure Current where
  proto : Obj
  params : Obj
  pathParams : Obj
  route : Option Obj
deriving DecidableEq, Repr

/-- The number a property name stands for when it is an array index: the canonical decimal
numeral (no sign, no leading zero) of a number below `2^32 - 1`. -/
def arrayIndex (key : String) : Option Nat :=
  if key.data ≠ [] ∧ key.data.all Char.isDigit = true ∧
      (key.data.head? ≠ some '0' ∨ key.data.length = 1) then
    if key.data.foldl (fun n c => 10 * n + (c.toNat - 48)) 0 < 4294967295 then
      some (key.data.foldl (fun n c => 10 * n + (c.toNat - 48)) 0)
    else none
  else none

/-- The order of two array-index property names: by the numbers they stand for. -/
def indexOrder (a b : String × Obj) : Prop :=
  (arrayIndex a.1).getD 0 ≤ (arrayIndex b.1).getD 0

instance : DecidableRel indexOrder :=
  fun a b => inferInstanceAs (Decidable ((arrayIndex a.1).getD 0 ≤ (arrayIndex b.1).getD 0))

/-- The order in which `forEach(routes, ...)` visits the table. The helper `forEach` lives in
another file and is taken to visit the own properties in the order of `for (key in routes)`:
the properties whose name is an array index first, in ascending numeric order, then the other
properties in the order they were created. -/
def forEachOrder (routes : Routes) : Routes :=
  (routes.filter (fun e => (arrayIndex e.1).isSome)).insertionSort indexOrder ++
    routes.filter (fun e => (arrayIndex e.1).isNone)

/-- The callback of the `forEach(routes, ...)` in `parseRoute`, on the variable `match`: once a
route matched, the matcher is not called again. -/
def visitRoute (h : Helpers) (matcher : String → String → Option Obj) (loc : Location)
    (found : Option Current) (entry : String × Obj) : Option Current :=
  match found with
  | some c => some c
  | none =>
    match matcher loc.path entry.1 with
    | none => none
    | some params =>
      some { proto := entry.2, params := h.extend [] [loc.search, params], pathParams := params,
             route := some entry.2 }

/-- The function `parseRoute()`, with the function held by the variable `matcher` (in the source
`switchRouteMatcher`, which answers the path parameters or `null`) taken as a parameter. -/
def parseRoute (h : Helpers) (matcher : String → String → Option Obj) (routes : Routes)
    (loc : Location) : Option Current :=
  match (forEachOrder routes).foldl (visitRoute h matcher loc) none with
  | some c => some c
  | none =>
    match getKey "null" routes with
    | some r => some { proto := r, params := [], pathParams := [], route := none }
    | none => none

/-- The class `\w`. -/
def isWordChar (c : Char) : Bool :=
  c.isAlphanum || c == '_'

/-- The call `string.split(':')`. -/
def splitColon : List Char → List (List Char)
  | [] => [[]]
  | c :: cs =>
    if c = ':' then [] :: splitColon cs
    else
      match splitColon cs with
      | seg :: rest => (c :: seg) :: rest
      | [] => [[c]]

/-- The call `segment.match(/(\w+)(.*)/)`: the groups 1 and 2 of the leftmost match, `none` when
the segment holds no word character. The group `(.*)` stops at a line terminator. -/
def segmentMatch (segment : List Char) : Option (List Char × List Char) :=
  let s := segment.dropWhile (fun c => !isWordChar c)
  if s = [] then none
  else
    some (s.takeWhile isWordChar,
      (s.drop (s.takeWhile isWordChar).length).takeWhile (fun c => !isLineTerminator c))

/-- The value `Object.prototype[member]` read through a parameter map. -/
def inheritedVal (member : String) : Val :=
  .inherited member

/-- The text `Array.prototype.join` gives for an element: nothing for `undefined`, the string
itself, `true` or `false`, the text of a function, the text of an inherited member. -/
def joinText (h : Helpers) : Option Val → List Char
  | none => []
  | some .undefined => []
  | some (.str s) => s.data
  | some (.bool true) => "true".data
  | some (.bool false) => "false".data
  | some (.fn label) => (h.functionText label).data
  | some (.inherited member) => (h.memberText member).data

/-- The error of reading `segmentMatch[1]` when `segmentMatch` is `null`. -/
def nullMatch : String := "TypeError: segmentMatch is null"

/-- The callback of the `forEach` in `interpolate` for the segments after the first: the text
pushed to `result` and the parameter map after `delete params[key]`. -/
def visitSegments (h : Helpers) : List (List Char) → List Char → Obj →
    Except String (List Char × Obj)
  | [], result, params => .ok (result, params)
  | segment :: rest, result, params =>
    match segmentMatch segment with
    | none => .error nullMatch
    | some (key, tail) =>
      visitSegments h rest
        (result ++ joinText h (lookup inheritedVal params (String.mk key)) ++ tail)
        (deleteKey (String.mk key) params)

/-- The function `interpolate(string, params)`; `string = none` is `undefined` or `null`. The
result is the text returned with the parameter map as the calls of `delete` leave it, or the
exception thrown. -/
def interpolate (h : Helpers) (string : Option String) (params : Obj) :
    Except String (String × Obj) :=
  match splitColon (string.getD "").data with
  | [] => .ok ("", params)
  | first :: rest =>
    match visitSegments h rest first params with
    | .ok (result, params1) => .ok (String.mk result, params1)
    | .error e => .error e

/-- The helper `extend` as angular.js defines it: the properties of each source, in turn, are
written to the destination. -/
def stdExtend (dst : Obj) (srcs : List Obj) : Obj :=
  srcs.foldl (fun d src => src.foldl (fun d1 p => setKey p.1 p.2 d1) d) dst

/-- The helpers as angular.js defines them. The text of a function is taken to be its label;
the text of an inherited member is `[object Object]` for `__proto__`, which is the object
`Object.prototype`, and the source text of a native function for the others. -/
def stdHelpers : Helpers :=
  { extend := stdExtend, functionText := fun label => label,
    memberText := fun member =>
      if member = "__proto__" then "[object Object]"
      else "function " ++ member ++ "() \x7b [native code] \x7d" }

/-- What `switchRouteMatcher(on, when)` computes for two shapes of `when`. For a `when` made of
word characters and `/` only, the regular expression is `^when$` without parameters: the match
is the equality of the two texts and there are no path parameters. For a `when` that is `:name`
followed by a suffix, with `name` a non-empty run of word characters other than `__proto__`
and the suffix either empty or a text of word characters and `/` that starts with `/`, the
regular expression becomes `^([^\/]*)suffix$` with the one parameter `name`: the path matches
when what it holds from its first `/` on is the suffix, and the value of `name` is what stands
before. Other shapes of `when` are not covered and are answered `none` here. -/
def simpleMatcher (path pattern : String) : Option Obj :=
  match pattern.data with
  | ':' :: rest =>
    if rest.takeWhile isWordChar ≠ [] ∧ String.mk (rest.takeWhile isWordChar) ≠ "__proto__" ∧
        (rest.dropWhile isWordChar).all (fun c => isWordChar c || c == '/') = true then
      if path.data.dropWhile (fun c => c != '/') = rest.dropWhile isWordChar then
        some [(String.mk (rest.takeWhile isWordChar),
          .str (String.mk (path.data.takeWhile (fun c => c != '/'))))]
      else none
    else none
  | _ =>
    if pattern.data.all (fun c => isWordChar c || c == '/') = true ∧ path = pattern then some []
    else none

end Route

/-- The table of the test `should handle unknown routes with "otherwise" route definition`:
`when('/foo', \x7btemplate: 'foo.html'\x7d)` and `otherwise(\x7btemplate: '404.html'\x7d)`. -/
def Route.otherwiseTable : Route.Routes :=
  Route.otherwise Route.stdHelpers [("template", .str "404.html")]
    (Route.when Route.stdHelpers (some "/foo") [("template", .str "foo.html")] [])

/-- A table in which the second path registered is an array index:
`when(':x', \x7btemplate: 'x.html'\x7d)` and then `when('7', \x7btemplate: 'seven.html'\x7d)`. -/
def Route.indexTable : Route.Routes :=
  Route.when Route.stdHelpers (some "7") [("template", .str "seven.html")]
    (Route.when Route.stdHelpers (some ":x") [("template", .str "x.html")] [])

/-! ## Redirect templates as written -/

/-- A placeholder of a redirect template as it is written: the name after `:` and the text
that follows the name up to the next `:`. -/
structure Route.Placeholder where
  name : List Char
  text : List Char
deriving DecidableEq, Repr

/-- The template made of a first text and the placeholders, each written `:name` and followed
by its text. -/
def Route.renderTemplate (first : List Char) : List Route.Placeholder → List Char
  | [] => first
  | p :: rest => first ++ ':' :: Route.renderTemplate (p.name ++ p.text) rest

/-- A placeholder is well placed: its name is a non-empty run of word characters, the text
after it does not go on with a word character (the name is the maximal run), and that text
holds no `:` and no line terminator. -/
def Route.WellPlaced (p : Route.Placeholder) : Prop :=
  p.name ≠ [] ∧ p.name.all Route.isWordChar = true ∧
  (∀ c ∈ p.text.head?, Route.isWordChar c = false) ∧
  p.text.all (fun c => c != ':' && !isLineTerminator c) = true

instance Route.WellPlaced.decidable (p : Route.Placeholder) : Decidable (Route.WellPlaced p) := by
  unfold Route.WellPlaced
  infer_instance

/-- No placeholder is named like a member of `Object.prototype`. -/
def Route.OwnNames (ps : List Route.Placeholder) : Prop :=
  ∀ p ∈ ps, objectPrototype.contains (String.mk p.name) = false

instance Route.OwnNames.decidable (ps : List Route.Placeholder) : Decidable (Route.OwnNames ps) := by
  unfold Route.OwnNames
  infer_instance

/-- The text that takes the place of the placeholders and their texts: each name is replaced by
the text of the value the parameter map holds for it, as the placeholders before it left the
map (by nothing when the map holds no value for it), and is deleted from the map. -/
def Route.substituted (h : Route.Helpers) : List Route.Placeholder → Route.Obj → List Char
  | [], _ => []
  | p :: rest, params =>
    Route.joinText h (getKey (String.mk p.name) params) ++ p.text ++
      Route.substituted h rest (deleteKey (String.mk p.name) params)

/-- The parameter map after the names of the placeholders were deleted from it. -/
def Route.unused : List Route.Placeholder → Route.Obj → Route.Obj
  | [], params => params
  | p :: rest, params => Route.unused rest (deleteKey (String.mk p.name) params)

/-- The placeholders of the template `/bar/:id?:subid=23` of the test `should interpolate route
vars in the redirected url from original params`. -/
def Route.barPlaceholders : List Route.Placeholder :=
  [{ name := "id".data, text := "?".data }, { name := "subid".data, text := "=23".data }]

/-- The parameters of that test: those of the path `/foo/id1/foo/subid3/gah` under the route
`/foo/:id/foo/:subid/:extraId`. -/
def Route.barParams : Route.Obj :=
  [("id", .str "id1"), ("subid", .str "subid3"), ("extraId", .str "gah")]

/-! ## Comments as written -/

/-- A comment text as it is written: leading text, `directive:`, the text before the name, the
name, the text between the name and the arguments, and the arguments. -/
structure CommentForm where
  lead : List Char
  gap : List Char
  name : List Char
  space : List Char
  args : List Char
deriving DecidableEq, Repr

/-- The comment text made of the parts. -/
def renderComment (f : CommentForm) : List Char :=
  f.lead ++ ("directive:".data ++ (f.gap ++ (f.name ++ (f.space ++ f.args))))

/-- The parts make a directive comment: the leading text and the text before the name are
whitespace (possibly empty), the name is a non-empty run of name characters, at least one
whitespace character follows the name, and the arguments, which start after all of that
whitespace, hold no line terminator. -/
def DirectiveComment (f : CommentForm) : Prop :=
  f.lead.all isSpaceChar = true ∧ f.gap.all isSpaceChar = true ∧
  f.name ≠ [] ∧ f.name.all isNameChar = true ∧
  f.space ≠ [] ∧ f.space.all isSpaceChar = true ∧
  (∀ c ∈ f.args.head?, isSpaceChar c = false) ∧
  f.args.all (fun c => !isLineTerminator c) = true

instance DirectiveComment.decidable (f : CommentForm) : Decidable (DirectiveComment f) := by
  unfold DirectiveComment
  infer_instance

/-- The parts of the comment ` directive: log angular ` of the test `should allow directives in
comments`. -/
def logComment : CommentForm :=
  { lead := " ".data, gap := " ".data, name := "log".data, space := " ".data,
    args := "angular ".data }

/-! ## The attrs of an element -/

/-- The canonical name of a declared attribute or of a tag: `camelCase(name.toLowerCase())`. -/
def canonical (env : Env) (name : String) : String :=
  env.camelCase (env.lowercase name)

/-- The value the attribute loop leaves under the canonical name of a declared attribute:
`true` for a boolean attribute, the trimmed value otherwise. -/
def declaredValue (env : Env) (a : String × String) : AttrVal :=
  if (env.BOOLEAN_ATTR (canonical env a.1)).isSome then .bool true else .str (env.trim a.2)

/-- The values of the attrs after one declared attribute. -/
def storeDeclared (env : Env) (vals : List (String × AttrVal)) (a : String × String) :
    List (String × AttrVal) :=
  setKey (canonical env a.1) (declaredValue env a) vals

/-- The table `$attr` after one declared attribute: canonical name to declared name. -/
def mapDeclared (env : Env) (attrMap : List (String × String)) (a : String × String) :
    List (String × String) :=
  setKey (canonical env a.1) a.1 attrMap

/-- The element `<div b=" x " class="b: y" required>`. -/
def overriddenNode : Node :=
  element 1 "DIV" [("b", " x "), ("class", "b: y"), ("required", "")] []

/-- The element `<b c="\x7b\x7bx\x7d\x7d" required>`. -/
def orderedNode : Node :=
  element 1 "B" [("c", "\x7b\x7bx\x7d\x7d"), ("required", "")] []

/-! ## The compile steps of a tree -/

/-- The compile steps called for the directives of one node, in order: those of the iterations
of the loop over the sorted match list. -/
def ownSteps (env : Env) (reg : Registry) (node : Node) : List (Directive × Nat) :=
  (compiled (iterations (sortByPriority (matchList env reg node)) false none)).map
    (fun d => (d, node.id))

/-- A directive of the node is terminal: the children are not compiled. -/
def blocksDescent (env : Env) (reg : Registry) (node : Node) : Bool :=
  (matchList env reg node).any (fun d => d.terminal)

mutual
/-- The compile steps of a node and its descendants in document pre-order: the steps of the
node itself, then those of its children, unless a terminal directive blocks the descent. -/
def stepsOfNode (env : Env) (reg : Registry) : Node → List (Directive × Nat)
  | .mk id nodeType nodeName attributes className nodeValue childNodes =>
    ownSteps env reg (Node.mk id nodeType nodeName attributes className nodeValue childNodes) ++
      (if blocksDescent env reg
          (Node.mk id nodeType nodeName attributes className nodeValue childNodes) then []
       else stepsOfList env reg childNodes)
termination_by structural n => n
/-- The compile steps of a node list: those of each node with its descendants, in turn. -/
def stepsOfList (env : Env) (reg : Registry) : List Node → List (Directive × Nat)
  | [] => []
  | node :: rest => stepsOfNode env reg node ++ stepsOfList env reg rest
termination_by structural l => l
end

/-- An event of a registry lookup: a factory invoked, or its exception reported. -/
def isLookupEvent : Event → Bool
  | .invoke _ => true
  | .report _ => true
  | _ => false

/-- The template `<a b><c></c></a>` of the test `should compile from top to bottom but link
from bottom up`. -/
def orderTemplate : List Node :=
  [element 1 "A" [("b", "")] [element 2 "C" [] []]]

/-- Compile that template with the registry of `a`, `b` and `c` in a fresh world and link it on
itself with the scope 100: the world afterwards. -/
def orderRun : World :=
  (templateFunction (compile stdEnv abcRegistry orderTemplate World.init).1 orderTemplate 100
    none (compile stdEnv abcRegistry orderTemplate World.init).2).2.world

/-! # Theorems -/

open scoped List

/-! ## Reading a trace -/

@[simp] theorem compileCalls_append (a b : List Event) :
    compileCalls (a ++ b) = compileCalls a ++ compileCalls b := by
  induction a with
  | nil => rfl
  | cons e a ih => cases e <;> simp [compileCalls, ih]

@[simp] theorem reports_append (a b : List Event) :
    reports (a ++ b) = reports a ++ reports b := by
  induction a with
  | nil => rfl
  | cons e a ih => cases e <;> simp [reports, ih]

@[simp] theorem linkLabels_append (a b : List Event) :
    linkLabels (a ++ b) = linkLabels a ++ linkLabels b := by
  induction a with
  | nil => rfl
  | cons e a ih =>
    cases e with
    | link p f s el ats =>
      cases f <;> simp [linkLabels, ih]
    | _ => simp [linkLabels, ih]

@[simp] theorem emit_trace (w : World) (e : Event) : (w.emit e).trace = w.trace ++ [e] := rfl

@[simp] theorem emit_directiveCache (w : World) (e : Event) :
    (w.emit e).directiveCache = w.directiveCache := rfl

@[simp] theorem emit_nextId (w : World) (e : Event) : (w.emit e).nextId = w.nextId := rfl

theorem priorityOrder_iff (a b : Directive) : priorityOrder a b ↔ b.priority ≤ a.priority := by
  unfold priorityOrder byPriority
  omega

theorem sortByPriority_perm (directives : List Directive) :
    (sortByPriority directives).Perm directives :=
  List.perm_insertionSort _ _

theorem sortByPriority_sorted (directives : List Directive) :
    (sortByPriority directives).Pairwise (fun a b => b.priority ≤ a.priority) := by
  have h := List.sorted_insertionSort priorityOrder directives
  exact List.Pairwise.imp (fun {a b} hab => (priorityOrder_iff a b).1 hab) h

theorem iterations_isPrefix (ds : List Directive) (hasScope : Bool) (tp : Option Int) :
    (iterations ds hasScope tp).map (fun p => p.1) <+: ds := by
  induction ds generalizing hasScope tp with
  | nil => simp [iterations]
  | cons d rest ih =>
    unfold iterations
    split
    · simpa using ih _ _
    · split
      · exact List.nil_prefix
      · simpa using ih _ _

theorem compiled_sublist (its : List (Directive × Bool)) :
    compiled its <+ its.map (fun p => p.1) :=
  List.Sublist.map _ (List.filter_sublist _)

@[simp] theorem markTerminal_world (d : Directive) (st : ApplyState) :
    (markTerminal d st).world = st.world := by
  unfold markTerminal; split <;> rfl

@[simp] theorem markTerminal_linkingFns (d : Directive) (st : ApplyState) :
    (markTerminal d st).linkingFns = st.linkingFns := by
  unfold markTerminal; split <;> rfl

@[simp] theorem markTerminal_attrs (d : Directive) (st : ApplyState) :
    (markTerminal d st).attrs = st.attrs := by
  unfold markTerminal; split <;> rfl

@[simp] theorem markTerminal_newScopeDirective (d : Directive) (st : ApplyState) :
    (markTerminal d st).newScopeDirective = st.newScopeDirective := by
  unfold markTerminal; split <;> rfl

@[simp] theorem markTerminal_terminalPriority (d : Directive) (st : ApplyState) :
    (markTerminal d st).terminalPriority = nextTerminal d st.terminalPriority := by
  unfold markTerminal nextTerminal; split <;> rfl

@[simp] theorem markTerminal_terminal (d : Directive) (st : ApplyState) :
    (markTerminal d st).terminal = (d.terminal || st.terminal) := by
  unfold markTerminal; split <;> simp_all

theorem attrSetter_compileCalls (env : Env) (self : Attrs) (key : String) (value : AttrVal)
    (w : World) : compileCalls (attrSetter env self key value w).2.trace = compileCalls w.trace := by
  unfold attrSetter
  split
  · dsimp only
    split <;> simp [compileCalls]
  · dsimp only
    split <;> simp [compileCalls]

theorem callTemplateFn_compileCalls (env : Env) (d : Directive) (f : TemplateFn) (node : Nat)
    (attrs : Attrs) (w : World) :
    compileCalls (callTemplateFn env d f node attrs w).2.2.trace =
      compileCalls w.trace ++ [(d, node)] := by
  unfold callTemplateFn
  cases f with
  | returns l => simp [compileCalls]
  | throws e => simp [compileCalls]
  | attrInterpolate i n v =>
    cases i <;> simp [compileCalls, attrSetter_compileCalls]

theorem callTemplateFn_returned (env : Env) (d : Directive) (f : TemplateFn) (node : Nat)
    (attrs : Attrs) (w : World) :
    (callTemplateFn env d f node attrs w).1.toOption = f.returned := by
  unfold callTemplateFn
  cases f with
  | returns l => rfl
  | throws e => rfl
  | attrInterpolate i n v => cases i <;> rfl

@[simp] theorem claimScope_world (d : Directive) (st : ApplyState) :
    (claimScope d st).world = st.world := by
  unfold claimScope; split <;> rfl

@[simp] theorem claimScope_linkingFns (d : Directive) (st : ApplyState) :
    (claimScope d st).linkingFns = st.linkingFns := by
  unfold claimScope; split <;> rfl

@[simp] theorem claimScope_attrs (d : Directive) (st : ApplyState) :
    (claimScope d st).attrs = st.attrs := by
  unfold claimScope; split <;> rfl

@[simp] theorem claimScope_terminalPriority (d : Directive) (st : ApplyState) :
    (claimScope d st).terminalPriority = st.terminalPriority := by
  unfold claimScope; split <;> rfl

@[simp] theorem claimScope_terminal (d : Directive) (st : ApplyState) :
    (claimScope d st).terminal = st.terminal := by
  unfold claimScope; split <;> rfl

theorem claimScope_isSome (d : Directive) (st : ApplyState) :
    (claimScope d st).newScopeDirective.isSome = (st.newScopeDirective.isSome || d.scope) := by
  unfold claimScope; split <;> simp_all

@[simp] theorem compileStep_newScopeDirective (env : Env) (node : Node) (d : Directive)
    (st : ApplyState) : (compileStep env node d st).newScopeDirective = st.newScopeDirective := by
  unfold compileStep
  split
  · rfl
  · split <;> rfl

@[simp] theorem compileStep_terminalPriority (env : Env) (node : Node) (d : Directive)
    (st : ApplyState) : (compileStep env node d st).terminalPriority = st.terminalPriority := by
  unfold compileStep
  split
  · rfl
  · split <;> rfl

@[simp] theorem compileStep_terminal (env : Env) (node : Node) (d : Directive)
    (st : ApplyState) : (compileStep env node d st).terminal = st.terminal := by
  unfold compileStep
  split
  · rfl
  · split <;> rfl

theorem compileStep_compileCalls (env : Env) (node : Node) (d : Directive) (st : ApplyState) :
    compileCalls (compileStep env node d st).world.trace =
      compileCalls st.world.trace ++ if d.templateFn.isSome then [(d, node.id)] else [] := by
  unfold compileStep
  cases hf : d.templateFn with
  | none => simp
  | some f =>
    have hc := callTemplateFn_compileCalls env d f node.id st.attrs st.world
    rcases hr : callTemplateFn env d f node.id st.attrs st.world with ⟨res, a, w1⟩
    rw [hr] at hc
    cases res with
    | ok l => simpa [hr] using hc
    | error e => simpa [hr, compileCalls] using hc

theorem compileStep_linkingFns (env : Env) (node : Node) (d : Directive) (st : ApplyState) :
    (compileStep env node d st).linkingFns = st.linkingFns ++ d.returned.toList := by
  unfold compileStep Directive.returned
  cases hf : d.templateFn with
  | none => simp
  | some f =>
    have hc := callTemplateFn_returned env d f node.id st.attrs st.world
    rcases hr : callTemplateFn env d f node.id st.attrs st.world with ⟨res, a, w1⟩
    rw [hr] at hc
    cases res with
    | ok l =>
      have : f.returned = some l := by rw [← hc]; rfl
      simp [this, hr]
    | error e =>
      have : f.returned = none := by rw [← hc]; rfl
      simp [this, hr]

theorem scopeConflict_eq_none (d : Directive) (st : ApplyState) :
    scopeConflict d st = none ↔ (d.scope && st.newScopeDirective.isSome) = false := by
  unfold scopeConflict
  cases d.scope <;> cases st.newScopeDirective <;> simp

theorem applyLoop_cons (env : Env) (node : Node) (d : Directive) (rest : List Directive)
    (st : ApplyState) :
    applyLoop env node (d :: rest) st =
      if (d.scope && st.newScopeDirective.isSome) = true then
        applyLoop env node rest
          (markTerminal d
            { st with world := (st.world.emit
                (.report (multipleScopeError env (st.newScopeDirective.getD d) d node))) })
      else if belowTerminal st.terminalPriority d.priority = true then claimScope d st
      else applyLoop env node rest (markTerminal d (compileStep env node d (claimScope d st))) := by
  rw [applyLoop]
  cases hs : d.scope <;> cases hn : st.newScopeDirective <;> simp [scopeConflict, hs, hn]

theorem applyLoop_compileCalls (env : Env) (node : Node) (ds : List Directive) :
    ∀ st : ApplyState,
      compileCalls (applyLoop env node ds st).world.trace =
        compileCalls st.world.trace ++
          (compiled (iterations ds st.newScopeDirective.isSome st.terminalPriority)).map
            (fun d => (d, node.id)) := by
  induction ds with
  | nil => intro st; simp [applyLoop, iterations, compiled]
  | cons d rest ih =>
    intro st
    rw [applyLoop_cons, iterations]
    by_cases hc : (d.scope && st.newScopeDirective.isSome) = true
    · rw [if_pos hc, if_pos hc, ih]
      simp [compiled, compileCalls]
    · rw [if_neg hc, if_neg hc]
      by_cases hb : belowTerminal st.terminalPriority d.priority = true
      · rw [if_pos hb, if_pos hb]
        simp [compiled]
      · rw [if_neg hb, if_neg hb, ih]
        simp only [markTerminal_world, markTerminal_newScopeDirective,
          markTerminal_terminalPriority, compileStep_newScopeDirective,
          compileStep_terminalPriority, claimScope_terminalPriority, claimScope_isSome,
          compileStep_compileCalls, claimScope_world]
        cases d.templateFn <;> simp [compiled]

theorem applyLoop_linkingFns (env : Env) (node : Node) (ds : List Directive) :
    ∀ st : ApplyState,
      (applyLoop env node ds st).linkingFns =
        st.linkingFns ++
          (compiled (iterations ds st.newScopeDirective.isSome st.terminalPriority)).filterMap
            Directive.returned := by
  induction ds with
  | nil => intro st; simp [applyLoop, iterations, compiled]
  | cons d rest ih =>
    intro st
    rw [applyLoop_cons, iterations]
    by_cases hc : (d.scope && st.newScopeDirective.isSome) = true
    · rw [if_pos hc, if_pos hc, ih]
      simp [compiled]
    · rw [if_neg hc, if_neg hc]
      by_cases hb : belowTerminal st.terminalPriority d.priority = true
      · rw [if_pos hb, if_pos hb]
        simp [compiled]
      · rw [if_neg hb, if_neg hb, ih]
        simp only [markTerminal_linkingFns, markTerminal_newScopeDirective,
          markTerminal_terminalPriority, compileStep_newScopeDirective,
          compileStep_terminalPriority, claimScope_terminalPriority, claimScope_isSome,
          compileStep_linkingFns, claimScope_linkingFns]
        cases hf : d.templateFn with
        | none => simp [compiled, Directive.returned, hf]
        | some f =>
          cases hr : d.returned <;> simp [compiled, hr]

/-! ## Scope requests without conflict -/

theorem NoConflict.head {d : Directive} {rest : List Directive} {hasScope : Bool}
    (h : NoConflict (d :: rest) hasScope) : (d.scope && hasScope) = false := by
  unfold NoConflict at h
  cases hasScope with
  | true => simpa using h d (List.mem_cons_self _ _)
  | false => simp

theorem NoConflict.tail {d : Directive} {rest : List Directive} {hasScope : Bool}
    (h : NoConflict (d :: rest) hasScope) : NoConflict rest (hasScope || d.scope) := by
  unfold NoConflict at h ⊢
  cases hasScope with
  | true =>
    simp only [if_true, Bool.true_or] at h ⊢
    exact fun x hx => h x (List.mem_cons_of_mem _ hx)
  | false =>
    simp only [Bool.false_eq_true, if_false, Bool.false_or] at h ⊢
    cases hs : d.scope with
    | true =>
      simp only [if_true]
      intro x hx
      by_contra hne
      have hxs : x.scope = true := by simpa using hne
      have hmem : x ∈ rest.filter (fun d => d.scope) := List.mem_filter.2 ⟨hx, hxs⟩
      have hpos : 0 < (rest.filter (fun d => d.scope)).length := List.length_pos_of_mem hmem
      have h2 : ((d :: rest).filter (fun d => d.scope)).length =
          (rest.filter (fun d => d.scope)).length + 1 := by
        simp [List.filter_cons, hs]
      omega
    | false =>
      simp only [Bool.false_eq_true, if_false]
      simpa [List.filter_cons, hs] using h

theorem iterations_all_compiled (ds : List Directive) :
    ∀ (hasScope : Bool) (tp : Option Int), NoConflict ds hasScope →
      (∀ d ∈ ds, d.templateFn.isSome = true) →
      compiled (iterations ds hasScope tp) = (iterations ds hasScope tp).map (fun p => p.1) := by
  induction ds with
  | nil => intro _ _ _ _; simp [iterations, compiled]
  | cons d rest ih =>
    intro hasScope tp hn hall
    rw [iterations, if_neg (by simp [hn.head])]
    by_cases hb : belowTerminal tp d.priority = true
    · rw [if_pos hb]; simp [compiled]
    · rw [if_neg hb]
      have hd := hall d (List.mem_cons_self _ _)
      have := ih (hasScope || d.scope) (nextTerminal d tp) hn.tail
        (fun x hx => hall x (List.mem_cons_of_mem _ hx))
      simp only [compiled] at this ⊢
      simp [hd, this]

/-! ## The terminal cut-off on a sorted list -/

theorem iterations_cut (ds : List Directive) :
    ∀ (hasScope : Bool) (P : Int), NoConflict ds hasScope →
      ds.Pairwise (fun a b => b.priority ≤ a.priority) →
      (∀ t ∈ ds, t.terminal = true → t.priority ≤ P) →
      iterations ds hasScope (some P) =
        (ds.filter (fun d => decide (P ≤ d.priority))).map (fun d => (d, d.templateFn.isSome)) := by
  induction ds with
  | nil => intro _ _ _ _ _; simp [iterations]
  | cons d rest ih =>
    intro hasScope P hn hs hmax
    rw [iterations, if_neg (by simp [hn.head])]
    rw [List.pairwise_cons] at hs
    by_cases hb : d.priority < P
    · have hrest : rest.filter (fun d => decide (P ≤ d.priority)) = [] := by
        apply List.filter_eq_nil_iff.2
        intro x hx
        have := hs.1 x hx
        simp only [decide_eq_true_eq]
        omega
      have hd : ¬ P ≤ d.priority := by omega
      simp [belowTerminal, hb, List.filter_cons, hd, hrest]
    · have hd : P ≤ d.priority := by omega
      have hnext : nextTerminal d (some P) = some P := by
        unfold nextTerminal raiseTerminal
        split
        · rename_i ht
          have := hmax d (List.mem_cons_self _ _) ht
          simp only [Option.some.injEq]
          omega
        · rfl
      rw [if_neg (by simp [belowTerminal, hb]), hnext,
        ih (hasScope || d.scope) P hn.tail hs.2 (fun t ht => hmax t (List.mem_cons_of_mem _ ht))]
      simp [List.filter_cons, hd]

theorem iterations_terminal (ds : List Directive) :
    ∀ (hasScope : Bool) (P : Int), NoConflict ds hasScope →
      ds.Pairwise (fun a b => b.priority ≤ a.priority) →
      (∃ t ∈ ds, t.terminal = true ∧ t.priority = P) →
      (∀ t ∈ ds, t.terminal = true → t.priority ≤ P) →
      iterations ds hasScope none =
        (ds.filter (fun d => decide (P ≤ d.priority))).map (fun d => (d, d.templateFn.isSome)) := by
  induction ds with
  | nil => intro _ _ _ _ h _; simp at h
  | cons d rest ih =>
    intro hasScope P hn hs hex hmax
    rw [iterations, if_neg (by simp [hn.head]), if_neg (by simp [belowTerminal])]
    have hs' := List.pairwise_cons.1 hs
    have hd : P ≤ d.priority := by
      obtain ⟨t, ht, _, htp⟩ := hex
      rcases List.mem_cons.1 ht with h | h
      · subst h; omega
      · have := hs'.1 t h; omega
    by_cases ht : d.terminal = true
    · have hdP : d.priority = P := by
        have := hmax d (List.mem_cons_self _ _) ht
        omega
      have hnext : nextTerminal d none = some P := by
        simp [nextTerminal, raiseTerminal, ht, hdP]
      rw [hnext, iterations_cut rest _ P hn.tail hs'.2
        (fun t ht => hmax t (List.mem_cons_of_mem _ ht))]
      simp [List.filter_cons, hd]
    · have hnext : nextTerminal d none = none := by simp [nextTerminal, ht]
      have hex' : ∃ t ∈ rest, t.terminal = true ∧ t.priority = P := by
        obtain ⟨t, htm, htt, htp⟩ := hex
        rcases List.mem_cons.1 htm with h | h
        · subst h; exact absurd htt ht
        · exact ⟨t, h, htt, htp⟩
      rw [hnext, ih _ P hn.tail hs'.2 hex' (fun t ht => hmax t (List.mem_cons_of_mem _ ht))]
      simp [List.filter_cons, hd]

theorem noConflict_of_perm {ds ds2 : List Directive} (hp : ds2.Perm ds)
    (h : (ds.filter (fun d => d.scope)).length ≤ 1) : NoConflict ds2 false := by
  unfold NoConflict
  simp only [Bool.false_eq_true, if_false]
  rw [(hp.filter _).length_eq]
  exact h

theorem applyDirectivesPerElement_trace (env : Env) (directives : List Directive)
    (templateNode : Node) (templateAttrs : Attrs) (w : World) :
    compileCalls (applyDirectivesPerElement env directives templateNode templateAttrs w).2.trace =
      compileCalls w.trace ++
        (compiled (iterations (sortByPriority directives) false none)).map
          (fun d => (d, templateNode.id)) := by
  unfold applyDirectivesPerElement
  simp only [applyLoop_compileCalls]
  rfl

theorem applyDirectivesPerElement_linkingFns (env : Env) (directives : List Directive)
    (templateNode : Node) (templateAttrs : Attrs) (w : World) :
    (applyDirectivesPerElement env directives templateNode templateAttrs w).1.linkingFns =
      (compiled (iterations (sortByPriority directives) false none)).filterMap
        Directive.returned := by
  unfold applyDirectivesPerElement
  simp only [applyLoop_linkingFns]
  rfl

/-! ## Priority order (C1) -/

/-- C1. `applyDirectivesPerElement` sorts the matches by descending priority (the sorted list is
a permutation of the matches), its loop runs over a leading segment `processed` of the sorted
list, and the compile steps it calls are those of a sublist `called` of `processed`, in that
order, on the template node: priorities never increase along the calls. The link specs kept for
link time are the values returned by the calls, in the same order. When every match has a
compile step and at most one match asks for a new scope, `called` is all of `processed`. -/
theorem applyDirectivesPerElement_priority_order (env : Env) (directives : List Directive)
    (templateNode : Node) (templateAttrs : Attrs) (w : World) :
    (sortByPriority directives).Perm directives ∧
    (sortByPriority directives).Pairwise (fun a b => b.priority ≤ a.priority) ∧
    ∃ processed called : List Directive,
      processed <+: sortByPriority directives ∧
      called <+ processed ∧
      compileCalls (applyDirectivesPerElement env directives templateNode templateAttrs w).2.trace =
        compileCalls w.trace ++ called.map (fun d => (d, templateNode.id)) ∧
      called.Pairwise (fun a b => b.priority ≤ a.priority) ∧
      (applyDirectivesPerElement env directives templateNode templateAttrs w).1.linkingFns =
        called.filterMap Directive.returned ∧
      ((∀ d ∈ directives, d.templateFn.isSome = true) →
        (directives.filter (fun d => d.scope)).length ≤ 1 → called = processed) := by
  refine ⟨sortByPriority_perm _, sortByPriority_sorted _,
    (iterations (sortByPriority directives) false none).map (fun p => p.1),
    compiled (iterations (sortByPriority directives) false none),
    iterations_isPrefix _ _ _, compiled_sublist _,
    applyDirectivesPerElement_trace _ _ _ _ _, ?_,
    applyDirectivesPerElement_linkingFns _ _ _ _ _, ?_⟩
  · exact ((sortByPriority_sorted directives).sublist
      (iterations_isPrefix _ _ _).sublist).sublist (compiled_sublist _)
  · intro hall hscope
    apply iterations_all_compiled _ _ _ (noConflict_of_perm (sortByPriority_perm _) hscope)
    intro d hd
    exact hall d ((sortByPriority_perm directives).mem_iff.1 hd)

theorem sortByPriority_filter (directives : List Directive) (p : Int) :
    (sortByPriority directives).filter (fun d => decide (d.priority = p)) =
      directives.filter (fun d => decide (d.priority = p)) := by
  have hsub : directives.filter (fun d => decide (d.priority = p)) <+ sortByPriority directives := by
    apply List.sublist_insertionSort
    · rw [List.pairwise_iff_forall_sublist]
      intro a b hab
      have ha := hab.subset (List.mem_cons_self _ _)
      have hb := hab.subset (List.mem_cons_of_mem _ (List.mem_cons_self _ _))
      have ha' := (List.mem_filter.1 ha).2
      have hb' := (List.mem_filter.1 hb).2
      simp only [decide_eq_true_eq] at ha' hb'
      rw [priorityOrder_iff]
      omega
    · exact List.filter_sublist _
  have hsub2 := hsub.filter (fun d => decide (d.priority = p))
  rw [List.filter_filter] at hsub2
  simp only [Bool.and_self] at hsub2
  have hlen := ((sortByPriority_perm directives).filter (fun d => decide (d.priority = p))).length_eq
  exact (hsub2.eq_of_length hlen.symm).symm

/-! ## Terminal directives (C3) -/

/-- C3, as stated, fails: with two terminal matches of priorities 10 and 5, the match set holds
a terminal directive of priority 5, the directive `lo` has priority at least 5 and a compile
step, and that compile step is not called. -/
theorem lower_terminal_not_compiled :
    stopDirective "lo" 5 ∈ [stopDirective "lo" 5, stopDirective "hi" 10] ∧
    (stopDirective "lo" 5).terminal = true ∧
    (5 : Int) ≤ (stopDirective "lo" 5).priority ∧
    (stopDirective "lo" 5).templateFn.isSome = true ∧
    compileCalls (applyDirectivesPerElement stdEnv [stopDirective "lo" 5, stopDirective "hi" 10]
      divNode emptyAttrs World.init).2.trace = [(stopDirective "hi" 10, 1)] := by
  decide

/-- C3, amended. When `P` is the highest priority of a terminal match and at most one match asks
for a new scope, the compile steps called are exactly those of the matches with priority at
least `P` that have one, once per match, in sorted order; no match with priority below `P` has
its compile step called. -/
theorem terminal_cutoff (env : Env) (directives : List Directive) (templateNode : Node)
    (templateAttrs : Attrs) (w : World) (P : Int)
    (hP : ∃ t ∈ directives, t.terminal = true ∧ t.priority = P)
    (hmax : ∀ t ∈ directives, t.terminal = true → t.priority ≤ P)
    (hscope : (directives.filter (fun d => d.scope)).length ≤ 1) :
    compileCalls (applyDirectivesPerElement env directives templateNode templateAttrs w).2.trace =
      compileCalls w.trace ++
        ((sortByPriority directives).filter
          (fun d => decide (P ≤ d.priority) && d.templateFn.isSome)).map
          (fun d => (d, templateNode.id)) := by
  have hperm := sortByPriority_perm directives
  have hP' : ∃ t ∈ sortByPriority directives, t.terminal = true ∧ t.priority = P := by
    obtain ⟨t, ht, h1, h2⟩ := hP
    exact ⟨t, hperm.mem_iff.2 ht, h1, h2⟩
  have hmax' : ∀ t ∈ sortByPriority directives, t.terminal = true → t.priority ≤ P :=
    fun t ht => hmax t (hperm.mem_iff.1 ht)
  rw [applyDirectivesPerElement_trace,
    iterations_terminal _ false P (noConflict_of_perm hperm hscope)
      (sortByPriority_sorted _) hP' hmax']
  simp [compiled, List.filter_map, List.filter_filter, Function.comp_def, Bool.and_comm]

/-- C3, amended, on the test `should prevent further directives from running, but finish
current priority level`: `stop` (terminal, priority 10) and `same` (priority 10) are compiled,
`low` (priority 0) is not. -/
theorem terminal_cutoff_witness :
    compileCalls (applyDirectivesPerElement stdEnv
        [plainDirective "low" 0, stopDirective "stop" 10, plainDirective "same" 10]
        divNode emptyAttrs World.init).2.trace =
      compileCalls World.init.trace ++
        ((sortByPriority [plainDirective "low" 0, stopDirective "stop" 10,
            plainDirective "same" 10]).filter
          (fun d => decide ((10 : Int) ≤ d.priority) && d.templateFn.isSome)).map
          (fun d => (d, divNode.id)) :=
  terminal_cutoff stdEnv [plainDirective "low" 0, stopDirective "stop" 10, plainDirective "same" 10]
    divNode emptyAttrs World.init 10 (by decide) (by decide) (by decide)

/-! ## Terminal directives stop the descent (C4) -/

theorem applyLoop_terminal_mono (env : Env) (node : Node) (ds : List Directive) :
    ∀ st : ApplyState, st.terminal = true → (applyLoop env node ds st).terminal = true := by
  induction ds with
  | nil => intro st h; simpa [applyLoop] using h
  | cons d rest ih =>
    intro st h
    rw [applyLoop_cons]
    split
    · exact ih _ (by simp [h])
    · split
      · simpa using h
      · exact ih _ (by simp [h])

theorem applyLoop_terminal (env : Env) (node : Node) (ds : List Directive) :
    ∀ st : ApplyState, st.terminalPriority = none → (∃ d ∈ ds, d.terminal = true) →
      (applyLoop env node ds st).terminal = true := by
  induction ds with
  | nil => intro st _ h; simp at h
  | cons d rest ih =>
    intro st htp hex
    rw [applyLoop_cons]
    by_cases ht : d.terminal = true
    · split
      · exact applyLoop_terminal_mono _ _ _ _ (by simp [ht])
      · rw [if_neg (by simp [htp, belowTerminal])]
        exact applyLoop_terminal_mono _ _ _ _ (by simp [ht])
    · have hex' : ∃ x ∈ rest, x.terminal = true := by
        obtain ⟨x, hx, hxt⟩ := hex
        rcases List.mem_cons.1 hx with h | h
        · subst h; exact absurd hxt ht
        · exact ⟨x, h, hxt⟩
      split
      · exact ih _ (by simp [nextTerminal, ht, htp]) hex'
      · rw [if_neg (by simp [htp, belowTerminal])]
        exact ih _ (by simp [nextTerminal, ht, htp]) hex'

theorem applyDirectivesPerElement_terminal (env : Env) (directives : List Directive)
    (templateNode : Node) (templateAttrs : Attrs) (w : World)
    (h : ∃ d ∈ directives, d.terminal = true) :
    (applyDirectivesPerElement env directives templateNode templateAttrs w).1.terminal = true := by
  unfold applyDirectivesPerElement
  apply applyLoop_terminal _ _ _ _ rfl
  obtain ⟨d, hd, ht⟩ := h
  exact ⟨d, (sortByPriority_perm directives).mem_iff.2 hd, ht⟩

theorem compileNode_eq (env : Env) (reg : Registry) (node : Node) (w : World) :
    compileNode env reg node w =
      if (applyIfAny env (collectDirectives env reg node w) node).1.terminal = true then
        (((applyIfAny env (collectDirectives env reg node w) node).1, .falsy),
          (applyIfAny env (collectDirectives env reg node w) node).2)
      else
        (((applyIfAny env (collectDirectives env reg node w) node).1,
            closeList (compileLoop env reg node.childNodes
              (applyIfAny env (collectDirectives env reg node w) node).2).1),
          (compileLoop env reg node.childNodes
            (applyIfAny env (collectDirectives env reg node w) node).2).2) := by
  cases node with
  | mk id nodeType nodeName attributes className nodeValue childNodes =>
    rw [compileNode]
    rfl

/-- C4. When the match set of a node holds a terminal directive, whatever its priority,
compiling the node consists of collecting and applying the directives of the node itself: the
entries pushed are the `linkFn` of the node and a falsy child entry, and the world afterwards
(registry cache, compile steps called, errors reported) is the one left by the node's own
directives, so nothing of the children is looked up or compiled. At link time the position of
the node does not look at the children of the live node. -/
theorem terminal_blocks_descent (env : Env) (reg : Registry) (node : Node) (w : World)
    (h : ∃ d ∈ (collectDirectives env reg node w).directives, d.terminal = true) :
    compileNode env reg node w =
      ((.directive (applyDirectivesPerElement env (collectDirectives env reg node w).directives
            node (collectDirectives env reg node w).attrs
            (collectDirectives env reg node w).world).1, .falsy),
        (applyDirectivesPerElement env (collectDirectives env reg node w).directives
            node (collectDirectives env reg node w).attrs
            (collectDirectives env reg node w).world).2) ∧
    ∀ (scope : Nat) (rootElement : Bool) (w1 : World) (id nodeType : Nat) (nodeName : String)
      (attributes : List (String × String)) (className nodeValue : String)
      (childNodes : List Node),
      linkLoop [(compileNode env reg node w).1.1, (compileNode env reg node w).1.2] scope
          [.mk id nodeType nodeName attributes className nodeValue childNodes] rootElement w1 =
        linkLoop [(compileNode env reg node w).1.1, (compileNode env reg node w).1.2] scope
          [.mk id nodeType nodeName attributes className nodeValue []] rootElement w1 := by
  have hne : (collectDirectives env reg node w).directives.length ≠ 0 := by
    obtain ⟨d, hd, _⟩ := h
    exact Nat.ne_of_gt (List.length_pos_of_mem hd)
  have hterm := applyDirectivesPerElement_terminal env _ node
    (collectDirectives env reg node w).attrs (collectDirectives env reg node w).world h
  have hany : applyIfAny env (collectDirectives env reg node w) node =
      (.directive (applyDirectivesPerElement env (collectDirectives env reg node w).directives
            node (collectDirectives env reg node w).attrs
            (collectDirectives env reg node w).world).1,
        (applyDirectivesPerElement env (collectDirectives env reg node w).directives
            node (collectDirectives env reg node w).attrs
            (collectDirectives env reg node w).world).2) := by
    unfold applyIfAny
    rw [if_neg hne]
  have hc : compileNode env reg node w =
      ((.directive (applyDirectivesPerElement env (collectDirectives env reg node w).directives
            node (collectDirectives env reg node w).attrs
            (collectDirectives env reg node w).world).1, .falsy),
        (applyDirectivesPerElement env (collectDirectives env reg node w).directives
            node (collectDirectives env reg node w).attrs
            (collectDirectives env reg node w).world).2) := by
    rw [compileNode_eq, hany]
    simp [LinkEntry.terminal, hterm]
  refine ⟨hc, ?_⟩
  intro scope rootElement w1 id nodeType nodeName attributes className nodeValue childNodes
  rw [hc]
  simp [linkLoop, linkEntry, linkAttrs, Node.id, forkScope]

/-- C4 on the test `should prevent further directives from running`: the terminal directive
`stop` of priority -100 is in the match set of the `div`, and the child entry pushed for the
`div` is falsy. -/
theorem terminal_blocks_descent_witness :
    (∃ d ∈ (collectDirectives stdEnv stopRegistry stopTemplate World.init).directives,
      d.terminal = true) ∧
    (compileNode stdEnv stopRegistry stopTemplate World.init).1.2.truthy = false :=
  ⟨by decide,
    by rw [(terminal_blocks_descent stdEnv stopRegistry stopTemplate World.init (by decide)).1]
       rfl⟩

/-! ## Linking: the events of a phase -/

theorem callLink_eq (phase : Phase) (f : Callback) (scope element : Nat) (attrs : Attrs)
    (w : World) :
    callLink phase f scope element attrs w =
      { w with trace := w.trace ++ callEvents phase f scope element attrs } := by
  unfold callEvents callLink
  cases f with
  | user label throws => cases throws <;> simp [World.emit, World.init]
  | textBinding i => simp [World.emit, World.init]
  | attrBinding i n => simp [World.emit, World.init]

theorem preLink_eq (linkingFns : List LinkSpec) (scope element : Nat) (attrs : Attrs) :
    ∀ w : World, preLink linkingFns scope element attrs w =
      { w with trace := w.trace ++ phaseEvents .pre linkingFns scope element attrs } := by
  induction linkingFns with
  | nil => intro w; simp [preLink, phaseEvents, phaseFns]
  | cons l rest ih =>
    intro w
    unfold preLink at ih ⊢
    rw [List.foldl_cons, ih]
    cases h : l.preFn with
    | none => simp [phaseEvents, phaseFns, List.filterMap_cons, h]
    | some f => simp [phaseEvents, phaseFns, List.filterMap_cons, h, callLink_eq]

theorem postLink_eq (linkingFns : List LinkSpec) (scope element : Nat) (attrs : Attrs) :
    ∀ w : World, postLink linkingFns scope element attrs w =
      { w with trace := w.trace ++ phaseEvents .post linkingFns scope element attrs } := by
  induction linkingFns with
  | nil => intro w; simp [postLink, phaseEvents, phaseFns]
  | cons l rest ih =>
    intro w
    unfold postLink at ih ⊢
    rw [List.foldl_cons, ih]
    cases h : l.postFn with
    | none => simp [phaseEvents, phaseFns, List.filterMap_cons, h]
    | some f => simp [phaseEvents, phaseFns, List.filterMap_cons, h, callLink_eq]

theorem preLink_trace (linkingFns : List LinkSpec) (scope element : Nat) (attrs : Attrs)
    (w : World) : (preLink linkingFns scope element attrs w).trace =
      w.trace ++ phaseEvents .pre linkingFns scope element attrs := by
  rw [preLink_eq]

theorem postLink_trace (linkingFns : List LinkSpec) (scope element : Nat) (attrs : Attrs)
    (w : World) : (postLink linkingFns scope element attrs w).trace =
      w.trace ++ phaseEvents .post linkingFns scope element attrs := by
  rw [postLink_eq]

theorem linkLoop_cons_cons (d c : LinkEntry) (rest : List LinkEntry) (scope : Nat) (node : Node)
    (nodes : List Node) (rootElement : Bool) (w : World) :
    linkLoop (d :: c :: rest) scope (node :: nodes) rootElement w =
      match (linkPosition d c scope node rootElement w).error with
      | some e => { world := (linkPosition d c scope node rootElement w).world, error := some e }
      | none =>
        linkLoop rest (enterScope d scope node rootElement w).1 nodes rootElement
          (linkPosition d c scope node rootElement w).world := by
  cases d with
  | directive f =>
    rw [linkLoop]
    simp only [linkPosition, enterScope, linkFn]
    cases h : (linkEntry c (if (f.scope && !rootElement) = true then forkScope scope node w
        else (scope, w)).1 node.childNodes
      (preLink f.linkingFns (if (f.scope && !rootElement) = true then forkScope scope node w
          else (scope, w)).1 node.id
        (linkAttrs f node (if (f.scope && !rootElement) = true then forkScope scope node w
          else (scope, w)).2).1
        (linkAttrs f node (if (f.scope && !rootElement) = true then forkScope scope node w
          else (scope, w)).2).2)).error with
    | none => rfl
    | some e => rfl
  | falsy =>
    rw [linkLoop]
    · simp only [linkPosition, enterScope]
    · intro f hf; cases hf
  | list l =>
    rw [linkLoop]
    · simp only [linkPosition, enterScope]
    · intro f hf; cases hf

theorem linkLoop_eq_linkPositions (nodes : List Node) :
    ∀ (linkingFns : List LinkEntry) (scope : Nat) (rootElement : Bool) (w : World),
      linkingFns.length = nodes.length * 2 →
      linkLoop linkingFns scope nodes rootElement w =
        linkPositions (positions linkingFns nodes) scope rootElement w := by
  induction nodes with
  | nil =>
    intro fns scope root w h
    have : fns = [] := List.length_eq_zero.1 (by simpa using h)
    subst this
    simp [linkLoop, positions, linkPositions]
  | cons node nodes ih =>
    intro fns scope root w h
    match fns, h with
    | d :: c :: rest, h =>
      have hrest : rest.length = nodes.length * 2 := by
        simp only [List.length_cons] at h
        omega
      rw [linkLoop_cons_cons, positions, linkPositions]
      cases he : (linkPosition d c scope node root w).error with
      | some e => rfl
      | none => exact ih rest _ root _ hrest
    | [_], h => simp at h; omega
    | [], h => simp at h

/-! ## Linking: when the structural check fails -/

theorem linkPosition_error (d c : LinkEntry) (scope : Nat) (node : Node) (rootElement : Bool)
    (w : World)
    (hc : ∀ (s : Nat) (w1 : World), (linkEntry c s node.childNodes w1).error =
      if entryMatches c node.childNodes then none else some structureError) :
    (linkPosition d c scope node rootElement w).error =
      if entryMatches c node.childNodes then none else some structureError := by
  cases d with
  | directive f =>
    simp only [linkPosition, linkFn]
    rw [hc]
    cases hm : entryMatches c node.childNodes <;> simp
  | falsy => simpa [linkPosition] using hc scope w
  | list l => simpa [linkPosition] using hc scope w

mutual
theorem linkEntry_error : ∀ (e : LinkEntry) (scope : Nat) (nodeList : List Node) (w : World),
    (linkEntry e scope nodeList w).error =
      if entryMatches e nodeList then none else some structureError
  | .list linkingFns, scope, nodeList, w => by
    rw [linkEntry, entryMatches]
    by_cases h : linkingFns.length = nodeList.length * 2
    · rw [if_neg (by simpa using h)]
      simpa [h] using linkLoop_error linkingFns scope nodeList false w h
    · simp [h]
  | .falsy, _, _, _ => by simp [linkEntry, entryMatches]
  | .directive _, _, _, _ => by simp [linkEntry, entryMatches]
theorem linkLoop_error : ∀ (linkingFns : List LinkEntry) (scope : Nat) (nodeList : List Node)
    (rootElement : Bool) (w : World), linkingFns.length = nodeList.length * 2 →
    (linkLoop linkingFns scope nodeList rootElement w).error =
      if pairsMatch linkingFns nodeList then none else some structureError
  | [], _, _, _, _, _ => by simp [linkLoop, pairsMatch]
  | [_], _, nodeList, _, _, h => by
    simp only [List.length_cons, List.length_nil] at h
    omega
  | d :: c :: rest, scope, [], rootElement, w, h => by simp at h
  | d :: c :: rest, scope, node :: nodes, rootElement, w, h => by
    have hrest : rest.length = nodes.length * 2 := by
      simp only [List.length_cons] at h
      omega
    have hp := linkPosition_error d c scope node rootElement w
      (fun s w1 => linkEntry_error c s node.childNodes w1)
    rw [linkLoop_cons_cons, pairsMatch]
    cases hm : entryMatches c node.childNodes with
    | true =>
      rw [hm] at hp
      simp only [if_true] at hp
      simp only [hp, Bool.true_and]
      exact linkLoop_error rest _ nodes rootElement _ hrest
    | false =>
      rw [hm] at hp
      simp only [Bool.false_eq_true, if_false] at hp
      simp [hp]
end

/-! ## Linking: the trace only grows -/

theorem linkAttrs_trace (f : NodeLinkFn) (linkNode : Node) (w : World) :
    (linkAttrs f linkNode w).2.trace = w.trace := by
  unfold linkAttrs
  split <;> rfl

theorem enterScope_trace (d : LinkEntry) (scope : Nat) (node : Node) (rootElement : Bool)
    (w : World) : ∃ evs, (enterScope d scope node rootElement w).2.trace = w.trace ++ evs := by
  unfold enterScope
  cases d with
  | directive f =>
    simp only
    split
    · exact ⟨[.scopeNew scope w.nextId, .dataScope node.id w.nextId], by simp [forkScope]⟩
    · exact ⟨[], by simp⟩
  | falsy => exact ⟨[], by simp⟩
  | list l => exact ⟨[], by simp⟩

theorem linkFn_trace (f : NodeLinkFn) (c : LinkEntry) (scope : Nat) (linkNode : Node) (w : World)
    (hc : ∀ (s : Nat) (w1 : World), ∃ evs,
      (linkEntry c s linkNode.childNodes w1).world.trace = w1.trace ++ evs) :
    ∃ evs, (linkFn f c scope linkNode w).world.trace = w.trace ++ evs := by
  have hp := preLink_trace f.linkingFns scope linkNode.id (linkAttrs f linkNode w).1
    (linkAttrs f linkNode w).2
  rw [linkAttrs_trace] at hp
  obtain ⟨evs, he⟩ := hc scope
    (preLink f.linkingFns scope linkNode.id (linkAttrs f linkNode w).1 (linkAttrs f linkNode w).2)
  rw [hp] at he
  unfold linkFn
  dsimp only
  split
  · exact ⟨phaseEvents .pre f.linkingFns scope linkNode.id (linkAttrs f linkNode w).1 ++ evs,
      by rw [he, List.append_assoc]⟩
  · exact ⟨phaseEvents .pre f.linkingFns scope linkNode.id (linkAttrs f linkNode w).1 ++ evs ++
        phaseEvents .post f.linkingFns scope linkNode.id (linkAttrs f linkNode w).1,
      by rw [postLink_trace, he]; simp⟩

theorem linkPosition_trace (d c : LinkEntry) (scope : Nat) (node : Node) (rootElement : Bool)
    (w : World)
    (hc : ∀ (s : Nat) (w1 : World), ∃ evs,
      (linkEntry c s node.childNodes w1).world.trace = w1.trace ++ evs) :
    ∃ evs, (linkPosition d c scope node rootElement w).world.trace = w.trace ++ evs := by
  cases d with
  | directive f =>
    simp only [linkPosition]
    obtain ⟨e1, h1⟩ := enterScope_trace (.directive f) scope node rootElement w
    obtain ⟨e2, h2⟩ := linkFn_trace f c (enterScope (.directive f) scope node rootElement w).1 node
      (enterScope (.directive f) scope node rootElement w).2 hc
    exact ⟨e1 ++ e2, by rw [h2, h1, List.append_assoc]⟩
  | falsy => simpa [linkPosition] using hc scope w
  | list l => simpa [linkPosition] using hc scope w

mutual
theorem linkEntry_trace : ∀ (e : LinkEntry) (scope : Nat) (nodeList : List Node) (w : World),
    ∃ evs, (linkEntry e scope nodeList w).world.trace = w.trace ++ evs
  | .list linkingFns, scope, nodeList, w => by
    rw [linkEntry]
    split
    · exact ⟨[], by simp⟩
    · exact linkLoop_trace linkingFns scope nodeList false w
  | .falsy, _, _, _ => ⟨[], by simp [linkEntry]⟩
  | .directive _, _, _, _ => ⟨[], by simp [linkEntry]⟩
theorem linkLoop_trace : ∀ (linkingFns : List LinkEntry) (scope : Nat) (nodeList : List Node)
    (rootElement : Bool) (w : World),
    ∃ evs, (linkLoop linkingFns scope nodeList rootElement w).world.trace = w.trace ++ evs
  | [], _, _, _, _ => ⟨[], by simp [linkLoop]⟩
  | _ :: _, _, [], _, _ => ⟨[], by simp [linkLoop]⟩
  | [d], scope, node :: nodes, rootElement, w => by
    have h := linkPosition_trace d .falsy scope node rootElement w
      (fun s w1 => ⟨[], by simp [linkEntry]⟩)
    cases d with
    | directive f =>
      simpa [linkLoop, linkPosition, linkFn, linkEntry, enterScope] using h
    | falsy => exact ⟨[], by simp [linkLoop]⟩
    | list l => exact ⟨[], by simp [linkLoop]⟩
  | d :: c :: rest, scope, node :: nodes, rootElement, w => by
    obtain ⟨e1, h1⟩ := linkPosition_trace d c scope node rootElement w
      (fun s w1 => linkEntry_trace c s node.childNodes w1)
    rw [linkLoop_cons_cons]
    split
    · exact ⟨e1, h1⟩
    · obtain ⟨e2, h2⟩ := linkLoop_trace rest (enterScope d scope node rootElement w).1 nodes
        rootElement (linkPosition d c scope node rootElement w).world
      exact ⟨e1 ++ e2, by rw [h2, h1, List.append_assoc]⟩
end

/-! ## A second scope request (C6) -/

/-- C6, evaluated on the test `should not allow more then one scope creation per element`: with
an error sink that returns, compiling `<div class="scope-a; scope-b">` hands the error to the
sink and returns a linking function; the compile step of `scopeA` alone is called and the
`linkFn` of the node asks for a new scope. -/
theorem second_scope_request_reported :
    (compile stdEnv scopeRegistry scopeTemplate World.init).1.isSome = true ∧
    reports (compile stdEnv scopeRegistry scopeTemplate World.init).2.trace =
      ["Multiple directives [scopeA, scopeB] asking for new scope on: " ++
        "<div class=\"scope-a; scope-b\">"] ∧
    (compileCalls (compile stdEnv scopeRegistry scopeTemplate World.init).2.trace).map
      (fun p => p.1.name) = [some "scopeA"] := by
  decide

/-! ## The structural check (C7, C8) -/

theorem listLinkingFn_error (linkingFns : List LinkEntry) (scope : Nat) (nodeList : List Node)
    (rootElement : Bool) (w : World) :
    (listLinkingFn linkingFns scope nodeList rootElement w).error =
      if entryMatches (.list linkingFns) nodeList then none else some structureError := by
  unfold listLinkingFn
  rw [entryMatches]
  by_cases h : linkingFns.length = nodeList.length * 2
  · rw [if_neg (by simpa using h), linkLoop_error _ _ _ _ _ h]
    simp [h]
  · simp [h]

theorem templateFunction_error (linkingFn : Option (List LinkEntry)) (live : List Node)
    (scope : Nat) (w1 : World) :
    (templateFunction linkingFn live scope none w1).2.error =
      match linkingFn with
      | none => none
      | some linkingFns =>
        if entryMatches (.list linkingFns) live then none else some structureError := by
  unfold templateFunction
  cases linkingFn with
  | none => rfl
  | some linkingFns => exact listLinkingFn_error _ _ _ _ _

/-- C7, as stated, fails: the template of the test `should not store linkingFns for noop
branches` compiles to a linking function, the live tree has lost a node (the `span` and its
text), and linking it completes without an error. -/
theorem pruned_branch_links :
    (compile stdEnv [] noopTemplate World.init).1.isSome = true ∧
    (subtrees noopTemplate).length = 3 ∧ (subtrees noopPruned).length = 1 ∧
    (templateFunction (compile stdEnv [] noopTemplate World.init).1 noopPruned 1 none
      (compile stdEnv [] noopTemplate World.init).2).2.error = none := by
  decide

/-- C7, amended. Invoking the template function of a compiled template on a live tree (without
cloning) raises `Template changed structure!` exactly when the live tree does not have the
shape the stored linking functions expect: the number of nodes differs from the number compiled
in the root list, or in the child list of a position that stored a child-linking function. A
list for which no linking function was stored is not looked at, and a template without any
linking function links every tree. -/
theorem structure_error_iff (env : Env) (reg : Registry) (templateElement live : List Node)
    (scope : Nat) (w w1 : World) :
    (templateFunction (compile env reg templateElement w).1 live scope none w1).2.error =
      match (compile env reg templateElement w).1 with
      | none => none
      | some linkingFns =>
        if entryMatches (.list linkingFns) live then none else some structureError :=
  templateFunction_error _ live scope w1

theorem compileLoop_length (env : Env) (reg : Registry) (nodeList : List Node) :
    ∀ w : World, (compileLoop env reg nodeList w).1.length = nodeList.length * 2 := by
  induction nodeList with
  | nil => intro w; simp [compileLoop]
  | cons node rest ih =>
    intro w
    rw [compileLoop]
    simp only [List.length_cons, ih]
    omega

theorem positions_length (nodes : List Node) :
    ∀ linkingFns : List LinkEntry, linkingFns.length = nodes.length * 2 →
      (positions linkingFns nodes).length = nodes.length := by
  induction nodes with
  | nil => intro fns _; cases fns with
    | nil => simp [positions]
    | cons d t => cases t <;> simp [positions]
  | cons node nodes ih =>
    intro fns h
    match fns, h with
    | d :: c :: rest, h =>
      have hrest : rest.length = nodes.length * 2 := by
        simp only [List.length_cons] at h
        omega
      simp [positions, ih rest hrest]
    | [_], h => simp at h; omega
    | [], h => simp at h

/-- C8, as stated, fails: the list-linking function compiled from the two root nodes of
`<a><b></b></a><c></c>` is invoked on two live root nodes, so the check at that level passes,
but the child list of position 0 has changed: the error is raised after `preA` and position 1
is never visited (no callback of `c` runs). -/
theorem nested_error_stops_walk :
    (compile stdEnv abcRegistry abcTemplate World.init).1.isSome = true ∧
    abcLive.length = abcTemplate.length ∧
    (templateFunction (compile stdEnv abcRegistry abcTemplate World.init).1 abcLive 1 none
      (compile stdEnv abcRegistry abcTemplate World.init).2).2.error = some structureError ∧
    linkLabels (templateFunction (compile stdEnv abcRegistry abcTemplate World.init).1 abcLive 1
      none (compile stdEnv abcRegistry abcTemplate World.init).2).2.world.trace = ["preA"] := by
  decide

/-- C8, amended. The array filled by `compileNodes` for a node list of length `n` has exactly
`2n` entries. Invoked on a live list of another length, the list-linking function over that
array raises `Template changed structure!` and leaves the world as it was: no scope forked, no
callback run. Invoked on a live list of length `n`, it passes the check and visits the `n`
positions in order, each linked completely before the next, up to the first position whose
linking raises; it visits all of them when none raises. -/
theorem list_link_check (env : Env) (reg : Registry) (nodeList live : List Node) (w : World)
    (scope : Nat) (rootElement : Bool) (w1 : World) :
    (compileLoop env reg nodeList w).1.length = nodeList.length * 2 ∧
    (live.length ≠ nodeList.length →
      listLinkingFn (compileLoop env reg nodeList w).1 scope live rootElement w1 =
        { world := w1, error := some structureError }) ∧
    (live.length = nodeList.length →
      (positions (compileLoop env reg nodeList w).1 live).length = nodeList.length ∧
      listLinkingFn (compileLoop env reg nodeList w).1 scope live rootElement w1 =
        linkPositions (positions (compileLoop env reg nodeList w).1 live) scope rootElement w1) := by
  have hlen := compileLoop_length env reg nodeList w
  refine ⟨hlen, ?_, ?_⟩
  · intro h
    unfold listLinkingFn
    rw [if_pos]
    rw [hlen]
    omega
  · intro h
    have h2 : (compileLoop env reg nodeList w).1.length = live.length * 2 := by
      rw [hlen, h]
    refine ⟨by rw [positions_length live _ h2, h], ?_⟩
    unfold listLinkingFn
    rw [if_neg (by simpa using h2)]
    exact linkLoop_eq_linkPositions live _ scope rootElement w1 h2

/-! ## The registry cache and the match list -/

theorem getKey_setKey_self {β : Type} (key : String) (value : β) (l : List (String × β)) :
    getKey key (setKey key value l) = some value := by
  induction l with
  | nil => simp [setKey, getKey]
  | cons p rest ih =>
    obtain ⟨k, v⟩ := p
    unfold setKey
    by_cases h : k = key
    · simp [h, getKey]
    · simp [h, getKey, ih]

theorem getKey_setKey_ne {β : Type} (key other : String) (value : β) (l : List (String × β))
    (h : other ≠ key) : getKey other (setKey key value l) = getKey other l := by
  induction l with
  | nil =>
    have h2 : ¬ key = other := fun e => h e.symm
    simp [setKey, getKey, h2]
  | cons p rest ih =>
    obtain ⟨k, v⟩ := p
    unfold setKey
    by_cases hk : k = key
    · subst hk
      have h2 : ¬ k = other := fun e => h e.symm
      simp [getKey, h2]
    · rw [if_neg hk]
      by_cases ho : k = other
      · simp [getKey, ho]
      · simp [getKey, ho, ih]

theorem Consistent.setKey {reg : Registry} {w : World} (hw : Consistent reg w) (name : String)
    (d : Directive) (hd : resolve reg name = some d) (t : List Event) (n : Nat) :
    Consistent reg { directiveCache := setKey name d w.directiveCache, trace := t, nextId := n } := by
  intro other x hx
  by_cases h : other = name
  · subst h
    rw [getKey_setKey_self] at hx
    cases hx
    exact hd
  · rw [getKey_setKey_ne _ _ _ _ h] at hx
    exact hw other x hx

theorem Consistent.of_cache {reg : Registry} {w w1 : World} (hw : Consistent reg w)
    (h : w1.directiveCache = w.directiveCache) : Consistent reg w1 := by
  intro name d hd
  rw [h] at hd
  exact hw name d hd

theorem callFactory_resolve (reg : Registry) (name : String) (factory : Factory) (w : World)
    (hf : getKey name reg = some factory) (hw : Consistent reg w) :
    (callFactory name factory w).1.toOption = resolve reg name ∧
    Consistent reg (callFactory name factory w).2 ∧
    ∀ d, (callFactory name factory w).1 = .ok d → resolve reg name = some d := by
  unfold callFactory resolve
  rw [hf]
  cases factory with
  | throws e =>
    refine ⟨rfl, hw.of_cache rfl, ?_⟩
    intro d h
    cases h
  | fn f =>
    refine ⟨rfl, ?_, ?_⟩
    · exact hw.setKey name _ (by simp [resolve, hf, factoryDirective]) _ _
    · intro d h
      cases h
      rfl
  | obj p t s tf =>
    refine ⟨rfl, ?_, ?_⟩
    · exact hw.setKey name _ (by simp [resolve, hf, factoryDirective]) _ _
    · intro d h
      cases h
      rfl

theorem getDirective_resolve (reg : Registry) (name : String) (w : World)
    (hw : Consistent reg w) :
    (getDirective reg name w).1 = resolve reg name ∧ Consistent reg (getDirective reg name w).2 := by
  unfold getDirective
  cases hf : getKey name reg with
  | none => exact ⟨by simp [resolve, hf], hw⟩
  | some factory =>
    simp only
    cases hc : getKey name w.directiveCache with
    | some d => exact ⟨(hw name d hc).symm, hw⟩
    | none =>
      simp only
      obtain ⟨h1, h2, h3⟩ := callFactory_resolve reg name factory w hf hw
      rcases hr : callFactory name factory w with ⟨res, w1⟩
      rw [hr] at h1 h2 h3
      cases res with
      | ok d =>
        simp only
        have hd := h3 d rfl
        exact ⟨hd.symm, Consistent.setKey h2 name d hd _ _⟩
      | error e =>
        simp only
        refine ⟨?_, h2.of_cache rfl⟩
        rw [← h1]
        rfl

theorem pushDirective_eq (directives : List Directive) (d : Option Directive) :
    pushDirective directives d = directives ++ d.toList := by
  cases d <;> simp [pushDirective]

theorem scanAttributes_matches (env : Env) (reg : Registry) (attributes : List (String × String)) :
    ∀ st : ScanState, Consistent reg st.world →
      (scanAttributes env reg attributes st).directives =
        st.directives ++ attrMatches env reg attributes ∧
      Consistent reg (scanAttributes env reg attributes st).world := by
  induction attributes with
  | nil => intro st hw; exact ⟨by simp [scanAttributes, attrMatches], hw⟩
  | cons a rest ih =>
    intro st hw
    obtain ⟨name, attrValue⟩ := a
    obtain ⟨h1, h2⟩ := getDirective_resolve reg (env.camelCase (env.lowercase name)) st.world hw
    rw [scanAttributes]
    obtain ⟨h3, h4⟩ := ih
      { directives := pushDirective (pushDirective st.directives
          (attrInterpolateDirective env (env.trim attrValue) (env.camelCase (env.lowercase name))))
          (getDirective reg (env.camelCase (env.lowercase name)) st.world).1,
        attrs := { st.attrs with
          attrMap := setKey (env.camelCase (env.lowercase name)) name st.attrs.attrMap,
          vals := if (env.BOOLEAN_ATTR (env.camelCase (env.lowercase name))).isSome then
              setKey (env.camelCase (env.lowercase name)) (AttrVal.bool true)
                (setKey (env.camelCase (env.lowercase name)) (AttrVal.str (env.trim attrValue))
                  st.attrs.vals)
            else setKey (env.camelCase (env.lowercase name)) (AttrVal.str (env.trim attrValue))
              st.attrs.vals },
        world := (getDirective reg (env.camelCase (env.lowercase name)) st.world).2 } h2
    refine ⟨?_, h4⟩
    rw [h3]
    simp [pushDirective_eq, h1, attrMatches]

theorem scanClass_matches (env : Env) (reg : Registry) (fuel : Nat) :
    ∀ (text : List Char) (st : ScanState), Consistent reg st.world →
      (scanClass env reg fuel text st).directives =
        st.directives ++ classMatches env reg fuel text ∧
      Consistent reg (scanClass env reg fuel text st).world := by
  induction fuel with
  | zero => intro text st hw; exact ⟨by simp [scanClass, classMatches], hw⟩
  | succ fuel ih =>
    intro text st hw
    rw [scanClass, classMatches]
    cases hm : execClass text with
    | none => exact ⟨by simp, hw⟩
    | some m =>
      simp only
      obtain ⟨h1, h2⟩ := getDirective_resolve reg (env.camelCase (String.mk m.name)) st.world hw
      cases hr : (getDirective reg (env.camelCase (String.mk m.name)) st.world).1 with
      | none =>
        simp only
        obtain ⟨h3, h4⟩ := ih (text.drop (m.index + m.whole.length))
          { st with world := (getDirective reg (env.camelCase (String.mk m.name)) st.world).2 } h2
        refine ⟨?_, h4⟩
        rw [h3, ← h1, hr]
        simp
      | some d =>
        simp only
        obtain ⟨h3, h4⟩ := ih (text.drop (m.index + m.whole.length))
          { directives := st.directives ++ [d],
            attrs := { st.attrs with
              vals := setKey (env.camelCase (String.mk m.name)) (trimMatch env m.value)
                st.attrs.vals },
            world := (getDirective reg (env.camelCase (String.mk m.name)) st.world).2 } h2
        refine ⟨?_, h4⟩
        rw [h3, ← h1, hr]
        simp

theorem collectDirectives_matches (env : Env) (reg : Registry) (node : Node) (w : World)
    (hw : Consistent reg w) :
    (collectDirectives env reg node w).directives = matchList env reg node ∧
    Consistent reg (collectDirectives env reg node w).world := by
  have hw0 : Consistent reg { w with nextId := w.nextId + 1 } := hw.of_cache rfl
  unfold collectDirectives matchList
  split
  · obtain ⟨h1, h2⟩ := getDirective_resolve reg (env.camelCase (env.lowercase node.nodeName))
      { w with nextId := w.nextId + 1 } hw0
    obtain ⟨h3, h4⟩ := scanAttributes_matches env reg node.attributes
      { directives := pushDirective [] (getDirective reg
          (env.camelCase (env.lowercase node.nodeName)) { w with nextId := w.nextId + 1 }).1,
        attrs := { objId := w.nextId, attrMap := [], vals := [], element := none },
        world := (getDirective reg (env.camelCase (env.lowercase node.nodeName))
          { w with nextId := w.nextId + 1 }).2 } h2
    obtain ⟨h5, h6⟩ := scanClass_matches env reg node.className.data.length node.className.data
      _ h4
    refine ⟨?_, h6⟩
    simp only
    rw [h5, h3]
    simp [pushDirective_eq, h1]
  · cases hi : env.interpolate node.nodeValue with
    | none => exact ⟨by simp, hw0⟩
    | some i => exact ⟨by simp, hw0⟩
  · cases hm : execComment node.nodeValue.data with
    | none => exact ⟨by simp, hw0⟩
    | some m =>
      obtain ⟨name, args⟩ := m
      simp only
      obtain ⟨h1, h2⟩ := getDirective_resolve reg (env.camelCase (String.mk name))
        { w with nextId := w.nextId + 1 } hw0
      cases hr : (getDirective reg (env.camelCase (String.mk name))
          { w with nextId := w.nextId + 1 }).1 with
      | none =>
        simp only
        exact ⟨by rw [← h1, hr]; rfl, h2⟩
      | some d =>
        simp only
        exact ⟨by rw [← h1, hr]; rfl, h2⟩
  · exact ⟨rfl, hw0⟩

/-! ## Applying directives leaves the registry cache alone -/

theorem attrSetter_cache (env : Env) (self : Attrs) (key : String) (value : AttrVal) (w : World) :
    (attrSetter env self key value w).2.directiveCache = w.directiveCache := by
  unfold attrSetter
  split
  · dsimp only
    split <;> rfl
  · dsimp only
    split <;> rfl

theorem callTemplateFn_cache (env : Env) (d : Directive) (f : TemplateFn) (node : Nat)
    (attrs : Attrs) (w : World) :
    (callTemplateFn env d f node attrs w).2.2.directiveCache = w.directiveCache := by
  unfold callTemplateFn
  cases f with
  | returns l => rfl
  | throws e => rfl
  | attrInterpolate i n v =>
    cases i with
    | none => simp [attrSetter_cache]
    | some i => rfl

theorem compileStep_cache (env : Env) (node : Node) (d : Directive) (st : ApplyState) :
    (compileStep env node d st).world.directiveCache = st.world.directiveCache := by
  unfold compileStep
  cases hf : d.templateFn with
  | none => rfl
  | some f =>
    have hc := callTemplateFn_cache env d f node.id st.attrs st.world
    rcases hr : callTemplateFn env d f node.id st.attrs st.world with ⟨res, a, w1⟩
    rw [hr] at hc
    cases res with
    | ok l => simpa [hr] using hc
    | error e => simpa [hr] using hc

theorem applyLoop_cache (env : Env) (node : Node) (ds : List Directive) :
    ∀ st : ApplyState,
      (applyLoop env node ds st).world.directiveCache = st.world.directiveCache := by
  induction ds with
  | nil => intro st; rfl
  | cons d rest ih =>
    intro st
    rw [applyLoop_cons]
    split
    · rw [ih]; simp
    · split
      · simp
      · rw [ih]; simp [compileStep_cache]

theorem applyIfAny_consistent (env : Env) (reg : Registry) (st : ScanState) (node : Node)
    (hw : Consistent reg st.world) : Consistent reg (applyIfAny env st node).2 := by
  unfold applyIfAny
  split
  · exact hw
  · apply hw.of_cache
    unfold applyDirectivesPerElement
    simp only
    rw [applyLoop_cache]
    rfl

theorem applyIfAny_truthy (env : Env) (st : ScanState) (node : Node) :
    (applyIfAny env st node).1.truthy = false ↔ st.directives = [] := by
  unfold applyIfAny
  split
  · rename_i h
    simp [LinkEntry.truthy, List.length_eq_zero.1 h]
  · rename_i h
    simp only [LinkEntry.truthy, Bool.true_eq_false, false_iff]
    intro h2
    exact h (by simp [h2])

theorem applyIfAny_terminal_of_nil (env : Env) (st : ScanState) (node : Node)
    (h : st.directives = []) : (applyIfAny env st node).1.terminal = false := by
  unfold applyIfAny
  rw [if_pos (by simp [h])]
  rfl

theorem closeList_truthy (linkingFns : List LinkEntry) :
    (closeList linkingFns).truthy = haveLinkingFn linkingFns := by
  unfold closeList
  split
  · rename_i h; simp [LinkEntry.truthy, h]
  · rename_i h; simpa [LinkEntry.truthy] using h

theorem directiveFree_iff (env : Env) (reg : Registry) (nodeList : List Node) :
    directiveFree env reg nodeList = true ↔ ∀ x ∈ subtrees nodeList, matchList env reg x = [] := by
  unfold directiveFree
  simp [List.all_eq_true, List.isEmpty_iff]

/-! ## Stability of the sort (C2) -/

/-- C2. The match list of an element is built in discovery order: the directive named by the
tag, then the matches of the attributes in declaration order, then those of the class tokens
from left to right. The priority sort is stable: for every priority `p`, the matches of priority
`p` stand in the sorted list in the order in which they were discovered, and the compile steps
called for matches of priority `p` are called in that order. -/
theorem applyDirectivesPerElement_stable (env : Env) (directives : List Directive)
    (templateNode : Node) (templateAttrs : Attrs) (w : World) (p : Int) :
    (∀ (reg : Registry) (node : Node) (w2 : World), Consistent reg w2 → node.nodeType = 1 →
      (collectDirectives env reg node w2).directives =
        (resolve reg (env.camelCase (env.lowercase node.nodeName))).toList ++
          attrMatches env reg node.attributes ++
          classMatches env reg node.className.data.length node.className.data) ∧
    (sortByPriority directives).filter (fun d => decide (d.priority = p)) =
      directives.filter (fun d => decide (d.priority = p)) ∧
    ∃ called : List Directive,
      compileCalls (applyDirectivesPerElement env directives templateNode templateAttrs w).2.trace =
        compileCalls w.trace ++ called.map (fun d => (d, templateNode.id)) ∧
      called.filter (fun d => decide (d.priority = p)) <+
        directives.filter (fun d => decide (d.priority = p)) := by
  refine ⟨?_, sortByPriority_filter _ _,
    compiled (iterations (sortByPriority directives) false none),
    applyDirectivesPerElement_trace _ _ _ _ _, ?_⟩
  · intro reg node w2 hw ht
    rw [(collectDirectives_matches env reg node w2 hw).1]
    unfold matchList
    rw [ht]
  · have h := (((compiled_sublist (iterations (sortByPriority directives) false none)).trans
      (iterations_isPrefix _ _ _).sublist)).filter (fun d => decide (d.priority = p))
    rw [sortByPriority_filter] at h
    exact h

/-! ## No linking function exactly for a directive-free list (C9) -/

mutual
theorem compileNode_noop (env : Env) (reg : Registry) : ∀ (node : Node) (w : World),
    Consistent reg w →
    Consistent reg (compileNode env reg node w).2 ∧
    (((compileNode env reg node w).1.1.truthy = false ∧
        (compileNode env reg node w).1.2.truthy = false) ↔
      ∀ x ∈ subtree node, matchList env reg x = [])
  | .mk id nodeType nodeName attributes className nodeValue childNodes, w, hw => by
    obtain ⟨hm, hc⟩ := collectDirectives_matches env reg
      (.mk id nodeType nodeName attributes className nodeValue childNodes) w hw
    have ha := applyIfAny_consistent env reg _
      (.mk id nodeType nodeName attributes className nodeValue childNodes) hc
    have ht := applyIfAny_truthy env (collectDirectives env reg
      (.mk id nodeType nodeName attributes className nodeValue childNodes) w)
      (.mk id nodeType nodeName attributes className nodeValue childNodes)
    rw [hm] at ht
    obtain ⟨hl1, hl2⟩ := compileLoop_noop env reg childNodes _ ha
    rw [compileNode_eq, subtree]
    simp only [Node.childNodes, List.mem_cons, forall_eq_or_imp]
    split
    · rename_i hterm
      refine ⟨ha, ?_⟩
      constructor
      · intro h
        have hnil := ht.1 h.1
        rw [← hm] at hnil
        rw [applyIfAny_terminal_of_nil env _ _ hnil] at hterm
        cases hterm
      · intro h
        have hnil := h.1
        rw [← hm] at hnil
        rw [applyIfAny_terminal_of_nil env _ _ hnil] at hterm
        cases hterm
    · refine ⟨hl1, ?_⟩
      simp only [closeList_truthy]
      rw [ht, hl2]
  termination_by structural node => node
theorem compileLoop_noop (env : Env) (reg : Registry) : ∀ (nodeList : List Node) (w : World),
    Consistent reg w →
    Consistent reg (compileLoop env reg nodeList w).2 ∧
    (haveLinkingFn (compileLoop env reg nodeList w).1 = false ↔
      ∀ x ∈ subtrees nodeList, matchList env reg x = [])
  | [], w, hw => by
    simp [compileLoop, haveLinkingFn, subtrees, hw]
  | node :: rest, w, hw => by
    obtain ⟨h1, h2⟩ := compileNode_noop env reg node w hw
    obtain ⟨h3, h4⟩ := compileLoop_noop env reg rest _ h1
    rw [compileLoop, subtrees]
    refine ⟨h3, ?_⟩
    simp only [haveLinkingFn, List.any_cons, Bool.or_eq_false_iff, List.mem_append]
    simp only [haveLinkingFn] at h4
    rw [h4, ← and_assoc, h2]
    constructor
    · rintro ⟨ha, hb⟩ x (hx | hx)
      · exact ha x hx
      · exact hb x hx
    · intro h
      exact ⟨fun x hx => h x (Or.inl hx), fun x hx => h x (Or.inr hx)⟩
  termination_by structural nodeList => nodeList
end

theorem reviseList_length (env : Env) (reg : Registry) (sub : List Node → List Node)
    (nodeList : List Node) : (reviseList env reg sub nodeList).length = nodeList.length := by
  induction nodeList with
  | nil => simp [reviseList]
  | cons node rest ih => simp [reviseList, ih]

theorem reviseNode_childNodes (env : Env) (reg : Registry) (sub : List Node → List Node)
    (node : Node) :
    (reviseNode env reg sub node).childNodes =
      if directiveFree env reg node.childNodes then sub node.childNodes
      else reviseList env reg sub node.childNodes := by
  cases node with
  | mk id nodeType nodeName attributes className nodeValue childNodes =>
    rw [reviseNode]
    rfl

mutual
theorem compileNode_revised (env : Env) (reg : Registry) (sub : List Node → List Node) :
    ∀ (node : Node) (w : World), Consistent reg w →
    entryMatches (compileNode env reg node w).1.2 (reviseNode env reg sub node).childNodes = true
  | .mk id nodeType nodeName attributes className nodeValue childNodes, w, hw => by
    obtain ⟨_, hc⟩ := collectDirectives_matches env reg
      (.mk id nodeType nodeName attributes className nodeValue childNodes) w hw
    have ha := applyIfAny_consistent env reg _
      (.mk id nodeType nodeName attributes className nodeValue childNodes) hc
    have hp := compileLoop_revised env reg sub childNodes _ ha
    have hn := (compileLoop_noop env reg childNodes _ ha).2
    have hl := compileLoop_length env reg childNodes
      (applyIfAny env (collectDirectives env reg
        (.mk id nodeType nodeName attributes className nodeValue childNodes) w)
        (.mk id nodeType nodeName attributes className nodeValue childNodes)).2
    rw [compileNode_eq, reviseNode_childNodes]
    simp only [Node.childNodes]
    split
    · simp [entryMatches]
    · simp only
      unfold closeList
      split
      · rename_i hh
        have hfree : directiveFree env reg childNodes = false := by
          cases hd : directiveFree env reg childNodes with
          | false => rfl
          | true =>
            have := hn.2 ((directiveFree_iff env reg childNodes).1 hd)
            rw [this] at hh
            cases hh
        rw [hfree]
        simp only [Bool.false_eq_true, if_false]
        rw [entryMatches, hp, hl, reviseList_length]
        simp
      · simp [entryMatches]
  termination_by structural node => node
theorem compileLoop_revised (env : Env) (reg : Registry) (sub : List Node → List Node) :
    ∀ (nodeList : List Node) (w : World), Consistent reg w →
    pairsMatch (compileLoop env reg nodeList w).1 (reviseList env reg sub nodeList) = true
  | [], w, _ => by simp [compileLoop, pairsMatch]
  | node :: rest, w, hw => by
    have h1 := compileNode_revised env reg sub node w hw
    have h2 := compileLoop_revised env reg sub rest _ (compileNode_noop env reg node w hw).1
    rw [compileLoop, reviseList, pairsMatch]
    simp [h1, h2]
  termination_by structural nodeList => nodeList
end

/-- C9, as stated, fails in its second part: in `<p>plain</p><div log></div>` the node `<p>`,
with its text, is a directive-free subtree; once it is pruned after compilation, linking raises
the structural error, because the root list stored a linking function for the `div`. -/
theorem pruned_sibling_raises :
    (∀ x ∈ subtree plainNode, matchList stdEnv logRegistry x = []) ∧
    (compile stdEnv logRegistry mixedTemplate World.init).1.isSome = true ∧
    (templateFunction (compile stdEnv logRegistry mixedTemplate World.init).1 mixedPruned 1 none
      (compile stdEnv logRegistry mixedTemplate World.init).2).2.error = some structureError := by
  decide

/-- C9, amended. Under a registry cache that holds only resolved descriptors (as the empty cache
does), the directives collected for a node are its match list, and `compileNodes` returns no
linking function exactly when no node of the list and no descendant has a match. Hence a
template without any match links whatever the live tree has become, and a template in which
directive-free child lists (all the children of a node, when none of them and no descendant has
a match) were pruned, or replaced by anything else, after compilation still links without a
structural error. -/
theorem noop_iff_directive_free (env : Env) (reg : Registry) (nodeList : List Node) (w : World)
    (hw : Consistent reg w) :
    (∀ (node : Node) (w2 : World), Consistent reg w2 →
      (collectDirectives env reg node w2).directives = matchList env reg node) ∧
    ((compileNodes env reg nodeList w).1 = none ↔
      ∀ x ∈ subtrees nodeList, matchList env reg x = []) ∧
    ((compileNodes env reg nodeList w).1 = none →
      ∀ (live : List Node) (scope : Nat) (w1 : World),
        (templateFunction (compile env reg nodeList w).1 live scope none w1).2.error = none) ∧
    ∀ (sub : List Node → List Node) (scope : Nat) (w1 : World),
      (templateFunction (compile env reg nodeList w).1 (reviseList env reg sub nodeList) scope
        none w1).2.error = none := by
  refine ⟨fun node w2 h2 => (collectDirectives_matches env reg node w2 h2).1, ?_, ?_, ?_⟩
  · have h := (compileLoop_noop env reg nodeList w hw).2
    unfold compileNodes
    simp only
    rw [← h]
    cases haveLinkingFn (compileLoop env reg nodeList w).1 <;> simp
  · intro h live scope w1
    rw [templateFunction_error]
    unfold compile
    rw [h]
  · intro sub scope w1
    rw [templateFunction_error]
    unfold compile compileNodes
    simp only
    split
    · rfl
    · rename_i fns hf
      split at hf
      · cases hf
        rw [entryMatches, compileLoop_revised env reg sub nodeList w hw, compileLoop_length,
          reviseList_length]
        simp
      · cases hf

/-! ## A compiled template links on itself -/

mutual
theorem reviseNode_id (env : Env) (reg : Registry) : ∀ node : Node,
    reviseNode env reg (fun k => k) node = node
  | .mk id nodeType nodeName attributes className nodeValue childNodes => by
    rw [reviseNode, reviseList_id env reg childNodes]
    simp
  termination_by structural node => node
theorem reviseList_id (env : Env) (reg : Registry) : ∀ nodeList : List Node,
    reviseList env reg (fun k => k) nodeList = nodeList
  | [] => by simp [reviseList]
  | node :: rest => by
    rw [reviseList, reviseNode_id env reg node, reviseList_id env reg rest]
  termination_by structural nodeList => nodeList
end

theorem template_links_itself (env : Env) (reg : Registry) (nodeList : List Node) (w : World)
    (hw : Consistent reg w) (scope : Nat) (w1 : World) :
    (templateFunction (compile env reg nodeList w).1 nodeList scope none w1).2.error = none := by
  rw [templateFunction_error]
  unfold compile compileNodes
  simp only
  split
  · rfl
  · rename_i fns hf
    split at hf
    · cases hf
      have h := compileLoop_revised env reg (fun k => k) nodeList w hw
      rw [reviseList_id] at h
      rw [entryMatches, h, compileLoop_length]
      simp
    · cases hf

/-! ## Pre-link, children, post-link (C5) -/

/-- C5. Linking a node with its `linkFn` appends to the trace the events of the node's pre-link
callbacks, in the order of the stored link specs (the sorted order of C1), then the events
`childEvs` of linking its children with the child-linking function, then, unless that raised,
the events of the node's post-link callbacks in the same order. In a node list a position is
linked completely before the next one, so children are linked in document order. For a parent
`A` with a child `B` the callbacks run as `preA, preB, postB, postA`. Linking a compiled template
on the tree it was compiled from raises nothing, so there every post-link callback runs. -/
theorem link_pre_children_post (f : NodeLinkFn) (c : LinkEntry) (scope : Nat) (linkNode : Node)
    (w : World) :
    (∃ childEvs : List Event,
      (linkEntry c scope linkNode.childNodes
          (preLink f.linkingFns scope linkNode.id (linkAttrs f linkNode w).1
            (linkAttrs f linkNode w).2)).world.trace =
        w.trace ++ phaseEvents .pre f.linkingFns scope linkNode.id (linkAttrs f linkNode w).1 ++
          childEvs ∧
      ((linkFn f c scope linkNode w).error = none →
        (linkFn f c scope linkNode w).world.trace =
          w.trace ++ phaseEvents .pre f.linkingFns scope linkNode.id (linkAttrs f linkNode w).1 ++
            childEvs ++
            phaseEvents .post f.linkingFns scope linkNode.id (linkAttrs f linkNode w).1)) ∧
    (∀ (d : LinkEntry) (rest : List LinkEntry) (nodes : List Node) (rootElement : Bool),
      (linkPosition d c scope linkNode rootElement w).error = none →
      linkLoop (d :: c :: rest) scope (linkNode :: nodes) rootElement w =
        linkLoop rest (enterScope d scope linkNode rootElement w).1 nodes rootElement
          (linkPosition d c scope linkNode rootElement w).world) ∧
    (∀ (env : Env) (reg : Registry) (nodeList : List Node) (w0 : World), Consistent reg w0 →
      ∀ (s : Nat) (w1 : World),
        (templateFunction (compile env reg nodeList w0).1 nodeList s none w1).2.error = none) ∧
    linkLabels
        (templateFunction (compile stdEnv abcRegistry abTemplate World.init).1 abTemplate 1 none
          (compile stdEnv abcRegistry abTemplate World.init).2).2.world.trace =
      ["preA", "preB", "postB", "postA"] := by
  refine ⟨?_, ?_, fun env reg nodeList w0 hw s w1 =>
    template_links_itself env reg nodeList w0 hw s w1, by decide⟩
  · have hp := preLink_trace f.linkingFns scope linkNode.id (linkAttrs f linkNode w).1
      (linkAttrs f linkNode w).2
    rw [linkAttrs_trace] at hp
    obtain ⟨evs, he⟩ := linkEntry_trace c scope linkNode.childNodes
      (preLink f.linkingFns scope linkNode.id (linkAttrs f linkNode w).1
        (linkAttrs f linkNode w).2)
    rw [hp] at he
    refine ⟨evs, he, ?_⟩
    unfold linkFn
    dsimp only
    split
    · intro h; cases h
    · intro _
      rw [postLink_trace, he]
  · intro d rest nodes rootElement h
    rw [linkLoop_cons_cons, h]

/-! ## A compile step that throws (C10) -/

theorem attrSetter_frame (env : Env) (self : Attrs) (key : String) (value : AttrVal) (w : World) :
    attrSetter env self key value w =
      ((attrSetter env self key value World.init).1,
        { w with trace := w.trace ++ (attrSetter env self key value World.init).2.trace }) := by
  unfold attrSetter
  split
  · dsimp only
    split <;> simp [World.emit, World.init]
  · dsimp only
    split <;> simp [World.emit, World.init]

theorem callTemplateFn_frame (env : Env) (d : Directive) (f : TemplateFn) (node : Nat)
    (attrs : Attrs) (w : World) :
    callTemplateFn env d f node attrs w =
      ((callTemplateFn env d f node attrs World.init).1,
        (callTemplateFn env d f node attrs World.init).2.1,
        { w with trace := w.trace ++ (callTemplateFn env d f node attrs World.init).2.2.trace }) := by
  unfold callTemplateFn
  cases f with
  | returns l => simp [World.emit, World.init]
  | throws e => simp [World.emit, World.init]
  | attrInterpolate i n v =>
    cases i with
    | some i => simp [World.emit, World.init]
    | none =>
      simp only
      rw [attrSetter_frame env attrs n v (w.emit _),
        attrSetter_frame env attrs n v (World.init.emit _)]
      simp [World.emit, World.init]

theorem compileStep_frame (env : Env) (node : Node) (d : Directive) (a b : ApplyState)
    (h : SameControl a b) :
    ∃ (L : List LinkSpec) (E : List Event),
      (compileStep env node d a).linkingFns = a.linkingFns ++ L ∧
      (compileStep env node d b).linkingFns = b.linkingFns ++ L ∧
      (compileStep env node d a).world.trace = a.world.trace ++ E ∧
      (compileStep env node d b).world.trace = b.world.trace ++ E ∧
      SameControl (compileStep env node d a) (compileStep env node d b) := by
  obtain ⟨h1, h2, h3, h4, h5, h6⟩ := h
  unfold compileStep
  cases hf : d.templateFn with
  | none => exact ⟨[], [], by simp, by simp, by simp, by simp, h1, h2, h3, h4, h5, h6⟩
  | some f =>
    simp only
    rw [callTemplateFn_frame env d f node.id a.attrs a.world,
      callTemplateFn_frame env d f node.id b.attrs b.world, h4]
    cases (callTemplateFn env d f node.id b.attrs World.init).1 with
    | ok l =>
      exact ⟨[l], (callTemplateFn env d f node.id b.attrs World.init).2.2.trace,
        rfl, rfl, rfl, rfl, h1, h2, h3, rfl, h5, h6⟩
    | error e =>
      exact ⟨[], (callTemplateFn env d f node.id b.attrs World.init).2.2.trace ++ [.report e],
        by simp, by simp, by simp [World.emit], by simp [World.emit], h1, h2, h3, rfl, h5, h6⟩

theorem SameControl.markTerminal {a b : ApplyState} (h : SameControl a b) (d d2 : Directive)
    (ht : d.terminal = d2.terminal) (hp : d.priority = d2.priority) :
    SameControl (markTerminal d a) (markTerminal d2 b) := by
  obtain ⟨h1, h2, h3, h4, h5, h6⟩ := h
  refine ⟨by simpa using h1, ?_, by simp [ht, h3], by simpa using h4, by simpa using h5,
    by simpa using h6⟩
  simp [nextTerminal, ht, hp, h2]

theorem SameControl.claimScope {a b : ApplyState} (h : SameControl a b) (d d2 : Directive)
    (hs : d.scope = d2.scope) (hn : d.name = d2.name) :
    SameControl (claimScope d a) (claimScope d2 b) := by
  obtain ⟨h1, h2, h3, h4, h5, h6⟩ := h
  unfold NgCompile.claimScope
  rw [← hs]
  split
  · exact ⟨by simp [hn], h2, h3, h4, h5, h6⟩
  · exact ⟨h1, h2, h3, h4, h5, h6⟩

theorem SameControl.isSome {a b : ApplyState} (h : SameControl a b) :
    a.newScopeDirective.isSome = b.newScopeDirective.isSome := by
  have h1 := h.1
  cases ha : a.newScopeDirective <;> cases hb : b.newScopeDirective <;> simp_all

theorem SameControl.firstName {a b : ApplyState} (h : SameControl a b) (d d2 : Directive)
    (hn : d.name = d2.name) :
    (a.newScopeDirective.getD d).name = (b.newScopeDirective.getD d2).name := by
  have h1 := h.1
  cases ha : a.newScopeDirective <;> cases hb : b.newScopeDirective <;> simp_all

theorem applyLoop_frame (env : Env) (node : Node) (ds : List Directive) :
    ∀ a b : ApplyState, SameControl a b →
      ∃ (L : List LinkSpec) (E : List Event),
        (applyLoop env node ds a).linkingFns = a.linkingFns ++ L ∧
        (applyLoop env node ds b).linkingFns = b.linkingFns ++ L ∧
        (applyLoop env node ds a).world.trace = a.world.trace ++ E ∧
        (applyLoop env node ds b).world.trace = b.world.trace ++ E ∧
        SameControl (applyLoop env node ds a) (applyLoop env node ds b) := by
  induction ds with
  | nil => intro a b h; exact ⟨[], [], by simp [applyLoop], by simp [applyLoop],
      by simp [applyLoop], by simp [applyLoop], by simpa [applyLoop] using h⟩
  | cons d rest ih =>
    intro a b h
    have hsome := h.isSome
    have htp := h.2.1
    rw [applyLoop_cons, applyLoop_cons]
    by_cases hc : (d.scope && a.newScopeDirective.isSome) = true
    · have hc2 : (d.scope && b.newScopeDirective.isSome) = true := by rw [← hsome]; exact hc
      rw [if_pos hc, if_pos hc2]
      have hmsg : multipleScopeError env (b.newScopeDirective.getD d) d node =
          multipleScopeError env (a.newScopeDirective.getD d) d node := by
        unfold multipleScopeError
        rw [h.firstName d d rfl]
      rw [hmsg]
      have hs : SameControl
          { a with world := (a.world.emit
            (.report (multipleScopeError env (a.newScopeDirective.getD d) d node))) }
          { b with world := (b.world.emit
            (.report (multipleScopeError env (a.newScopeDirective.getD d) d node))) } :=
        ⟨h.1, h.2.1, h.2.2.1, h.2.2.2.1, h.2.2.2.2.1, h.2.2.2.2.2⟩
      obtain ⟨L, E, e1, e2, e3, e4, e5⟩ := ih _ _ (hs.markTerminal d d rfl rfl)
      refine ⟨L, .report (multipleScopeError env (a.newScopeDirective.getD d) d node) :: E,
        ?_, ?_, ?_, ?_, e5⟩
      · simpa using e1
      · simpa using e2
      · simpa using e3
      · simpa using e4
    · have hc2 : ¬ (d.scope && b.newScopeDirective.isSome) = true := by rw [← hsome]; exact hc
      rw [if_neg hc, if_neg hc2]
      by_cases hb : belowTerminal a.terminalPriority d.priority = true
      · have hb2 : belowTerminal b.terminalPriority d.priority = true := by rw [← htp]; exact hb
        rw [if_pos hb, if_pos hb2]
        exact ⟨[], [], by simp, by simp, by simp, by simp, h.claimScope d d rfl rfl⟩
      · have hb2 : ¬ belowTerminal b.terminalPriority d.priority = true := by
          rw [← htp]; exact hb
        rw [if_neg hb, if_neg hb2]
        obtain ⟨L1, E1, c1, c2, c3, c4, c5⟩ := compileStep_frame env node d _ _
          (h.claimScope d d rfl rfl)
        obtain ⟨L, E, e1, e2, e3, e4, e5⟩ := ih _ _ (c5.markTerminal d d rfl rfl)
        refine ⟨L1 ++ L, E1 ++ E, ?_, ?_, ?_, ?_, e5⟩
        · rw [e1]; simp [c1]
        · rw [e2]; simp [c2]
        · rw [e3]; simp [c3]
        · rw [e4]; simp [c4]

theorem priorityOrder_congr (x d d2 : Directive) (hp : d2.priority = d.priority) :
    priorityOrder x d2 ↔ priorityOrder x d := by
  rw [priorityOrder_iff, priorityOrder_iff, hp]

theorem priorityOrder_congr_left (x d d2 : Directive) (hp : d2.priority = d.priority) :
    priorityOrder d2 x ↔ priorityOrder d x := by
  rw [priorityOrder_iff, priorityOrder_iff, hp]

theorem orderedInsert_swap (x d d2 : Directive) (hp : d2.priority = d.priority)
    (s2 : List Directive) :
    ∀ s1 : List Directive, ∃ t1 t2 : List Directive,
      List.orderedInsert priorityOrder x (s1 ++ d :: s2) = t1 ++ d :: t2 ∧
      List.orderedInsert priorityOrder x (s1 ++ d2 :: s2) = t1 ++ d2 :: t2 := by
  intro s1
  induction s1 with
  | nil =>
    by_cases h : priorityOrder x d
    · have h2 : priorityOrder x d2 := (priorityOrder_congr x d d2 hp).2 h
      exact ⟨[x], s2, by simp [List.orderedInsert, h], by simp [List.orderedInsert, h2]⟩
    · have h2 : ¬ priorityOrder x d2 := fun c => h ((priorityOrder_congr x d d2 hp).1 c)
      exact ⟨[], List.orderedInsert priorityOrder x s2, by simp [List.orderedInsert, h],
        by simp [List.orderedInsert, h2]⟩
  | cons y s1 ih =>
    by_cases h : priorityOrder x y
    · exact ⟨x :: y :: s1, s2, by simp [List.orderedInsert, h], by simp [List.orderedInsert, h]⟩
    · obtain ⟨t1, t2, h1, h2⟩ := ih
      exact ⟨y :: t1, t2, by simp [List.orderedInsert, h, h1], by simp [List.orderedInsert, h, h2]⟩

theorem orderedInsert_self_swap (d d2 : Directive) (hp : d2.priority = d.priority) :
    ∀ l : List Directive, ∃ t1 t2 : List Directive,
      List.orderedInsert priorityOrder d l = t1 ++ d :: t2 ∧
      List.orderedInsert priorityOrder d2 l = t1 ++ d2 :: t2 := by
  intro l
  induction l with
  | nil => exact ⟨[], [], by simp, by simp⟩
  | cons y l ih =>
    by_cases h : priorityOrder d y
    · have h2 : priorityOrder d2 y := (priorityOrder_congr_left y d d2 hp).2 h
      exact ⟨[], y :: l, by simp [List.orderedInsert, h], by simp [List.orderedInsert, h2]⟩
    · have h2 : ¬ priorityOrder d2 y := fun c => h ((priorityOrder_congr_left y d d2 hp).1 c)
      obtain ⟨t1, t2, h3, h4⟩ := ih
      exact ⟨y :: t1, t2, by simp [List.orderedInsert, h, h3],
        by simp [List.orderedInsert, h2, h4]⟩

theorem sortByPriority_swap (d d2 : Directive) (hp : d2.priority = d.priority)
    (post : List Directive) :
    ∀ pre : List Directive, ∃ s1 s2 : List Directive,
      sortByPriority (pre ++ d :: post) = s1 ++ d :: s2 ∧
      sortByPriority (pre ++ d2 :: post) = s1 ++ d2 :: s2 := by
  intro pre
  unfold sortByPriority
  induction pre with
  | nil => simpa [List.insertionSort] using orderedInsert_self_swap d d2 hp _
  | cons x pre ih =>
    obtain ⟨s1, s2, h1, h2⟩ := ih
    obtain ⟨t1, t2, h3, h4⟩ := orderedInsert_swap x d d2 hp s2 s1
    refine ⟨t1, t2, ?_, ?_⟩
    · rw [List.cons_append, List.insertionSort, h1, h3]
    · rw [List.cons_append, List.insertionSort, h2, h4]

theorem SameControl.refl (a : ApplyState) : SameControl a a :=
  ⟨rfl, rfl, rfl, rfl, rfl, rfl⟩

theorem applyLoop_append (env : Env) (node : Node) (s1 : List Directive) :
    ∀ st : ApplyState,
      (∀ t : List Directive, applyLoop env node (s1 ++ t) st = applyLoop env node s1 st) ∨
      ∃ st1 : ApplyState,
        (∀ t : List Directive, applyLoop env node (s1 ++ t) st = applyLoop env node t st1) ∧
        ∃ (L : List LinkSpec) (E : List Event),
          st1.linkingFns = st.linkingFns ++ L ∧ st1.world.trace = st.world.trace ++ E := by
  induction s1 with
  | nil => intro st; exact Or.inr ⟨st, fun t => rfl, [], [], by simp, by simp⟩
  | cons y s1 ih =>
    intro st
    by_cases hc : (y.scope && st.newScopeDirective.isSome) = true
    · rcases ih (markTerminal y { st with world := (st.world.emit
          (.report (multipleScopeError env (st.newScopeDirective.getD y) y node))) }) with h | h
      · left
        intro t
        rw [List.cons_append, applyLoop_cons, applyLoop_cons, if_pos hc, if_pos hc, h]
      · right
        obtain ⟨st1, h1, L, E, h2, h3⟩ := h
        refine ⟨st1, ?_, L,
          .report (multipleScopeError env (st.newScopeDirective.getD y) y node) :: E, ?_, ?_⟩
        · intro t
          rw [List.cons_append, applyLoop_cons, if_pos hc, h1]
        · simpa using h2
        · simpa using h3
    · by_cases hb : belowTerminal st.terminalPriority y.priority = true
      · left
        intro t
        rw [List.cons_append, applyLoop_cons, applyLoop_cons, if_neg hc, if_neg hc, if_pos hb,
          if_pos hb]
      · obtain ⟨L1, E1, c1, _, c3, _, _⟩ := compileStep_frame env node y _ _
          (SameControl.refl (claimScope y st))
        rcases ih (markTerminal y (compileStep env node y (claimScope y st))) with h | h
        · left
          intro t
          rw [List.cons_append, applyLoop_cons, applyLoop_cons, if_neg hc, if_neg hc, if_neg hb,
            if_neg hb, h]
        · right
          obtain ⟨st1, h1, L, E, h2, h3⟩ := h
          refine ⟨st1, ?_, L1 ++ L, E1 ++ E, ?_, ?_⟩
          · intro t
            rw [List.cons_append, applyLoop_cons, if_neg hc, if_neg hb, h1]
          · rw [h2]; simp [c1]
          · rw [h3]; simp [c3]

theorem markTerminal_returningNothing (d : Directive) (st : ApplyState) :
    markTerminal (returningNothing d) st = markTerminal d st := rfl

theorem compileStep_throws (env : Env) (node : Node) (d : Directive) (e : String)
    (st : ApplyState) (hd : d.templateFn = some (.throws e)) :
    compileStep env node d st =
      { st with world := (st.world.emit (.templateFn d node.id)).emit (.report e) } := by
  unfold compileStep
  rw [hd]
  rfl

theorem compileStep_returningNothing (env : Env) (node : Node) (d : Directive) (st : ApplyState) :
    compileStep env node (returningNothing d) st =
      { st with linkingFns := st.linkingFns ++ [.undefined],
                world := st.world.emit (.templateFn (returningNothing d) node.id) } := rfl

theorem applyLoop_throw_step (env : Env) (node : Node) (d : Directive) (e : String)
    (s2 : List Directive) (st1 : ApplyState) (hd : d.templateFn = some (.throws e)) :
    ((applyLoop env node (d :: s2) st1).linkingFns =
        (applyLoop env node (returningNothing d :: s2) st1).linkingFns ∧
      (applyLoop env node (d :: s2) st1).world.trace =
        (applyLoop env node (returningNothing d :: s2) st1).world.trace ∧
      SameControl (applyLoop env node (d :: s2) st1)
        (applyLoop env node (returningNothing d :: s2) st1)) ∨
    ∃ (b : List Event) (lb : List LinkSpec),
      (applyLoop env node (d :: s2) st1).world.trace =
        st1.world.trace ++ [.templateFn d node.id, .report e] ++ b ∧
      (applyLoop env node (returningNothing d :: s2) st1).world.trace =
        st1.world.trace ++ [.templateFn (returningNothing d) node.id] ++ b ∧
      (applyLoop env node (d :: s2) st1).linkingFns = st1.linkingFns ++ lb ∧
      (applyLoop env node (returningNothing d :: s2) st1).linkingFns =
        st1.linkingFns ++ .undefined :: lb ∧
      SameControl (applyLoop env node (d :: s2) st1)
        (applyLoop env node (returningNothing d :: s2) st1) := by
  rw [applyLoop_cons, applyLoop_cons]
  have hscope : (returningNothing d).scope = d.scope := rfl
  have hprio : (returningNothing d).priority = d.priority := rfl
  rw [hscope, hprio]
  by_cases hc : (d.scope && st1.newScopeDirective.isSome) = true
  · left
    rw [if_pos hc, if_pos hc, markTerminal_returningNothing]
    have hmsg : multipleScopeError env (st1.newScopeDirective.getD (returningNothing d))
        (returningNothing d) node =
        multipleScopeError env (st1.newScopeDirective.getD d) d node := by
      cases st1.newScopeDirective <;> rfl
    rw [hmsg]
    exact ⟨rfl, rfl, SameControl.refl _⟩
  · rw [if_neg hc, if_neg hc]
    by_cases hb : belowTerminal st1.terminalPriority d.priority = true
    · left
      rw [if_pos hb, if_pos hb]
      exact ⟨by simp, by simp, (SameControl.refl st1).claimScope d (returningNothing d) rfl rfl⟩
    · right
      rw [if_neg hb, if_neg hb, compileStep_throws env node d e _ hd,
        compileStep_returningNothing, markTerminal_returningNothing]
      have hs : SameControl
          (markTerminal d { claimScope d st1 with
            world := ((claimScope d st1).world.emit (.templateFn d node.id)).emit (.report e) })
          (markTerminal d { claimScope (returningNothing d) st1 with
            linkingFns := (claimScope (returningNothing d) st1).linkingFns ++ [.undefined],
            world := (claimScope (returningNothing d) st1).world.emit
              (.templateFn (returningNothing d) node.id) }) := by
        apply SameControl.markTerminal _ d d rfl rfl
        obtain ⟨h1, h2, h3, h4, h5, h6⟩ :=
          (SameControl.refl st1).claimScope d (returningNothing d) rfl rfl
        exact ⟨h1, h2, h3, h4, h5, h6⟩
      obtain ⟨L, E, e1, e2, e3, e4, e5⟩ := applyLoop_frame env node s2 _ _ hs
      refine ⟨E, L, ?_, ?_, ?_, ?_, e5⟩
      · rw [e3]; simp
      · rw [e4]; simp
      · rw [e1]; simp
      · rw [e2]; simp

theorem phaseEvents_undefined (phase : Phase) (la lb : List LinkSpec) (scope element : Nat)
    (attrs : Attrs) :
    phaseEvents phase (la ++ lb) scope element attrs =
      phaseEvents phase (la ++ .undefined :: lb) scope element attrs := by
  unfold phaseEvents
  cases phase <;> simp [phaseFns, List.filterMap_append, List.filterMap_cons, LinkSpec.preFn,
    LinkSpec.postFn]

/-- C10. Take a match list in which the compile step of the directive `d` throws `e`, and the
same list with `d` replaced by a directive alike in everything except that its compile step
returns nothing. Either the two runs of `applyDirectivesPerElement` give the same result (the
compile step is never reached: cut off by a terminal directive, or refused as a second scope
request), or their traces are the same except that, where the second run calls the compile step
that returns nothing, the first calls the compile step of `d` and hands `e` to the error sink,
once. In that case the link specs kept are the same except for the `undefined` the second run
pushed, so the link callbacks are the same, and so are the terminal flag, the scope flag, the
attrs and the rest of the world: every other directive is processed alike. -/
theorem compile_throw_contained (env : Env) (pre post : List Directive) (d : Directive)
    (e : String) (templateNode : Node) (templateAttrs : Attrs) (w : World)
    (hd : d.templateFn = some (.throws e)) :
    applyDirectivesPerElement env (pre ++ d :: post) templateNode templateAttrs w =
      applyDirectivesPerElement env (pre ++ returningNothing d :: post) templateNode
        templateAttrs w ∨
    ∃ (a b : List Event) (la lb : List LinkSpec),
      (applyDirectivesPerElement env (pre ++ d :: post) templateNode templateAttrs w).2.trace =
        w.trace ++ a ++ [.templateFn d templateNode.id, .report e] ++ b ∧
      (applyDirectivesPerElement env (pre ++ returningNothing d :: post) templateNode
          templateAttrs w).2.trace =
        w.trace ++ a ++ [.templateFn (returningNothing d) templateNode.id] ++ b ∧
      (applyDirectivesPerElement env (pre ++ d :: post) templateNode templateAttrs
          w).1.linkingFns = la ++ lb ∧
      (applyDirectivesPerElement env (pre ++ returningNothing d :: post) templateNode
          templateAttrs w).1.linkingFns = la ++ .undefined :: lb ∧
      (∀ (phase : Phase) (scope element : Nat) (attrs : Attrs),
        phaseEvents phase (applyDirectivesPerElement env (pre ++ d :: post) templateNode
            templateAttrs w).1.linkingFns scope element attrs =
          phaseEvents phase (applyDirectivesPerElement env (pre ++ returningNothing d :: post)
            templateNode templateAttrs w).1.linkingFns scope element attrs) ∧
      (applyDirectivesPerElement env (pre ++ d :: post) templateNode templateAttrs w).1.terminal =
        (applyDirectivesPerElement env (pre ++ returningNothing d :: post) templateNode
          templateAttrs w).1.terminal ∧
      (applyDirectivesPerElement env (pre ++ d :: post) templateNode templateAttrs w).1.scope =
        (applyDirectivesPerElement env (pre ++ returningNothing d :: post) templateNode
          templateAttrs w).1.scope ∧
      (applyDirectivesPerElement env (pre ++ d :: post) templateNode templateAttrs
          w).1.templateAttrs =
        (applyDirectivesPerElement env (pre ++ returningNothing d :: post) templateNode
          templateAttrs w).1.templateAttrs ∧
      (applyDirectivesPerElement env (pre ++ d :: post) templateNode templateAttrs
          w).2.directiveCache =
        (applyDirectivesPerElement env (pre ++ returningNothing d :: post) templateNode
          templateAttrs w).2.directiveCache ∧
      (applyDirectivesPerElement env (pre ++ d :: post) templateNode templateAttrs w).2.nextId =
        (applyDirectivesPerElement env (pre ++ returningNothing d :: post) templateNode
          templateAttrs w).2.nextId := by
  obtain ⟨s1, s2, hs1, hs2⟩ := sortByPriority_swap d (returningNothing d) rfl post pre
  unfold applyDirectivesPerElement
  simp only [hs1, hs2]
  have key : ∀ A B : ApplyState, A.linkingFns = B.linkingFns → A.world.trace = B.world.trace →
      SameControl A B →
      (({ linkingFns := A.linkingFns, templateNode := templateNode.id,
          templateAttrs := A.attrs, terminal := A.terminal,
          scope := A.newScopeDirective.isSome } : NodeLinkFn), A.world) =
        (({ linkingFns := B.linkingFns, templateNode := templateNode.id,
            templateAttrs := B.attrs, terminal := B.terminal,
            scope := B.newScopeDirective.isSome } : NodeLinkFn), B.world) := by
    intro A B h1 h2 h3
    have h4 := h3.isSome
    obtain ⟨_, _, h5, h6, h7, h8⟩ := h3
    have hw : A.world = B.world := by
      cases hA : A.world
      cases hB : B.world
      rw [hA, hB] at h2 h7 h8
      simp only at h2 h7 h8
      rw [h2, h7, h8]
    rw [h1, h4, h5, h6, hw]
  rcases applyLoop_append env templateNode s1 (applyInit templateNode templateAttrs w) with h | h
  · left
    rw [h, h]
  · obtain ⟨st1, h1, L0, E0, hL, hE⟩ := h
    rw [h1, h1]
    have hL0 : st1.linkingFns = L0 := by simpa [applyInit] using hL
    have hE0 : st1.world.trace = w.trace ++ E0 := by simpa [applyInit] using hE
    rcases applyLoop_throw_step env templateNode d e s2 st1 hd with h | h
    · left
      exact key _ _ h.1 h.2.1 h.2.2
    · right
      obtain ⟨b, lb, t1, t2, l1, l2, hc⟩ := h
      refine ⟨E0, b, L0, lb, ?_, ?_, ?_, ?_, ?_, hc.2.2.1, hc.isSome, hc.2.2.2.1,
        hc.2.2.2.2.1, hc.2.2.2.2.2⟩
      · rw [t1, hE0]
      · rw [t2, hE0]
      · rw [l1, hL0]
      · rw [l2, hL0]
      · intro phase scope element attrs
        simp only [l1, l2, hL0]
        exact phaseEvents_undefined phase L0 lb scope element attrs

/-- C10 on the test `should handle exceptions`: the compile step of `templateError` throws, the
error reaches the sink once, and the run is otherwise the one with a compile step returning
nothing. -/
theorem compile_throw_contained_witness :
    throwingDirective.templateFn = some (.throws "TemplateError") ∧
    reports throwingRun.2.trace = ["TemplateError"] ∧
    (throwingRun = quietRun ∨
      ∃ (a b : List Event) (la lb : List LinkSpec),
        throwingRun.2.trace =
          World.init.trace ++ a ++
            [.templateFn throwingDirective divNode.id, .report "TemplateError"] ++ b ∧
        quietRun.2.trace =
          World.init.trace ++ a ++
            [.templateFn (returningNothing throwingDirective) divNode.id] ++ b ∧
        throwingRun.1.linkingFns = la ++ lb ∧
        quietRun.1.linkingFns = la ++ .undefined :: lb ∧
        (∀ (phase : Phase) (scope element : Nat) (attrs : Attrs),
          phaseEvents phase throwingRun.1.linkingFns scope element attrs =
            phaseEvents phase quietRun.1.linkingFns scope element attrs) ∧
        throwingRun.1.terminal = quietRun.1.terminal ∧
        throwingRun.1.scope = quietRun.1.scope ∧
        throwingRun.1.templateAttrs = quietRun.1.templateAttrs ∧
        throwingRun.2.directiveCache = quietRun.2.directiveCache ∧
        throwingRun.2.nextId = quietRun.2.nextId) :=
  ⟨rfl, by decide,
    compile_throw_contained stdEnv [] [plainDirective "linkingError" 0] throwingDirective
      "TemplateError" divNode emptyAttrs World.init rfl⟩

/-- C9, amended, on the test `should not store linkingFns for noop branches`: the empty cache
is consistent, the `span` branch has no match and compiles to no linking function, and the
template pruned of it links without an error. -/
theorem noop_iff_directive_free_witness :
    Consistent ([] : Registry) World.init ∧
    ((compileNodes stdEnv [] [element 2 "SPAN" [] [textNode 3 "ignore"]] World.init).1 = none ↔
      ∀ x ∈ subtrees [element 2 "SPAN" [] [textNode 3 "ignore"]], matchList stdEnv [] x = []) ∧
    pruneList stdEnv [] noopTemplate = noopPruned ∧
    ∀ (scope : Nat) (w1 : World),
      (templateFunction (compile stdEnv [] noopTemplate World.init).1
        (pruneList stdEnv [] noopTemplate) scope none w1).2.error = none :=
  ⟨fun name d h => by simp [World.init, getKey] at h,
    (noop_iff_directive_free stdEnv [] [element 2 "SPAN" [] [textNode 3 "ignore"]] World.init
      (fun name d h => by simp [World.init, getKey] at h)).2.1,
    rfl,
    (noop_iff_directive_free stdEnv [] noopTemplate World.init
      (fun name d h => by simp [World.init, getKey] at h)).2.2.2 (fun _ => [])⟩

/-! ## Linking does not read the trace -/

theorem linkCalls_append (a b : List Event) : linkCalls (a ++ b) = linkCalls a ++ linkCalls b := by
  induction a with
  | nil => rfl
  | cons e rest ih => cases e <;> simp [linkCalls, ih]

theorem linkAttrs_nextId (f : NodeLinkFn) (linkNode : Node) (a b : World)
    (h : a.nextId = b.nextId) :
    (linkAttrs f linkNode a).1 = (linkAttrs f linkNode b).1 ∧
    (linkAttrs f linkNode a).2.nextId = (linkAttrs f linkNode b).2.nextId := by
  unfold linkAttrs
  split <;> simp [h]

theorem preLink_nextId (linkingFns : List LinkSpec) (scope element : Nat) (attrs : Attrs)
    (w : World) : (preLink linkingFns scope element attrs w).nextId = w.nextId := by
  rw [preLink_eq]

theorem postLink_nextId (linkingFns : List LinkSpec) (scope element : Nat) (attrs : Attrs)
    (w : World) : (postLink linkingFns scope element attrs w).nextId = w.nextId := by
  rw [postLink_eq]

theorem enterScope_frame (d : LinkEntry) (scope : Nat) (node : Node) (rootElement : Bool)
    (a b : World) (h : a.nextId = b.nextId) :
    (enterScope d scope node rootElement a).1 = (enterScope d scope node rootElement b).1 ∧
    (enterScope d scope node rootElement a).2.nextId =
      (enterScope d scope node rootElement b).2.nextId ∧
    ∃ evs, (enterScope d scope node rootElement a).2.trace = a.trace ++ evs ∧
      (enterScope d scope node rootElement b).2.trace = b.trace ++ evs := by
  unfold enterScope
  cases d with
  | directive f =>
    simp only
    split
    · exact ⟨by simp [forkScope, h], by simp [forkScope, World.emit, h],
        [.scopeNew scope a.nextId, .dataScope node.id a.nextId],
        by simp [forkScope, World.emit], by simp [forkScope, World.emit, h]⟩
    · exact ⟨rfl, h, [], by simp, by simp⟩
  | falsy => exact ⟨rfl, h, [], by simp, by simp⟩
  | list l => exact ⟨rfl, h, [], by simp, by simp⟩

theorem linkFn_frame (f : NodeLinkFn) (c : LinkEntry) (scope : Nat) (linkNode : Node)
    (a b : World) (h : a.nextId = b.nextId)
    (hc : ∀ (s : Nat) (a1 b1 : World), a1.nextId = b1.nextId →
      SameRun (linkEntry c s linkNode.childNodes a1) (linkEntry c s linkNode.childNodes b1) a1 b1) :
    SameRun (linkFn f c scope linkNode a) (linkFn f c scope linkNode b) a b := by
  obtain ⟨hattrs, hid⟩ := linkAttrs_nextId f linkNode a b h
  have hpa := preLink_trace f.linkingFns scope linkNode.id (linkAttrs f linkNode a).1
    (linkAttrs f linkNode a).2
  have hpb := preLink_trace f.linkingFns scope linkNode.id (linkAttrs f linkNode b).1
    (linkAttrs f linkNode b).2
  rw [linkAttrs_trace] at hpa hpb
  obtain ⟨herr, hn, evs, hta, htb⟩ := hc scope
    (preLink f.linkingFns scope linkNode.id (linkAttrs f linkNode a).1 (linkAttrs f linkNode a).2)
    (preLink f.linkingFns scope linkNode.id (linkAttrs f linkNode b).1 (linkAttrs f linkNode b).2)
    (by rw [preLink_nextId, preLink_nextId, hid])
  rw [hpa] at hta
  rw [hpb] at htb
  unfold linkFn SameRun
  dsimp only
  rw [← herr]
  cases he : (linkEntry c scope linkNode.childNodes
    (preLink f.linkingFns scope linkNode.id (linkAttrs f linkNode a).1
      (linkAttrs f linkNode a).2)).error with
  | some e =>
    refine ⟨rfl, hn, phaseEvents .pre f.linkingFns scope linkNode.id (linkAttrs f linkNode a).1 ++
      evs, ?_, ?_⟩
    · simp only [hta, List.append_assoc]
    · simp only [htb, hattrs, List.append_assoc]
  | none =>
    refine ⟨rfl, ?_, phaseEvents .pre f.linkingFns scope linkNode.id (linkAttrs f linkNode a).1 ++
      evs ++ phaseEvents .post f.linkingFns scope linkNode.id (linkAttrs f linkNode a).1, ?_, ?_⟩
    · simp only [postLink_nextId, hn]
    · simp only [postLink_trace, hta, List.append_assoc]
    · simp only [postLink_trace, htb, hattrs, List.append_assoc]

theorem linkPosition_frame (d c : LinkEntry) (scope : Nat) (node : Node) (rootElement : Bool)
    (a b : World) (h : a.nextId = b.nextId)
    (hc : ∀ (s : Nat) (a1 b1 : World), a1.nextId = b1.nextId →
      SameRun (linkEntry c s node.childNodes a1) (linkEntry c s node.childNodes b1) a1 b1) :
    SameRun (linkPosition d c scope node rootElement a) (linkPosition d c scope node rootElement b)
      a b := by
  cases d with
  | directive f =>
    simp only [linkPosition]
    obtain ⟨hs, hid, e1, h1a, h1b⟩ := enterScope_frame (.directive f) scope node rootElement a b h
    obtain ⟨herr, hn, e2, h2a, h2b⟩ := linkFn_frame f c
      (enterScope (.directive f) scope node rootElement a).1 node
      (enterScope (.directive f) scope node rootElement a).2
      (enterScope (.directive f) scope node rootElement b).2 hid hc
    rw [← hs]
    exact ⟨herr, hn, e1 ++ e2, by rw [h2a, h1a, List.append_assoc],
      by rw [h2b, h1b, List.append_assoc]⟩
  | falsy => simpa [linkPosition] using hc scope a b h
  | list l => simpa [linkPosition] using hc scope a b h

mutual
theorem linkEntry_frame : ∀ (e : LinkEntry) (scope : Nat) (nodeList : List Node) (a b : World),
    a.nextId = b.nextId →
    SameRun (linkEntry e scope nodeList a) (linkEntry e scope nodeList b) a b
  | .list linkingFns, scope, nodeList, a, b, h => by
    rw [linkEntry, linkEntry]
    split
    · exact ⟨rfl, h, [], by simp, by simp⟩
    · exact linkLoop_frame linkingFns scope nodeList false a b h
  | .falsy, _, _, _, _, h => ⟨by simp [linkEntry], by simpa [linkEntry] using h, [],
      by simp [linkEntry], by simp [linkEntry]⟩
  | .directive _, _, _, _, _, h => ⟨by simp [linkEntry], by simpa [linkEntry] using h, [],
      by simp [linkEntry], by simp [linkEntry]⟩
theorem linkLoop_frame : ∀ (linkingFns : List LinkEntry) (scope : Nat) (nodeList : List Node)
    (rootElement : Bool) (a b : World), a.nextId = b.nextId →
    SameRun (linkLoop linkingFns scope nodeList rootElement a)
      (linkLoop linkingFns scope nodeList rootElement b) a b
  | [], _, _, _, _, _, h => ⟨by simp [linkLoop], by simpa [linkLoop] using h, [],
      by simp [linkLoop], by simp [linkLoop]⟩
  | _ :: _, _, [], _, _, _, h => ⟨by simp [linkLoop], by simpa [linkLoop] using h, [],
      by simp [linkLoop], by simp [linkLoop]⟩
  | [d], scope, node :: nodes, rootElement, a, b, h => by
    have hp := linkPosition_frame d .falsy scope node rootElement a b h
      (fun s a1 b1 h1 => ⟨by simp [linkEntry], by simpa [linkEntry] using h1, [],
        by simp [linkEntry], by simp [linkEntry]⟩)
    cases d with
    | directive f =>
      simpa [linkLoop, linkPosition, linkFn, linkEntry, enterScope] using hp
    | falsy => exact ⟨by simp [linkLoop], by simpa [linkLoop] using h, [],
        by simp [linkLoop], by simp [linkLoop]⟩
    | list l => exact ⟨by simp [linkLoop], by simpa [linkLoop] using h, [],
        by simp [linkLoop], by simp [linkLoop]⟩
  | d :: c :: rest, scope, node :: nodes, rootElement, a, b, h => by
    obtain ⟨herr, hn, e1, h1a, h1b⟩ := linkPosition_frame d c scope node rootElement a b h
      (fun s a1 b1 h1 => linkEntry_frame c s node.childNodes a1 b1 h1)
    obtain ⟨hs, -, -⟩ := enterScope_frame d scope node rootElement a b h
    rw [linkLoop_cons_cons, linkLoop_cons_cons, ← herr, ← hs]
    cases he : (linkPosition d c scope node rootElement a).error with
    | some e => exact ⟨rfl, hn, e1, h1a, h1b⟩
    | none =>
      obtain ⟨herr2, hn2, e2, h2a, h2b⟩ := linkLoop_frame rest
        (enterScope d scope node rootElement a).1 nodes rootElement
        (linkPosition d c scope node rootElement a).world
        (linkPosition d c scope node rootElement b).world hn
      exact ⟨herr2, hn2, e1 ++ e2, by rw [h2a, h1a, List.append_assoc],
        by rw [h2b, h1b, List.append_assoc]⟩
end

/-! ## A link callback that throws (C11) -/

theorem phaseFns_quiet (phase : Phase) (linkingFns : List LinkSpec) :
    phaseFns phase (linkingFns.map LinkSpec.quiet) =
      (phaseFns phase linkingFns).map Callback.quiet := by
  induction linkingFns with
  | nil => cases phase <;> rfl
  | cons l rest ih =>
    cases phase
    · simp only [phaseFns] at ih ⊢
      rw [List.map_cons, List.filterMap_cons, List.filterMap_cons, ih]
      cases l with
      | undefined => rfl
      | fn g => rfl
      | obj pre post => cases pre <;> rfl
    · simp only [phaseFns] at ih ⊢
      rw [List.map_cons, List.filterMap_cons, List.filterMap_cons, ih]
      cases l with
      | undefined => rfl
      | fn g => rfl
      | obj pre post => cases post <;> rfl

theorem quiet_quiet (f : Callback) : f.quiet.quiet = f.quiet := by
  cases f <;> rfl

theorem quiet_thrown (f : Callback) : f.quiet.thrown = none := by
  cases f <;> rfl

theorem linkCalls_callEvents (phase : Phase) (f : Callback) (scope element : Nat)
    (attrs : Attrs) :
    linkCalls (callEvents phase f scope element attrs) = [(phase, f.quiet, scope, element, attrs)] := by
  cases f with
  | user label throws => cases throws <;> rfl
  | textBinding i => rfl
  | attrBinding i n => rfl

theorem reports_callEvents (phase : Phase) (f : Callback) (scope element : Nat) (attrs : Attrs) :
    reports (callEvents phase f scope element attrs) = f.thrown.toList := by
  cases f with
  | user label throws => cases throws <;> rfl
  | textBinding i => rfl
  | attrBinding i n => rfl

theorem linkCalls_phaseEvents (phase : Phase) (linkingFns : List LinkSpec) (scope element : Nat)
    (attrs : Attrs) :
    linkCalls (phaseEvents phase linkingFns scope element attrs) =
      (phaseFns phase linkingFns).map (fun f => (phase, f.quiet, scope, element, attrs)) := by
  unfold phaseEvents
  induction phaseFns phase linkingFns with
  | nil => rfl
  | cons g rest ih =>
    rw [List.map_cons, List.flatten_cons, linkCalls_append, ih, linkCalls_callEvents]
    rfl

theorem reports_phaseEvents (phase : Phase) (linkingFns : List LinkSpec) (scope element : Nat)
    (attrs : Attrs) :
    reports (phaseEvents phase linkingFns scope element attrs) = thrownBy phase linkingFns := by
  unfold phaseEvents thrownBy
  induction phaseFns phase linkingFns with
  | nil => rfl
  | cons g rest ih =>
    rw [List.map_cons, List.flatten_cons, reports_append, ih, reports_callEvents,
      List.filterMap_cons]
    cases g.thrown <;> rfl

theorem linkCalls_phaseEvents_quiet (phase : Phase) (linkingFns : List LinkSpec)
    (scope element : Nat) (attrs : Attrs) :
    linkCalls (phaseEvents phase (linkingFns.map LinkSpec.quiet) scope element attrs) =
      linkCalls (phaseEvents phase linkingFns scope element attrs) := by
  rw [linkCalls_phaseEvents, linkCalls_phaseEvents, phaseFns_quiet, List.map_map]
  apply List.map_congr_left
  intro g _
  simp [quiet_quiet]

theorem thrownBy_quiet (phase : Phase) (linkingFns : List LinkSpec) :
    thrownBy phase (linkingFns.map LinkSpec.quiet) = [] := by
  unfold thrownBy
  rw [phaseFns_quiet]
  induction phaseFns phase linkingFns with
  | nil => rfl
  | cons g rest ih => rw [List.map_cons, List.filterMap_cons, quiet_thrown, ih]

theorem linkAttrs_quiet (f : NodeLinkFn) (linkNode : Node) (w : World) :
    linkAttrs f.quiet linkNode w = linkAttrs f linkNode w := rfl

theorem linkFn_error (f : NodeLinkFn) (c : LinkEntry) (scope : Nat) (linkNode : Node)
    (w : World) :
    (linkFn f c scope linkNode w).error =
      if entryMatches c linkNode.childNodes then none else some structureError := by
  unfold linkFn
  dsimp only
  rw [← linkEntry_error c scope linkNode.childNodes
    (preLink f.linkingFns scope linkNode.id (linkAttrs f linkNode w).1 (linkAttrs f linkNode w).2)]
  split
  · next e he => rw [he]
  · next he => rw [he]

/-- The trace of `linkFn`, split into the three stages, with the events added by the child
linking named by what it adds when started right after the attrs were chosen. -/
theorem linkFn_stages (f : NodeLinkFn) (c : LinkEntry) (scope : Nat) (linkNode : Node)
    (w : World) :
    ∃ childEvs : List Event,
      (linkEntry c scope linkNode.childNodes (linkAttrs f linkNode w).2).world.trace =
        w.trace ++ childEvs ∧
      (linkFn f c scope linkNode w).world.trace =
        w.trace ++ phaseEvents .pre f.linkingFns scope linkNode.id (linkAttrs f linkNode w).1 ++
          childEvs ++
          (if (linkFn f c scope linkNode w).error = none then
            phaseEvents .post f.linkingFns scope linkNode.id (linkAttrs f linkNode w).1
           else []) := by
  have hp := preLink_trace f.linkingFns scope linkNode.id (linkAttrs f linkNode w).1
    (linkAttrs f linkNode w).2
  rw [linkAttrs_trace] at hp
  obtain ⟨herr, -, evs, hta, htb⟩ := linkEntry_frame c scope linkNode.childNodes
    (linkAttrs f linkNode w).2
    (preLink f.linkingFns scope linkNode.id (linkAttrs f linkNode w).1 (linkAttrs f linkNode w).2)
    (by rw [preLink_nextId])
  rw [linkAttrs_trace] at hta
  rw [hp] at htb
  refine ⟨evs, hta, ?_⟩
  unfold linkFn
  dsimp only
  cases he : (linkEntry c scope linkNode.childNodes
    (preLink f.linkingFns scope linkNode.id (linkAttrs f linkNode w).1
      (linkAttrs f linkNode w).2)).error with
  | some e => simp [htb]
  | none => simp [postLink_trace, htb]

/-- C11. A link callback that throws is called and its exception handed to the error sink
right after the call, once. For every `linkFn`, compared with the same `linkFn` whose callbacks
all return normally (`f.quiet`): the link call ends the same way, and the only exception that
can leave it is the structural error of the child linking, never one of a callback; the same
callbacks are called with the same arguments in the same order (the node's pre-link callbacks,
the callbacks of the child linking, the node's post-link callbacks); and the error sink receives
what it receives in the quiet run and besides, at their place, the exceptions of the node's
throwing callbacks, each once. On the test `should handle exceptions`, with a pre-link callback
that throws beside it, all three callbacks run and the two exceptions are reported. -/
theorem link_throw_contained (f : NodeLinkFn) (c : LinkEntry) (scope : Nat) (linkNode : Node)
    (w : World) :
    (∀ (phase : Phase) (label e : String) (s el : Nat) (a : Attrs),
      callEvents phase (.user label (some e)) s el a =
        [.link phase (.user label (some e)) s el a, .report e]) ∧
    (linkFn f c scope linkNode w).error =
      (if entryMatches c linkNode.childNodes then none else some structureError) ∧
    (linkFn f c scope linkNode w).error = (linkFn f.quiet c scope linkNode w).error ∧
    linkCalls (linkFn f c scope linkNode w).world.trace =
      linkCalls (linkFn f.quiet c scope linkNode w).world.trace ∧
    (∃ childReports : List String,
      reports (linkFn f.quiet c scope linkNode w).world.trace = reports w.trace ++ childReports ∧
      reports (linkFn f c scope linkNode w).world.trace =
        reports w.trace ++ thrownBy .pre f.linkingFns ++ childReports ++
          (if (linkFn f c scope linkNode w).error = none then thrownBy .post f.linkingFns
           else [])) ∧
    (linkFn linkingErrorFn .falsy 1 divNode World.init).error = none ∧
    linkLabels (linkFn linkingErrorFn .falsy 1 divNode World.init).world.trace =
      ["preOther", "linkingError", "postOther"] ∧
    reports (linkFn linkingErrorFn .falsy 1 divNode World.init).world.trace =
      ["PreError", "LinkingError"] := by
  have herr : (linkFn f c scope linkNode w).error = (linkFn f.quiet c scope linkNode w).error := by
    rw [linkFn_error, linkFn_error]
  obtain ⟨evs, hc, ht⟩ := linkFn_stages f c scope linkNode w
  obtain ⟨evs2, hc2, ht2⟩ := linkFn_stages f.quiet c scope linkNode w
  rw [linkAttrs_quiet] at hc2 ht2
  have hev : evs2 = evs := List.append_cancel_left (hc2.symm.trans hc)
  subst hev
  rw [← herr] at ht2
  refine ⟨fun phase label e s el a => rfl, linkFn_error f c scope linkNode w, herr, ?_, ?_,
    by decide, by decide, by decide⟩
  · rw [ht, ht2]
    split <;>
      simp only [linkCalls_append, NodeLinkFn.quiet, linkCalls_phaseEvents_quiet]
  · refine ⟨reports evs2, ?_, ?_⟩
    · rw [ht2]
      split <;>
        simp [reports_append, NodeLinkFn.quiet, reports_phaseEvents, thrownBy_quiet, reports]
    · rw [ht]
      split <;> simp [reports_append, reports_phaseEvents, reports]

/-! ## A factory that throws (C12) -/

theorem getKey_unregister_self (name : String) (reg : Registry) :
    getKey name (unregister name reg) = none := by
  unfold unregister
  induction reg with
  | nil => rfl
  | cons p rest ih =>
    obtain ⟨k, v⟩ := p
    by_cases h : k = name
    · simpa [List.filter_cons, h] using ih
    · simp only [List.filter_cons, ne_eq, h, not_false_eq_true, decide_True, if_true]
      simpa [getKey, h] using ih

theorem getKey_unregister_ne (name other : String) (reg : Registry) (h : other ≠ name) :
    getKey other (unregister name reg) = getKey other reg := by
  unfold unregister
  induction reg with
  | nil => rfl
  | cons p rest ih =>
    obtain ⟨k, v⟩ := p
    by_cases hk : k = name
    · subst hk
      have hko : ¬ k = other := fun e => h e.symm
      simpa [List.filter_cons, getKey, hko] using ih
    · simp only [List.filter_cons, ne_eq, hk, not_false_eq_true, decide_True, if_true]
      by_cases ho : k = other
      · simp [getKey, ho]
      · simpa [getKey, ho] using ih

theorem inserted_self (blk : List Event) : ∀ a : List Event, Inserted blk a a
  | [] => .nil
  | ev :: rest => .same ev (inserted_self blk rest)

theorem inserted_append {blk a b c d : List Event} (h1 : Inserted blk a b)
    (h2 : Inserted blk c d) : Inserted blk (a ++ c) (b ++ d) := by
  induction h1 with
  | nil => simpa using h2
  | same ev _ ih => exact .same ev ih
  | block _ ih =>
    rw [List.append_assoc]
    exact .block ih

theorem inserted_one (blk : List Event) : Inserted blk blk [] := by
  have h : Inserted blk (blk ++ []) [] := .block .nil
  simpa using h

theorem skips_same (blk : List Event) {ra rb a b : World} (evs : List Event)
    (ha : ra.trace = a.trace ++ evs) (hb : rb.trace = b.trace ++ evs) : Skips blk ra rb a b :=
  ⟨evs, evs, ha, hb, inserted_self blk evs⟩

theorem skips_trans {blk : List Event} {a b a1 b1 a2 b2 : World} (h1 : Skips blk a1 b1 a b)
    (h2 : Skips blk a2 b2 a1 b1) : Skips blk a2 b2 a b := by
  obtain ⟨ea, eb, ha, hb, hi⟩ := h1
  obtain ⟨ea2, eb2, ha2, hb2, hi2⟩ := h2
  exact ⟨ea ++ ea2, eb ++ eb2, by rw [ha2, ha, List.append_assoc],
    by rw [hb2, hb, List.append_assoc], inserted_append hi hi2⟩

theorem getDirective_skip (reg : Registry) (name e : String)
    (hf : getKey name reg = some (.throws e)) (other : String) (a b : World)
    (h : Agree name a b) :
    (getDirective reg other a).1 = (getDirective (unregister name reg) other b).1 ∧
    Agree name (getDirective reg other a).2 (getDirective (unregister name reg) other b).2 ∧
    Skips [.invoke name, .report e] (getDirective reg other a).2
      (getDirective (unregister name reg) other b).2 a b := by
  obtain ⟨hc, hn, hk⟩ := h
  by_cases ho : other = name
  · subst ho
    unfold getDirective
    rw [hf, hk, getKey_unregister_self]
    refine ⟨rfl, ⟨hc, hn, hk⟩, [.invoke other, .report e], [], ?_, by simp, inserted_one _⟩
    simp [callFactory, World.emit]
  · unfold getDirective
    rw [getKey_unregister_ne name other reg ho, ← hc]
    cases getKey other reg with
    | none => exact ⟨rfl, ⟨hc, hn, hk⟩, skips_same _ [] (by simp) (by simp)⟩
    | some factory =>
      simp only
      cases getKey other a.directiveCache with
      | some d => exact ⟨rfl, ⟨hc, hn, hk⟩, skips_same _ [] (by simp) (by simp)⟩
      | none =>
        have hno : name ≠ other := fun x => ho x.symm
        cases factory with
        | throws e2 =>
          exact ⟨rfl, ⟨hc, hn, hk⟩,
            skips_same _ [.invoke other, .report e2] (by simp [callFactory, World.emit])
              (by simp [callFactory, World.emit])⟩
        | fn g =>
          refine ⟨rfl, ⟨?_, hn, ?_⟩,
            skips_same _ [.invoke other] (by simp [callFactory, World.emit])
              (by simp [callFactory, World.emit])⟩
          · simp [callFactory, World.emit, hc]
          · simp only [callFactory, World.emit]
            rw [getKey_setKey_ne _ _ _ _ hno, getKey_setKey_ne _ _ _ _ hno]
            exact hk
        | obj p t s tf =>
          refine ⟨rfl, ⟨?_, hn, ?_⟩,
            skips_same _ [.invoke other] (by simp [callFactory, World.emit])
              (by simp [callFactory, World.emit])⟩
          · simp [callFactory, World.emit, hc]
          · simp only [callFactory, World.emit]
            rw [getKey_setKey_ne _ _ _ _ hno, getKey_setKey_ne _ _ _ _ hno]
            exact hk

theorem scanAttributes_skip (env : Env) (reg : Registry) (name e : String)
    (hf : getKey name reg = some (.throws e)) (attributes : List (String × String)) :
    ∀ sta stb : ScanState, SameScan name sta stb →
      SameScan name (scanAttributes env reg attributes sta)
        (scanAttributes env (unregister name reg) attributes stb) ∧
      Skips [.invoke name, .report e] (scanAttributes env reg attributes sta).world
        (scanAttributes env (unregister name reg) attributes stb).world sta.world stb.world := by
  induction attributes with
  | nil =>
    intro sta stb h
    exact ⟨by simpa [scanAttributes] using h, skips_same _ [] (by simp [scanAttributes])
      (by simp [scanAttributes])⟩
  | cons a rest ih =>
    intro sta stb h
    obtain ⟨attrName, attrValue⟩ := a
    obtain ⟨da, aa, wa⟩ := sta
    obtain ⟨db, ab, wb⟩ := stb
    obtain ⟨h1, h2, h3⟩ := h
    simp only at h1 h2 h3
    subst h1 h2
    obtain ⟨g1, g2, g3⟩ := getDirective_skip reg name e hf
      (env.camelCase (env.lowercase attrName)) wa wb h3
    have step : ∀ S1 S2 : ScanState, SameScan name S1 S2 →
        Skips [.invoke name, .report e] S1.world S2.world wa wb →
        SameScan name (scanAttributes env reg rest S1)
          (scanAttributes env (unregister name reg) rest S2) ∧
        Skips [.invoke name, .report e] (scanAttributes env reg rest S1).world
          (scanAttributes env (unregister name reg) rest S2).world wa wb :=
      fun S1 S2 hS hk => ⟨(ih S1 S2 hS).1, skips_trans hk (ih S1 S2 hS).2⟩
    rw [scanAttributes, scanAttributes]
    apply step
    · exact ⟨by simp only [g1], rfl, g2⟩
    · exact g3

theorem scanClass_skip (env : Env) (reg : Registry) (name e : String)
    (hf : getKey name reg = some (.throws e)) (fuel : Nat) :
    ∀ (text : List Char) (sta stb : ScanState), SameScan name sta stb →
      SameScan name (scanClass env reg fuel text sta)
        (scanClass env (unregister name reg) fuel text stb) ∧
      Skips [.invoke name, .report e] (scanClass env reg fuel text sta).world
        (scanClass env (unregister name reg) fuel text stb).world sta.world stb.world := by
  induction fuel with
  | zero =>
    intro text sta stb h
    exact ⟨by simpa [scanClass] using h, skips_same _ [] (by simp [scanClass])
      (by simp [scanClass])⟩
  | succ fuel ih =>
    intro text sta stb h
    obtain ⟨da, aa, wa⟩ := sta
    obtain ⟨db, ab, wb⟩ := stb
    obtain ⟨h1, h2, h3⟩ := h
    simp only at h1 h2 h3
    subst h1 h2
    rw [scanClass, scanClass]
    cases hm : execClass text with
    | none => exact ⟨⟨rfl, rfl, h3⟩, skips_same _ [] (by simp) (by simp)⟩
    | some m =>
      simp only
      obtain ⟨g1, g2, g3⟩ := getDirective_skip reg name e hf
        (env.camelCase (String.mk m.name)) wa wb h3
      have step : ∀ S1 S2 : ScanState, SameScan name S1 S2 →
          Skips [.invoke name, .report e] S1.world S2.world wa wb →
          SameScan name (scanClass env reg fuel (text.drop (m.index + m.whole.length)) S1)
            (scanClass env (unregister name reg) fuel (text.drop (m.index + m.whole.length)) S2) ∧
          Skips [.invoke name, .report e]
            (scanClass env reg fuel (text.drop (m.index + m.whole.length)) S1).world
            (scanClass env (unregister name reg) fuel (text.drop (m.index + m.whole.length))
              S2).world wa wb :=
        fun S1 S2 hS hk => ⟨(ih _ S1 S2 hS).1, skips_trans hk (ih _ S1 S2 hS).2⟩
      rw [← g1]
      cases hr : (getDirective reg (env.camelCase (String.mk m.name)) wa).1 with
      | none =>
        simp only
        apply step
        · exact ⟨rfl, rfl, g2⟩
        · exact g3
      | some d =>
        simp only
        apply step
        · exact ⟨rfl, rfl, g2⟩
        · exact g3

theorem collectDirectives_skip (env : Env) (reg : Registry) (name e : String)
    (hf : getKey name reg = some (.throws e)) (node : Node) (a b : World)
    (h : Agree name a b) :
    SameScan name (collectDirectives env reg node a)
      (collectDirectives env (unregister name reg) node b) ∧
    Skips [.invoke name, .report e] (collectDirectives env reg node a).world
      (collectDirectives env (unregister name reg) node b).world a b := by
  obtain ⟨ca, ta, na⟩ := a
  obtain ⟨cb, tb, nb⟩ := b
  obtain ⟨hc, hn, hk⟩ := h
  simp only at hc hn hk
  subst hc hn
  have h0 : Agree name { directiveCache := ca, trace := ta, nextId := na + 1 }
      { directiveCache := ca, trace := tb, nextId := na + 1 } := ⟨rfl, rfl, hk⟩
  unfold collectDirectives
  split
  · obtain ⟨g1, g2, g3⟩ := getDirective_skip reg name e hf
      (env.camelCase (env.lowercase node.nodeName)) _ _ h0
    obtain ⟨s1, s2⟩ := scanAttributes_skip env reg name e hf node.attributes
      { directives := pushDirective [] (getDirective reg
          (env.camelCase (env.lowercase node.nodeName))
          { directiveCache := ca, trace := ta, nextId := na + 1 }).1,
        attrs := { objId := na, attrMap := [], vals := [], element := none },
        world := (getDirective reg (env.camelCase (env.lowercase node.nodeName))
          { directiveCache := ca, trace := ta, nextId := na + 1 }).2 }
      { directives := pushDirective [] (getDirective (unregister name reg)
          (env.camelCase (env.lowercase node.nodeName))
          { directiveCache := ca, trace := tb, nextId := na + 1 }).1,
        attrs := { objId := na, attrMap := [], vals := [], element := none },
        world := (getDirective (unregister name reg) (env.camelCase (env.lowercase node.nodeName))
          { directiveCache := ca, trace := tb, nextId := na + 1 }).2 }
      ⟨by simp only [g1], rfl, g2⟩
    obtain ⟨c1, c2⟩ := scanClass_skip env reg name e hf node.className.data.length
      node.className.data _ _ s1
    exact ⟨c1, skips_trans (skips_trans g3 s2) c2⟩
  · cases env.interpolate node.nodeValue with
    | none => exact ⟨⟨rfl, rfl, h0⟩, skips_same _ [] (by simp) (by simp)⟩
    | some i => exact ⟨⟨rfl, rfl, h0⟩, skips_same _ [] (by simp) (by simp)⟩
  · cases execComment node.nodeValue.data with
    | none => exact ⟨⟨rfl, rfl, h0⟩, skips_same _ [] (by simp) (by simp)⟩
    | some m =>
      obtain ⟨cname, args⟩ := m
      simp only
      obtain ⟨g1, g2, g3⟩ := getDirective_skip reg name e hf
        (env.camelCase (String.mk cname)) _ _ h0
      rw [← g1]
      cases hr : (getDirective reg (env.camelCase (String.mk cname))
          { directiveCache := ca, trace := ta, nextId := na + 1 }).1 with
      | none => exact ⟨⟨rfl, rfl, g2⟩, g3⟩
      | some d => exact ⟨⟨rfl, rfl, g2⟩, g3⟩
  · exact ⟨⟨rfl, rfl, h0⟩, skips_same _ [] (by simp) (by simp)⟩

theorem applyIfAny_skip (env : Env) (name : String) (blk : List Event) (node : Node)
    (sta stb : ScanState) (h : SameScan name sta stb) :
    (applyIfAny env sta node).1 = (applyIfAny env stb node).1 ∧
    Agree name (applyIfAny env sta node).2 (applyIfAny env stb node).2 ∧
    Skips blk (applyIfAny env sta node).2 (applyIfAny env stb node).2 sta.world stb.world := by
  obtain ⟨da, aa, wa⟩ := sta
  obtain ⟨db, ab, wb⟩ := stb
  obtain ⟨h1, h2, hc, hn, hk⟩ := h
  simp only at h1 h2 hc hn hk
  subst h1 h2
  unfold applyIfAny
  simp only
  split
  · exact ⟨rfl, ⟨hc, hn, hk⟩, skips_same _ [] (by simp) (by simp)⟩
  · obtain ⟨L, E, e1, e2, e3, e4, e5⟩ := applyLoop_frame env node (sortByPriority da)
      (applyInit node aa wa) (applyInit node aa wb) ⟨rfl, rfl, rfl, rfl, hc, hn⟩
    have hs := e5.isSome
    obtain ⟨-, -, s3, s4, s5, s6⟩ := e5
    refine ⟨?_, ⟨s5, s6, ?_⟩, skips_same _ E e3 e4⟩
    · simp only [applyDirectivesPerElement, e1, e2, s3, s4, hs]
      rfl
    · simp only [applyDirectivesPerElement]
      rw [applyLoop_cache]
      exact hk

mutual
theorem compileNode_skip (env : Env) (reg : Registry) (name e : String)
    (hf : getKey name reg = some (.throws e)) : ∀ (node : Node) (a b : World), Agree name a b →
    (compileNode env reg node a).1 = (compileNode env (unregister name reg) node b).1 ∧
    Agree name (compileNode env reg node a).2 (compileNode env (unregister name reg) node b).2 ∧
    Skips [.invoke name, .report e] (compileNode env reg node a).2
      (compileNode env (unregister name reg) node b).2 a b
  | .mk id nodeType nodeName attributes className nodeValue childNodes, a, b, h => by
    obtain ⟨c1, c2⟩ := collectDirectives_skip env reg name e hf
      (.mk id nodeType nodeName attributes className nodeValue childNodes) a b h
    obtain ⟨a1, a2, a3⟩ := applyIfAny_skip env name [.invoke name, .report e]
      (.mk id nodeType nodeName attributes className nodeValue childNodes) _ _ c1
    obtain ⟨l1, l2, l3⟩ := compileLoop_skip env reg name e hf childNodes _ _ a2
    rw [compileNode_eq, compileNode_eq, ← a1]
    simp only [Node.childNodes]
    split
    · exact ⟨rfl, a2, skips_trans c2 a3⟩
    · exact ⟨by rw [l1], l2, skips_trans (skips_trans c2 a3) l3⟩
  termination_by structural node => node
theorem compileLoop_skip (env : Env) (reg : Registry) (name e : String)
    (hf : getKey name reg = some (.throws e)) : ∀ (nodeList : List Node) (a b : World),
    Agree name a b →
    (compileLoop env reg nodeList a).1 = (compileLoop env (unregister name reg) nodeList b).1 ∧
    Agree name (compileLoop env reg nodeList a).2
      (compileLoop env (unregister name reg) nodeList b).2 ∧
    Skips [.invoke name, .report e] (compileLoop env reg nodeList a).2
      (compileLoop env (unregister name reg) nodeList b).2 a b
  | [], a, b, h => by
    rw [compileLoop, compileLoop]
    exact ⟨rfl, h, skips_same _ [] (by simp) (by simp)⟩
  | node :: rest, a, b, h => by
    obtain ⟨n1, n2, n3⟩ := compileNode_skip env reg name e hf node a b h
    obtain ⟨l1, l2, l3⟩ := compileLoop_skip env reg name e hf rest _ _ n2
    rw [compileLoop, compileLoop]
    exact ⟨by simp only [n1, l1], l2, skips_trans n3 l3⟩
  termination_by structural nodeList => nodeList
end

theorem compileCalls_inserted (name e : String) {a b : List Event}
    (h : Inserted [.invoke name, .report e] a b) : compileCalls a = compileCalls b := by
  induction h with
  | nil => rfl
  | same ev _ ih => cases ev <;> simp [compileCalls, ih]
  | block _ ih => simpa [compileCalls] using ih

/-- C12. When the factory registered under `name` throws, and the cache holds nothing under
that name (a throwing factory never gets there), a lookup of the name calls the factory, hands
the exception to the error sink and yields nothing. Compiling any node list is then the same as
with a registry that never had the name: the same linking function is returned (so linking does
the same), the cache and the supply of identities end the same, and the trace is the trace of
the run without the name with the pair `invoke name`, `report e` put in once for every lookup
of the name, everything else being the same in the same order; in particular the same compile
steps are called on the same nodes. On the test `should handle exceptions` the sink receives
`FactoryError`, `TemplateError` and `LinkingError`, in that order. -/
theorem factory_throw_contained (env : Env) (reg : Registry) (name e : String)
    (templateElement : List Node) (w : World)
    (hf : getKey name reg = some (.throws e)) (hc : getKey name w.directiveCache = none) :
    getDirective reg name w = (none, (w.emit (.invoke name)).emit (.report e)) ∧
    (compile env reg templateElement w).1 =
      (compile env (unregister name reg) templateElement w).1 ∧
    (compile env reg templateElement w).2.directiveCache =
      (compile env (unregister name reg) templateElement w).2.directiveCache ∧
    (compile env reg templateElement w).2.nextId =
      (compile env (unregister name reg) templateElement w).2.nextId ∧
    (∃ ea eb : List Event,
      (compile env reg templateElement w).2.trace = w.trace ++ ea ∧
      (compile env (unregister name reg) templateElement w).2.trace = w.trace ++ eb ∧
      Inserted [.invoke name, .report e] ea eb ∧ compileCalls ea = compileCalls eb) ∧
    reports (templateFunction (compile stdEnv errorRegistry errorTemplate World.init).1
        errorTemplate 1 none
        (compile stdEnv errorRegistry errorTemplate World.init).2).2.world.trace =
      ["FactoryError", "TemplateError", "LinkingError"] := by
  obtain ⟨l1, ⟨l2, l3, -⟩, ea, eb, ha, hb, hi⟩ :=
    compileLoop_skip env reg name e hf templateElement w w ⟨rfl, rfl, hc⟩
  refine ⟨?_, ?_, l2, l3, ⟨ea, eb, ha, hb, hi, compileCalls_inserted name e hi⟩, by decide⟩
  · unfold getDirective
    rw [hf, hc]
    rfl
  · simp only [compile, compileNodes, l1]

/-- C12 on the test `should handle exceptions`: the template
`<div factory-error template-error linking-error>` compiles to the same linking function as
without `factoryError`, with the same compile steps called. -/
theorem factory_throw_contained_witness :
    (compile stdEnv errorRegistry errorTemplate World.init).1 =
      (compile stdEnv (unregister "factoryError" errorRegistry) errorTemplate World.init).1 ∧
    ∃ ea eb : List Event,
      (compile stdEnv errorRegistry errorTemplate World.init).2.trace = World.init.trace ++ ea ∧
      (compile stdEnv (unregister "factoryError" errorRegistry) errorTemplate World.init).2.trace =
        World.init.trace ++ eb ∧
      Inserted [.invoke "factoryError", .report "FactoryError"] ea eb ∧
      compileCalls ea = compileCalls eb :=
  ⟨(factory_throw_contained stdEnv errorRegistry "factoryError" "FactoryError" errorTemplate
      World.init (by decide) (by decide)).2.1,
    (factory_throw_contained stdEnv errorRegistry "factoryError" "FactoryError" errorTemplate
      World.init (by decide) (by decide)).2.2.2.2.1⟩

/-! ## Lookups of one name (C13) -/

theorem getDirective_cached (reg : Registry) (name : String) (factory : Factory) (w : World)
    (d : Directive) (hf : getKey name reg = some factory)
    (hc : getKey name w.directiveCache = some d) : getDirective reg name w = (some d, w) := by
  unfold getDirective
  rw [hf, hc]

theorem getDirective_throws (reg : Registry) (name e : String) (w : World)
    (hf : getKey name reg = some (.throws e)) (hc : getKey name w.directiveCache = none) :
    getDirective reg name w = (none, (w.emit (.invoke name)).emit (.report e)) := by
  unfold getDirective
  rw [hf, hc]
  rfl

theorem getDirective_first (reg : Registry) (name : String) (factory : Factory) (w : World)
    (d : Directive) (hf : getKey name reg = some factory)
    (hd : factoryDirective name factory = some d)
    (hc : getKey name w.directiveCache = none) :
    (getDirective reg name w).1 = some d ∧
    (getDirective reg name w).2.trace = w.trace ++ [.invoke name] ∧
    getKey name (getDirective reg name w).2.directiveCache = some d := by
  unfold getDirective
  rw [hf, hc]
  cases factory with
  | throws e => cases hd
  | fn g =>
    simp only [factoryDirective, Option.some.injEq] at hd
    subst hd
    exact ⟨rfl, rfl, by simp [callFactory, getKey_setKey_self]⟩
  | obj p t s tf =>
    simp only [factoryDirective, Option.some.injEq] at hd
    subst hd
    exact ⟨rfl, rfl, by simp [callFactory, getKey_setKey_self]⟩

theorem lookups_cached (reg : Registry) (name : String) (factory : Factory) (d : Directive)
    (hf : getKey name reg = some factory) : ∀ (k : Nat) (w : World),
    getKey name w.directiveCache = some d → lookups reg name k w = w
  | 0, _, _ => rfl
  | k + 1, w, hc => by
    rw [lookups, getDirective_cached reg name factory w d hf hc]
    exact lookups_cached reg name factory d hf k w hc

theorem lookups_throws (reg : Registry) (name e : String)
    (hf : getKey name reg = some (.throws e)) : ∀ (k : Nat) (w : World),
    getKey name w.directiveCache = none →
    getKey name (lookups reg name k w).directiveCache = none ∧
    (lookups reg name k w).trace =
      w.trace ++ (List.replicate k [Event.invoke name, Event.report e]).flatten
  | 0, w, hc => ⟨hc, by simp [lookups]⟩
  | k + 1, w, hc => by
    rw [lookups, getDirective_throws reg name e w hf hc]
    obtain ⟨h1, h2⟩ := lookups_throws reg name e hf k
      ((w.emit (.invoke name)).emit (.report e)) hc
    exact ⟨h1, by rw [h2]; simp [World.emit, List.replicate_succ]⟩

/-- C13 as stated fails on the registry of the test `should handle exceptions`: two lookups of
`factoryError` invoke the throwing factory twice and report its exception twice. -/
theorem throwing_factory_retried :
    (lookups errorRegistry "factoryError" 2 World.init).trace =
      [.invoke "factoryError", .report "FactoryError",
       .invoke "factoryError", .report "FactoryError"] := by
  decide

/-- C13, amended. For a name registered with `factory` and not yet in the cache, after any
number `k` of lookups the next lookup yields the descriptor the factory resolves to, or nothing
when the factory throws, and the `k` lookups have added to the trace: for a factory that
resolves, one invocation, made by the first lookup; for a factory that throws, `k` invocations,
each followed by one report, since nothing is memoized for it. In any world, a lookup that
finds the name in the cache returns the cached descriptor and does nothing else, and a lookup
of a throwing factory that finds the cache empty invokes it and reports. -/
theorem lookup_invocations (reg : Registry) (name : String) (factory : Factory) (w : World)
    (hf : getKey name reg = some factory) (hc : getKey name w.directiveCache = none) (k : Nat) :
    (getDirective reg name (lookups reg name k w)).1 = factoryDirective name factory ∧
    (lookups reg name k w).trace = w.trace ++ lookupEvents name factory k ∧
    (∀ (w1 : World) (d : Directive), getKey name w1.directiveCache = some d →
      getDirective reg name w1 = (some d, w1)) ∧
    (∀ (w1 : World) (e : String), factory = .throws e → getKey name w1.directiveCache = none →
      getDirective reg name w1 = (none, (w1.emit (.invoke name)).emit (.report e))) := by
  refine ⟨?_, ?_, fun w1 d h => getDirective_cached reg name factory w1 d hf h,
    fun w1 e he h => getDirective_throws reg name e w1 (by rw [hf, he]) h⟩
  · cases hd : factoryDirective name factory with
    | none =>
      cases factory with
      | throws e =>
        rw [getDirective_throws reg name e _ hf (lookups_throws reg name e hf k w hc).1]
      | fn g => cases hd
      | obj p t s tf => cases hd
    | some d =>
      cases k with
      | zero => exact (getDirective_first reg name factory w d hf hd hc).1
      | succ k =>
        rw [lookups, lookups_cached reg name factory d hf k _
          (getDirective_first reg name factory w d hf hd hc).2.2,
          getDirective_cached reg name factory _ d hf
            (getDirective_first reg name factory w d hf hd hc).2.2]
  · cases factory with
    | throws e => exact (lookups_throws reg name e hf k w hc).2
    | fn g =>
      cases k with
      | zero => simp [lookups, lookupEvents]
      | succ k =>
        rw [lookups, lookups_cached reg name _ _ hf k _
          (getDirective_first reg name _ w _ hf rfl hc).2.2]
        simpa [lookupEvents] using (getDirective_first reg name _ w _ hf rfl hc).2.1
    | obj p t s tf =>
      cases k with
      | zero => simp [lookups, lookupEvents]
      | succ k =>
        rw [lookups, lookups_cached reg name _ _ hf k _
          (getDirective_first reg name _ w _ hf rfl hc).2.2]
        simpa [lookupEvents] using (getDirective_first reg name _ w _ hf rfl hc).2.1

/-- C13, amended, on the registry of the test `should handle exceptions`: three lookups of
`linkingError` invoke its factory once. -/
theorem lookup_invocations_witness :
    (lookups errorRegistry "linkingError" 3 World.init).trace =
      World.init.trace ++
        lookupEvents "linkingError" (.fn (.user "linkingError" (some "LinkingError"))) 3 ∧
    (lookups errorRegistry "linkingError" 3 World.init).trace = [.invoke "linkingError"] :=
  ⟨(lookup_invocations errorRegistry "linkingError"
      (.fn (.user "linkingError" (some "LinkingError"))) World.init (by decide) (by decide) 3).2.1,
    by decide⟩

/-! ## Registering a name twice (C14) -/

theorem getKey_filter_self {β : Type} (name : String) (l : List (String × β)) :
    getKey name (l.filter (fun p => p.1 ≠ name)) = none := by
  induction l with
  | nil => rfl
  | cons p rest ih =>
    obtain ⟨k, v⟩ := p
    by_cases h : k = name
    · simpa [List.filter_cons, h] using ih
    · simp only [List.filter_cons, ne_eq, h, not_false_eq_true, decide_True, if_true]
      simpa [getKey, h] using ih

theorem getKey_filter_ne {β : Type} (name other : String) (l : List (String × β))
    (h : other ≠ name) : getKey other (l.filter (fun p => p.1 ≠ name)) = getKey other l := by
  induction l with
  | nil => rfl
  | cons p rest ih =>
    obtain ⟨k, v⟩ := p
    by_cases hk : k = name
    · subst hk
      have hko : ¬ k = other := fun e => h e.symm
      simpa [List.filter_cons, getKey, hko] using ih
    · simp only [List.filter_cons, ne_eq, hk, not_false_eq_true, decide_True, if_true]
      by_cases ho : k = other
      · simp [getKey, ho]
      · simpa [getKey, ho] using ih

theorem getDirective_fresh (reg : Registry) (name : String) (factory : Factory) (w : World)
    (hf : getKey name reg = some factory) (hc : getKey name w.directiveCache = none) :
    (getDirective reg name w).1 = factoryDirective name factory ∧
    (getDirective reg name w).2.trace =
      w.trace ++ .invoke name :: (match factory with
        | .throws e => [.report e]
        | _ => []) := by
  unfold getDirective
  rw [hf, hc]
  cases factory with
  | throws e => exact ⟨rfl, by simp [callFactory, World.emit]⟩
  | fn g => exact ⟨rfl, rfl⟩
  | obj p t s tf => exact ⟨rfl, rfl⟩

/-- C14 as stated fails: after `directive('a', first)`, a lookup that memoizes the descriptor,
and `directive('a', second)`, which returns normally, the registry holds the second factory, the
memoized descriptor is gone, and the next lookup resolves the second factory. -/
theorem second_registration_replaces :
    getKey "a" registeredTwice.1 = some (.fn (.user "second" none)) ∧
    getKey "a" registeredTwice.2.directiveCache = none ∧
    (getDirective registeredTwice.1 "a" registeredTwice.2).1 =
      some { name := some "a", priority := 0, terminal := false, scope := false,
             templateFn := some (.returns (.fn (.user "second" none))) } := by
  decide

/-- C14, amended. The call `registerDirective(name, factory)` has no check of the name: for
every name, registered before or not, it stores the new factory under the name, clears what was
memoized under it, and leaves everything else as it was (the other names of the registry and of
the cache, the trace: nothing is reported or thrown); the next lookup of the name invokes the new
factory and yields what it resolves to. -/
theorem register_replaces (name : String) (factory : Factory) (reg : Registry) (w : World) :
    getKey name (registerDirective name factory reg w).1 = some factory ∧
    getKey name (registerDirective name factory reg w).2.directiveCache = none ∧
    (∀ other : String, other ≠ name →
      getKey other (registerDirective name factory reg w).1 = getKey other reg ∧
      getKey other (registerDirective name factory reg w).2.directiveCache =
        getKey other w.directiveCache) ∧
    (registerDirective name factory reg w).2.trace = w.trace ∧
    (registerDirective name factory reg w).2.nextId = w.nextId ∧
    (getDirective (registerDirective name factory reg w).1 name
        (registerDirective name factory reg w).2).1 = factoryDirective name factory ∧
    (getDirective (registerDirective name factory reg w).1 name
        (registerDirective name factory reg w).2).2.trace =
      w.trace ++ .invoke name :: (match factory with
        | .throws e => [.report e]
        | _ => []) := by
  have h1 : getKey name (registerDirective name factory reg w).1 = some factory :=
    getKey_setKey_self name factory reg
  have h2 : getKey name (registerDirective name factory reg w).2.directiveCache = none :=
    getKey_filter_self name w.directiveCache
  obtain ⟨h3, h4⟩ := getDirective_fresh _ name factory _ h1 h2
  refine ⟨h1, h2, fun other ho => ⟨?_, ?_⟩, rfl, rfl, h3, h4⟩
  · exact getKey_setKey_ne name other factory reg ho
  · exact getKey_filter_ne name other w.directiveCache ho

/-! ## The descriptor a lookup returns (C15) -/

theorem getDirective_lookups (reg : Registry) (name : String) (factory : Factory) (w : World)
    (d : Directive) (hf : getKey name reg = some factory)
    (hd : factoryDirective name factory = some d) (hc : getKey name w.directiveCache = none) :
    ∀ k : Nat, (getDirective reg name (lookups reg name k w)).1 = some d
  | 0 => (getDirective_first reg name factory w d hf hd hc).1
  | k + 1 => by
    rw [lookups, lookups_cached reg name factory d hf k _
      (getDirective_first reg name factory w d hf hd hc).2.2,
      getDirective_cached reg name factory _ d hf
        (getDirective_first reg name factory w d hf hd hc).2.2]

/-- C15. For a name registered with a factory that does not throw, every lookup (the first one,
which invokes the factory, and every later one) returns a descriptor `d` with `d.name = name`.
When the factory returned a descriptor object, `d.priority` is the declared priority, and 0 when
none was declared (a declared 0 is 0 as well), the other members being as declared. When the
factory returned a bare function `f`, `d` has priority 0 and a compile step that returns `f` for
every node and attrs; applied to a node, `d` leaves the link spec `f`, which no pre-link phase
calls and which the post-link phase calls. -/
theorem lookup_descriptor (reg : Registry) (name : String) (factory : Factory) (w : World)
    (hf : getKey name reg = some factory) (hc : getKey name w.directiveCache = none)
    (hres : ∀ e : String, factory ≠ .throws e) (k : Nat) :
    ∃ d : Directive,
      (getDirective reg name (lookups reg name k w)).1 = some d ∧
      d.name = some name ∧
      (∀ (p : Option Int) (t s : Bool) (tf : Option TemplateFn), factory = .obj p t s tf →
        d.priority = p.getD 0 ∧ ((p = none ∨ p = some 0) → d.priority = 0) ∧
        d.terminal = t ∧ d.scope = s ∧ d.templateFn = tf) ∧
      (∀ f : Callback, factory = .fn f →
        d.priority = 0 ∧ d.templateFn = some (.returns (.fn f)) ∧
        (∀ (env : Env) (node : Nat) (attrs : Attrs) (w1 : World),
          (callTemplateFn env d (.returns (.fn f)) node attrs w1).1 = .ok (.fn f)) ∧
        (∀ (env : Env) (node : Node) (attrs : Attrs) (w1 : World),
          (applyDirectivesPerElement env [d] node attrs w1).1.linkingFns = [.fn f]) ∧
        phaseFns .pre [.fn f] = [] ∧ phaseFns .post [.fn f] = [f]) := by
  cases factory with
  | throws e => exact absurd rfl (hres e)
  | fn g =>
    refine ⟨_, getDirective_lookups reg name _ w _ hf rfl hc k, rfl, ?_, ?_⟩
    · intro p t s tf h
      cases h
    · intro f h
      cases h
      refine ⟨rfl, rfl, fun env node attrs w1 => rfl, fun env node attrs w1 => ?_, rfl, rfl⟩
      simp [applyDirectivesPerElement, sortByPriority, applyLoop, scopeConflict, claimScope,
        belowTerminal, applyInit, compileStep, callTemplateFn, markTerminal]
  | obj p t s tf =>
    refine ⟨_, getDirective_lookups reg name _ w _ hf rfl hc k, rfl, ?_, ?_⟩
    · intro p2 t2 s2 tf2 h
      cases h
      refine ⟨rfl, ?_, rfl, rfl, rfl⟩
      rintro (h | h) <;> subst h <;> rfl
    · intro f h
      cases h

/-- C15 on the registry of the test `should handle exceptions`: `linkingError` is registered
with a bare link function, so its descriptor carries the name, priority 0, and a compile step
returning that function. -/
theorem lookup_descriptor_witness :
    ∃ d : Directive,
      (getDirective errorRegistry "linkingError"
        (lookups errorRegistry "linkingError" 1 World.init)).1 = some d ∧
      d.name = some "linkingError" ∧ d.priority = 0 ∧
      d.templateFn = some (.returns (.fn (.user "linkingError" (some "LinkingError")))) := by
  obtain ⟨d, h1, h2, -, h4⟩ := lookup_descriptor errorRegistry "linkingError"
    (.fn (.user "linkingError" (some "LinkingError"))) World.init (by decide) (by decide)
    (fun e h => by cases h) 1
  exact ⟨d, h1, h2, (h4 _ rfl).1, (h4 _ rfl).2.1⟩

/-! ## The compile step of a descriptor (C16) -/

theorem compiled_count (d : Directive) (hstep : d.templateFn.isSome = true)
    (ds : List Directive) :
    ∀ (hasScope : Bool) (tp : Option Int), NoConflict ds hasScope →
      ds.Pairwise (fun a b => b.priority ≤ a.priority) →
      (∀ t ∈ ds, t.terminal = true → t.priority ≤ d.priority) →
      (∀ P, tp = some P → P ≤ d.priority) →
      (compiled (iterations ds hasScope tp)).count d = ds.count d := by
  induction ds with
  | nil => intro _ _ _ _ _ _; simp [iterations, compiled]
  | cons x rest ih =>
    intro hasScope tp hn hs hcut htp
    rw [iterations, if_neg (by simp [hn.head])]
    rw [List.pairwise_cons] at hs
    by_cases hb : belowTerminal tp x.priority = true
    · rw [if_pos hb]
      obtain ⟨P, hP, hlt⟩ : ∃ P, tp = some P ∧ x.priority < P := by
        cases tp with
        | none => simp [belowTerminal] at hb
        | some P => exact ⟨P, rfl, by simpa [belowTerminal] using hb⟩
      have hPd := htp P hP
      have hnot : ∀ y ∈ x :: rest, y ≠ d := by
        intro y hy hyd
        subst hyd
        rcases List.mem_cons.1 hy with h | h
        · subst h; omega
        · have := hs.1 y h; omega
      simp only [compiled, List.filter_nil, List.map_nil, List.count_nil]
      exact (List.count_eq_zero.2 (fun hmem => hnot d hmem rfl)).symm
    · rw [if_neg hb]
      have hnext : ∀ P, nextTerminal x tp = some P → P ≤ d.priority := by
        intro P hP
        unfold nextTerminal at hP
        split at hP
        · rename_i ht
          have hx := hcut x (List.mem_cons_self _ _) ht
          cases tp with
          | none =>
            simp only [raiseTerminal, Option.some.injEq] at hP
            omega
          | some Q =>
            have hQ := htp Q rfl
            simp only [raiseTerminal, Option.some.injEq] at hP
            omega
        · exact htp P hP
      have hrec := ih (hasScope || x.scope) (nextTerminal x tp) hn.tail hs.2
        (fun t ht => hcut t (List.mem_cons_of_mem _ ht)) hnext
      simp only [compiled] at hrec ⊢
      by_cases hxd : x = d
      · subst hxd
        simp [List.filter_cons, hstep, hrec]
      · cases hx : x.templateFn.isSome
        · simp [List.filter_cons, hx, hrec, List.count_cons, hxd]
        · simp [List.filter_cons, hx, hrec, List.count_cons, hxd]

theorem count_with_node (node : Nat) (d : Directive) (l : List Directive) :
    (l.map (fun x => (x, node))).count (d, node) = l.count d := by
  induction l with
  | nil => rfl
  | cons x rest ih =>
    rw [List.map_cons, List.count_cons, List.count_cons, ih]
    by_cases h : x = d
    · subst h; simp
    · have h2 : ¬ (x, node) = (d, node) := fun e => h (Prod.mk.inj e).1
      simp [h]

theorem returned_mem_of_compiled (d : Directive) (l : LinkSpec) (hl : d.returned = some l)
    (cs : List Directive) (hd : d ∈ cs) : l ∈ cs.filterMap Directive.returned :=
  List.mem_filterMap.2 ⟨d, hd, hl⟩

/-- C16, counterexample. A match list holds a directive once for every way it matches the node.
Register `all` with a compile step, stored under the member `templateFn`, that returns a link
function logging `all`: on `<all class="all" all>` the directive matches through the tag, the
attribute and the class token, its compile step is called three times on the one node and its
link function runs three times, which is what the test `should allow restriction of
attributes` expects of that element (`all; all; all`). -/
theorem compile_step_not_once_per_node :
    (compileCalls (compile stdEnv restrictRegistry
        [element 1 "ALL" [("class", "all"), ("all", "")] []] World.init).2.trace).map
      (fun p => (p.1.name, p.2)) = [(some "all", 1), (some "all", 1), (some "all", 1)] ∧
    compileAndLink stdEnv restrictRegistry [element 1 "ALL" [("class", "all"), ("all", "")] []] =
      ["all", "all", "all"] := by
  refine ⟨by decide, by decide⟩

/-- C16, amended. Let `directives` be the match list of a node, with at most one match asking
for a new scope, and `d` a directive that carries a compile step under the member `templateFn`
and that no terminal match cuts off (every terminal match has a priority not above that of
`d`). Then applying the
directives calls the compile step of `d` on the node once for every occurrence of `d` in the
match list: once when `d` matches in one way, several times when it matches in several ways.
When `d` matches and its compile step returns a link spec, that link spec is among the ones the
`linkFn` of the node stores, and its `pre` and `post` members are among the callbacks the
pre-link and the post-link phase call. -/
theorem compile_step_once_per_match (env : Env) (directives : List Directive)
    (templateNode : Node) (templateAttrs : Attrs) (w : World) (d : Directive)
    (hscope : (directives.filter (fun x => x.scope)).length ≤ 1)
    (hstep : d.templateFn.isSome = true)
    (hcut : ∀ t ∈ directives, t.terminal = true → t.priority ≤ d.priority) :
    (compileCalls (applyDirectivesPerElement env directives templateNode templateAttrs
        w).2.trace).count (d, templateNode.id) =
      (compileCalls w.trace).count (d, templateNode.id) + directives.count d ∧
    (∀ l : LinkSpec, d ∈ directives → d.returned = some l →
      l ∈ (applyDirectivesPerElement env directives templateNode templateAttrs w).1.linkingFns ∧
      (∀ g : Callback, l.preFn = some g →
        g ∈ phaseFns .pre (applyDirectivesPerElement env directives templateNode templateAttrs
          w).1.linkingFns) ∧
      (∀ g : Callback, l.postFn = some g →
        g ∈ phaseFns .post (applyDirectivesPerElement env directives templateNode templateAttrs
          w).1.linkingFns)) := by
  have hperm := sortByPriority_perm directives
  have hcount := compiled_count d hstep (sortByPriority directives) false none
    (noConflict_of_perm hperm hscope) (sortByPriority_sorted directives)
    (fun t ht => hcut t (hperm.mem_iff.1 ht)) (fun P hP => by cases hP)
  rw [hperm.count_eq] at hcount
  constructor
  · rw [applyDirectivesPerElement_trace, List.count_append, ← hcount]
    congr 1
    exact count_with_node templateNode.id d _
  · intro l hd hl
    have hmem : d ∈ compiled (iterations (sortByPriority directives) false none) := by
      apply List.count_pos_iff.1
      rw [hcount]
      exact List.count_pos_iff.2 hd
    have hin : l ∈ (applyDirectivesPerElement env directives templateNode templateAttrs
        w).1.linkingFns := by
      rw [applyDirectivesPerElement_linkingFns]
      exact returned_mem_of_compiled d l hl _ hmem
    refine ⟨hin, fun g hg => ?_, fun g hg => ?_⟩
    · exact List.mem_filterMap.2 ⟨l, hin, hg⟩
    · exact List.mem_filterMap.2 ⟨l, hin, hg⟩

/-- C16, amended, on `<all class="all" all>` of the test `should allow restriction of
attributes`: the directive `all` is three times in the match list and its compile step is called
three times on the node. -/
theorem compile_step_once_per_match_witness :
    (compileCalls (applyDirectivesPerElement stdEnv
        [plainDirective "all" 0, plainDirective "all" 0, plainDirective "all" 0]
        divNode emptyAttrs World.init).2.trace).count (plainDirective "all" 0, divNode.id) =
      (compileCalls World.init.trace).count (plainDirective "all" 0, divNode.id) +
        [plainDirective "all" 0, plainDirective "all" 0, plainDirective "all" 0].count
          (plainDirective "all" 0) :=
  (compile_step_once_per_match stdEnv
    [plainDirective "all" 0, plainDirective "all" 0, plainDirective "all" 0]
    divNode emptyAttrs World.init (plainDirective "all" 0) (by decide) (by decide)
    (by decide)).1

/-! ## The member `restrict` of a descriptor (C17) -/

/-- C17, evaluated on the test `should allow restriction of attributes`. The match list of a
node is read off the tag name, the attribute names and the class tokens without looking at any
restriction: `div`, restricted to elements, is applied twice to `<span div class="div">` (the
test expects no application); `attr`, restricted to attributes, is applied through the tag and
the class of `<attr class="attr">`; `clazz`, restricted to classes, through the tag and
the attribute of `<clazz clazz>`. The permitted matches work: `<div>`, `<span attr>` and
`<span class="clazz">` apply their directive once. -/
theorem restrict_member_not_read :
    (∀ (name restrict : String) (tf : TemplateFn),
      factoryDirective name (restrictDescriptor restrict tf) =
        some { name := some name, priority := 0, terminal := false, scope := false,
               templateFn := some tf }) ∧
    (matchList stdEnv restrictRegistry
        (element 1 "SPAN" [("div", ""), ("class", "div")] [])).map (fun d => d.name) =
      [some "div", some "div"] ∧
    compileAndLink stdEnv restrictRegistry [element 1 "SPAN" [("div", ""), ("class", "div")] []] =
      ["div", "div"] ∧
    compileAndLink stdEnv restrictRegistry [element 1 "ATTR" [("class", "attr")] []] =
      ["attr", "attr"] ∧
    compileAndLink stdEnv restrictRegistry [element 1 "CLAZZ" [("clazz", "")] []] =
      ["clazz", "clazz"] ∧
    compileAndLink stdEnv restrictRegistry [element 1 "DIV" [] []] = ["div"] ∧
    compileAndLink stdEnv restrictRegistry [element 1 "SPAN" [("attr", "")] []] = ["attr"] ∧
    compileAndLink stdEnv restrictRegistry [element 1 "SPAN" [("class", "clazz")] []] =
      ["clazz"] := by
  refine ⟨fun name restrict tf => rfl, by decide, by decide, by decide, by decide, by decide,
    by decide, by decide⟩

/-! ## The attrs handed to the link callbacks (C18) -/

theorem attrSetter_element (env : Env) (self : Attrs) (key : String) (value : AttrVal)
    (w : World) :
    (attrSetter env self key value w).1.element = self.element ∧
    (attrSetter env self key value w).1.objId = self.objId := by
  unfold attrSetter
  split
  · dsimp only
    split <;> exact ⟨rfl, rfl⟩
  · dsimp only
    split <;> exact ⟨rfl, rfl⟩

theorem callTemplateFn_element (env : Env) (d : Directive) (f : TemplateFn) (node : Nat)
    (attrs : Attrs) (w : World) :
    (callTemplateFn env d f node attrs w).2.1.element = attrs.element ∧
    (callTemplateFn env d f node attrs w).2.1.objId = attrs.objId := by
  unfold callTemplateFn
  cases f with
  | returns l => exact ⟨rfl, rfl⟩
  | throws e => exact ⟨rfl, rfl⟩
  | attrInterpolate i n v =>
    cases i with
    | some i => exact ⟨rfl, rfl⟩
    | none => exact attrSetter_element env attrs n v _

theorem compileStep_element (env : Env) (node : Node) (d : Directive) (st : ApplyState) :
    (compileStep env node d st).attrs.element = st.attrs.element ∧
    (compileStep env node d st).attrs.objId = st.attrs.objId := by
  unfold compileStep
  cases hf : d.templateFn with
  | none => exact ⟨rfl, rfl⟩
  | some f =>
    simp only
    have h := callTemplateFn_element env d f node.id st.attrs st.world
    rcases hr : callTemplateFn env d f node.id st.attrs st.world with ⟨res, a, w1⟩
    rw [hr] at h
    cases res <;> exact h

theorem applyLoop_element (env : Env) (node : Node) (ds : List Directive) :
    ∀ st : ApplyState,
      (applyLoop env node ds st).attrs.element = st.attrs.element ∧
      (applyLoop env node ds st).attrs.objId = st.attrs.objId := by
  induction ds with
  | nil => intro st; exact ⟨rfl, rfl⟩
  | cons d rest ih =>
    intro st
    rw [applyLoop_cons]
    split
    · rw [(ih _).1, (ih _).2]
      simp
    · split
      · simp
      · obtain ⟨h3, h4⟩ := compileStep_element env node d (claimScope d st)
        rw [(ih _).1, (ih _).2]
        simp [h3, h4]

/-- C18. A `linkFn` built by `applyDirectivesPerElement` holds the template attrs with `$element`
set to the template node. Linking a node with a `linkFn`: when the link node is the template
node, the attrs used are the template attrs themselves and no object is created; when it is
another node, the attrs used are a new object (a fresh identity) with the `$attr` map and the
values of the template attrs and with `$element` set to the link node, the template attrs kept
by the `linkFn` staying as they were. The trace of the link call consists of the pre-link phase,
the child linking and the post-link phase, and in both phases every callback of the node is
called with the scope, the link node and that one attrs object. On the test `should create
new instance of attr for each template stamping` (template attrs 1000, clones 1001 and 1003)
`second` and `first` share the attrs 1002 on the first clone and 1004 on the second, each with
`$element` set to the clone. -/
theorem link_attrs_instance (f : NodeLinkFn) (c : LinkEntry) (scope : Nat) (linkNode : Node)
    (w : World) :
    (∀ (env : Env) (directives : List Directive) (templateNode : Node) (templateAttrs : Attrs)
        (w0 : World),
      (applyDirectivesPerElement env directives templateNode templateAttrs w0).1.templateNode =
        templateNode.id ∧
      (applyDirectivesPerElement env directives templateNode templateAttrs
        w0).1.templateAttrs.element = some templateNode.id ∧
      (applyDirectivesPerElement env directives templateNode templateAttrs
        w0).1.templateAttrs.objId = templateAttrs.objId) ∧
    (f.templateNode = linkNode.id → linkAttrs f linkNode w = (f.templateAttrs, w)) ∧
    (f.templateNode ≠ linkNode.id →
      (linkAttrs f linkNode w).1.attrMap = f.templateAttrs.attrMap ∧
      (linkAttrs f linkNode w).1.vals = f.templateAttrs.vals ∧
      (linkAttrs f linkNode w).1.element = some linkNode.id ∧
      (linkAttrs f linkNode w).1.objId = w.nextId ∧
      (linkAttrs f linkNode w).2.nextId = w.nextId + 1) ∧
    (∃ childEvs : List Event,
      (linkFn f c scope linkNode w).world.trace =
        w.trace ++ phaseEvents .pre f.linkingFns scope linkNode.id (linkAttrs f linkNode w).1 ++
          childEvs ++
          (if (linkFn f c scope linkNode w).error = none then
            phaseEvents .post f.linkingFns scope linkNode.id (linkAttrs f linkNode w).1
           else [])) ∧
    (∀ phase : Phase,
      linkCalls (phaseEvents phase f.linkingFns scope linkNode.id (linkAttrs f linkNode w).1) =
        (phaseFns phase f.linkingFns).map
          (fun g => (phase, g.quiet, scope, linkNode.id, (linkAttrs f linkNode w).1))) ∧
    attrsSeen stampRun.trace =
      [("second", 1001, 1002, some 1001), ("first", 1001, 1002, some 1001),
       ("second", 1003, 1004, some 1003), ("first", 1003, 1004, some 1003)] := by
  refine ⟨fun env directives templateNode templateAttrs w0 => ⟨rfl, ?_, ?_⟩, ?_, ?_, ?_,
    fun phase => linkCalls_phaseEvents phase _ _ _ _, by decide⟩
  · exact (applyLoop_element env templateNode (sortByPriority directives)
      (applyInit templateNode templateAttrs w0)).1
  · exact (applyLoop_element env templateNode (sortByPriority directives)
      (applyInit templateNode templateAttrs w0)).2
  · intro h
    unfold linkAttrs
    rw [if_pos h]
  · intro h
    unfold linkAttrs
    rw [if_neg h]
    exact ⟨rfl, rfl, rfl, rfl, rfl⟩
  · obtain ⟨evs, -, h⟩ := linkFn_stages f c scope linkNode w
    exact ⟨evs, h⟩

/-! ## New scopes at link time (C19) -/

theorem applyLoop_scope_mem (env : Env) (node : Node) (ds : List Directive) :
    ∀ (st : ApplyState) (x : Directive), (applyLoop env node ds st).newScopeDirective = some x →
      st.newScopeDirective = some x ∨ (x ∈ ds ∧ x.scope = true) := by
  induction ds with
  | nil => intro st x h; exact Or.inl h
  | cons d rest ih =>
    intro st x h
    have hclaim : (claimScope d st).newScopeDirective = some x →
        st.newScopeDirective = some x ∨ (x ∈ d :: rest ∧ x.scope = true) := by
      unfold claimScope
      split
      · rename_i hd
        intro hx
        simp only [Option.some.injEq] at hx
        subst hx
        exact Or.inr ⟨List.mem_cons_self _ _, hd⟩
      · exact fun hx => Or.inl hx
    rw [applyLoop_cons] at h
    split at h
    · rcases ih _ x h with h1 | ⟨h1, h2⟩
      · exact Or.inl (by simpa using h1)
      · exact Or.inr ⟨List.mem_cons_of_mem _ h1, h2⟩
    · split at h
      · exact hclaim h
      · rcases ih _ x h with h1 | ⟨h1, h2⟩
        · exact hclaim (by simpa using h1)
        · exact Or.inr ⟨List.mem_cons_of_mem _ h1, h2⟩

/-- C19. For a node whose `linkFn` carries the request for a new scope (`linkFn.scope`, set at
compile time because a directive of the node asked for one): in a list-linking invocation that
is not the root one, the statement before the call forks a child of the scope the loop holds
(`scopeNew`), ties it to the node (`dataScope`), and `linkFn` is called with the child; in the
root invocation nothing is forked and `linkFn` is called with the scope given. Whatever scope
`linkFn` is called with, it hands that scope to every pre-link callback of the node, to the
linking of the children, and to every post-link callback. On the test `should allow creation of
new scopes` the callbacks of the node and of its child receive the forked scope; on the test
`should treat new scope on new template as noop` nothing is forked and the callback receives the
root scope. -/
theorem new_scope_at_link (f : NodeLinkFn) (c : LinkEntry) (scope : Nat) (node : Node)
    (w : World) (hs : f.scope = true) :
    enterScope (.directive f) scope node false w =
      (w.nextId,
        { w with nextId := w.nextId + 1,
                 trace := w.trace ++ [.scopeNew scope w.nextId, .dataScope node.id w.nextId] }) ∧
    linkPosition (.directive f) c scope node false w =
      linkFn f c w.nextId node
        { w with nextId := w.nextId + 1,
                 trace := w.trace ++ [.scopeNew scope w.nextId, .dataScope node.id w.nextId] } ∧
    enterScope (.directive f) scope node true w = (scope, w) ∧
    linkPosition (.directive f) c scope node true w = linkFn f c scope node w ∧
    (∀ (s : Nat) (w1 : World), ∃ childEvs : List Event,
      (linkEntry c s node.childNodes (linkAttrs f node w1).2).world.trace =
        w1.trace ++ childEvs ∧
      (linkFn f c s node w1).world.trace =
        w1.trace ++ phaseEvents .pre f.linkingFns s node.id (linkAttrs f node w1).1 ++
          childEvs ++
          (if (linkFn f c s node w1).error = none then
            phaseEvents .post f.linkingFns s node.id (linkAttrs f node w1).1
           else [])) ∧
    (∀ (phase : Phase) (s : Nat) (a : Attrs),
      linkCalls (phaseEvents phase f.linkingFns s node.id a) =
        (phaseFns phase f.linkingFns).map (fun g => (phase, g.quiet, s, node.id, a))) ∧
    (∀ (env : Env) (directives : List Directive) (templateNode : Node) (templateAttrs : Attrs)
        (w0 : World),
      (applyDirectivesPerElement env directives templateNode templateAttrs w0).1.scope = true →
      ∃ d ∈ directives, d.scope = true) ∧
    scopesSeen (scopeRun nestedScopeTemplate).trace = [("log", 3), ("scopeA", 3)] ∧
    scopesForked (scopeRun nestedScopeTemplate).trace = [(100, 3)] ∧
    scopesSeen (scopeRun rootScopeTemplate).trace = [("scopeA", 100)] ∧
    scopesForked (scopeRun rootScopeTemplate).trace = [] := by
  have h1 : enterScope (.directive f) scope node false w =
      (w.nextId,
        { w with nextId := w.nextId + 1,
                 trace := w.trace ++ [.scopeNew scope w.nextId, .dataScope node.id w.nextId] }) := by
    simp [enterScope, hs, forkScope, World.emit]
  have h2 : enterScope (.directive f) scope node true w = (scope, w) := by
    simp [enterScope]
  refine ⟨h1, ?_, h2, ?_, fun s w1 => linkFn_stages f c s node w1,
    fun phase s a => linkCalls_phaseEvents phase _ _ _ _, ?_, by decide, by decide, by decide,
    by decide⟩
  · simp only [linkPosition, h1]
  · simp only [linkPosition, h2]
  · intro env directives templateNode templateAttrs w0 h
    simp only [applyDirectivesPerElement] at h
    obtain ⟨x, hx⟩ := Option.isSome_iff_exists.1 h
    rcases applyLoop_scope_mem env templateNode _ _ x hx with h3 | ⟨h3, h4⟩
    · simp [applyInit] at h3
    · exact ⟨x, (sortByPriority_perm directives).mem_iff.1 h3, h4⟩

/-- C19 on a node whose only directive asks for a new scope: in a non-root invocation with
scope 100 in a world whose next identity is 0, the child scope 0 is forked and tied to node 2; in
the root invocation `linkFn` gets scope 100. -/
theorem new_scope_at_link_witness :
    enterScope (.directive scopeFn) 100 (element 2 "SPAN" [("scope-a", "")] []) false World.init =
      (World.init.nextId,
        { World.init with
            nextId := World.init.nextId + 1,
            trace := World.init.trace ++
              [.scopeNew 100 World.init.nextId,
               .dataScope (element 2 "SPAN" [("scope-a", "")] []).id World.init.nextId] }) ∧
    linkPosition (.directive scopeFn) .falsy 100 (element 2 "SPAN" [("scope-a", "")] []) true
        World.init =
      linkFn scopeFn .falsy 100 (element 2 "SPAN" [("scope-a", "")] []) World.init :=
  ⟨(new_scope_at_link scopeFn .falsy 100 (element 2 "SPAN" [("scope-a", "")] []) World.init
      (by decide)).1,
    (new_scope_at_link scopeFn .falsy 100 (element 2 "SPAN" [("scope-a", "")] []) World.init
      (by decide)).2.2.2.1⟩

/-! ## The scope of the later siblings (C20) -/

/-- C20, evaluated. The statement `scope = scope.$new()` assigns the loop variable itself: after
a position that forks a scope, the loop goes on through the later siblings with the forked
scope. Linking `<div><span scope-a></span><a log></a></div>` with root scope 100 forks scope 3
for the `span`, and the callback of the sibling `a`, which asks for no scope, receives 3
instead of 100. Linking `<div><span scope-a></span><span scope-b></span></div>` forks scope 3
for the first `span` and forks the scope 4 of the second one from 3 instead of 100. -/
theorem forked_scope_reaches_siblings :
    (∀ (f : NodeLinkFn) (c : LinkEntry) (rest : List LinkEntry) (scope : Nat) (node : Node)
        (nodes : List Node) (w : World), f.scope = true →
      (linkPosition (.directive f) c scope node false w).error = none →
      linkLoop (.directive f :: c :: rest) scope (node :: nodes) false w =
        linkLoop rest w.nextId nodes false
          (linkPosition (.directive f) c scope node false w).world) ∧
    scopesSeen (scopeRun siblingTemplate).trace = [("scopeA", 3), ("log", 3)] ∧
    scopesForked (scopeRun siblingTemplate).trace = [(100, 3)] ∧
    scopesSeen (scopeRun twoScopesTemplate).trace = [("scopeA", 3), ("scopeB", 4)] ∧
    scopesForked (scopeRun twoScopesTemplate).trace = [(100, 3), (3, 4)] := by
  refine ⟨?_, by decide, by decide, by decide, by decide⟩
  intro f c rest scope node nodes w hs he
  rw [linkLoop_cons_cons, he]
  simp [enterScope, hs, forkScope]

/-! ## The cache: `size()` and the stored pairs (C28) -/

/-- C28, evaluated. On a new cache, `put('a', undefined)` stores nothing but makes an LRU entry
for `a`, and `remove('a')` then decrements the size: `size()` is -1 with no pair stored. In a
cache of capacity 1, after `put('a', undefined)`, `put('b', 1)`, `put('c', 2)` the entry of `a`
is the one evicted: `size()` is 1 while the two pairs of `b` and `c` are stored and returned by
`get`. A key that names a member of `Object.prototype` is found by `key in data` before it is
stored, so `put('toString', 1)` stores a pair and leaves `size()` at 0. -/
theorem cache_size_not_stored :
    CacheFactory.size (CacheFactory.run [.put "a" none, .remove "a"]
      (CacheFactory.cacheFactory none)) = -1 ∧
    CacheFactory.stored (CacheFactory.run [.put "a" none, .remove "a"]
      (CacheFactory.cacheFactory none)) = 0 ∧
    CacheFactory.size (CacheFactory.run CacheFactory.undefinedThenTwo
      (CacheFactory.cacheFactory (some 1))) = 1 ∧
    CacheFactory.stored (CacheFactory.run CacheFactory.undefinedThenTwo
      (CacheFactory.cacheFactory (some 1))) = 2 ∧
    (CacheFactory.get "b" (CacheFactory.run CacheFactory.undefinedThenTwo
      (CacheFactory.cacheFactory (some 1)))).1 = some (.user 1) ∧
    (CacheFactory.get "c" (CacheFactory.run CacheFactory.undefinedThenTwo
      (CacheFactory.cacheFactory (some 1)))).1 = some (.user 2) ∧
    CacheFactory.size (CacheFactory.run [.put "toString" (some (.user 1))]
      (CacheFactory.cacheFactory none)) = 0 ∧
    CacheFactory.stored (CacheFactory.run [.put "toString" (some (.user 1))]
      (CacheFactory.cacheFactory none)) = 1 := by
  decide

/-! ## The cache: `get` and `put` (C29) -/

/-- C29, evaluated. The tables `lruHash` and `data` are plain objects, read without a test for
own properties: on a new cache `get('toString')`, a key that was never put, finds the inherited
function in `lruHash`, takes it for an LRU entry, and returns the inherited function found in
`data` instead of `undefined`; so does `get('constructor')` after `put('constructor', 1)` and
`remove('constructor')`, and after `removeAll()`. A key that names no inherited member is
answered with `undefined` on a new cache, and `get` after `put` returns the value put. -/
theorem cache_miss_returns_member :
    (CacheFactory.get "toString" (CacheFactory.cacheFactory none)).1 =
      some (.inherited "toString") ∧
    (CacheFactory.get "constructor"
      (CacheFactory.run [.put "constructor" (some (.user 1)), .remove "constructor"]
        (CacheFactory.cacheFactory none))).1 = some (.inherited "constructor") ∧
    (CacheFactory.get "constructor"
      (CacheFactory.run [.put "constructor" (some (.user 1)), .removeAll]
        (CacheFactory.cacheFactory none))).1 = some (.inherited "constructor") ∧
    (∀ (key : String) (capacity : Option Nat), objectPrototype.contains key = false →
      (CacheFactory.get key (CacheFactory.cacheFactory capacity)).1 = none) ∧
    (CacheFactory.get "a" (CacheFactory.run [.put "a" (some (.user 1)), .put "a" (some (.user 2))]
      (CacheFactory.cacheFactory (some 1)))).1 = some (.user 2) ∧
    CacheFactory.size (CacheFactory.run [.put "a" (some (.user 1)), .put "a" (some (.user 2))]
      (CacheFactory.cacheFactory (some 1))) = 1 := by
  refine ⟨by decide, by decide, by decide, ?_, by decide, by decide⟩
  intro key capacity h
  have h2 : key ∉ objectPrototype := by simpa using h
  simp [CacheFactory.get, CacheFactory.cacheFactory, lookup, getKey, h2]

/-! ## The cache: the capacity (C30) -/

/-- C30, evaluated. In a cache of capacity 1, after `put('a', undefined)`, `put('b', 1)`,
`put('c', 2)` two pairs are stored: the third call finds the size above the capacity and
removes the stale end of the LRU list, which is the entry of `a`, a key that holds no pair.
With keys that name members of `Object.prototype` the size is never incremented, so nothing is
ever evicted: after `put('toString', 1)` and `put('valueOf', 2)` two pairs are stored. -/
theorem cache_exceeds_capacity :
    (CacheFactory.run CacheFactory.undefinedThenTwo
      (CacheFactory.cacheFactory (some 1))).capacity = some 1 ∧
    (CacheFactory.run CacheFactory.undefinedThenTwo (CacheFactory.cacheFactory (some 1))).data =
      [("b", .user 1), ("c", .user 2)] ∧
    CacheFactory.stored (CacheFactory.run CacheFactory.undefinedThenTwo
      (CacheFactory.cacheFactory (some 1))) = 2 ∧
    CacheFactory.stored (CacheFactory.run
      [.put "toString" (some (.user 1)), .put "valueOf" (some (.user 2))]
      (CacheFactory.cacheFactory (some 1))) = 2 := by
  decide

/-! ## `$set` with `undefined` and `null` (C24) -/

theorem attrSetter_plain (env : Env) (self : Attrs) (key : String) (value : AttrVal) (w : World)
    (hb : env.BOOLEAN_ATTR (env.lowercase key) = none) :
    attrSetter env self key value w =
      ({ self with vals := setKey key value self.vals },
        w.emit (if value = .undefined then .removeAttr self.element key
                else .attr self.element key value)) := by
  unfold attrSetter
  rw [hb]
  dsimp only
  split <;> rfl

/-- C24, evaluated on the test `should remove attribute`. For a key that is no boolean
attribute, `$set(key, value)` stores the value under `attrs[key]`; it calls
`$element.removeAttr(key)` when the value is `undefined`, and `$element.attr(key, value)` for
every other value, `null` included: `$set('ngMyAttr', null)` stores `null` and calls
`$element.attr('ngMyAttr', null)`, it does not remove the attribute. -/
theorem set_null_not_removed :
    (∀ (env : Env) (self : Attrs) (key : String) (w : World),
      env.BOOLEAN_ATTR (env.lowercase key) = none →
      attrSetter env self key .undefined w =
        ({ self with vals := setKey key .undefined self.vals },
          w.emit (.removeAttr self.element key))) ∧
    (∀ (env : Env) (self : Attrs) (key : String) (value : AttrVal) (w : World),
      env.BOOLEAN_ATTR (env.lowercase key) = none → value ≠ .undefined →
      attrSetter env self key value w =
        ({ self with vals := setKey key value self.vals },
          w.emit (.attr self.element key value))) ∧
    (attrSetter stdEnv divAttrs "ngMyAttr" (.str "value") World.init).2.trace =
      [.attr (some 1) "ngMyAttr" (.str "value")] ∧
    (attrSetter stdEnv divAttrs "ngMyAttr" .undefined World.init).2.trace =
      [.removeAttr (some 1) "ngMyAttr"] ∧
    (attrSetter stdEnv divAttrs "ngMyAttr" .null World.init).2.trace =
      [.attr (some 1) "ngMyAttr" .null] ∧
    getKey "ngMyAttr" (attrSetter stdEnv divAttrs "ngMyAttr" .null World.init).1.vals =
      some .null := by
  refine ⟨?_, ?_, by decide, by decide, by decide, by decide⟩
  · intro env self key w hb
    rw [attrSetter_plain env self key .undefined w hb]
    simp
  · intro env self key value w hb hv
    rw [attrSetter_plain env self key value w hb]
    simp [hv]

/-! ## `$set` on a boolean attribute (C25) -/

/-- C25. For a key that names a boolean attribute (`BOOLEAN_ATTR[key.toLowerCase()]` is the
canonical name `booleanKey`) and every value, `$set(key, value)` stores the boolean
`toBoolean(value)` under `attrs[key]`, sets the property `key` of the element to it, and then,
when it is true, sets the attribute `booleanKey` to the text `booleanKey`, and when it is false,
removes the attribute `booleanKey`. With the `toBoolean` of angular.js the values `'false'` and
`false` are both false, so both remove the attribute, and `'true'` sets `disabled` to
`disabled`. -/
theorem set_boolean_attribute (env : Env) (self : Attrs) (key booleanKey : String)
    (value : AttrVal) (w : World)
    (hb : env.BOOLEAN_ATTR (env.lowercase key) = some booleanKey) :
    getKey key (attrSetter env self key value w).1.vals = some (.bool (env.toBoolean value)) ∧
    (attrSetter env self key value w).1 =
      { self with vals := setKey key (.bool (env.toBoolean value)) self.vals } ∧
    (env.toBoolean value = true →
      (attrSetter env self key value w).2.trace =
        w.trace ++ [.prop self.element key true,
                    .attr self.element booleanKey (.str booleanKey)]) ∧
    (env.toBoolean value = false →
      (attrSetter env self key value w).2.trace =
        w.trace ++ [.prop self.element key false, .removeAttr self.element booleanKey]) ∧
    stdEnv.toBoolean (.str "false") = false ∧ stdEnv.toBoolean (.bool false) = false ∧
    (attrSetter stdEnv divAttrs "disabled" (.str "true") World.init).2.trace =
      [.prop (some 1) "disabled" true, .attr (some 1) "disabled" (.str "disabled")] ∧
    (attrSetter stdEnv divAttrs "disabled" (.str "false") World.init).2.trace =
      [.prop (some 1) "disabled" false, .removeAttr (some 1) "disabled"] ∧
    (attrSetter stdEnv divAttrs "disabled" (.bool false) World.init).2.trace =
      [.prop (some 1) "disabled" false, .removeAttr (some 1) "disabled"] := by
  have h : attrSetter env self key value w =
      ({ self with vals := setKey key (.bool (env.toBoolean value)) self.vals },
        (w.emit (.prop self.element key (env.toBoolean value))).emit
          (if env.toBoolean value = true then .attr self.element booleanKey (.str booleanKey)
           else .removeAttr self.element booleanKey)) := by
    unfold attrSetter
    rw [hb]
    dsimp only
    split <;> rfl
  refine ⟨?_, ?_, ?_, ?_, by decide, by decide, by decide, by decide, by decide⟩
  · rw [h]
    exact getKey_setKey_self key _ _
  · rw [h]
  · intro ht
    rw [h]
    simp [World.emit, ht]
  · intro ht
    rw [h]
    simp [World.emit, ht]

/-- C25 on the test `should set boolean attributes`: `$set('readOnly', 'true')` stores `true`
under `readOnly`. -/
theorem set_boolean_attribute_witness :
    getKey "readOnly" (attrSetter stdEnv divAttrs "readOnly" (.str "true") World.init).1.vals =
      some (.bool (stdEnv.toBoolean (.str "true"))) :=
  (set_boolean_attribute stdEnv divAttrs "readOnly" "readOnly" (.str "true") World.init
    (by decide)).1

/-! ## `$set` with an attribute name (C26) -/

/-- C26, evaluated on the test `should allow overriding of attribute name and remember the
name`. The function `attrSetter(key, value)` has no third parameter and keeps no record of
attribute names: `$set('ngOther', '123', 'other')` is `$set('ngOther', '123')`, it stores `'123'`
under `ngOther` and sets the attribute `ngOther`, not `other`; a later `$set('ngOther', '246')`
sets the attribute `ngOther` again. -/
theorem set_ignores_attribute_name :
    (∀ (env : Env) (self : Attrs) (key attrName : String) (value : AttrVal) (w : World),
      attrSetterNamed env self key value attrName w = attrSetter env self key value w) ∧
    (attrSetterNamed stdEnv divAttrs "ngOther" (.str "123") "other" World.init).2.trace =
      [.attr (some 1) "ngOther" (.str "123")] ∧
    getKey "ngOther"
        (attrSetterNamed stdEnv divAttrs "ngOther" (.str "123") "other" World.init).1.vals =
      some (.str "123") ∧
    (attrSetter stdEnv
        (attrSetterNamed stdEnv divAttrs "ngOther" (.str "123") "other" World.init).1
        "ngOther" (.str "246")
        (attrSetterNamed stdEnv divAttrs "ngOther" (.str "123") "other" World.init).2).2.trace =
      [.attr (some 1) "ngOther" (.str "123"), .attr (some 1) "ngOther" (.str "246")] := by
  refine ⟨fun env self key attrName value w => rfl, by decide, by decide, by decide⟩

/-! ## Side-effect attributes (C22) -/

theorem attrInterpolateDirective_side (env : Env) (value name name1 : String)
    (hs : SIDE_EFFECT_ATTRS env name = some name1) :
    attrInterpolateDirective env value name =
      some { name := none, priority := 100, terminal := false, scope := false,
             templateFn := some (.attrInterpolate (env.interpolate value) name1
               (if (env.BOOLEAN_ATTR name1).isSome then AttrVal.bool true
                else AttrVal.str value)) } := by
  unfold attrInterpolateDirective
  rw [hs]

/-- C22 as stated fails: for `<img ng-src="a.png">` the attribute `src` is written when the
template is compiled, and linking the template writes nothing and registers no watch. -/
theorem literal_written_at_compile :
    writes (compile stdEnv [] literalSrcTemplate World.init).2.trace =
      [.attr (some 1) "src" (.str "a.png")] ∧
    linkEvents stdEnv [] literalSrcTemplate = [.dataScope 1 100] ∧
    writes (linkEvents stdEnv [] literalSrcTemplate) = [] ∧
    watches (linkEvents stdEnv [] literalSrcTemplate) = [] := by
  decide

/-- C22, amended. For a side-effect attribute (`SIDE_EFFECT_ATTRS[name]` is the un-prefixed
name `name1`) the synthesized directive has a compile step `tf` with: when the value has
nothing to interpolate, the compile step itself calls `$set(name1, literal)` on the template
attrs, the literal being `true` for a boolean attribute and the text of the value otherwise,
and returns no link function, so that linking calls nothing for it; when the value has
something to interpolate, the compile step writes nothing and returns a link function, and every
call of that link function registers one watch, whose listener writes `name1` through `$set`. -/
theorem side_effect_attribute (env : Env) (value name name1 : String)
    (hs : SIDE_EFFECT_ATTRS env name = some name1) :
    ∃ (d : Directive) (tf : TemplateFn),
      attrInterpolateDirective env value name = some d ∧ d.templateFn = some tf ∧
      (env.interpolate value = none →
        (∀ (node : Nat) (attrs : Attrs) (w : World),
          callTemplateFn env d tf node attrs w =
            (.ok .undefined,
              (attrSetter env attrs name1
                (if (env.BOOLEAN_ATTR name1).isSome then AttrVal.bool true
                 else AttrVal.str value) (w.emit (.templateFn d node))).1,
              (attrSetter env attrs name1
                (if (env.BOOLEAN_ATTR name1).isSome then AttrVal.bool true
                 else AttrVal.str value) (w.emit (.templateFn d node))).2)) ∧
        phaseFns .pre [LinkSpec.undefined] = [] ∧ phaseFns .post [LinkSpec.undefined] = []) ∧
      (∀ i : String, env.interpolate value = some i →
        (∀ (node : Nat) (attrs : Attrs) (w : World),
          callTemplateFn env d tf node attrs w =
            (.ok (.fn (.attrBinding i name1)), attrs, w.emit (.templateFn d node))) ∧
        phaseFns .pre [LinkSpec.fn (.attrBinding i name1)] = [] ∧
        phaseFns .post [LinkSpec.fn (.attrBinding i name1)] = [.attrBinding i name1] ∧
        (∀ (phase : Phase) (scope el : Nat) (a : Attrs) (w : World),
          (callLink phase (.attrBinding i name1) scope el a w).trace =
            w.trace ++ [.link phase (.attrBinding i name1) scope el a,
                        .watch scope i el (some name1)])) := by
  refine ⟨_, _, attrInterpolateDirective_side env value name name1 hs, rfl, ?_, ?_⟩
  · intro hi
    refine ⟨fun node attrs w => ?_, rfl, rfl⟩
    rw [hi]
    rfl
  · intro i hi
    refine ⟨fun node attrs w => ?_, rfl, rfl, fun phase scope el a w => ?_⟩
    · rw [hi]
      rfl
    · simp [callLink, World.emit]

/-- C22, amended, on `ngSrc` with the values `a.png` and `{{url}}`: both give a directive, the
un-prefixed name being `src`. -/
theorem side_effect_attribute_witness :
    (∃ (d : Directive) (tf : TemplateFn),
      attrInterpolateDirective stdEnv "a.png" "ngSrc" = some d ∧ d.templateFn = some tf) ∧
    watches (linkEvents stdEnv [] boundSrcTemplate) = [(100, "\x7b\x7burl\x7d\x7d", 1, some "src")] ∧
    writes (compile stdEnv [] boundSrcTemplate World.init).2.trace = [] := by
  obtain ⟨d, tf, h1, h2, -, -⟩ := side_effect_attribute stdEnv "a.png" "ngSrc" "src" (by decide)
  exact ⟨⟨d, tf, h1, h2⟩, by decide, by decide⟩

/-! ## When an attribute gets a synthesized directive (C23) -/

/-- C23, evaluated. The test `SIDE_EFFECT_ATTRS[name]` reads a plain object without asking for
an own property, so a name that is a member of `Object.prototype` passes it: for the attribute
`constructor="x"`, which has nothing to interpolate and is no side-effect attribute,
`attrInterpolateDirective` yields a directive of priority 100, whose compile step throws (and
compiling `<div constructor="x">` reports the error), instead of yielding nothing. For every
other name the claim holds: nothing is yielded exactly when the value has nothing to interpolate
and the name is no side-effect attribute, every directive yielded has priority 100, and for a
side-effect attribute the name written is the un-prefixed one (`ngHref` writes `href`). -/
theorem inherited_name_gets_directive :
    stdEnv.interpolate "x" = none ∧ SIDE_EFFECT_ATTRS stdEnv "constructor" = none ∧
    attrInterpolateDirective stdEnv "x" "constructor" =
      some { name := none, priority := 100, terminal := false, scope := false,
             templateFn := some (.throws notAString) } ∧
    reports (compile stdEnv [] constructorTemplate World.init).2.trace = [notAString] ∧
    (∀ (env : Env) (value name : String), objectPrototype.contains name = false →
      (attrInterpolateDirective env value name = none ↔
        (env.interpolate value = none ∧ SIDE_EFFECT_ATTRS env name = none))) ∧
    (∀ (env : Env) (value name : String) (d : Directive),
      attrInterpolateDirective env value name = some d → d.priority = 100) ∧
    (∀ (env : Env) (value name name1 : String), SIDE_EFFECT_ATTRS env name = some name1 →
      ∃ d : Directive, attrInterpolateDirective env value name = some d ∧
        d.templateFn = some (.attrInterpolate (env.interpolate value) name1
          (if (env.BOOLEAN_ATTR name1).isSome then AttrVal.bool true else AttrVal.str value))) ∧
    SIDE_EFFECT_ATTRS stdEnv "ngHref" = some "href" ∧
    SIDE_EFFECT_ATTRS stdEnv "href" = some "href" := by
  refine ⟨by decide, by decide, by decide, by decide, ?_, ?_, ?_, by decide, by decide⟩
  · intro env value name hn
    unfold attrInterpolateDirective
    cases hs : SIDE_EFFECT_ATTRS env name with
    | some name1 => simp
    | none =>
      simp only [hn, Bool.false_eq_true, if_false]
      cases hi : env.interpolate value <;> simp
  · intro env value name d h
    unfold attrInterpolateDirective at h
    cases hs : SIDE_EFFECT_ATTRS env name with
    | some name1 =>
      rw [hs] at h
      simp only [Option.some.injEq] at h
      subst h
      rfl
    | none =>
      rw [hs] at h
      simp only at h
      split at h
      · simp only [Option.some.injEq] at h
        subst h
        rfl
      · cases hi : env.interpolate value with
        | none => rw [hi] at h; cases h
        | some i =>
          rw [hi] at h
          simp only [Option.some.injEq] at h
          subst h
          rfl
  · intro env value name name1 hs
    exact ⟨_, attrInterpolateDirective_side env value name name1 hs, rfl⟩

/-! ## The template function (C21) -/

theorem compile_matches (env : Env) (reg : Registry) (nodeList : List Node) (w : World)
    (hw : Consistent reg w) (fns : List LinkEntry)
    (h : (compile env reg nodeList w).1 = some fns) :
    entryMatches (.list fns) nodeList = true := by
  unfold compile compileNodes at h
  simp only at h
  split at h
  · cases h
    have h2 := compileLoop_revised env reg (fun k => k) nodeList w hw
    rw [reviseList_id] at h2
    rw [entryMatches, h2, compileLoop_length]
    simp
  · cases h

theorem cloneList_cons (node : Node) (rest : List Node) (next : Nat) :
    cloneList (node :: rest) next =
      ((cloneNode node next).1 :: (cloneList rest (cloneNode node next).2).1,
        (cloneList rest (cloneNode node next).2).2) := by
  rw [cloneList]

theorem cloneNode_childNodes (node : Node) (next : Nat) :
    (cloneNode node next).1.childNodes = (cloneList node.childNodes (next + 1)).1 := by
  cases node with
  | mk id nodeType nodeName attributes className nodeValue childNodes =>
    rw [cloneNode]
    rfl

theorem cloneNode_id (node : Node) (next : Nat) : (cloneNode node next).1.id = next := by
  cases node with
  | mk id nodeType nodeName attributes className nodeValue childNodes =>
    rw [cloneNode]
    rfl

theorem cloneList_length : ∀ (nodeList : List Node) (next : Nat),
    (cloneList nodeList next).1.length = nodeList.length
  | [], _ => by simp [cloneList]
  | node :: rest, next => by
    rw [cloneList_cons]
    simp [cloneList_length rest]

mutual
theorem cloneNode_shape : ∀ (node : Node) (next : Nat),
    eraseId (cloneNode node next).1 = eraseId node
  | .mk id nodeType nodeName attributes className nodeValue childNodes, next => by
    rw [cloneNode, eraseId, eraseId, cloneList_shape childNodes (next + 1)]
  termination_by structural node => node
theorem cloneList_shape : ∀ (nodeList : List Node) (next : Nat),
    eraseIds (cloneList nodeList next).1 = eraseIds nodeList
  | [], _ => by simp [cloneList, eraseIds]
  | node :: rest, next => by
    rw [cloneList_cons, eraseIds, eraseIds, cloneNode_shape node next,
      cloneList_shape rest (cloneNode node next).2]
  termination_by structural nodeList => nodeList
end

mutual
theorem entryMatches_clone : ∀ (e : LinkEntry) (nodeList : List Node) (next : Nat),
    entryMatches e (cloneList nodeList next).1 = entryMatches e nodeList
  | .list linkingFns, nodeList, next => by
    rw [entryMatches, entryMatches, cloneList_length, pairsMatch_clone linkingFns nodeList next]
  | .falsy, _, _ => by simp [entryMatches]
  | .directive _, _, _ => by simp [entryMatches]
theorem pairsMatch_clone : ∀ (linkingFns : List LinkEntry) (nodeList : List Node) (next : Nat),
    pairsMatch linkingFns (cloneList nodeList next).1 = pairsMatch linkingFns nodeList
  | [], _, _ => by simp [pairsMatch]
  | _ :: _, [], _ => by simp [cloneList]
  | [_], node :: rest, next => by
    rw [cloneList_cons]
    simp [pairsMatch]
  | _ :: c :: fns, node :: rest, next => by
    rw [cloneList_cons, pairsMatch, pairsMatch, cloneNode_childNodes,
      entryMatches_clone c node.childNodes (next + 1),
      pairsMatch_clone fns rest (cloneNode node next).2]
end

theorem cloneCalls_append (a b : List Event) :
    cloneCalls (a ++ b) = cloneCalls a ++ cloneCalls b := by
  induction a with
  | nil => rfl
  | cons e rest ih => cases e <;> simp [cloneCalls, ih]

theorem cloneCalls_callEvents (phase : Phase) (f : Callback) (scope element : Nat)
    (attrs : Attrs) : cloneCalls (callEvents phase f scope element attrs) = [] := by
  cases f with
  | user label throws => cases throws <;> rfl
  | textBinding i => rfl
  | attrBinding i n => rfl

theorem cloneCalls_phaseEvents (phase : Phase) (linkingFns : List LinkSpec) (scope element : Nat)
    (attrs : Attrs) : cloneCalls (phaseEvents phase linkingFns scope element attrs) = [] := by
  unfold phaseEvents
  induction phaseFns phase linkingFns with
  | nil => rfl
  | cons g rest ih =>
    rw [List.map_cons, List.flatten_cons, cloneCalls_append, ih, cloneCalls_callEvents]
    rfl

theorem enterScope_cloneCalls (d : LinkEntry) (scope : Nat) (node : Node) (rootElement : Bool)
    (w : World) :
    cloneCalls (enterScope d scope node rootElement w).2.trace = cloneCalls w.trace := by
  unfold enterScope
  cases d with
  | directive f =>
    simp only
    split
    · simp [forkScope, World.emit, cloneCalls_append, cloneCalls]
    · rfl
  | falsy => rfl
  | list l => rfl

theorem linkFn_cloneCalls (f : NodeLinkFn) (c : LinkEntry) (scope : Nat) (linkNode : Node)
    (w : World)
    (hc : ∀ (s : Nat) (w1 : World),
      cloneCalls (linkEntry c s linkNode.childNodes w1).world.trace = cloneCalls w1.trace) :
    cloneCalls (linkFn f c scope linkNode w).world.trace = cloneCalls w.trace := by
  unfold linkFn
  dsimp only
  split
  · rw [hc, preLink_trace, cloneCalls_append, cloneCalls_phaseEvents, linkAttrs_trace]
    simp
  · rw [postLink_trace, cloneCalls_append, cloneCalls_phaseEvents, hc, preLink_trace,
      cloneCalls_append, cloneCalls_phaseEvents, linkAttrs_trace]
    simp

theorem linkPosition_cloneCalls (d c : LinkEntry) (scope : Nat) (node : Node)
    (rootElement : Bool) (w : World)
    (hc : ∀ (s : Nat) (w1 : World),
      cloneCalls (linkEntry c s node.childNodes w1).world.trace = cloneCalls w1.trace) :
    cloneCalls (linkPosition d c scope node rootElement w).world.trace = cloneCalls w.trace := by
  cases d with
  | directive f =>
    simp only [linkPosition]
    rw [linkFn_cloneCalls f c _ node _ hc, enterScope_cloneCalls]
  | falsy => simpa [linkPosition] using hc scope w
  | list l => simpa [linkPosition] using hc scope w

mutual
theorem linkEntry_cloneCalls : ∀ (e : LinkEntry) (scope : Nat) (nodeList : List Node)
    (w : World), cloneCalls (linkEntry e scope nodeList w).world.trace = cloneCalls w.trace
  | .list linkingFns, scope, nodeList, w => by
    rw [linkEntry]
    split
    · rfl
    · exact linkLoop_cloneCalls linkingFns scope nodeList false w
  | .falsy, _, _, _ => by simp [linkEntry]
  | .directive _, _, _, _ => by simp [linkEntry]
theorem linkLoop_cloneCalls : ∀ (linkingFns : List LinkEntry) (scope : Nat)
    (nodeList : List Node) (rootElement : Bool) (w : World),
    cloneCalls (linkLoop linkingFns scope nodeList rootElement w).world.trace =
      cloneCalls w.trace
  | [], _, _, _, _ => by simp [linkLoop]
  | _ :: _, _, [], _, _ => by simp [linkLoop]
  | [d], scope, node :: nodes, rootElement, w => by
    have h := linkPosition_cloneCalls d .falsy scope node rootElement w
      (fun s w1 => by simp [linkEntry])
    cases d with
    | directive f =>
      simpa [linkLoop, linkPosition, linkFn, linkEntry, enterScope] using h
    | falsy => simp [linkLoop]
    | list l => simp [linkLoop]
  | d :: c :: rest, scope, node :: nodes, rootElement, w => by
    have h1 := linkPosition_cloneCalls d c scope node rootElement w
      (fun s w1 => linkEntry_cloneCalls c s node.childNodes w1)
    rw [linkLoop_cons_cons]
    split
    · exact h1
    · rw [linkLoop_cloneCalls rest _ nodes rootElement _, h1]
end

theorem listLinkingFn_cloneCalls (linkingFns : List LinkEntry) (scope : Nat)
    (nodeList : List Node) (rootElement : Bool) (w : World) :
    cloneCalls (listLinkingFn linkingFns scope nodeList rootElement w).world.trace =
      cloneCalls w.trace := by
  unfold listLinkingFn
  split
  · rfl
  · exact linkLoop_cloneCalls _ _ _ _ _

theorem dataScope_foldl (scope : Nat) : ∀ (element : List Node) (w : World),
    element.foldl (fun w n => w.emit (.dataScope n.id scope)) w =
      { w with trace := w.trace ++ dataScopeEvents element scope }
  | [], w => by simp [dataScopeEvents]
  | node :: rest, w => by
    rw [List.foldl_cons, dataScope_foldl scope rest]
    simp [dataScopeEvents, World.emit]

theorem cloneCalls_dataScope (element : List Node) (scope : Nat) :
    cloneCalls (dataScopeEvents element scope) = [] := by
  unfold dataScopeEvents
  induction element with
  | nil => rfl
  | cons n rest ih => simpa [cloneCalls] using ih

theorem linkCalls_dataScope (element : List Node) (scope : Nat) :
    linkCalls (dataScopeEvents element scope) = [] := by
  unfold dataScopeEvents
  induction element with
  | nil => rfl
  | cons n rest ih => simpa [linkCalls] using ih

theorem linkOn_cloneCalls (linkingFn : Option (List LinkEntry)) (scope : Nat)
    (element : List Node) (w : World) :
    cloneCalls (linkOn linkingFn scope element w).world.trace = cloneCalls w.trace := by
  cases linkingFn with
  | none => rfl
  | some fns => exact listLinkingFn_cloneCalls fns scope element true w

theorem linkOn_error (linkingFn : Option (List LinkEntry)) (scope : Nat) (element : List Node)
    (w : World) (h : ∀ fns, linkingFn = some fns → entryMatches (.list fns) element = true) :
    (linkOn linkingFn scope element w).error = none := by
  cases linkingFn with
  | none => rfl
  | some fns =>
    simp only [linkOn]
    rw [listLinkingFn_error, h fns rfl]
    rfl

theorem templateFunction_plain (linkingFn : Option (List LinkEntry))
    (templateElement : List Node) (scope : Nat) (w : World) :
    templateFunction linkingFn templateElement scope none w =
      (templateElement, linkOn linkingFn scope templateElement
        (scopeTied templateElement scope w)) := by
  unfold templateFunction
  simp only [dataScope_foldl]
  cases linkingFn <;> rfl

theorem templateFunction_clone (linkingFn : Option (List LinkEntry))
    (templateElement : List Node) (scope : Nat) (f : CloneConnectFn) (w : World)
    (hf : f.throws = none) :
    templateFunction linkingFn templateElement scope (some f) w =
      (cloneOf templateElement w, linkOn linkingFn scope (cloneOf templateElement w)
        (cloneAttached f templateElement scope w)) := by
  unfold templateFunction
  simp only [dataScope_foldl, hf]
  cases linkingFn <;> rfl

/-- C21. For a template compiled from `templateElement` and every scope: without a clone
callback the template function returns the template element itself, after tying the scope to it
and linking on it, and raises nothing; with a clone callback (one that returns) it returns a
clone, which differs from the template in the identities of the nodes only, after tying the
scope to the clone, then calling the callback with the clone and the scope, then linking on the
clone, and raises nothing. The callback is called once; no link callback is called before it.
-/
theorem template_function_result (env : Env) (reg : Registry) (templateElement : List Node)
    (w0 : World) (hw : Consistent reg w0) (scope : Nat) (f : CloneConnectFn) (w : World)
    (hf : f.throws = none) :
    templateFunction (compile env reg templateElement w0).1 templateElement scope none w =
      (templateElement,
        linkOn (compile env reg templateElement w0).1 scope templateElement
          (scopeTied templateElement scope w)) ∧
    (templateFunction (compile env reg templateElement w0).1 templateElement scope none
      w).2.error = none ∧
    cloneCalls (templateFunction (compile env reg templateElement w0).1 templateElement scope none
      w).2.world.trace = cloneCalls w.trace ∧
    templateFunction (compile env reg templateElement w0).1 templateElement scope (some f) w =
      (cloneOf templateElement w,
        linkOn (compile env reg templateElement w0).1 scope (cloneOf templateElement w)
          (cloneAttached f templateElement scope w)) ∧
    eraseIds (cloneOf templateElement w) = eraseIds templateElement ∧
    (templateFunction (compile env reg templateElement w0).1 templateElement scope (some f)
      w).2.error = none ∧
    cloneCalls (templateFunction (compile env reg templateElement w0).1 templateElement scope
        (some f) w).2.world.trace =
      cloneCalls w.trace ++ [(f.label, (cloneOf templateElement w).map Node.id, scope)] ∧
    linkCalls (cloneAttached f templateElement scope w).trace = linkCalls w.trace := by
  have hm := compile_matches env reg templateElement w0 hw
  refine ⟨templateFunction_plain _ _ _ _, ?_, ?_, templateFunction_clone _ _ _ _ _ hf,
    cloneList_shape _ _, ?_, ?_, ?_⟩
  · rw [templateFunction_plain]
    exact linkOn_error _ _ _ _ hm
  · rw [templateFunction_plain]
    simp only
    rw [linkOn_cloneCalls]
    simp [scopeTied, cloneCalls_append, cloneCalls_dataScope]
  · rw [templateFunction_clone _ _ _ _ _ hf]
    apply linkOn_error
    intro fns hfns
    unfold cloneOf
    rw [entryMatches_clone]
    exact hm fns hfns
  · rw [templateFunction_clone _ _ _ _ _ hf]
    simp only
    rw [linkOn_cloneCalls]
    simp [cloneAttached, cloneCalls_append, cloneCalls_dataScope, cloneCalls]
  · simp [cloneAttached, linkCalls_append, linkCalls_dataScope, linkCalls]

/-- C21 on the test `should create new instance of attr for each template stamping`: stamping
`<div first second>` with the callback `noop` returns the clone with node 1000 and calls the
callback once, with that clone and the scope. -/
theorem template_function_result_witness :
    (templateFunction (compile stdEnv stampRegistry stampTemplate World.init).1 stampTemplate 100
      (some noopClone) { World.init with nextId := 1000 }).2.error = none ∧
    cloneCalls (templateFunction (compile stdEnv stampRegistry stampTemplate World.init).1
        stampTemplate 100 (some noopClone) { World.init with nextId := 1000 }).2.world.trace =
      cloneCalls ({ World.init with nextId := 1000 } : World).trace ++
        [(noopClone.label,
          (cloneOf stampTemplate { World.init with nextId := 1000 }).map Node.id, 100)] :=
  ⟨(template_function_result stdEnv stampRegistry stampTemplate World.init
      (fun name d h => by simp [World.init, getKey] at h) 100 noopClone
      { World.init with nextId := 1000 } rfl).2.2.2.2.2.1,
    (template_function_result stdEnv stampRegistry stampTemplate World.init
      (fun name d h => by simp [World.init, getKey] at h) 100 noopClone
      { World.init with nextId := 1000 } rfl).2.2.2.2.2.2.1⟩

/-! ## Directives named in the class (C27) -/

theorem scanClass_tokens (env : Env) (reg : Registry) (fuel : Nat) :
    ∀ (text : List Char) (st : ScanState), Consistent reg st.world →
      (scanClass env reg fuel text st).directives =
        st.directives ++ (classTokens fuel text).filterMap (tokenDirective env reg) ∧
      (scanClass env reg fuel text st).attrs =
        { st.attrs with vals := (classTokens fuel text).foldl (storeToken env reg) st.attrs.vals } := by
  induction fuel with
  | zero => intro text st hw; exact ⟨by simp [scanClass, classTokens], by simp [scanClass, classTokens]⟩
  | succ fuel ih =>
    intro text st hw
    rw [scanClass, classTokens]
    cases hm : execClass text with
    | none => exact ⟨by simp, by simp⟩
    | some m =>
      simp only
      obtain ⟨h1, h2⟩ := getDirective_resolve reg (env.camelCase (String.mk m.name)) st.world hw
      cases hr : (getDirective reg (env.camelCase (String.mk m.name)) st.world).1 with
      | none =>
        simp only
        obtain ⟨h3, h4⟩ := ih (text.drop (m.index + m.whole.length))
          { st with world := (getDirective reg (env.camelCase (String.mk m.name)) st.world).2 } h2
        have ht : tokenDirective env reg m = none := by
          unfold tokenDirective
          rw [← h1, hr]
        constructor
        · rw [h3, List.filterMap_cons, ht]
        · rw [h4, List.foldl_cons]
          simp [storeToken, ht]
      | some d =>
        simp only
        obtain ⟨h3, h4⟩ := ih (text.drop (m.index + m.whole.length))
          { directives := st.directives ++ [d],
            attrs := { st.attrs with
              vals := setKey (env.camelCase (String.mk m.name)) (trimMatch env m.value)
                st.attrs.vals },
            world := (getDirective reg (env.camelCase (String.mk m.name)) st.world).2 } h2
        have ht : tokenDirective env reg m = some d := by
          unfold tokenDirective
          rw [← h1, hr]
        constructor
        · rw [h3, List.filterMap_cons, ht]
          simp
        · rw [h4, List.foldl_cons]
          simp [storeToken, ht]

theorem matchClassHere_name (index : Nat) (c : Char) (cs : List Char) (hc : isNameChar c = true) :
    (matchClassHere index (c :: cs)).name = c :: cs.takeWhile isNameChar ∧
    (matchClassHere index (c :: cs)).index = index ∧
    1 ≤ (matchClassHere index (c :: cs)).whole.length := by
  unfold matchClassHere
  simp [List.takeWhile_cons, hc]

theorem execClassFrom_some : ∀ (text : List Char) (index : Nat) (m : ClassMatch),
    execClassFrom index text = some m →
    1 ≤ m.whole.length ∧ m.name ≠ [] ∧ m.name.all isNameChar = true
  | [], _, _, h => by simp [execClassFrom] at h
  | c :: cs, index, m, h => by
    rw [execClassFrom] at h
    split at h
    · rename_i hc
      simp only [Option.some.injEq] at h
      subst h
      obtain ⟨h1, -, h3⟩ := matchClassHere_name index c cs hc
      refine ⟨h3, by rw [h1]; simp, ?_⟩
      rw [h1]
      simp only [List.all_cons, hc, Bool.true_and, List.all_eq_true]
      intro x hx
      exact List.mem_takeWhile_imp hx
    · exact execClassFrom_some cs (index + 1) m h

theorem classTokens_fuel : ∀ (fuel1 fuel2 : Nat) (text : List Char),
    text.length ≤ fuel1 → text.length ≤ fuel2 → classTokens fuel1 text = classTokens fuel2 text
  | 0, fuel2, text, h1, _ => by
    have ht : text = [] := List.length_eq_zero.1 (by omega)
    subst ht
    cases fuel2 <;> simp [classTokens, execClass, execClassFrom]
  | fuel1 + 1, 0, text, _, h2 => by
    have ht : text = [] := List.length_eq_zero.1 (by omega)
    subst ht
    simp [classTokens, execClass, execClassFrom]
  | fuel1 + 1, fuel2 + 1, text, h1, h2 => by
    rw [classTokens, classTokens]
    cases hm : execClass text with
    | none => rfl
    | some m =>
      simp only
      have hw := (execClassFrom_some text 0 m hm).1
      have hl : (text.drop (m.index + m.whole.length)).length ≤ text.length - 1 := by
        rw [List.length_drop]
        omega
      rw [classTokens_fuel fuel1 fuel2 _ (by omega) (by omega)]

theorem takeWhile_append_stop (p : Char → Bool) : ∀ (a b : List Char), a.all p = true →
    (∀ c, b.head? = some c → p c = false) → (a ++ b).takeWhile p = a
  | [], [], _, _ => rfl
  | [], c :: cs, _, hb => by simp [List.takeWhile_cons, hb c rfl]
  | x :: xs, b, ha, hb => by
    simp only [List.all_cons, Bool.and_eq_true] at ha
    simp [List.takeWhile_cons, ha.1, takeWhile_append_stop p xs b ha.2 hb]

theorem execClassFrom_skip : ∀ (pre rest : List Char) (index : Nat),
    pre.all (fun c => !isNameChar c) = true →
    execClassFrom index (pre ++ rest) = execClassFrom (index + pre.length) rest
  | [], _, _, _ => by simp
  | c :: cs, rest, index, h => by
    simp only [List.all_cons, Bool.and_eq_true, Bool.not_eq_true'] at h
    rw [List.cons_append, execClassFrom]
    simp only [h.1, Bool.false_eq_true, if_false]
    rw [execClassFrom_skip cs rest (index + 1) (by simpa using h.2)]
    simp only [List.length_cons]
    congr 1
    omega

theorem head_of_all_not_name (sep : List Char) (h : sep.all (fun c => !isNameChar c) = true) :
    ∀ c, sep.head? = some c → isNameChar c = false := by
  intro c hc
  cases sep with
  | nil => cases hc
  | cons x xs =>
    simp only [List.head?_cons, Option.some.injEq] at hc
    subst hc
    simp only [List.all_cons, Bool.and_eq_true, Bool.not_eq_true'] at h
    exact h.1

theorem valueMatch_none (x : Char) (l : List Char) (hx : x ≠ ':') :
    (match x :: l with
      | ':' :: r => if r.takeWhile (fun c => c != ';') = [] then none
                    else some (r.takeWhile (fun c => c != ';'))
      | _ => (none : Option (List Char))) = none := by
  split
  · rename_i r heq
    simp only [List.cons.injEq] at heq
    exact absurd heq.1 hx
  · rfl

theorem semiMatch_none (x : Char) (l : List Char) (hx : x ≠ ';') :
    (match x :: l with
      | ';' :: _ => [';']
      | _ => ([] : List Char)) = [] := by
  split
  · rename_i r heq
    simp only [List.cons.injEq] at heq
    exact absurd heq.1 hx
  · rfl

theorem matchClassHere_plain (index : Nat) (name sep rest : List Char)
    (hname : name.all isNameChar = true)
    (hsep : sep.all (fun c => !isNameChar c) = true) (hlast : sep = [] → rest = [])
    (hcolon : sep.head? ≠ some ':') :
    ∃ sep1 : List Char, sep1.all (fun c => !isNameChar c) = true ∧
      (matchClassHere index (name ++ (sep ++ rest))).name = name ∧
      (matchClassHere index (name ++ (sep ++ rest))).value = none ∧
      (matchClassHere index (name ++ (sep ++ rest))).index = index ∧
      (name ++ (sep ++ rest)).drop (matchClassHere index (name ++ (sep ++ rest))).whole.length =
        sep1 ++ rest := by
  have hstop : ∀ c, (sep ++ rest).head? = some c → isNameChar c = false := by
    intro c hc
    cases sep with
    | nil => rw [hlast rfl] at hc; cases hc
    | cons x xs => exact head_of_all_not_name (x :: xs) hsep c (by simpa using hc)
  have htake := takeWhile_append_stop isNameChar name (sep ++ rest) hname hstop
  have hd : (name ++ (sep ++ rest)).drop name.length = sep ++ rest := List.drop_left' rfl
  unfold matchClassHere
  simp only [htake, hd]
  cases sep with
  | nil =>
    rw [hlast rfl]
    refine ⟨[], rfl, ?_⟩
    simp
  | cons x xs =>
    have hx : x ≠ ':' := fun e => hcolon (by simp [e])
    simp only [List.all_cons, Bool.and_eq_true] at hsep
    simp only [List.cons_append, valueMatch_none x (xs ++ rest) hx, List.length_nil,
      List.drop_zero, List.append_nil]
    by_cases hsemi : x = ';'
    · subst hsemi
      refine ⟨xs, hsep.2, ?_⟩
      simp
    · rw [semiMatch_none x (xs ++ rest) hsemi]
      refine ⟨x :: xs, by simp [hsep.1, hsep.2], ?_⟩
      simp

theorem matchClassHere_valued (index : Nat) (name v sep rest : List Char)
    (hname : name.all isNameChar = true) (hv : v ≠ [])
    (hvs : v.all (fun c => c != ';') = true)
    (hsep : sep.all (fun c => !isNameChar c) = true) (hlast : sep = [] → rest = [])
    (hend : sep.head? = some ';' ∨ sep = []) :
    ∃ sep1 : List Char, sep1.all (fun c => !isNameChar c) = true ∧
      (matchClassHere index (name ++ (':' :: (v ++ (sep ++ rest))))).name = name ∧
      (matchClassHere index (name ++ (':' :: (v ++ (sep ++ rest))))).value = some v ∧
      (matchClassHere index (name ++ (':' :: (v ++ (sep ++ rest))))).index = index ∧
      (name ++ (':' :: (v ++ (sep ++ rest)))).drop
          (matchClassHere index (name ++ (':' :: (v ++ (sep ++ rest))))).whole.length =
        sep1 ++ rest := by
  have htake := takeWhile_append_stop isNameChar name (':' :: (v ++ (sep ++ rest))) hname
    (fun c hc => by
      simp only [List.head?_cons, Option.some.injEq] at hc
      subst hc
      decide)
  have hd : (name ++ (':' :: (v ++ (sep ++ rest)))).drop name.length =
      ':' :: (v ++ (sep ++ rest)) := List.drop_left' rfl
  have hval : (v ++ (sep ++ rest)).takeWhile (fun c => c != ';') = v := by
    apply takeWhile_append_stop (fun c => c != ';') v (sep ++ rest) hvs
    intro c hc
    rcases hend with h | h
    · cases sep with
      | nil => cases h
      | cons x xs =>
        simp only [List.head?_cons, Option.some.injEq] at h
        subst h
        simp only [List.cons_append, List.head?_cons, Option.some.injEq] at hc
        subst hc
        decide
    · rw [h, hlast h] at hc
      cases hc
  unfold matchClassHere
  simp only [htake, hd, hval, hv, if_false]
  have hd2 : (':' :: (v ++ (sep ++ rest))).drop (':' :: v).length = sep ++ rest := by
    rw [← List.cons_append]
    exact List.drop_left' rfl
  simp only [hd2]
  rcases hend with h | h
  · cases sep with
    | nil => cases h
    | cons x xs =>
      simp only [List.head?_cons, Option.some.injEq] at h
      subst h
      simp only [List.all_cons, Bool.and_eq_true] at hsep
      refine ⟨xs, hsep.2, ?_⟩
      simp
  · subst h
    rw [hlast rfl]
    refine ⟨[], rfl, ?_⟩
    simp

theorem execClassFrom_name (index : Nat) (name rest : List Char) (hne : name ≠ [])
    (hname : name.all isNameChar = true) :
    execClassFrom index (name ++ rest) = some (matchClassHere index (name ++ rest)) := by
  cases name with
  | nil => exact absurd rfl hne
  | cons c cs =>
    simp only [List.all_cons, Bool.and_eq_true] at hname
    rw [List.cons_append, execClassFrom, if_pos hname.1]

theorem execClassFrom_token (index : Nat) (t : ClassToken) (rest : List Char)
    (h : Delimited t rest) :
    ∃ (m : ClassMatch) (sep1 : List Char),
      execClassFrom index (t.name ++ valueText t.value ++ t.sep ++ rest) = some m ∧
      m.name = t.name ∧ m.value = t.value ∧ m.index = index ∧
      sep1.all (fun c => !isNameChar c) = true ∧
      (t.name ++ valueText t.value ++ t.sep ++ rest).drop m.whole.length = sep1 ++ rest := by
  obtain ⟨hne, hname, hval, hsep, hlast, hcolon, hend⟩ := h
  cases hv : t.value with
  | none =>
    have e : t.name ++ valueText none ++ t.sep ++ rest = t.name ++ (t.sep ++ rest) := by
      simp [valueText]
    rw [e, execClassFrom_name index t.name _ hne hname]
    obtain ⟨sep1, h1, h2, h3, h4, h5⟩ :=
      matchClassHere_plain index t.name t.sep rest hname hsep hlast (hcolon hv)
    exact ⟨_, sep1, rfl, h2, h3, h4, h1, h5⟩
  | some v =>
    have e : t.name ++ valueText (some v) ++ t.sep ++ rest =
        t.name ++ (':' :: (v ++ (t.sep ++ rest))) := by
      simp [valueText]
    rw [e, execClassFrom_name index t.name _ hne hname]
    obtain ⟨sep1, h1, h2, h3, h4, h5⟩ :=
      matchClassHere_valued index t.name v t.sep rest hname (hval v hv).1 (hval v hv).2 hsep
        hlast (hend (by simp [hv]))
    exact ⟨_, sep1, rfl, h2, h3, h4, h1, h5⟩

theorem classTokens_render : ∀ (ts : List ClassToken) (fuel : Nat) (pre : List Char),
    AllDelimited ts → ts.length ≤ fuel → pre.all (fun c => !isNameChar c) = true →
    (classTokens fuel (pre ++ renderTokens ts)).map (fun m => (m.name, m.value)) =
      ts.map (fun t => (t.name, t.value))
  | [], fuel, pre, _, _, hpre => by
    cases fuel with
    | zero => rfl
    | succ fuel =>
      rw [classTokens, execClass, renderTokens, execClassFrom_skip pre [] 0 hpre]
      rfl
  | t :: rest, 0, _, _, hf, _ => by simp at hf
  | t :: rest, fuel + 1, pre, hd, hf, hpre => by
    obtain ⟨m, sep1, h1, h2, h3, h4, h5, h6⟩ :=
      execClassFrom_token (0 + pre.length) t (renderTokens rest) hd.1
    rw [classTokens, execClass, renderTokens, execClassFrom_skip pre _ 0 hpre, h1]
    simp only [List.map_cons, h2, h3]
    have hdrop : (pre ++ (t.name ++ valueText t.value ++ t.sep ++ renderTokens rest)).drop
        (m.index + m.whole.length) = sep1 ++ renderTokens rest := by
      rw [h4, Nat.zero_add, ← List.drop_drop, List.drop_left' rfl, h6]
    rw [hdrop, classTokens_render rest fuel sep1 hd.2 (by simpa using hf) h5]

theorem renderTokens_length : ∀ (ts : List ClassToken), AllDelimited ts →
    ts.length ≤ (renderTokens ts).length
  | [], _ => Nat.le_refl 0
  | t :: rest, h => by
    have h1 := renderTokens_length rest h.2
    have h2 : 1 ≤ t.name.length := by
      cases hn : t.name with
      | nil => exact absurd hn h.1.1
      | cons c cs => simp
    simp only [renderTokens, List.length_append, List.length_cons]
    omega

theorem filterMap_written (env : Env) (reg : Registry) : ∀ (ms : List ClassMatch)
    (ts : List ClassToken),
    ms.map (fun m => (m.name, m.value)) = ts.map (fun t => (t.name, t.value)) →
    ms.filterMap (tokenDirective env reg) = ts.filterMap (writtenDirective env reg)
  | [], [], _ => rfl
  | [], _ :: _, h => by simp at h
  | _ :: _, [], h => by simp at h
  | m :: ms, t :: ts, h => by
    simp only [List.map_cons, List.cons.injEq, Prod.mk.injEq] at h
    have ih := filterMap_written env reg ms ts h.2
    simp only [List.filterMap_cons, tokenDirective, writtenDirective, h.1.1] at ih ⊢
    rw [ih]

theorem foldl_written (env : Env) (reg : Registry) : ∀ (ms : List ClassMatch)
    (ts : List ClassToken) (vals : List (String × AttrVal)),
    ms.map (fun m => (m.name, m.value)) = ts.map (fun t => (t.name, t.value)) →
    ms.foldl (storeToken env reg) vals = ts.foldl (storeWritten env reg) vals
  | [], [], _, _ => rfl
  | [], _ :: _, _, h => by simp at h
  | _ :: _, [], _, h => by simp at h
  | m :: ms, t :: ts, vals, h => by
    simp only [List.map_cons, List.cons.injEq, Prod.mk.injEq] at h
    have e : storeToken env reg vals m = storeWritten env reg vals t := by
      simp only [storeToken, storeWritten, tokenDirective, writtenDirective, h.1.1, h.1.2]
    simp only [List.foldl_cons, e]
    exact foldl_written env reg ms ts _ h.2

/-- C27, counterexample. With `b` and `c` registered, the class `b:1 c` of a `div` contributes
`b` only, with the value `1 c` stored under `b`: the token `c`, delimited by a space, is taken
into the value of `b`, which runs to the next `;`. The class `x:1 c`, whose first token names no
directive, contributes nothing, while the classes `c`, `b c` and `b:1; c` do contribute `c`. -/
theorem class_value_swallows_token :
    (collectDirectives stdEnv classRegistry (element 1 "DIV" [("class", "b:1 c")] [])
      World.init).directives.map (fun d => d.name) = [some "b"] ∧
    (collectDirectives stdEnv classRegistry (element 1 "DIV" [("class", "b:1 c")] [])
      World.init).attrs.vals = [("class", .str "b:1 c"), ("b", .str "1 c")] ∧
    (collectDirectives stdEnv classRegistry (element 1 "DIV" [("class", "x:1 c")] [])
      World.init).directives = [] ∧
    (collectDirectives stdEnv classRegistry (element 1 "DIV" [("class", "c")] [])
      World.init).directives.map (fun d => d.name) = [some "c"] ∧
    (collectDirectives stdEnv classRegistry (element 1 "DIV" [("class", "b c")] [])
      World.init).directives.map (fun d => d.name) = [some "b", some "c"] ∧
    (collectDirectives stdEnv classRegistry (element 1 "DIV" [("class", "b:1; c")] [])
      World.init).directives.map (fun d => d.name) = [some "b", some "c"] ∧
    tokenTexts "b:1 c" = [("b", some "1 c")] ∧
    tokenTexts "x:1 c" = [("x", some "1 c")] := by
  decide

/-- C27, amended. Take a class string written as separator text without name characters
followed by well delimited tokens `name` or `name:value`: a value is not empty and holds no
`;`, a token with a value is followed by `;` or ends the string, and the text after a token
without value holds no name character and does not start with `:`. Then the class loop, run
for at least as many rounds as the string has characters, appends to the match list the
directive of every token whose canonical name is registered, once per token and in the order
of the tokens, and stores the trimmed value of each such token under its canonical name in
attrs; a token naming no registered directive adds nothing to either. -/
theorem class_tokens_contribute (env : Env) (reg : Registry) (pre : List Char)
    (ts : List ClassToken) (fuel : Nat) (st : ScanState) (hw : Consistent reg st.world)
    (hpre : pre.all (fun c => !isNameChar c) = true) (hd : AllDelimited ts)
    (hf : (pre ++ renderTokens ts).length ≤ fuel) :
    (scanClass env reg fuel (pre ++ renderTokens ts) st).directives =
      st.directives ++ ts.filterMap (writtenDirective env reg) ∧
    (scanClass env reg fuel (pre ++ renderTokens ts) st).attrs =
      { st.attrs with vals := ts.foldl (storeWritten env reg) st.attrs.vals } := by
  have hlen : ts.length ≤ fuel := by
    have h1 := renderTokens_length ts hd
    simp only [List.length_append] at hf
    omega
  have hr := classTokens_render ts fuel pre hd hlen hpre
  obtain ⟨h1, h2⟩ := scanClass_tokens env reg fuel (pre ++ renderTokens ts) st hw
  rw [h1, h2, filterMap_written env reg _ ts hr, foldl_written env reg _ ts _ hr]
  exact ⟨rfl, rfl⟩

/-- The claim C27 as amended, on the class ` greet: angular; b:123; c` of the test `should allow
directives in classes` (with a leading space) and the registry of `greet`, `b` and `c`. -/
theorem class_tokens_contribute_witness :
    AllDelimited greetTokens ∧
    String.mk ([' '] ++ renderTokens greetTokens) = " greet: angular; b:123; c" ∧
    (scanClass stdEnv classRegistry 25 ([' '] ++ renderTokens greetTokens) freshScan).directives =
      freshScan.directives ++ greetTokens.filterMap (writtenDirective stdEnv classRegistry) ∧
    (scanClass stdEnv classRegistry 25 ([' '] ++ renderTokens greetTokens) freshScan).attrs =
      { freshScan.attrs with
        vals := greetTokens.foldl (storeWritten stdEnv classRegistry) freshScan.attrs.vals } :=
  ⟨by decide, by decide,
    class_tokens_contribute stdEnv classRegistry [' '] greetTokens 25 freshScan
      (fun name d h => by simp [freshScan, World.init, getKey] at h) (by decide) (by decide)
      (by decide)⟩

/-! ## The new-scope flag (C38) -/

theorem applyLoop_scope_examined (env : Env) (node : Node) (ds : List Directive) :
    ∀ st : ApplyState,
      (applyLoop env node ds st).newScopeDirective.isSome =
        (st.newScopeDirective.isSome ||
          (examined ds st.terminalPriority).any (fun d => d.scope)) := by
  induction ds with
  | nil => intro st; simp [applyLoop, examined]
  | cons d rest ih =>
    intro st
    rw [applyLoop_cons, examined]
    by_cases hc : (d.scope && st.newScopeDirective.isSome) = true
    · rw [if_pos hc, ih]
      simp only [Bool.and_eq_true] at hc
      simp [hc.2]
    · rw [if_neg hc]
      by_cases hb : belowTerminal st.terminalPriority d.priority = true
      · rw [if_pos hb, if_pos hb, claimScope_isSome]
        simp
      · rw [if_neg hb, if_neg hb, ih]
        simp only [markTerminal_newScopeDirective, compileStep_newScopeDirective,
          claimScope_isSome, markTerminal_terminalPriority, compileStep_terminalPriority,
          claimScope_terminalPriority, List.any_cons, Bool.or_assoc]

theorem examined_isPrefix : ∀ (ds : List Directive) (tp : Option Int), examined ds tp <+: ds
  | [], _ => by simp [examined]
  | d :: rest, tp => by
    rw [examined]
    split
    · exact ⟨rest, rfl⟩
    · simpa using examined_isPrefix rest (nextTerminal d tp)

/-- C38. The flag `linkFn.scope` of the per-node linking function that
`applyDirectivesPerElement` returns is true exactly when a directive examined by the loop asks
for a new scope, the examined directives being the leading segment of the sorted list up to
and including the first directive whose priority is below the running terminal priority. The
request is recorded before the test that leaves the loop, so a directive that is cut off by a
terminal one still sets the flag: with `stop` (terminal, priority 10) and `fork` (new scope,
priority 5) on one node both are examined, only the compile step of `stop` is called, the flag
is set, and linking the node, which is not a root node, makes a new scope and hands it to the
link callback. Whenever the flag is set, the list loop makes a new scope for a node outside the
root invocation. -/
theorem scope_flag_iff_examined (env : Env) (directives : List Directive) (templateNode : Node)
    (templateAttrs : Attrs) (w : World) :
    ((applyDirectivesPerElement env directives templateNode templateAttrs w).1.scope = true ↔
      ∃ d ∈ examined (sortByPriority directives) none, d.scope = true) ∧
    examined (sortByPriority directives) none <+: sortByPriority directives ∧
    (∀ (f : NodeLinkFn) (scope : Nat) (node : Node) (w1 : World), f.scope = true →
      enterScope (.directive f) scope node false w1 = forkScope scope node w1) ∧
    (examined (sortByPriority (matchList stdEnv cutScopeRegistry
        (element 2 "SPAN" [("fork", ""), ("stop", "")] []))) none).map (fun d => d.name) =
      [some "stop", some "fork"] ∧
    (compileCalls cutScopeRun.trace).map (fun p => (p.1.name, p.2)) = [(some "stop", 2)] ∧
    scopesForked cutScopeRun.trace = [(100, 2)] ∧
    scopesSeen cutScopeRun.trace = [("stop", 2)] := by
  refine ⟨?_, examined_isPrefix _ _, ?_, by decide, by decide, by decide, by decide⟩
  · unfold applyDirectivesPerElement
    simp only [applyLoop_scope_examined, applyInit, Option.isSome_none, Bool.false_or,
      List.any_eq_true]
  · intro f scope node w1 hf
    simp [enterScope, hf]

/-! ## The class loop ends (C39) -/

theorem execClass_shrinks (text : List Char) (m : ClassMatch) (hm : execClass text = some m) :
    1 ≤ m.index + m.whole.length ∧
    (text.drop (m.index + m.whole.length)).length < text.length := by
  have hw := (execClassFrom_some text 0 m hm).1
  have ht : 1 ≤ text.length := by
    cases text with
    | nil => simp [execClass, execClassFrom] at hm
    | cons c cs => simp
  refine ⟨by omega, ?_⟩
  rw [List.length_drop]
  omega

theorem classRounds_total : ∀ (n : Nat) (text : List Char), text.length ≤ n →
    ∃ k : Nat, 1 ≤ k ∧ k ≤ text.length + 1 ∧
      ∀ fuel : Nat, text.length + 1 ≤ fuel → classRounds fuel text = some k
  | n, text, hn => by
    cases hm : execClass text with
    | none =>
      refine ⟨1, Nat.le_refl 1, by omega, ?_⟩
      intro fuel hf
      obtain ⟨f, rfl⟩ : ∃ f, fuel = f + 1 := ⟨fuel - 1, by omega⟩
      rw [classRounds, hm]
    | some m =>
      have hs := (execClass_shrinks text m hm).2
      cases n with
      | zero => omega
      | succ n =>
        obtain ⟨k, hk1, hk2, hk3⟩ :=
          classRounds_total n (text.drop (m.index + m.whole.length)) (by omega)
        refine ⟨k + 1, by omega, by omega, ?_⟩
        intro fuel hf
        obtain ⟨f, rfl⟩ : ∃ f, fuel = f + 1 := ⟨fuel - 1, by omega⟩
        rw [classRounds, hm]
        simp only
        rw [hk3 f (by omega)]
        rfl

theorem scanClass_fuel (env : Env) (reg : Registry) : ∀ (fuel1 fuel2 : Nat) (text : List Char)
    (st : ScanState), text.length ≤ fuel1 → text.length ≤ fuel2 →
    scanClass env reg fuel1 text st = scanClass env reg fuel2 text st
  | 0, fuel2, text, st, h1, _ => by
    have ht : text = [] := List.length_eq_zero.1 (by omega)
    subst ht
    cases fuel2 <;> simp [scanClass, execClass, execClassFrom]
  | fuel1 + 1, 0, text, st, _, h2 => by
    have ht : text = [] := List.length_eq_zero.1 (by omega)
    subst ht
    simp [scanClass, execClass, execClassFrom]
  | fuel1 + 1, fuel2 + 1, text, st, h1, h2 => by
    rw [scanClass, scanClass]
    cases hm : execClass text with
    | none => rfl
    | some m =>
      simp only
      have hs := (execClass_shrinks text m hm).2
      rw [scanClass_fuel env reg fuel1 fuel2 _ _ (by omega) (by omega)]

/-- C39. The class loop of `compileNodes` ends on every class string. Every evaluation of
`CLASS_DIRECTIVE_REGEXP.exec(text)` that finds a match is followed by `text = text.substr(
match.index + match[0].length)` with `match.index + match[0].length` at least 1 on a text that
is not empty, so the text left is strictly shorter. Hence the condition of the loop is
evaluated `k` times for some `k` between 1 and the length of the class string plus one, the
last time without a match, however many rounds the loop is allowed beyond that; and the
directives, the attrs and the world the loop leaves are the same for every allowance of at
least as many rounds as the string has characters, which is the one `compileNodes` is modelled
with. -/
theorem class_loop_terminates (text : List Char) :
    (∀ m : ClassMatch, execClass text = some m →
      1 ≤ m.index + m.whole.length ∧
      (text.drop (m.index + m.whole.length)).length < text.length) ∧
    (∃ k : Nat, 1 ≤ k ∧ k ≤ text.length + 1 ∧
      ∀ fuel : Nat, text.length + 1 ≤ fuel → classRounds fuel text = some k) ∧
    (∀ (env : Env) (reg : Registry) (st : ScanState) (fuel : Nat), text.length ≤ fuel →
      scanClass env reg fuel text st = scanClass env reg text.length text st) ∧
    classRounds 25 "greet: angular; b:123; c".data = some 4 ∧
    classRounds 3 "greet: angular; b:123; c".data = none :=
  ⟨fun m hm => execClass_shrinks text m hm, classRounds_total text.length text (Nat.le_refl _),
    fun env reg st fuel hf => scanClass_fuel env reg fuel text.length text st hf (Nat.le_refl _),
    by decide, by decide⟩

/-! ## The cache: eviction (C31) -/

/-- C31, evaluated. In a cache of capacity 2 that holds `a` and `b`, `a` read last, `put('c',
3)` evicts `b`, the least recently used key, and keeps `a`. In a cache of capacity 1, after
`put('a', undefined)` and `put('b', 1)` the cache holds the one key `b`, put with a defined
value, but the LRU list holds an entry for `a` too, made before the test for `undefined`:
`put('c', 2)` removes that entry, the stale end, and evicts no key, so `b` and `c` are both
stored. After `put('toString', 1)` the inherited function stands in the LRU list as the entry of
`toString`, without a property `key`: in a cache of capacity 1 `put('a', 2)` evicts nothing, and
`put('b', 3)` calls `remove(undefined)`, which throws, with three pairs stored. -/
theorem lru_eviction_misses :
    (CacheFactory.run CacheFactory.twoThenGet (CacheFactory.cacheFactory (some 2))).data =
      [("a", .user 1), ("b", .user 2)] ∧
    (CacheFactory.put "c" (some (.user 3))
      (CacheFactory.run CacheFactory.twoThenGet (CacheFactory.cacheFactory (some 2)))).cache.data =
      [("a", .user 1), ("c", .user 3)] ∧
    (CacheFactory.run CacheFactory.undefinedThenOne (CacheFactory.cacheFactory (some 1))).data =
      [("b", .user 1)] ∧
    (CacheFactory.run CacheFactory.undefinedThenOne (CacheFactory.cacheFactory (some 1))).size =
      1 ∧
    (CacheFactory.put "c" (some (.user 2))
      (CacheFactory.run CacheFactory.undefinedThenOne
        (CacheFactory.cacheFactory (some 1)))).cache.data = [("b", .user 1), ("c", .user 2)] ∧
    (CacheFactory.put "c" (some (.user 2))
      (CacheFactory.run CacheFactory.undefinedThenOne
        (CacheFactory.cacheFactory (some 1)))).error = none ∧
    (CacheFactory.run CacheFactory.memberThenOne (CacheFactory.cacheFactory (some 1))).data =
      [("toString", .user 1), ("a", .user 2)] ∧
    (CacheFactory.put "b" (some (.user 3))
      (CacheFactory.run CacheFactory.memberThenOne
        (CacheFactory.cacheFactory (some 1)))).error = some CacheFactory.typeError ∧
    (CacheFactory.put "b" (some (.user 3))
      (CacheFactory.run CacheFactory.memberThenOne
        (CacheFactory.cacheFactory (some 1)))).cache.data =
      [("toString", .user 1), ("a", .user 2), ("b", .user 3)] := by
  decide

/-! ## The cache: `remove` of a key without entry (C40) -/

theorem lookup_deleteKey {β : Type} (inherit : String → β) (key : String)
    (obj : List (String × β)) (h : objectPrototype.contains key = false) :
    lookup inherit (deleteKey key obj) key = none := by
  have h2 : key ∉ objectPrototype := by simpa using h
  have h3 : getKey key (deleteKey key obj) = none := by
    induction obj with
    | nil => rfl
    | cons p rest ih =>
      unfold deleteKey at ih ⊢
      by_cases hp : p.1 = key
      · simpa [List.filter_cons, hp] using ih
      · simp only [List.filter_cons, ne_eq, hp, not_false_eq_true, decide_True, ite_true]
        rw [getKey, if_neg hp]
        exact ih
  simp [lookup, h3, h2]

/-- C40, evaluated. When `lruHash[key]` is `undefined`, `remove(key)` throws a `TypeError` at the
first read of `lruEntry.prev` or `lruEntry.next`, before any assignment: the cache is left as it
was. That is the case of a key that names no member of `Object.prototype` and was never put,
or was removed, or was cleared by `removeAll()`. For a key that names a member, `lruHash[key]`
is the inherited function when the key has no entry: on a new cache `remove('toString')` throws
nothing and decrements the size to -1. -/
theorem remove_inherited_key_no_error :
    (CacheFactory.remove "toString" (CacheFactory.cacheFactory none)).error = none ∧
    CacheFactory.size (CacheFactory.remove "toString" (CacheFactory.cacheFactory none)).cache =
      -1 ∧
    (∀ (c : CacheFactory.Cache) (key : String),
      lookup CacheFactory.Ref.inherited c.lruHash key = none →
      CacheFactory.remove key c = { cache := c, error := some CacheFactory.typeError }) ∧
    (∀ (key : String) (capacity : Option Nat), objectPrototype.contains key = false →
      CacheFactory.remove key (CacheFactory.cacheFactory capacity) =
        { cache := CacheFactory.cacheFactory capacity, error := some CacheFactory.typeError }) ∧
    (∀ (c : CacheFactory.Cache) (key : String), objectPrototype.contains key = false →
      CacheFactory.remove key (CacheFactory.removeAll c) =
        { cache := CacheFactory.removeAll c, error := some CacheFactory.typeError }) ∧
    (∀ (c : CacheFactory.Cache) (key : String), objectPrototype.contains key = false →
      (CacheFactory.remove key c).error = none →
      CacheFactory.remove key (CacheFactory.remove key c).cache =
        { cache := (CacheFactory.remove key c).cache,
          error := some CacheFactory.typeError }) := by
  have hgen : ∀ (c : CacheFactory.Cache) (key : String),
      lookup CacheFactory.Ref.inherited c.lruHash key = none →
      CacheFactory.remove key c = { cache := c, error := some CacheFactory.typeError } := by
    intro c key h
    simp [CacheFactory.remove, h]
  refine ⟨by decide, by decide, hgen, ?_, ?_, ?_⟩
  · intro key capacity h
    apply hgen
    have h2 : key ∉ objectPrototype := by simpa using h
    simp [CacheFactory.cacheFactory, lookup, getKey, h2]
  · intro c key h
    apply hgen
    have h2 : key ∉ objectPrototype := by simpa using h
    simp [CacheFactory.removeAll, lookup, getKey, h2]
  · intro c key h he
    apply hgen
    unfold CacheFactory.remove at he ⊢
    cases hl : lookup CacheFactory.Ref.inherited c.lruHash key with
    | none => simp [hl] at he
    | some r =>
      simp only
      exact lookup_deleteKey _ key _ h

/-! ## Registering a route (C32) -/

theorem redirectPath_ne (p : String) : Route.redirectPath p ≠ p := by
  intro h
  have hd := congrArg (fun s : String => s.data.length) h
  unfold Route.redirectPath at hd
  split at hd
  · rename_i hl
    have hne : p.data ≠ [] := by
      intro e
      rw [e] at hl
      simp at hl
    have hpos : 0 < p.data.length := List.length_pos.2 hne
    simp only [List.length_dropLast] at hd
    omega
  · have h2 : (p ++ "/").data.length = p.data.length + 1 := by
      rw [String.data_append, List.length_append]
      rfl
    simp only at hd
    omega

theorem getKey_extend_other (k : String) : ∀ (src dst : Route.Obj), (∀ p ∈ src, p.1 ≠ k) →
    getKey k (src.foldl (fun d1 p => setKey p.1 p.2 d1) dst) = getKey k dst
  | [], _, _ => rfl
  | p :: rest, dst, h => by
    rw [List.foldl_cons, getKey_extend_other k rest _ (fun q hq => h q (List.mem_cons_of_mem _ hq))]
    exact getKey_setKey_ne p.1 k p.2 dst (fun e => h p (List.mem_cons_self _ _) e.symm)

theorem getKey_eq_none {β : Type} (k : String) : ∀ (l : List (String × β)),
    getKey k l = none → ∀ p ∈ l, p.1 ≠ k
  | [], _, p, hp => by simp at hp
  | (k1, v1) :: rest, h, p, hp => by
    rw [getKey] at h
    split at h
    · cases h
    · rename_i hk
      rcases List.mem_cons.1 hp with e | e
      · subst e
        exact hk
      · exact getKey_eq_none k rest h p e

theorem getKey_extend_source (k : String) (v : Route.Val) : ∀ (src dst : Route.Obj),
    (src.map (fun p => p.1)).Nodup → getKey k src = some v →
    getKey k (src.foldl (fun d1 p => setKey p.1 p.2 d1) dst) = some v
  | [], _, _, h => by simp [getKey] at h
  | (k1, v1) :: rest, dst, hn, h => by
    rw [List.map_cons, List.nodup_cons] at hn
    rw [getKey] at h
    rw [List.foldl_cons]
    split at h
    · rename_i hk
      simp only [Option.some.injEq] at h
      subst h
      subst hk
      rw [getKey_extend_other k1 rest _ ?_]
      · exact getKey_setKey_self k1 v1 dst
      · intro p hp e
        exact hn.1 (List.mem_map.2 ⟨p, hp, e⟩)
    · exact getKey_extend_source k v rest _ hn.2 h

/-- C32. For a path `p` that is not empty and a route `r`, `when(p, r)` leaves a table that maps
`p` to `extend(\x7breloadOnSearch: true\x7d, r)`, maps the counterpart of `p` (which differs from
`p`: `p` without its final `/` when it ends in `/`, `p + '/'` otherwise) to `\x7bredirectTo:
p\x7d` whatever was there, and maps every other path as before; the table is the one of the
provider the method returns. With the `extend` of angular.js the route stored has
`reloadOnSearch` true when `r` has no such property, and every property of `r` with the value
`r` gives it. -/
theorem when_registers (h : Route.Helpers) (p : String) (r : Route.Obj) (routes : Route.Routes)
    (hp : p ≠ "") :
    getKey p (Route.when h (some p) r routes) =
      some (h.extend [("reloadOnSearch", .bool true)] [r]) ∧
    getKey (Route.redirectPath p) (Route.when h (some p) r routes) =
      some [("redirectTo", .str p)] ∧
    Route.redirectPath p ≠ p ∧
    (∀ q : String, q ≠ p → q ≠ Route.redirectPath p →
      getKey q (Route.when h (some p) r routes) = getKey q routes) ∧
    (p.data.getLast? = some '/' → (Route.redirectPath p).data ++ ['/'] = p.data) ∧
    (p.data.getLast? ≠ some '/' → Route.redirectPath p = p ++ "/") ∧
    (getKey "reloadOnSearch" r = none →
      getKey "reloadOnSearch" (Route.stdExtend [("reloadOnSearch", .bool true)] [r]) =
        some (.bool true)) ∧
    (∀ (k : String) (v : Route.Val), (r.map (fun q => q.1)).Nodup → getKey k r = some v →
      getKey k (Route.stdExtend [("reloadOnSearch", .bool true)] [r]) = some v) := by
  have hne := redirectPath_ne p
  have hw : Route.when h (some p) r routes =
      setKey (Route.redirectPath p) [("redirectTo", .str p)]
        (setKey p (h.extend [("reloadOnSearch", .bool true)] [r]) routes) := by
    simp [Route.when, Route.keyOf, hp]
  refine ⟨?_, ?_, hne, ?_, ?_, ?_, ?_, ?_⟩
  · rw [hw, getKey_setKey_ne _ _ _ _ (fun e => hne e.symm), getKey_setKey_self]
  · rw [hw, getKey_setKey_self]
  · intro q h1 h2
    rw [hw, getKey_setKey_ne _ _ _ _ h2, getKey_setKey_ne _ _ _ _ h1]
  · intro hl
    unfold Route.redirectPath
    rw [if_pos hl]
    obtain ⟨l, hl2⟩ : ∃ l, p.data = l ++ ['/'] := by
      rcases List.eq_nil_or_concat p.data with e | ⟨l, b, e⟩
      · rw [e] at hl
        simp at hl
      · rw [e] at hl
        simp only [List.concat_eq_append, List.getLast?_append, List.getLast?_singleton,
          Option.or, Option.some.injEq] at hl
        exact ⟨l, by rw [e, hl]; simp⟩
    rw [hl2]
    simp
  · intro hl
    unfold Route.redirectPath
    rw [if_neg hl]
  · intro hr
    simp only [Route.stdExtend, List.foldl_cons, List.foldl_nil]
    rw [getKey_extend_other _ r _ (getKey_eq_none _ r hr)]
    simp [getKey]
  · intro k v hn hk
    simp only [Route.stdExtend, List.foldl_cons, List.foldl_nil]
    exact getKey_extend_source k v r _ hn hk

/-- The claim C32 on the test `should match route with and without trailing slash`:
`when('/bar/', \x7btemplate: 'bar.html'\x7d)` on the table left by `when('/foo', \x7btemplate:
'foo.html'\x7d)`. -/
theorem when_registers_witness :
    Route.when Route.stdHelpers (some "/bar/") [("template", .str "bar.html")]
        (Route.when Route.stdHelpers (some "/foo") [("template", .str "foo.html")] []) =
      [("/foo", [("reloadOnSearch", .bool true), ("template", .str "foo.html")]),
       ("/foo/", [("redirectTo", .str "/foo")]),
       ("/bar/", [("reloadOnSearch", .bool true), ("template", .str "bar.html")]),
       ("/bar", [("redirectTo", .str "/bar/")])] ∧
    getKey "/bar/" (Route.when Route.stdHelpers (some "/bar/") [("template", .str "bar.html")]
        (Route.when Route.stdHelpers (some "/foo") [("template", .str "foo.html")] [])) =
      some (Route.stdHelpers.extend [("reloadOnSearch", .bool true)]
        [[("template", .str "bar.html")]]) ∧
    getKey (Route.redirectPath "/bar/")
        (Route.when Route.stdHelpers (some "/bar/") [("template", .str "bar.html")]
          (Route.when Route.stdHelpers (some "/foo") [("template", .str "foo.html")] [])) =
      some [("redirectTo", .str "/bar/")] :=
  ⟨by decide,
    (when_registers Route.stdHelpers "/bar/" [("template", .str "bar.html")]
      (Route.when Route.stdHelpers (some "/foo") [("template", .str "foo.html")] [])
      (by decide)).1,
    (when_registers Route.stdHelpers "/bar/" [("template", .str "bar.html")]
      (Route.when Route.stdHelpers (some "/foo") [("template", .str "foo.html")] [])
      (by decide)).2.1⟩

/-! ## The route of a location (C33) -/

theorem foldl_visitRoute_some (h : Route.Helpers) (matcher : String → String → Option Route.Obj)
    (loc : Route.Location) (c : Route.Current) : ∀ routes : Route.Routes,
    routes.foldl (Route.visitRoute h matcher loc) (some c) = some c
  | [] => rfl
  | e :: rest => by
    rw [List.foldl_cons]
    exact foldl_visitRoute_some h matcher loc c rest

theorem foldl_visitRoute_miss (h : Route.Helpers) (matcher : String → String → Option Route.Obj)
    (loc : Route.Location) : ∀ (pre rest : Route.Routes),
    (∀ q ∈ pre, matcher loc.path q.1 = none) →
    (pre ++ rest).foldl (Route.visitRoute h matcher loc) none =
      rest.foldl (Route.visitRoute h matcher loc) none
  | [], _, _ => rfl
  | e :: pre, rest, hm => by
    rw [List.cons_append, List.foldl_cons]
    have he : Route.visitRoute h matcher loc none e = none := by
      simp [Route.visitRoute, hm e (List.mem_cons_self _ _)]
    rw [he]
    exact foldl_visitRoute_miss h matcher loc pre rest
      (fun q hq => hm q (List.mem_cons_of_mem _ hq))

theorem getKey_extend (k : String) (src dst : Route.Obj)
    (hn : (src.map (fun p => p.1)).Nodup) :
    getKey k (src.foldl (fun d1 p => setKey p.1 p.2 d1) dst) =
      (getKey k src).orElse (fun _ => getKey k dst) := by
  cases hk : getKey k src with
  | none =>
    rw [getKey_extend_other k src dst (getKey_eq_none k src hk)]
    rfl
  | some v =>
    rw [getKey_extend_source k v src dst hn hk]
    rfl

theorem forEachOrder_plain (routes : Route.Routes)
    (hidx : ∀ e ∈ routes, Route.arrayIndex e.1 = none) : Route.forEachOrder routes = routes := by
  have h1 : routes.filter (fun e => (Route.arrayIndex e.1).isSome) = [] := by
    rw [List.filter_eq_nil_iff]
    intro e he
    simp [hidx e he]
  have h2 : routes.filter (fun e => (Route.arrayIndex e.1).isNone) = routes := by
    rw [List.filter_eq_self]
    intro e he
    simp [hidx e he]
  unfold Route.forEachOrder
  rw [h1, h2]
  rfl

/-- C33, counterexample. Register `:x` and then `7`: the table holds its paths in the order
`:x`, `:x/`, `7`, `7/`, and `forEach` visits `7` first, a property whose name is an array index.
Both `:x` and `7` match the path `7`; `parseRoute` answers with the route of `7`, without path
parameters, and not with the route of `:x`, which was registered first. -/
theorem parseRoute_array_index_first :
    Route.indexTable.map (fun e => e.1) = [":x", ":x/", "7", "7/"] ∧
    (Route.forEachOrder Route.indexTable).map (fun e => e.1) = ["7", ":x", ":x/", "7/"] ∧
    Route.simpleMatcher "7" ":x" = some [("x", .str "7")] ∧
    Route.simpleMatcher "7" "7" = some [] ∧
    Route.parseRoute Route.stdHelpers Route.simpleMatcher Route.indexTable
        { path := "7", search := [] } =
      some { proto := [("reloadOnSearch", .bool true), ("template", .str "seven.html")],
             params := [], pathParams := [],
             route := some [("reloadOnSearch", .bool true), ("template", .str "seven.html")] } ∧
    Route.parseRoute Route.stdHelpers Route.simpleMatcher Route.indexTable
        { path := "7", search := [] } ≠
      some { proto := [("reloadOnSearch", .bool true), ("template", .str "x.html")],
             params := [("x", .str "7")], pathParams := [("x", .str "7")],
             route := some [("reloadOnSearch", .bool true), ("template", .str "x.html")] } := by
  decide

/-- C33, amended. Take a route table in which no path is an array index (the decimal numeral,
without leading zero, of a number below `2^32 - 1`). `parseRoute` visits the routes of the table
in the order they were registered in and answers for the first one whose pattern matches the
path of the location: the object returned inherits from that route, its `pathParams` are the
parameters the matcher extracted, its `params` are `extend(\x7b\x7d, search, pathParams)`, and
its `$route` is the route; routes after it are not looked at. When no pattern matches, the
answer is made from the route registered by `otherwise` (the property `null` of the table),
with empty `params` and `pathParams`, and is `undefined` when there is none. With the `extend`
of angular.js, `params` holds for every name the path parameter of that name, and the search
parameter where the path has none. On the table of the test for `otherwise`, `/foo` is answered
by its own route and `/unknownRoute` by the one of `otherwise`; without `otherwise`,
`/unknownRoute` has no answer. -/
theorem parseRoute_first_match (h : Route.Helpers)
    (matcher : String → String → Option Route.Obj) (routes : Route.Routes)
    (loc : Route.Location) (hidx : ∀ e ∈ routes, Route.arrayIndex e.1 = none) :
    (∀ (pre post : Route.Routes) (e : String × Route.Obj) (params : Route.Obj),
      routes = pre ++ e :: post → (∀ q ∈ pre, matcher loc.path q.1 = none) →
      matcher loc.path e.1 = some params →
      Route.parseRoute h matcher routes loc =
        some { proto := e.2, params := h.extend [] [loc.search, params], pathParams := params,
               route := some e.2 }) ∧
    ((∀ q ∈ routes, matcher loc.path q.1 = none) →
      Route.parseRoute h matcher routes loc =
        (getKey "null" routes).map
          (fun r => { proto := r, params := [], pathParams := [], route := none })) ∧
    (∀ (search params : Route.Obj) (k : String), (search.map (fun p => p.1)).Nodup →
      (params.map (fun p => p.1)).Nodup →
      getKey k (Route.stdExtend [] [search, params]) =
        (getKey k params).orElse (fun _ => getKey k search)) ∧
    Route.parseRoute Route.stdHelpers Route.simpleMatcher Route.otherwiseTable
        { path := "/foo", search := [("p", .str "123")] } =
      some { proto := [("reloadOnSearch", .bool true), ("template", .str "foo.html")],
             params := [("p", .str "123")], pathParams := [],
             route := some [("reloadOnSearch", .bool true), ("template", .str "foo.html")] } ∧
    Route.parseRoute Route.stdHelpers Route.simpleMatcher Route.otherwiseTable
        { path := "/unknownRoute", search := [("p", .str "123")] } =
      some { proto := [("reloadOnSearch", .bool true), ("template", .str "404.html")],
             params := [], pathParams := [], route := none } ∧
    Route.parseRoute Route.stdHelpers Route.simpleMatcher
        (Route.when Route.stdHelpers (some "/foo") [("template", .str "foo.html")] [])
        { path := "/unknownRoute", search := [] } = none := by
  refine ⟨?_, ?_, ?_, by decide, by decide, by decide⟩
  · intro pre post e params hr hpre he
    unfold Route.parseRoute
    rw [forEachOrder_plain routes hidx, hr, foldl_visitRoute_miss h matcher loc pre _ hpre,
      List.foldl_cons]
    have hv : Route.visitRoute h matcher loc none e =
        some { proto := e.2, params := h.extend [] [loc.search, params], pathParams := params,
               route := some e.2 } := by
      simp [Route.visitRoute, he]
    rw [hv, foldl_visitRoute_some]
  · intro hall
    unfold Route.parseRoute
    have hm := foldl_visitRoute_miss h matcher loc routes [] hall
    rw [List.append_nil] at hm
    rw [forEachOrder_plain routes hidx, hm]
    cases getKey "null" routes <;> rfl
  · intro search params k hs hp
    simp only [Route.stdExtend, List.foldl_cons, List.foldl_nil]
    rw [getKey_extend k params _ hp, getKey_extend k search _ hs]
    cases getKey k params <;> cases getKey k search <;> rfl

/-- The claim C33 as amended, on the table of the test `should handle unknown routes with
"otherwise" route definition`: no path of the table is an array index, `/foo` is the first
path registered and matches the location `/foo`, whose answer is the route of `/foo` with the
search parameters. -/
theorem parseRoute_first_match_witness :
    (∀ e ∈ Route.otherwiseTable, Route.arrayIndex e.1 = none) ∧
    Route.otherwiseTable.map (fun e => e.1) = ["/foo", "/foo/", "null"] ∧
    Route.parseRoute Route.stdHelpers Route.simpleMatcher Route.otherwiseTable
        { path := "/foo", search := [("p", .str "123")] } =
      some { proto := [("reloadOnSearch", .bool true), ("template", .str "foo.html")],
             params := Route.stdExtend [] [[("p", .str "123")], []], pathParams := [],
             route := some [("reloadOnSearch", .bool true), ("template", .str "foo.html")] } :=
  ⟨by decide, by decide,
    (parseRoute_first_match Route.stdHelpers Route.simpleMatcher Route.otherwiseTable
      { path := "/foo", search := [("p", .str "123")] } (by decide)).1 []
      [("/foo/", [("redirectTo", .str "/foo")]),
       ("null", [("reloadOnSearch", .bool true), ("template", .str "404.html")])]
      ("/foo", [("reloadOnSearch", .bool true), ("template", .str "foo.html")]) []
      (by decide) (by decide) (by decide)⟩

/-! ## Redirect templates (C34) -/

theorem splitColon_ne_nil : ∀ l : List Char, Route.splitColon l ≠ []
  | [] => by simp [Route.splitColon]
  | c :: cs => by
    rw [Route.splitColon]
    split
    · simp
    · split <;> simp

theorem splitColon_plain : ∀ a : List Char, a.all (fun c => c != ':') = true →
    Route.splitColon a = [a]
  | [], _ => rfl
  | c :: cs, h => by
    simp only [List.all_cons, Bool.and_eq_true, bne_iff_ne, ne_eq] at h
    rw [Route.splitColon, if_neg h.1, splitColon_plain cs (by simpa using h.2)]

theorem splitColon_append : ∀ (a rest : List Char), a.all (fun c => c != ':') = true →
    Route.splitColon (a ++ ':' :: rest) = a :: Route.splitColon rest
  | [], rest, _ => by
    rw [List.nil_append, Route.splitColon, if_pos rfl]
  | c :: cs, rest, h => by
    simp only [List.all_cons, Bool.and_eq_true, bne_iff_ne, ne_eq] at h
    rw [List.cons_append, Route.splitColon, if_neg h.1,
      splitColon_append cs rest (by simpa using h.2)]

theorem text_no_colon (p : Route.Placeholder) (hp : Route.WellPlaced p) :
    (p.name ++ p.text).all (fun c => c != ':') = true := by
  obtain ⟨-, hname, -, htext⟩ := hp
  simp only [List.all_append, Bool.and_eq_true, List.all_eq_true] at hname htext ⊢
  refine ⟨fun c hc => ?_, fun c hc => ?_⟩
  · have h1 := hname c hc
    simp only [bne_iff_ne, ne_eq]
    intro e
    subst e
    revert h1
    decide
  · have h1 := htext c hc
    simp only [Bool.and_eq_true] at h1
    exact h1.1

theorem splitColon_render : ∀ (ps : List Route.Placeholder) (first : List Char),
    first.all (fun c => c != ':') = true → (∀ p ∈ ps, Route.WellPlaced p) →
    Route.splitColon (Route.renderTemplate first ps) = first :: ps.map (fun p => p.name ++ p.text)
  | [], first, hf, _ => by
    rw [Route.renderTemplate, splitColon_plain first hf]
    rfl
  | p :: rest, first, hf, hps => by
    rw [Route.renderTemplate, splitColon_append first _ hf,
      splitColon_render rest (p.name ++ p.text) (text_no_colon p (hps p (List.mem_cons_self _ _)))
        (fun q hq => hps q (List.mem_cons_of_mem _ hq))]
    rfl

theorem segmentMatch_placeholder (p : Route.Placeholder) (hp : Route.WellPlaced p) :
    Route.segmentMatch (p.name ++ p.text) = some (p.name, p.text) := by
  obtain ⟨hne, hname, hhead, htext⟩ := hp
  obtain ⟨c, cs, hc⟩ : ∃ c cs, p.name = c :: cs := by
    cases hn : p.name with
    | nil => exact absurd hn hne
    | cons c cs => exact ⟨c, cs, rfl⟩
  have hcw : Route.isWordChar c = true := by
    rw [hc] at hname
    simp only [List.all_cons, Bool.and_eq_true] at hname
    exact hname.1
  have hdrop : (p.name ++ p.text).dropWhile (fun c => !Route.isWordChar c) = p.name ++ p.text := by
    rw [hc, List.cons_append, List.dropWhile_cons]
    simp [hcw]
  have htake : (p.name ++ p.text).takeWhile Route.isWordChar = p.name :=
    takeWhile_append_stop Route.isWordChar p.name p.text hname
      (fun x hx => hhead x (by simp [hx]))
  have hrest : p.text.takeWhile (fun c => !isLineTerminator c) = p.text := by
    rw [List.takeWhile_eq_self_iff]
    intro x hx
    simp only [List.all_eq_true, Bool.and_eq_true] at htext
    exact (htext x hx).2
  have hnil : p.name ++ p.text ≠ [] := by
    rw [hc]
    simp
  unfold Route.segmentMatch
  simp only [hdrop, htake, if_neg hnil, List.drop_left, hrest]

theorem lookup_own {β : Type} (inherit : String → β) (obj : List (String × β)) (key : String)
    (hk : objectPrototype.contains key = false) : lookup inherit obj key = getKey key obj := by
  unfold lookup
  cases getKey key obj with
  | some v => rfl
  | none =>
    simp only
    rw [hk]
    rfl

theorem visitSegments_render (h : Route.Helpers) : ∀ (ps : List Route.Placeholder)
    (result : List Char) (params : Route.Obj), (∀ p ∈ ps, Route.WellPlaced p) →
    Route.OwnNames ps →
    Route.visitSegments h (ps.map (fun p => p.name ++ p.text)) result params =
      .ok (result ++ Route.substituted h ps params, Route.unused ps params)
  | [], result, params, _, _ => by
    simp [Route.visitSegments, Route.substituted, Route.unused]
  | p :: rest, result, params, hps, hown => by
    rw [List.map_cons, Route.visitSegments,
      segmentMatch_placeholder p (hps p (List.mem_cons_self _ _))]
    simp only
    rw [lookup_own _ _ _ (hown p (List.mem_cons_self _ _)),
      visitSegments_render h rest _ _ (fun q hq => hps q (List.mem_cons_of_mem _ hq))
        (fun q hq => hown q (List.mem_cons_of_mem _ hq))]
    simp [Route.substituted, Route.unused, List.append_assoc]

/-- C34, counterexample. With the parameters `\x7bid: 'x'\x7d` the template `/:id/:id`, in which
every `:` is followed by a word character, comes out as `/x/` and not as `/x/x`: the name is
deleted from the parameter map after its first use, so the second placeholder is replaced by
nothing. With `\x7ba: 'x'\x7d` the template `/:a`, a line feed, `/b` comes out as `/x`: the
text after the placeholder is kept up to the line terminator only. -/
theorem repeated_placeholder_emptied :
    (Route.interpolate Route.stdHelpers (some "/:id/:id") [("id", .str "x")]).toOption =
      some ("/x/", []) ∧
    (Route.interpolate Route.stdHelpers (some "/:a\n/b") [("a", .str "x")]).toOption =
      some ("/x", []) ∧
    lookup Route.inheritedVal [("id", Route.Val.str "x")] "id" = some (.str "x") ∧
    (Route.interpolate Route.stdHelpers (some "/:id/:id2") [("id", .str "x"), ("id2", .str "y")]).toOption =
      some ("/x/y", []) := by
  decide

/-- C34, amended. Take a redirect template written as a first text without `:` followed by
placeholders `:name`, each name a maximal non-empty run of word characters followed by text
without `:` and without line terminator: every `:` of such a template is followed by a word
character. Let no placeholder be named like a member of `Object.prototype`. For every parameter
map, `interpolate` returns the first text followed, for each placeholder in order, by the text
of the value the map holds for the name when the placeholder is reached and by the text after
the placeholder; a name is deleted from the map once it was used, so a placeholder whose name
was used before, like one whose name the map does not hold, is replaced by the empty text. The
call throws nothing, and a template without `:` is returned unchanged. -/
theorem interpolate_placeholders (h : Route.Helpers) (first : List Char)
    (ps : List Route.Placeholder) (params : Route.Obj)
    (hf : first.all (fun c => c != ':') = true) (hps : ∀ p ∈ ps, Route.WellPlaced p)
    (hown : Route.OwnNames ps) :
    Route.interpolate h (some (String.mk (Route.renderTemplate first ps))) params =
      .ok (String.mk (first ++ Route.substituted h ps params), Route.unused ps params) ∧
    (∀ (p : Route.Placeholder) (rest : List Route.Placeholder) (map : Route.Obj),
      getKey (String.mk p.name) map = none →
      Route.substituted h (p :: rest) map =
        p.text ++ Route.substituted h rest (deleteKey (String.mk p.name) map)) ∧
    Route.interpolate h (some (String.mk first)) params = .ok (String.mk first, params) := by
  refine ⟨?_, ?_, ?_⟩
  · unfold Route.interpolate
    simp only [Option.getD_some]
    rw [splitColon_render ps first hf hps]
    simp only
    rw [visitSegments_render h ps first params hps hown]
  · intro p rest map hnone
    rw [Route.substituted, hnone]
    rfl
  · unfold Route.interpolate
    simp only [Option.getD_some]
    rw [splitColon_plain first hf]
    rfl

/-- The claim C34 as amended, on the test `should interpolate route vars in the redirected url
from original params`: the template `/bar/:id?:subid=23`, whose placeholders `id` and `subid`
are not named like a member of `Object.prototype`, comes out as `/bar/id1?subid3=23`. -/
theorem interpolate_placeholders_witness :
    String.mk (Route.renderTemplate "/bar/".data Route.barPlaceholders) = "/bar/:id?:subid=23" ∧
    String.mk ("/bar/".data ++
        Route.substituted Route.stdHelpers Route.barPlaceholders Route.barParams) =
      "/bar/id1?subid3=23" ∧
    Route.interpolate Route.stdHelpers
        (some (String.mk (Route.renderTemplate "/bar/".data Route.barPlaceholders)))
        Route.barParams =
      .ok (String.mk ("/bar/".data ++
          Route.substituted Route.stdHelpers Route.barPlaceholders Route.barParams),
        Route.unused Route.barPlaceholders Route.barParams) :=
  ⟨by decide, by decide,
    (interpolate_placeholders Route.stdHelpers "/bar/".data Route.barPlaceholders Route.barParams
      (by decide) (by decide) (by decide)).1⟩

/-! ## Directives named in a comment (C37) -/

theorem nameChar_toNat (c : Char) (h : isNameChar c = true) :
    (48 ≤ c.toNat ∧ c.toNat ≤ 57) ∨ (65 ≤ c.toNat ∧ c.toNat ≤ 90) ∨
    (97 ≤ c.toNat ∧ c.toNat ≤ 122) ∨ c.toNat = 95 ∨ c.toNat = 45 := by
  unfold isNameChar Char.isDigit Char.isAlpha Char.isUpper Char.isLower at h
  simp only [Bool.or_eq_true, Bool.and_eq_true, decide_eq_true_eq, beq_iff_eq] at h
  rcases h with ((h | h | h) | h) | h
  · left; exact ⟨h.1, h.2⟩
  · right; left; exact ⟨h.1, h.2⟩
  · right; right; left; exact ⟨h.1, h.2⟩
  · right; right; right; left; subst h; rfl
  · right; right; right; right; subst h; rfl

theorem nameChar_not_space (c : Char) (h : isNameChar c = true) : isSpaceChar c = false := by
  have h1 := nameChar_toNat c h
  unfold isSpaceChar
  simp only [Bool.or_eq_false_iff, Bool.and_eq_false_iff, beq_eq_false_iff_ne, ne_eq,
    decide_eq_false_iff_not]
  omega

theorem space_not_nameChar (c : Char) (h : isSpaceChar c = true) : isNameChar c = false := by
  cases hn : isNameChar c with
  | false => rfl
  | true =>
    rw [nameChar_not_space c hn] at h
    cases h

theorem dropWhile_append_stop (p : Char → Bool) : ∀ (a b : List Char), a.all p = true →
    (∀ c, b.head? = some c → p c = false) → (a ++ b).dropWhile p = b
  | [], [], _, _ => rfl
  | [], c :: cs, _, hb => by simp [List.dropWhile_cons, hb c rfl]
  | x :: xs, b, ha, hb => by
    simp only [List.all_cons, Bool.and_eq_true] at ha
    simp [List.dropWhile_cons, ha.1, dropWhile_append_stop p xs b ha.2 hb]

theorem dropLiteral_append : ∀ (lit rest : List Char), dropLiteral lit (lit ++ rest) = some rest
  | [], rest => by cases rest <;> rfl
  | l :: ls, rest => by
    rw [List.cons_append, dropLiteral, if_pos rfl]
    exact dropLiteral_append ls rest

theorem dropLiteral_some : ∀ (lit s rest : List Char), dropLiteral lit s = some rest →
    s = lit ++ rest
  | [], s, rest, h => by
    cases s <;> simp [dropLiteral] at h <;> simp [h]
  | l :: ls, [], rest, h => by simp [dropLiteral] at h
  | l :: ls, c :: cs, rest, h => by
    rw [dropLiteral] at h
    split at h
    · rename_i hl
      rw [hl, List.cons_append, dropLiteral_some ls cs rest h]
    · cases h

theorem find_comment_rest (s : List Char) : ∀ n : Nat,
    ((List.range n).reverse.map (fun k => s.drop (k + 1))).find?
        (fun rest => rest.all (fun c => !isLineTerminator c)) =
      if 1 ≤ n ∧ (s.drop n).all (fun c => !isLineTerminator c) = true then some (s.drop n)
      else none
  | 0 => by simp
  | m + 1 => by
    rw [List.range_succ, List.reverse_append, List.reverse_singleton, List.singleton_append,
      List.map_cons, List.find?_cons]
    cases hp : (s.drop (m + 1)).all (fun c => !isLineTerminator c) with
    | true => simp
    | false =>
      simp only [Bool.false_eq_true, and_false, if_false]
      rw [List.find?_eq_none]
      intro x hx hpx
      simp only [List.mem_map, List.mem_reverse, List.mem_range] at hx
      obtain ⟨k, hk, rfl⟩ := hx
      have hsub : s.drop (m + 1) = (s.drop (k + 1)).drop (m - k) := by
        rw [List.drop_drop]
        congr 1
        omega
      rw [hsub] at hp
      have : ((s.drop (k + 1)).drop (m - k)).all (fun c => !isLineTerminator c) = true := by
        rw [List.all_eq_true] at hpx ⊢
        intro c hc
        exact hpx c (List.mem_of_mem_drop hc)
      rw [this] at hp
      cases hp

theorem execComment_render (f : CommentForm) (hf : DirectiveComment f) :
    execComment (renderComment f) = some (f.name, f.args) := by
  obtain ⟨hlead, hgap, hne, hname, hsne, hspace, hhead, hargs⟩ := hf
  obtain ⟨c, cs, hc⟩ : ∃ c cs, f.name = c :: cs := by
    cases hn : f.name with
    | nil => exact absurd hn hne
    | cons c cs => exact ⟨c, cs, rfl⟩
  obtain ⟨x, xs, hx⟩ : ∃ x xs, f.space = x :: xs := by
    cases hn : f.space with
    | nil => exact absurd hn hsne
    | cons x xs => exact ⟨x, xs, rfl⟩
  have hcn : isNameChar c = true := by
    rw [hc] at hname
    simp only [List.all_cons, Bool.and_eq_true] at hname
    exact hname.1
  have hxs : isSpaceChar x = true := by
    rw [hx] at hspace
    simp only [List.all_cons, Bool.and_eq_true] at hspace
    exact hspace.1
  have h1 : (renderComment f).dropWhile isSpaceChar =
      "directive:".data ++ (f.gap ++ (f.name ++ (f.space ++ f.args))) := by
    unfold renderComment
    apply dropWhile_append_stop isSpaceChar _ _ hlead
    intro y hy
    have : y = 'd' := by
      simpa using hy.symm
    subst this
    decide
  have h2 : (f.gap ++ (f.name ++ (f.space ++ f.args))).dropWhile isSpaceChar =
      f.name ++ (f.space ++ f.args) := by
    apply dropWhile_append_stop isSpaceChar _ _ hgap
    intro y hy
    rw [hc] at hy
    simp only [List.cons_append, List.head?_cons, Option.some.injEq] at hy
    subst hy
    exact nameChar_not_space c hcn
  have h3 : (f.name ++ (f.space ++ f.args)).takeWhile isNameChar = f.name := by
    apply takeWhile_append_stop isNameChar _ _ hname
    intro y hy
    rw [hx] at hy
    simp only [List.cons_append, List.head?_cons, Option.some.injEq] at hy
    subst hy
    exact space_not_nameChar x hxs
  have h4 : (f.space ++ f.args).takeWhile isSpaceChar = f.space :=
    takeWhile_append_stop isSpaceChar _ _ hspace (fun y hy => hhead y (by simp [hy]))
  have hlen : 1 ≤ f.space.length := by
    rw [hx]
    simp
  unfold execComment
  simp only [h1, dropLiteral_append, h2, h3, if_neg hne, List.drop_left, h4, find_comment_rest,
    hargs, and_self, hlen, if_true]

theorem drop_takeWhile_length (p : Char → Bool) : ∀ l : List Char,
    l.drop (l.takeWhile p).length = l.dropWhile p
  | [] => rfl
  | c :: cs => by
    cases hc : p c with
    | true => simp [List.takeWhile_cons, List.dropWhile_cons, hc, drop_takeWhile_length p cs]
    | false => simp [List.takeWhile_cons, List.dropWhile_cons, hc]

theorem all_takeWhile (p : Char → Bool) : ∀ l : List Char, (l.takeWhile p).all p = true
  | [] => rfl
  | c :: cs => by
    cases hc : p c with
    | true => simp [List.takeWhile_cons, hc, all_takeWhile p cs]
    | false => simp [List.takeWhile_cons, hc]

theorem head_dropWhile (p : Char → Bool) : ∀ (l : List Char) (c : Char),
    (l.dropWhile p).head? = some c → p c = false
  | [], c, h => by simp at h
  | x :: xs, c, h => by
    cases hx : p x with
    | true =>
      rw [List.dropWhile_cons, if_pos hx] at h
      exact head_dropWhile p xs c h
    | false =>
      rw [List.dropWhile_cons, if_neg (by simp [hx])] at h
      simp only [List.head?_cons, Option.some.injEq] at h
      rw [← h]
      exact hx

theorem execComment_form (text name args : List Char)
    (h : execComment text = some (name, args)) :
    ∃ f : CommentForm, DirectiveComment f ∧ text = renderComment f ∧ f.name = name ∧
      f.args = args := by
  unfold execComment at h
  cases hd : dropLiteral "directive:".data (text.dropWhile isSpaceChar) with
  | none => simp [hd] at h
  | some s2 =>
    simp only [hd] at h
    generalize hs3 : s2.dropWhile isSpaceChar = s3 at h
    generalize hnm : s3.takeWhile isNameChar = nm at h
    generalize hs4 : s3.drop nm.length = s4 at h
    generalize hws : s4.takeWhile isSpaceChar = ws at h
    by_cases hne : nm = []
    · rw [if_pos hne] at h
      cases h
    · rw [if_neg hne, find_comment_rest] at h
      by_cases hcond : 1 ≤ ws.length ∧ (s4.drop ws.length).all (fun c => !isLineTerminator c) = true
      · rw [if_pos hcond] at h
        simp only [Option.some.injEq, Prod.mk.injEq] at h
        obtain ⟨hn, ha⟩ := h
        subst hn
        have e1 : text = text.takeWhile isSpaceChar ++ text.dropWhile isSpaceChar :=
          (List.takeWhile_append_dropWhile _ _).symm
        have e2 := dropLiteral_some _ _ _ hd
        have e3 : s2 = s2.takeWhile isSpaceChar ++ s3 := by
          rw [← hs3]
          exact (List.takeWhile_append_dropWhile _ _).symm
        have e4 : s3 = nm ++ s4 := by
          rw [← hs4, ← hnm, drop_takeWhile_length]
          exact (List.takeWhile_append_dropWhile _ _).symm
        have e5 : s4 = ws ++ args := by
          rw [← ha, ← hws, drop_takeWhile_length]
          exact (List.takeWhile_append_dropWhile _ _).symm
        refine ⟨{ lead := text.takeWhile isSpaceChar, gap := s2.takeWhile isSpaceChar,
                  name := nm, space := ws, args := args }, ?_, ?_, rfl, rfl⟩
        · refine ⟨all_takeWhile _ _, all_takeWhile _ _, hne, ?_, ?_, ?_, ?_, ?_⟩
          · rw [← hnm]
            exact all_takeWhile _ _
          · intro e
            have h1 := hcond.1
            simp only at e
            rw [e] at h1
            simp at h1
          · rw [← hws]
            exact all_takeWhile _ _
          · intro c hc
            have hc2 : args.head? = some c := hc
            rw [← ha, ← hws, drop_takeWhile_length] at hc2
            exact head_dropWhile _ _ c hc2
          · have h2 := hcond.2
            rw [ha] at h2
            exact h2
        · unfold renderComment
          simp only
          rw [← e5, ← e4, ← e3, ← e2, ← e1]
      · rw [if_neg hcond] at h
        cases h

/-- C37, counterexample. With `log` registered, the comment ` directive: log one`, a line feed,
`two ` has the form `directive: <name> <args>`, with whitespace after the name, and its match
set is empty: the arguments must reach the end of the text without a line terminator. The
comment ` directive: log angular ` of the test `should allow directives in comments` has the
one match `log`. -/
theorem multiline_comment_no_match :
    (collectDirectives stdEnv logRegistry (commentNode 1 " directive: log one\ntwo ")
      World.init).directives = [] ∧
    ((collectDirectives stdEnv logRegistry (commentNode 1 " directive: log angular ")
      World.init).directives.map (fun d => d.name) = [some "log"]) ∧
    (collectDirectives stdEnv logRegistry (commentNode 1 " directive: log angular ")
      World.init).attrs.vals = [("log", .str "angular")] ∧
    (resolve logRegistry (stdEnv.camelCase "log")).isSome = true := by
  decide

/-- C37, amended. For a comment node, when the comment text has the form `directive: <name>
<args>` (whitespace, possibly none, before `directive:` and before the name; a name made of
name characters; at least one whitespace character after the name; arguments that hold no line
terminator) and the canonical name is registered, the match set is the one directive of that
name and the attrs hold the trimmed arguments under the canonical name, and nothing else. When
the text has no such form with a registered name, the match set is empty and the attrs hold
nothing. -/
theorem comment_directive (env : Env) (reg : Registry) (node : Node) (w : World)
    (hw : Consistent reg w) (ht : node.nodeType = 8) :
    (∀ (f : CommentForm) (d : Directive), DirectiveComment f →
      node.nodeValue.data = renderComment f →
      resolve reg (env.camelCase (String.mk f.name)) = some d →
      (collectDirectives env reg node w).directives = [d] ∧
      (collectDirectives env reg node w).attrs.vals =
        [(env.camelCase (String.mk f.name), .str (env.trim (String.mk f.args)))]) ∧
    ((∀ f : CommentForm, DirectiveComment f → node.nodeValue.data = renderComment f →
        resolve reg (env.camelCase (String.mk f.name)) = none) →
      (collectDirectives env reg node w).directives = [] ∧
      (collectDirectives env reg node w).attrs.vals = []) := by
  have hw0 : Consistent reg { w with nextId := w.nextId + 1 } := hw.of_cache rfl
  constructor
  · intro f d hf ht2 hr
    obtain ⟨h1, -⟩ := getDirective_resolve reg (env.camelCase (String.mk f.name))
      { w with nextId := w.nextId + 1 } hw0
    unfold collectDirectives
    simp only [ht]
    rw [ht2, execComment_render f hf]
    simp only
    rw [hr] at h1
    simp [h1, setKey]
  · intro hall
    unfold collectDirectives
    simp only [ht]
    cases hm : execComment node.nodeValue.data with
    | none => exact ⟨rfl, rfl⟩
    | some m =>
      obtain ⟨name, args⟩ := m
      obtain ⟨f, hf, hf2, hf3, -⟩ := execComment_form _ _ _ hm
      have hr := hall f hf hf2
      rw [hf3] at hr
      obtain ⟨h1, -⟩ := getDirective_resolve reg (env.camelCase (String.mk name))
        { w with nextId := w.nextId + 1 } hw0
      rw [hr] at h1
      simp [h1]

/-- The claim C37 as amended, on the comment ` directive: log angular ` of the test `should
allow directives in comments`. -/
theorem comment_directive_witness :
    DirectiveComment logComment ∧
    (commentNode 1 " directive: log angular ").nodeValue.data = renderComment logComment ∧
    ((collectDirectives stdEnv logRegistry (commentNode 1 " directive: log angular ")
      World.init).directives =
        [{ name := some "log", priority := 10, terminal := false, scope := false,
           templateFn := some (.returns (.fn (.user "log" none))) }] ∧
      (collectDirectives stdEnv logRegistry (commentNode 1 " directive: log angular ")
        World.init).attrs.vals =
        [(stdEnv.camelCase (String.mk logComment.name),
          .str (stdEnv.trim (String.mk logComment.args)))]) :=
  ⟨by decide, by decide,
    (comment_directive stdEnv logRegistry (commentNode 1 " directive: log angular ") World.init
      (fun name d h => by simp [World.init, getKey] at h) rfl).1 logComment _ (by decide)
      (by decide) (by decide)⟩

/-! ## The match list and the attrs of an element (C35) -/

theorem setKey_setKey {β : Type} (key : String) (a b : β) : ∀ l : List (String × β),
    setKey key b (setKey key a l) = setKey key b l
  | [] => by simp [setKey]
  | (k, v) :: rest => by
    by_cases h : k = key
    · simp [setKey, h]
    · simp [setKey, h, setKey_setKey key a b rest]

theorem scanAttributes_attrs (env : Env) (reg : Registry) :
    ∀ (attributes : List (String × String)) (st : ScanState),
      (scanAttributes env reg attributes st).attrs =
        { st.attrs with
          attrMap := attributes.foldl (mapDeclared env) st.attrs.attrMap,
          vals := attributes.foldl (storeDeclared env) st.attrs.vals }
  | [], st => rfl
  | (name, attrValue) :: rest, st => by
    rw [scanAttributes, scanAttributes_attrs env reg rest]
    simp only [List.foldl_cons, mapDeclared, storeDeclared, declaredValue, canonical]
    cases hb : (env.BOOLEAN_ATTR (env.camelCase (env.lowercase name))).isSome with
    | true => simp [setKey_setKey]
    | false => simp

theorem getKey_foldl_other {α β : Type} (key : String) (k : α → String) (v : α → β) :
    ∀ (l : List α) (init : List (String × β)), (∀ a ∈ l, k a ≠ key) →
    getKey key (l.foldl (fun m a => setKey (k a) (v a) m) init) = getKey key init
  | [], _, _ => rfl
  | a :: rest, init, h => by
    rw [List.foldl_cons, getKey_foldl_other key k v rest _
      (fun b hb => h b (List.mem_cons_of_mem _ hb))]
    exact getKey_setKey_ne (k a) key (v a) init (fun e => h a (List.mem_cons_self _ _) e.symm)

theorem getKey_foldl_mem {α β : Type} (k : α → String) (v : α → β) :
    ∀ (l : List α) (init : List (String × β)) (a : α), (l.map k).Nodup → a ∈ l →
    getKey (k a) (l.foldl (fun m a => setKey (k a) (v a) m) init) = some (v a)
  | [], _, _, _, h => by simp at h
  | b :: rest, init, a, hn, h => by
    rw [List.map_cons, List.nodup_cons] at hn
    rw [List.foldl_cons]
    rcases List.mem_cons.1 h with e | e
    · subst e
      rw [getKey_foldl_other (k a) k v rest _ ?_]
      · exact getKey_setKey_self _ _ _
      · intro c hc e
        exact hn.1 (List.mem_map.2 ⟨c, hc, e⟩)
    · exact getKey_foldl_mem k v rest _ a hn.2 e

theorem getKey_storeToken_other (env : Env) (reg : Registry) (key : String) :
    ∀ (ms : List ClassMatch) (vals : List (String × AttrVal)),
    (∀ m ∈ ms, (tokenDirective env reg m).isSome = true →
      env.camelCase (String.mk m.name) ≠ key) →
    getKey key (ms.foldl (storeToken env reg) vals) = getKey key vals
  | [], _, _ => rfl
  | m :: rest, vals, h => by
    rw [List.foldl_cons, getKey_storeToken_other env reg key rest _
      (fun x hx => h x (List.mem_cons_of_mem _ hx))]
    unfold storeToken
    split
    · rename_i hd
      exact getKey_setKey_ne _ key _ vals (fun e => h m (List.mem_cons_self _ _) hd e.symm)
    · rfl

/-- C35, counterexample. On `<div b=" x " class="b: y" required>` with `b` registered, the attrs
hold `y` under `b`, the trimmed value of the class token, and not `x`, the trimmed value of the
declared attribute `b`: the class loop runs after the attribute loop and writes to the same
attrs. The attribute `required`, a boolean one, is held as `true`. -/
theorem class_value_overrides_attribute :
    overriddenNode.attributes = [("b", " x "), ("class", "b: y"), ("required", "")] ∧
    declaredValue stdEnv ("b", " x ") = .str "x" ∧
    getKey (canonical stdEnv "b")
      (collectDirectives stdEnv classRegistry overriddenNode World.init).attrs.vals =
      some (.str "y") ∧
    getKey (canonical stdEnv "required")
      (collectDirectives stdEnv classRegistry overriddenNode World.init).attrs.vals =
      some (.bool true) ∧
    (collectDirectives stdEnv classRegistry overriddenNode World.init).attrs.attrMap =
      [("b", "b"), ("class", "class"), ("required", "required")] := by
  decide

/-- C35, amended. For an element node the match list handed to the sort is: the directive named
by the canonical tag name, if registered; then, for each declared attribute in declaration
order, the synthesized interpolation directive, if one is produced, followed by the directive
named by the canonical attribute name, if registered; then the directives named by the class
tokens, left to right. The table `$attr` is written for each declared attribute in turn,
canonical name to declared name, and the values of the attrs are written first for each
declared attribute in turn (`true` for a boolean attribute, the trimmed value otherwise) and
then for each class token that names a registered directive (its trimmed value). So, when the
canonical names of the declared attributes differ from each other, `$attr` maps each of them
to the declared name, and the attrs map it to the value of the attribute unless a class token
that names a registered directive has the same canonical name. -/
theorem element_matches_and_attrs (env : Env) (reg : Registry) (node : Node) (w : World)
    (hw : Consistent reg w) (ht : node.nodeType = 1) :
    (collectDirectives env reg node w).directives =
      (resolve reg (canonical env node.nodeName)).toList ++
        attrMatches env reg node.attributes ++
        (classTokens node.className.data.length node.className.data).filterMap
          (tokenDirective env reg) ∧
    (∀ (name value : String) (rest : List (String × String)),
      attrMatches env reg ((name, value) :: rest) =
        (attrInterpolateDirective env (env.trim value) (canonical env name)).toList ++
          (resolve reg (canonical env name)).toList ++ attrMatches env reg rest) ∧
    (collectDirectives env reg node w).attrs.attrMap =
      node.attributes.foldl (mapDeclared env) [] ∧
    (collectDirectives env reg node w).attrs.vals =
      (classTokens node.className.data.length node.className.data).foldl (storeToken env reg)
        (node.attributes.foldl (storeDeclared env) []) ∧
    (∀ a ∈ node.attributes, (node.attributes.map (fun b => canonical env b.1)).Nodup →
      getKey (canonical env a.1) (collectDirectives env reg node w).attrs.attrMap = some a.1 ∧
      ((∀ m ∈ classTokens node.className.data.length node.className.data,
          (tokenDirective env reg m).isSome = true →
          env.camelCase (String.mk m.name) ≠ canonical env a.1) →
        getKey (canonical env a.1) (collectDirectives env reg node w).attrs.vals =
          some (declaredValue env a))) := by
  have hw0 : Consistent reg { w with nextId := w.nextId + 1 } := hw.of_cache rfl
  obtain ⟨h1, h2⟩ := getDirective_resolve reg (env.camelCase (env.lowercase node.nodeName))
    { w with nextId := w.nextId + 1 } hw0
  obtain ⟨h3, h4⟩ := scanAttributes_matches env reg node.attributes
    { directives := pushDirective [] (getDirective reg
        (env.camelCase (env.lowercase node.nodeName)) { w with nextId := w.nextId + 1 }).1,
      attrs := { objId := w.nextId, attrMap := [], vals := [], element := none },
      world := (getDirective reg (env.camelCase (env.lowercase node.nodeName))
        { w with nextId := w.nextId + 1 }).2 } h2
  obtain ⟨h5, h6⟩ := scanClass_tokens env reg node.className.data.length node.className.data
    _ h4
  have hd : (collectDirectives env reg node w).directives =
      (resolve reg (canonical env node.nodeName)).toList ++
        attrMatches env reg node.attributes ++
        (classTokens node.className.data.length node.className.data).filterMap
          (tokenDirective env reg) := by
    unfold collectDirectives
    simp only [ht]
    rw [h5, h3]
    simp [pushDirective_eq, h1, canonical]
  have hm : (collectDirectives env reg node w).attrs.attrMap =
      node.attributes.foldl (mapDeclared env) [] := by
    unfold collectDirectives
    simp only [ht]
    rw [h6, scanAttributes_attrs]
  have hv : (collectDirectives env reg node w).attrs.vals =
      (classTokens node.className.data.length node.className.data).foldl (storeToken env reg)
        (node.attributes.foldl (storeDeclared env) []) := by
    unfold collectDirectives
    simp only [ht]
    rw [h6, scanAttributes_attrs]
  refine ⟨hd, fun name value rest => rfl, hm, hv, ?_⟩
  intro a ha hn
  constructor
  · rw [hm]
    exact getKey_foldl_mem (fun b : String × String => canonical env b.1) (fun b => b.1)
      node.attributes [] a hn ha
  · intro hc
    rw [hv, getKey_storeToken_other env reg _ _ _ hc]
    exact getKey_foldl_mem (fun b : String × String => canonical env b.1) (declaredValue env)
      node.attributes [] a hn ha

/-- The claim C35 as amended, on `<b c="\x7b\x7bx\x7d\x7d" required>` with `b` and `c`
registered: the match list is `b`, the interpolation directive of `c`, `c`, and the directive
synthesized for the side-effect attribute `required`. -/
theorem element_matches_and_attrs_witness :
    (collectDirectives stdEnv classRegistry orderedNode World.init).directives.map
        (fun d => (d.name, d.priority)) =
      [(some "b", 2), (none, 100), (some "c", 1), (none, 100)] ∧
    (collectDirectives stdEnv classRegistry orderedNode World.init).directives =
      (resolve classRegistry (canonical stdEnv orderedNode.nodeName)).toList ++
        attrMatches stdEnv classRegistry orderedNode.attributes ++
        (classTokens orderedNode.className.data.length orderedNode.className.data).filterMap
          (tokenDirective stdEnv classRegistry) ∧
    (collectDirectives stdEnv classRegistry orderedNode World.init).attrs.vals =
      [("c", .str "\x7b\x7bx\x7d\x7d"), ("required", .bool true)] :=
  ⟨by decide,
    (element_matches_and_attrs stdEnv classRegistry orderedNode World.init
      (fun name d h => by simp [World.init, getKey] at h) rfl).1,
    by decide⟩

/-! ## Compile order (C36) -/

theorem compileCalls_lookup : ∀ evs : List Event, evs.all isLookupEvent = true →
    compileCalls evs = []
  | [], _ => rfl
  | e :: rest, h => by
    simp only [List.all_cons, Bool.and_eq_true] at h
    obtain ⟨h1, h2⟩ := h
    have ih := compileCalls_lookup rest h2
    cases e <;> first | exact ih | cases h1

theorem linkCalls_lookup : ∀ evs : List Event, evs.all isLookupEvent = true →
    linkCalls evs = []
  | [], _ => rfl
  | e :: rest, h => by
    simp only [List.all_cons, Bool.and_eq_true] at h
    obtain ⟨h1, h2⟩ := h
    have ih := linkCalls_lookup rest h2
    cases e <;> first | exact ih | cases h1

theorem getDirective_lookup (reg : Registry) (name : String) (w : World) :
    ∃ evs, (getDirective reg name w).2.trace = w.trace ++ evs ∧
      evs.all isLookupEvent = true := by
  unfold getDirective
  cases getKey name reg with
  | none => exact ⟨[], by simp⟩
  | some factory =>
    simp only
    cases getKey name w.directiveCache with
    | some d => exact ⟨[], by simp⟩
    | none =>
      simp only
      cases factory with
      | throws e => exact ⟨[.invoke name, .report e], by simp [callFactory, isLookupEvent]⟩
      | fn f => exact ⟨[.invoke name], by simp [callFactory, isLookupEvent]⟩
      | obj p t s tf => exact ⟨[.invoke name], by simp [callFactory, isLookupEvent]⟩

theorem scanAttributes_lookup (env : Env) (reg : Registry) :
    ∀ (attributes : List (String × String)) (st : ScanState),
    ∃ evs, (scanAttributes env reg attributes st).world.trace = st.world.trace ++ evs ∧
      evs.all isLookupEvent = true
  | [], st => ⟨[], by simp [scanAttributes]⟩
  | (name, attrValue) :: rest, st => by
    rw [scanAttributes]
    obtain ⟨e1, h1, h2⟩ := getDirective_lookup reg (env.camelCase (env.lowercase name)) st.world
    obtain ⟨e2, h3, h4⟩ := scanAttributes_lookup env reg rest
      { directives := pushDirective (pushDirective st.directives
          (attrInterpolateDirective env (env.trim attrValue) (env.camelCase (env.lowercase name))))
          (getDirective reg (env.camelCase (env.lowercase name)) st.world).1,
        attrs := { st.attrs with
          attrMap := setKey (env.camelCase (env.lowercase name)) name st.attrs.attrMap,
          vals := if (env.BOOLEAN_ATTR (env.camelCase (env.lowercase name))).isSome then
              setKey (env.camelCase (env.lowercase name)) (AttrVal.bool true)
                (setKey (env.camelCase (env.lowercase name)) (AttrVal.str (env.trim attrValue))
                  st.attrs.vals)
            else setKey (env.camelCase (env.lowercase name)) (AttrVal.str (env.trim attrValue))
              st.attrs.vals },
        world := (getDirective reg (env.camelCase (env.lowercase name)) st.world).2 }
    refine ⟨e1 ++ e2, ?_, by simp [h2, h4]⟩
    simp only at h3
    rw [h3, h1, List.append_assoc]

theorem scanClass_lookup (env : Env) (reg : Registry) : ∀ (fuel : Nat) (text : List Char)
    (st : ScanState),
    ∃ evs, (scanClass env reg fuel text st).world.trace = st.world.trace ++ evs ∧
      evs.all isLookupEvent = true
  | 0, _, st => ⟨[], by simp [scanClass]⟩
  | fuel + 1, text, st => by
    rw [scanClass]
    cases hm : execClass text with
    | none => exact ⟨[], by simp⟩
    | some m =>
      simp only
      obtain ⟨e1, h1, h2⟩ := getDirective_lookup reg (env.camelCase (String.mk m.name)) st.world
      cases hr : (getDirective reg (env.camelCase (String.mk m.name)) st.world).1 with
      | none =>
        simp only
        obtain ⟨e2, h3, h4⟩ := scanClass_lookup env reg fuel (text.drop (m.index + m.whole.length))
          { st with world := (getDirective reg (env.camelCase (String.mk m.name)) st.world).2 }
        refine ⟨e1 ++ e2, ?_, by simp [h2, h4]⟩
        simp only at h3
        rw [h3, h1, List.append_assoc]
      | some d =>
        simp only
        obtain ⟨e2, h3, h4⟩ := scanClass_lookup env reg fuel (text.drop (m.index + m.whole.length))
          { directives := st.directives ++ [d],
            attrs := { st.attrs with
              vals := setKey (env.camelCase (String.mk m.name)) (trimMatch env m.value)
                st.attrs.vals },
            world := (getDirective reg (env.camelCase (String.mk m.name)) st.world).2 }
        refine ⟨e1 ++ e2, ?_, by simp [h2, h4]⟩
        simp only at h3
        rw [h3, h1, List.append_assoc]

theorem collectDirectives_lookup (env : Env) (reg : Registry) (node : Node) (w : World) :
    ∃ evs, (collectDirectives env reg node w).world.trace = w.trace ++ evs ∧
      evs.all isLookupEvent = true := by
  unfold collectDirectives
  split
  · obtain ⟨e1, h1, h2⟩ := getDirective_lookup reg (env.camelCase (env.lowercase node.nodeName))
      { w with nextId := w.nextId + 1 }
    obtain ⟨e2, h3, h4⟩ := scanAttributes_lookup env reg node.attributes
      { directives := pushDirective [] (getDirective reg
          (env.camelCase (env.lowercase node.nodeName)) { w with nextId := w.nextId + 1 }).1,
        attrs := { objId := w.nextId, attrMap := [], vals := [], element := none },
        world := (getDirective reg (env.camelCase (env.lowercase node.nodeName))
          { w with nextId := w.nextId + 1 }).2 }
    obtain ⟨e3, h5, h6⟩ := scanClass_lookup env reg node.className.data.length
      node.className.data (scanAttributes env reg node.attributes
      { directives := pushDirective [] (getDirective reg
          (env.camelCase (env.lowercase node.nodeName)) { w with nextId := w.nextId + 1 }).1,
        attrs := { objId := w.nextId, attrMap := [], vals := [], element := none },
        world := (getDirective reg (env.camelCase (env.lowercase node.nodeName))
          { w with nextId := w.nextId + 1 }).2 })
    refine ⟨e1 ++ e2 ++ e3, ?_, by simp [h2, h4, h6]⟩
    simp only at h3 h1
    simp only
    rw [h5, h3, h1]
    simp [List.append_assoc]
  · cases env.interpolate node.nodeValue <;> exact ⟨[], by simp⟩
  · cases hm : execComment node.nodeValue.data with
    | none => exact ⟨[], by simp⟩
    | some m =>
      obtain ⟨name, args⟩ := m
      simp only
      obtain ⟨e1, h1, h2⟩ := getDirective_lookup reg (env.camelCase (String.mk name))
        { w with nextId := w.nextId + 1 }
      simp only at h1
      cases hr : (getDirective reg (env.camelCase (String.mk name))
          { w with nextId := w.nextId + 1 }).1 with
      | none => exact ⟨e1, by simpa using h1, h2⟩
      | some d => exact ⟨e1, by simpa using h1, h2⟩
  · exact ⟨[], by simp⟩

theorem attrSetter_linkCalls (env : Env) (self : Attrs) (key : String) (value : AttrVal)
    (w : World) : linkCalls (attrSetter env self key value w).2.trace = linkCalls w.trace := by
  unfold attrSetter
  split
  · dsimp only
    split <;> simp [linkCalls_append, linkCalls]
  · dsimp only
    split <;> simp [linkCalls_append, linkCalls]

theorem callTemplateFn_linkCalls (env : Env) (d : Directive) (f : TemplateFn) (node : Nat)
    (attrs : Attrs) (w : World) :
    linkCalls (callTemplateFn env d f node attrs w).2.2.trace = linkCalls w.trace := by
  unfold callTemplateFn
  cases f with
  | returns l => simp [linkCalls_append, linkCalls]
  | throws e => simp [linkCalls_append, linkCalls]
  | attrInterpolate i n v =>
    cases i <;> simp [linkCalls_append, linkCalls, attrSetter_linkCalls]

theorem compileStep_linkCalls (env : Env) (node : Node) (d : Directive) (st : ApplyState) :
    linkCalls (compileStep env node d st).world.trace = linkCalls st.world.trace := by
  unfold compileStep
  cases hf : d.templateFn with
  | none => rfl
  | some f =>
    have hc := callTemplateFn_linkCalls env d f node.id st.attrs st.world
    rcases hr : callTemplateFn env d f node.id st.attrs st.world with ⟨res, a, w1⟩
    rw [hr] at hc
    cases res with
    | ok l => simpa [hr] using hc
    | error e => simpa [hr, linkCalls_append, linkCalls] using hc

theorem applyLoop_linkCalls (env : Env) (node : Node) (ds : List Directive) :
    ∀ st : ApplyState,
      linkCalls (applyLoop env node ds st).world.trace = linkCalls st.world.trace := by
  induction ds with
  | nil => intro st; rfl
  | cons d rest ih =>
    intro st
    rw [applyLoop_cons]
    split
    · rw [ih]; simp [linkCalls_append, linkCalls]
    · split
      · simp
      · rw [ih]; simp [compileStep_linkCalls]

theorem applyIfAny_linkCalls (env : Env) (st : ScanState) (node : Node) :
    linkCalls (applyIfAny env st node).2.trace = linkCalls st.world.trace := by
  unfold applyIfAny
  split
  · rfl
  · unfold applyDirectivesPerElement
    simp only
    rw [applyLoop_linkCalls]
    rfl

theorem applyIfAny_compileCalls (env : Env) (st : ScanState) (node : Node) :
    compileCalls (applyIfAny env st node).2.trace =
      compileCalls st.world.trace ++
        (compiled (iterations (sortByPriority st.directives) false none)).map
          (fun d => (d, node.id)) := by
  unfold applyIfAny
  split
  · rename_i h
    rw [List.length_eq_zero.1 h]
    simp [sortByPriority, iterations, compiled]
  · exact applyDirectivesPerElement_trace env st.directives node st.attrs st.world

theorem applyLoop_terminal_mem (env : Env) (node : Node) (ds : List Directive) :
    ∀ st : ApplyState, (applyLoop env node ds st).terminal = true →
      st.terminal = true ∨ ∃ d ∈ ds, d.terminal = true := by
  induction ds with
  | nil => intro st h; exact Or.inl (by simpa [applyLoop] using h)
  | cons d rest ih =>
    intro st h
    have hstep : ∀ st1 : ApplyState, st1.terminal = st.terminal →
        (applyLoop env node rest (markTerminal d st1)).terminal = true →
        st.terminal = true ∨ ∃ x ∈ d :: rest, x.terminal = true := by
      intro st1 h1 h2
      rcases ih _ h2 with h3 | ⟨x, hx, hxt⟩
      · simp only [markTerminal_terminal, Bool.or_eq_true] at h3
        rcases h3 with h3 | h3
        · exact Or.inr ⟨d, List.mem_cons_self _ _, h3⟩
        · exact Or.inl (by rw [← h1]; exact h3)
      · exact Or.inr ⟨x, List.mem_cons_of_mem _ hx, hxt⟩
    rw [applyLoop_cons] at h
    split at h
    · exact hstep _ (by rfl) h
    · split at h
      · exact Or.inl (by simpa using h)
      · exact hstep _ (by simp) h

theorem applyIfAny_terminal (env : Env) (st : ScanState) (node : Node) :
    (applyIfAny env st node).1.terminal = st.directives.any (fun d => d.terminal) := by
  cases ha : st.directives.any (fun d => d.terminal) with
  | true =>
    simp only [List.any_eq_true] at ha
    unfold applyIfAny
    split
    · rename_i h
      obtain ⟨d, hd, -⟩ := ha
      rw [List.length_eq_zero.1 h] at hd
      simp at hd
    · exact applyDirectivesPerElement_terminal env st.directives node st.attrs st.world ha
  | false =>
    cases ht : (applyIfAny env st node).1.terminal with
    | false => rfl
    | true =>
      unfold applyIfAny at ht
      split at ht
      · simp [LinkEntry.terminal] at ht
      · simp only [LinkEntry.terminal, applyDirectivesPerElement] at ht
        rcases applyLoop_terminal_mem env node _ _ ht with h | ⟨d, hd, hdt⟩
        · simp [applyInit] at h
        · have hd2 := (sortByPriority_perm st.directives).mem_iff.1 hd
          have : st.directives.any (fun d => d.terminal) = true :=
            List.any_eq_true.2 ⟨d, hd2, hdt⟩
          rw [this] at ha
          cases ha

mutual
theorem compileNode_steps (env : Env) (reg : Registry) : ∀ (node : Node) (w : World),
    Consistent reg w →
    Consistent reg (compileNode env reg node w).2 ∧
    compileCalls (compileNode env reg node w).2.trace =
      compileCalls w.trace ++ stepsOfNode env reg node ∧
    linkCalls (compileNode env reg node w).2.trace = linkCalls w.trace
  | .mk id nodeType nodeName attributes className nodeValue childNodes, w, hw => by
    obtain ⟨hm, hc⟩ := collectDirectives_matches env reg
      (.mk id nodeType nodeName attributes className nodeValue childNodes) w hw
    obtain ⟨evs, he1, he2⟩ := collectDirectives_lookup env reg
      (.mk id nodeType nodeName attributes className nodeValue childNodes) w
    have ha := applyIfAny_consistent env reg _
      (.mk id nodeType nodeName attributes className nodeValue childNodes) hc
    have hcalls := applyIfAny_compileCalls env (collectDirectives env reg
      (.mk id nodeType nodeName attributes className nodeValue childNodes) w)
      (.mk id nodeType nodeName attributes className nodeValue childNodes)
    have hlinks := applyIfAny_linkCalls env (collectDirectives env reg
      (.mk id nodeType nodeName attributes className nodeValue childNodes) w)
      (.mk id nodeType nodeName attributes className nodeValue childNodes)
    have hterm := applyIfAny_terminal env (collectDirectives env reg
      (.mk id nodeType nodeName attributes className nodeValue childNodes) w)
      (.mk id nodeType nodeName attributes className nodeValue childNodes)
    rw [he1, compileCalls_append, compileCalls_lookup evs he2, List.append_nil, hm] at hcalls
    rw [he1, linkCalls_append, linkCalls_lookup evs he2, List.append_nil] at hlinks
    rw [hm] at hterm
    obtain ⟨hl1, hl2, hl3⟩ := compileLoop_steps env reg childNodes _ ha
    rw [compileNode_eq, stepsOfNode]
    simp only [Node.childNodes]
    split
    · rename_i ht
      rw [hterm] at ht
      refine ⟨ha, ?_, hlinks⟩
      rw [hcalls]
      simp [ownSteps, blocksDescent, ht]
    · rename_i ht
      rw [hterm] at ht
      refine ⟨hl1, ?_, by rw [hl3, hlinks]⟩
      rw [hl2, hcalls]
      simp [ownSteps, blocksDescent, ht]
  termination_by structural node => node
theorem compileLoop_steps (env : Env) (reg : Registry) : ∀ (nodeList : List Node) (w : World),
    Consistent reg w →
    Consistent reg (compileLoop env reg nodeList w).2 ∧
    compileCalls (compileLoop env reg nodeList w).2.trace =
      compileCalls w.trace ++ stepsOfList env reg nodeList ∧
    linkCalls (compileLoop env reg nodeList w).2.trace = linkCalls w.trace
  | [], w, hw => by
    simp [compileLoop, stepsOfList, hw]
  | node :: rest, w, hw => by
    obtain ⟨h1, h2, h3⟩ := compileNode_steps env reg node w hw
    obtain ⟨h4, h5, h6⟩ := compileLoop_steps env reg rest _ h1
    rw [compileLoop, stepsOfList]
    refine ⟨h4, ?_, by rw [h6, h3]⟩
    simp only
    rw [h5, h2, List.append_assoc]
  termination_by structural nodeList => nodeList
end

theorem compileCalls_callEvents (phase : Phase) (f : Callback) (scope element : Nat)
    (attrs : Attrs) : compileCalls (callEvents phase f scope element attrs) = [] := by
  cases f with
  | user label throws => cases throws <;> rfl
  | textBinding i => rfl
  | attrBinding i n => rfl

theorem compileCalls_phaseEvents (phase : Phase) (linkingFns : List LinkSpec) (scope element : Nat)
    (attrs : Attrs) : compileCalls (phaseEvents phase linkingFns scope element attrs) = [] := by
  unfold phaseEvents
  induction phaseFns phase linkingFns with
  | nil => rfl
  | cons g rest ih =>
    rw [List.map_cons, List.flatten_cons, compileCalls_append, ih, compileCalls_callEvents]
    rfl

theorem enterScope_compileCalls (d : LinkEntry) (scope : Nat) (node : Node) (rootElement : Bool)
    (w : World) :
    compileCalls (enterScope d scope node rootElement w).2.trace = compileCalls w.trace := by
  unfold enterScope
  cases d with
  | directive f =>
    simp only
    split
    · simp [forkScope, World.emit, compileCalls_append, compileCalls]
    · rfl
  | falsy => rfl
  | list l => rfl

theorem linkFn_compileCalls (f : NodeLinkFn) (c : LinkEntry) (scope : Nat) (linkNode : Node)
    (w : World)
    (hc : ∀ (s : Nat) (w1 : World),
      compileCalls (linkEntry c s linkNode.childNodes w1).world.trace = compileCalls w1.trace) :
    compileCalls (linkFn f c scope linkNode w).world.trace = compileCalls w.trace := by
  unfold linkFn
  dsimp only
  split
  · rw [hc, preLink_trace, compileCalls_append, compileCalls_phaseEvents, linkAttrs_trace]
    simp
  · rw [postLink_trace, compileCalls_append, compileCalls_phaseEvents, hc, preLink_trace,
      compileCalls_append, compileCalls_phaseEvents, linkAttrs_trace]
    simp

theorem linkPosition_compileCalls (d c : LinkEntry) (scope : Nat) (node : Node)
    (rootElement : Bool) (w : World)
    (hc : ∀ (s : Nat) (w1 : World),
      compileCalls (linkEntry c s node.childNodes w1).world.trace = compileCalls w1.trace) :
    compileCalls (linkPosition d c scope node rootElement w).world.trace = compileCalls w.trace := by
  cases d with
  | directive f =>
    simp only [linkPosition]
    rw [linkFn_compileCalls f c _ node _ hc, enterScope_compileCalls]
  | falsy => simpa [linkPosition] using hc scope w
  | list l => simpa [linkPosition] using hc scope w

mutual
theorem linkEntry_compileCalls : ∀ (e : LinkEntry) (scope : Nat) (nodeList : List Node)
    (w : World), compileCalls (linkEntry e scope nodeList w).world.trace = compileCalls w.trace
  | .list linkingFns, scope, nodeList, w => by
    rw [linkEntry]
    split
    · rfl
    · exact linkLoop_compileCalls linkingFns scope nodeList false w
  | .falsy, _, _, _ => by simp [linkEntry]
  | .directive _, _, _, _ => by simp [linkEntry]
theorem linkLoop_compileCalls : ∀ (linkingFns : List LinkEntry) (scope : Nat)
    (nodeList : List Node) (rootElement : Bool) (w : World),
    compileCalls (linkLoop linkingFns scope nodeList rootElement w).world.trace =
      compileCalls w.trace
  | [], _, _, _, _ => by simp [linkLoop]
  | _ :: _, _, [], _, _ => by simp [linkLoop]
  | [d], scope, node :: nodes, rootElement, w => by
    have h := linkPosition_compileCalls d .falsy scope node rootElement w
      (fun s w1 => by simp [linkEntry])
    cases d with
    | directive f =>
      simpa [linkLoop, linkPosition, linkFn, linkEntry, enterScope] using h
    | falsy => simp [linkLoop]
    | list l => simp [linkLoop]
  | d :: c :: rest, scope, node :: nodes, rootElement, w => by
    have h1 := linkPosition_compileCalls d c scope node rootElement w
      (fun s w1 => linkEntry_compileCalls c s node.childNodes w1)
    rw [linkLoop_cons_cons]
    split
    · exact h1
    · rw [linkLoop_compileCalls rest _ nodes rootElement _, h1]
end

theorem listLinkingFn_compileCalls (linkingFns : List LinkEntry) (scope : Nat)
    (nodeList : List Node) (rootElement : Bool) (w : World) :
    compileCalls (listLinkingFn linkingFns scope nodeList rootElement w).world.trace =
      compileCalls w.trace := by
  unfold listLinkingFn
  split
  · rfl
  · exact linkLoop_compileCalls _ _ _ _ _

theorem compileCalls_dataScope (element : List Node) (scope : Nat) :
    compileCalls (dataScopeEvents element scope) = [] := by
  unfold dataScopeEvents
  induction element with
  | nil => rfl
  | cons n rest ih => simpa [compileCalls] using ih

theorem linkOn_compileCalls (linkingFn : Option (List LinkEntry)) (scope : Nat)
    (element : List Node) (w : World) :
    compileCalls (linkOn linkingFn scope element w).world.trace = compileCalls w.trace := by
  cases linkingFn with
  | none => rfl
  | some fns => exact listLinkingFn_compileCalls fns scope element true w

theorem linkOn_trace (linkingFn : Option (List LinkEntry)) (scope : Nat) (element : List Node)
    (w : World) : ∃ evs, (linkOn linkingFn scope element w).world.trace = w.trace ++ evs := by
  cases linkingFn with
  | none => exact ⟨[], by simp [linkOn]⟩
  | some fns =>
    simp only [linkOn, listLinkingFn]
    split
    · exact ⟨[], by simp⟩
    · exact linkLoop_trace fns scope element true w

theorem stepsOfNode_eq (env : Env) (reg : Registry) (node : Node) :
    stepsOfNode env reg node =
      ownSteps env reg node ++
        (if blocksDescent env reg node then [] else stepsOfList env reg node.childNodes) := by
  cases node with
  | mk id nodeType nodeName attributes className nodeValue childNodes =>
    rw [stepsOfNode]
    rfl

/-- C36. Compiling a node list calls the compile steps in document pre-order: the steps of a
list are those of its first node with its descendants followed by those of the rest of the
list, and the steps of a node with its descendants are the steps of the node's own directives,
all on that node, followed by those of its children (none when a terminal directive of the
node blocks the descent). Compiling calls no link callback. In `compile(template)(scope)` the
trace of the compilation comes first, and what the template function adds to it holds no
compile step: every compile step is called before every pre-link and post-link callback. On
the test `should compile from top to bottom but link from bottom up` the steps are those of
`a` and `b` on the outer node, then that of `c` on the inner one, and the link callbacks
follow. -/
theorem compile_preorder (env : Env) (reg : Registry) (templateElement : List Node) (w : World)
    (hw : Consistent reg w) (scope : Nat) :
    compileCalls (compile env reg templateElement w).2.trace =
      compileCalls w.trace ++ stepsOfList env reg templateElement ∧
    (∀ (node : Node) (rest : List Node),
      stepsOfList env reg (node :: rest) = stepsOfNode env reg node ++ stepsOfList env reg rest) ∧
    (∀ node : Node,
      stepsOfNode env reg node =
        ownSteps env reg node ++
          (if blocksDescent env reg node then [] else stepsOfList env reg node.childNodes)) ∧
    (∀ (node : Node), ∀ p ∈ ownSteps env reg node, p.2 = node.id) ∧
    linkCalls (compile env reg templateElement w).2.trace = linkCalls w.trace ∧
    (∃ evs : List Event,
      (templateFunction (compile env reg templateElement w).1 templateElement scope none
        (compile env reg templateElement w).2).2.world.trace =
        (compile env reg templateElement w).2.trace ++ evs ∧
      compileCalls evs = []) ∧
    (compileCalls orderRun.trace).map (fun p => (p.1.name, p.2)) =
      [(some "a", 1), (some "b", 1), (some "c", 2)] ∧
    linkLabels orderRun.trace = ["preA", "preB", "preC", "postC", "postA", "postB"] := by
  obtain ⟨-, h2, h3⟩ := compileLoop_steps env reg templateElement w hw
  have hc : (compile env reg templateElement w).2 = (compileLoop env reg templateElement w).2 :=
    rfl
  refine ⟨by rw [hc, h2], fun node rest => by rw [stepsOfList], stepsOfNode_eq env reg, ?_,
    by rw [hc, h3], ?_, by decide, by decide⟩
  · intro node p hp
    simp only [ownSteps, List.mem_map] at hp
    obtain ⟨d, -, rfl⟩ := hp
    rfl
  · rw [templateFunction_plain]
    simp only
    obtain ⟨evs, he⟩ := linkOn_trace (compile env reg templateElement w).1 scope templateElement
      (scopeTied templateElement scope (compile env reg templateElement w).2)
    have hcc := linkOn_compileCalls (compile env reg templateElement w).1 scope templateElement
      (scopeTied templateElement scope (compile env reg templateElement w).2)
    refine ⟨dataScopeEvents templateElement scope ++ evs, ?_, ?_⟩
    · rw [he]
      simp [scopeTied, List.append_assoc]
    · rw [he] at hcc
      simp only [scopeTied, compileCalls_append, compileCalls_dataScope, List.append_nil,
        List.nil_append, List.append_right_eq_self] at hcc
      rw [compileCalls_append, compileCalls_dataScope, hcc]
      rfl

/-- The claim C36 on the test `should compile from top to bottom but link from bottom up`: the
compile steps of `<a b><c></c></a>` in a fresh world. -/
theorem compile_preorder_witness :
    (compileCalls (compile stdEnv abcRegistry orderTemplate World.init).2.trace).map
        (fun p => (p.1.name, p.2)) = [(some "a", 1), (some "b", 1), (some "c", 2)] ∧
    compileCalls (compile stdEnv abcRegistry orderTemplate World.init).2.trace =
      compileCalls World.init.trace ++ stepsOfList stdEnv abcRegistry orderTemplate ∧
    linkCalls (compile stdEnv abcRegistry orderTemplate World.init).2.trace =
      linkCalls World.init.trace :=
  ⟨by decide,
    (compile_preorder stdEnv abcRegistry orderTemplate World.init
      (fun name d h => by simp [World.init, getKey] at h) 100).1,
    (compile_preorder stdEnv abcRegistry orderTemplate World.init
      (fun name d h => by simp [World.init, getKey] at h) 100).2.2.2.2.1⟩

end NgCompile
